import Mathlib

/-! PDKIM (Exim's DKIM engine): canonicalisation, body hashes, the line feeder,
the parsers of `DKIM-Signature:` headers and of public key records, and the
end of the message with its signing and verification branches

A shallow embedding of `src/miscmods/pdkim/pdkim.c`.

Conventions of the embedding:

* a byte (`uschar`) is a natural number; the named constants below are the
  ASCII codes the C source writes as character literals;
* a C string or a counted buffer is the list of its bytes, the terminating
  NUL excluded;
* the hash state `body_hash_ctx` of a Body Hash is represented by the
  sequence of bytes handed to `exim_sha_update` so far (field `hashed`);
* `unsigned long` arithmetic is arithmetic modulo `2 ^ 64`, `unsigned`
  arithmetic is arithmetic modulo `2 ^ 32`;
* a function that may not return, or that may dereference a NULL pointer, has
  an `Option` as its value, `none` standing for that case;
* the lengths of strings and the columns of `pdkim_headcat` are of type `int`
  in the source; the strings of Exim are shorter than `2 ^ 31` bytes, so the
  sums are taken as they are.
-/

namespace Pdkim

/-! ## Bytes -/

/-- ASCII carriage return, written '\r' in the source. -/
def CR : Nat := 13
/-- ASCII line feed, written '\n' in the source. -/
def LF : Nat := 10
/-- ASCII horizontal tab, written '\t' in the source. -/
def TAB : Nat := 9
/-- ASCII space. -/
def SP : Nat := 32
/-- ASCII colon. -/
def COLON : Nat := 58
/-- ASCII full stop. -/
def DOT : Nat := 46
/-- ASCII equals sign. -/
def EQUALS : Nat := 61
/-- ASCII semicolon. -/
def SEMICOLON : Nat := 59
/-- ASCII hyphen. -/
def DASH : Nat := 45

/-- The bytes of a string constant of the source (ASCII). -/
def US (s : String) : List Nat := s.toList.map Char.toNat

/-- A buffer read as a C string: its bytes up to the first NUL. -/
def cstr (l : List Nat) : List Nat := l.takeWhile (fun c => c != 0)

/-- The Exim function `string_catn` on a growable string: `s` is appended, a
NULL string being created first. -/
def string_catn (g : Option (List Nat)) (s : List Nat) : Option (List Nat) :=
  some (g.getD [] ++ s)

/-- The C library function `isspace` in the "C" locale: space, tab, line
feed, vertical tab, form feed and carriage return. -/
def isspace (c : Nat) : Bool := decide (c = 32) || decide (9 ≤ c ∧ c ≤ 13)

/-- The C library function of the same name in the "C" locale (the one Exim
runs in): upper-case ASCII letters are moved to lower case, every other
byte is returned unchanged. -/
def tolower (c : Nat) : Nat :=
  if 65 ≤ c ∧ c ≤ 90 then c + 32 else c

/-! ## Relaxed header canonicalisation (`pdkim_relax_header_n`) -/

/-- Local variables of the loop of `pdkim_relax_header_n`.  `relaxed` holds
the bytes written so far, that is the buffer from `relaxed` up to the write
pointer `q`. -/
structure RelaxHeaderState where
  past_field_name : Bool
  seen_wsp : Bool
  relaxed : List Nat
  deriving DecidableEq, Repr

/-- One iteration of the `for` loop of `pdkim_relax_header_n` on byte `c`. -/
def relax_header_step (s : RelaxHeaderState) (c : Nat) : RelaxHeaderState :=
  if c = CR ∨ c = LF then s
  else if c = TAB ∨ c = SP then
    if s.seen_wsp then s
    else
      let c1 := SP
      let c2 := if s.past_field_name then c1 else tolower c1
      { s with seen_wsp := true, relaxed := s.relaxed ++ [c2] }
  else if s.past_field_name = false ∧ c = COLON then
    let q := if s.seen_wsp then s.relaxed.dropLast else s.relaxed
    { past_field_name := true, seen_wsp := true, relaxed := q ++ [c] }
  else
    let c2 := if s.past_field_name then c else tolower c
    { s with seen_wsp := false, relaxed := s.relaxed ++ [c2] }

/-- The state of `pdkim_relax_header_n` after its loop has read `bytes`. -/
def relax_header_loop (bytes : List Nat) : RelaxHeaderState :=
  bytes.foldl relax_header_step
    { past_field_name := false, seen_wsp := false, relaxed := [] }

/-- The function `pdkim_relax_header_n`: the first `len` bytes of `header`
are run through the loop, one trailing space is squashed, and CR LF is
appended on request.  The result is the content of the returned buffer up
to the NUL the function stores last. -/
def pdkim_relax_header_n (header : List Nat) (len : Nat) (append_crlf : Bool) :
    List Nat :=
  let s := relax_header_loop (header.take len)
  let q := if s.relaxed.getLast? = some SP then s.relaxed.dropLast else s.relaxed
  if append_crlf then q ++ [CR, LF] else q

/-- The function `pdkim_relax_header`: `Ustrlen header` is the length of the
list standing for the C string. -/
def pdkim_relax_header (header : List Nat) (append_crlf : Bool) : List Nat :=
  pdkim_relax_header_n header header.length append_crlf

/-- Whitespace in the sense of the canonicaliser: SP, TAB, CR and LF. -/
def isWsp (c : Nat) : Bool :=
  c == SP || c == TAB || c == CR || c == LF

/-- The header with the bytes before its first colon lower-cased and every
byte from the first colon onward kept. -/
def lowerFieldName (h : List Nat) : List Nat :=
  (h.takeWhile (fun c => c != COLON)).map tolower ++ h.dropWhile (fun c => c != COLON)

/-! ## Relaxed body-line canonicalisation (inside `pdkim_update_ctx_bodyhash`) -/

/-- Local variables of the relaxing loop of `pdkim_update_ctx_bodyhash`:
`data` is `relaxed_data->data[0 .. q)`. -/
structure RelaxBodyState where
  seen_wsp : Bool
  data : List Nat
  deriving DecidableEq, Repr

/-- One iteration of the relaxing loop of `pdkim_update_ctx_bodyhash`. -/
def relax_body_step (s : RelaxBodyState) (c : Nat) : RelaxBodyState :=
  if c = CR then
    let d := if s.data.getLast? = some SP then s.data.dropLast else s.data
    { s with data := d ++ [c] }
  else if c = TAB ∨ c = SP then
    if s.seen_wsp then s
    else { seen_wsp := true, data := s.data ++ [SP] }
  else
    { seen_wsp := false, data := s.data ++ [c] }

/-- The relaxed copy of a body line that `pdkim_update_ctx_bodyhash` builds
when it is given no relaxed copy by its caller. -/
def relax_body_line (orig_data : List Nat) : List Nat :=
  (orig_data.foldl relax_body_step { seen_wsp := false, data := [] }).data

/-! ## Constants and result codes -/

/-- The macro of the same name in `pdkim.c`. -/
def PDKIM_MAX_HEADER_LEN : Nat := 65536
/-- The macro of the same name in `pdkim.c`. -/
def PDKIM_MAX_HEADERS : Nat := 512
/-- The macro of the same name in `pdkim.c`. -/
def PDKIM_MAX_BODY_LINE_LEN : Nat := 16384

/-- Index of "simple" in the table `pdkim_canons`. -/
def PDKIM_CANON_SIMPLE : Int := 0
/-- Index of "relaxed" in the table `pdkim_canons`. -/
def PDKIM_CANON_RELAXED : Int := 1

/-- The result codes `pdkim_feed`, `pdkim_header_complete` and
`pdkim_feed_finish` can return. -/
inductive pdkim_rc where
  | PDKIM_OK
  | PDKIM_FAIL
  | PDKIM_ERR_RSA_PRIVKEY
  | PDKIM_ERR_RSA_SIGNING
  | PDKIM_ERR_LONG_LINE
  | PDKIM_ERR_EXCESS_SIGS
  deriving DecidableEq, Repr

open pdkim_rc

/-- The static blob `lineending` of `pdkim.c`: the two bytes CR LF. -/
def lineending : List Nat := [CR, LF]

/-- Number of values of the C type `unsigned long` (LP64). -/
def ULONG_RANGE : Nat := 2 ^ 64

/-! ## Body Hashes -/

/-- The struct `pdkim_bodyhash`.  `hashed` stands for `body_hash_ctx`: it is
the sequence of bytes given to `exim_sha_update` since `exim_sha_init`.
`bodylength` is a `long`, negative for "no limit"; `signed_body_bytes` is an
`unsigned long`. -/
structure pdkim_bodyhash where
  hashtype : Int
  canon_method : Int
  bodylength : Int
  hashed : List Nat
  signed_body_bytes : Nat
  num_buffered_blanklines : Nat
  deriving DecidableEq, Repr

/-- The line that `pdkim_update_ctx_bodyhash` hashes (its local `canon_data`):
for a relaxed Body Hash the relaxed copy handed in by the caller or, failing
that, the relaxed form of `orig_data`; otherwise `orig_data` itself. -/
def canon_data (b : pdkim_bodyhash) (orig_data : List Nat)
    (relaxed_data : Option (List Nat)) : List Nat :=
  if b.canon_method = PDKIM_CANON_RELAXED then
    match relaxed_data with
    | some r => r
    | none => relax_body_line orig_data
  else orig_data

/-- The C expression `(unsigned long)b->bodylength - b->signed_body_bytes`,
which `pdkim_update_ctx_bodyhash` evaluates only when `bodylength >= 0`. -/
def bodylength_room (b : pdkim_bodyhash) : Nat :=
  (b.bodylength.toNat % ULONG_RANGE + ULONG_RANGE - b.signed_body_bytes % ULONG_RANGE)
    % ULONG_RANGE

/-- The number of bytes `pdkim_update_ctx_bodyhash` hashes (its local `left`
when the hash is updated). -/
def bytes_to_hash (b : pdkim_bodyhash) (canon : List Nat) : Nat :=
  if 0 ≤ b.bodylength ∧ bodylength_room b < canon.length then bodylength_room b
  else canon.length

/-- The function `pdkim_update_ctx_bodyhash`: returns the updated Body Hash
and the relaxed copy of the line (the caller's, or the one made here). -/
def pdkim_update_ctx_bodyhash (b : pdkim_bodyhash) (orig_data : List Nat)
    (relaxed_data : Option (List Nat)) : pdkim_bodyhash × Option (List Nat) :=
  let relaxed_out : Option (List Nat) :=
    if b.canon_method = PDKIM_CANON_RELAXED then some (canon_data b orig_data relaxed_data)
    else relaxed_data
  let canon := canon_data b orig_data relaxed_data
  let left := bytes_to_hash b canon
  if 0 < left then
    ({ b with hashed := b.hashed ++ canon.take left,
              signed_body_bytes := (b.signed_body_bytes + left) % ULONG_RANGE },
     relaxed_out)
  else (b, relaxed_out)

/-! ## Signatures and the context -/

/-- The values of `verify_status` of a signature. -/
inductive pdkim_verify_status where
  | PDKIM_VERIFY_NONE
  | PDKIM_VERIFY_INVALID
  | PDKIM_VERIFY_FAIL
  | PDKIM_VERIFY_PASS
  deriving DecidableEq, Repr

/-- The values of `verify_ext_status` of a signature: the value 0 a new
signature has, and the values `pdkim_verify_ext_status_str` names. -/
inductive pdkim_verify_ext_status where
  | PDKIM_VERIFY_EXT_NONE
  | PDKIM_VERIFY_FAIL_BODY
  | PDKIM_VERIFY_FAIL_MESSAGE
  | PDKIM_VERIFY_FAIL_SIG_ALGO_MISMATCH
  | PDKIM_VERIFY_INVALID_PUBKEY_UNAVAILABLE
  | PDKIM_VERIFY_INVALID_BUFFER_SIZE
  | PDKIM_VERIFY_INVALID_PUBKEY_DNSRECORD
  | PDKIM_VERIFY_INVALID_PUBKEY_IMPORT
  | PDKIM_VERIFY_INVALID_PUBKEY_KEYSIZE
  | PDKIM_VERIFY_INVALID_SIGNATURE_ERROR
  | PDKIM_VERIFY_INVALID_DKIM_VERSION
  deriving DecidableEq, Repr

/-- The fields of the struct `pdkim_pubkey` that `pdkim.c` reads or writes.  A
string field is `none` for a NULL pointer, the blob `key` is `none` when its
`data` is NULL; `testing` and `no_subdomaining` are the two flags. -/
structure pdkim_pubkey where
  version : Option (List Nat)
  granularity : Option (List Nat)
  hashes : Option (List Nat)
  keytype : Option (List Nat)
  srvtype : Option (List Nat)
  notes : Option (List Nat)
  key : Option (List Nat)
  testing : Nat
  no_subdomaining : Nat
  deriving DecidableEq, Repr

/-- The fields of the struct `pdkim_signature` that `pdkim.c` reads or writes
when it parses a header, collects headers, hashes the body and verifies.  A
string field is `none` for a NULL pointer; the blobs `sighash` and `bodyhash`
are `none` when their `data` is NULL.  `headers` is the list `sig->headers`
(sign mode), newest first; `calc_body_hash` refers to a Body Hash of the
context by its identifying tuple, `none` being the NULL pointer.  `pubkey`
and `keybits` are written when the signature is verified. -/
structure pdkim_signature where
  version : Int
  keytype : Int
  hashtype : Int
  canon_headers : Int
  canon_body : Int
  querymethod : Int
  selector : Option (List Nat)
  domain : Option (List Nat)
  identity : Option (List Nat)
  created : Nat
  expires : Nat
  bodylength : Int
  headernames : Option (List Nat)
  copiedheaders : Option (List Nat)
  sighash : Option (List Nat)
  bodyhash : Option (List Nat)
  rawsig_no_b_val : List Nat
  verify_status : pdkim_verify_status
  verify_ext_status : pdkim_verify_ext_status
  headers : List (List Nat)
  calc_body_hash : Option (Int × Int × Int)
  pubkey : Option pdkim_pubkey
  keybits : Nat
  sign_headers : Option (List Nat) := none
  privkey : Option (List Nat) := none
  signature_header : Option (List Nat) := none
  deriving DecidableEq, Repr

/-- The struct `pdkim_ctx`.  The bits of `flags` are separate booleans;
`linebuf` holds the `linebuf_offset` bytes of the current body line;
`cur_header` is `none` for a NULL `gstring`; `headers` is newest first.
`dkim_collect_input` is the Exim global of that name, which
`pdkim_header_complete` reads and decrements. -/
structure pdkim_ctx where
  mode_sign : Bool
  dot_term : Bool
  past_hdrs : Bool
  seen_cr : Bool
  seen_lf : Bool
  seen_eod : Bool
  linebuf : List Nat
  cur_header : Option (List Nat)
  num_headers : Nat
  headers : List (List Nat)
  sig : List pdkim_signature
  bodyhash : List pdkim_bodyhash
  dkim_collect_input : Nat
  deriving DecidableEq, Repr

/-- The field `linebuf_offset` of the context. -/
def pdkim_ctx.linebuf_offset (ctx : pdkim_ctx) : Nat := ctx.linebuf.length

/-- Functions `pdkim.c` calls that live outside it, and the build option it
depends on.
`exim_sha_init` tells, for a hash type, whether the hash context could be
set up.  `gstring_trim_trailing g c` is the content of the growable string
`g` after the Exim helper of that name.  `b64decode` is the decoded data, or
`none` when the Exim function of that name reports an error (the blob then
has no data).  `string_nextinlist list sep` is the next element of the list
(`none` for NULL) and the rest of the list, for a separator greater than 0.
`strtoul` and `strtol` are the C library functions, base 10.
`sign_have_ed25519` tells whether the build defines `SIGN_HAVE_ED25519`.
`trim_trailing_space val` is the string that `string_from_gstring` gives for
the growable copy of `val` (made by `string_cat`) after the loop
`while (isspace(gstring_last_char(g))) gstring_trim(g, 1)`, `none` for
NULL. -/
structure Env where
  exim_sha_init : Int → Bool
  gstring_trim_trailing : List Nat → Nat → List Nat
  trim_trailing_space : List Nat → Option (List Nat)
  b64decode : List Nat → Option (List Nat)
  string_nextinlist : List Nat → Nat → Option (List Nat) × List Nat
  strtoul : List Nat → Nat
  strtol : List Nat → Int
  sign_have_ed25519 : Bool

/-- The context `pdkim_init_context` sets up (sign mode). -/
def pdkim_init_context (dot_stuffed : Bool) (collect : Nat) : pdkim_ctx :=
  { mode_sign := true, dot_term := dot_stuffed, past_hdrs := false, seen_cr := false,
    seen_lf := false, seen_eod := false, linebuf := [], cur_header := none,
    num_headers := 0, headers := [], sig := [], bodyhash := [],
    dkim_collect_input := collect }

/-- The context `pdkim_init_verify` sets up (verify mode). -/
def pdkim_init_verify (dot_stuffing : Bool) (collect : Nat) : pdkim_ctx :=
  { mode_sign := false, dot_term := dot_stuffing, past_hdrs := false, seen_cr := false,
    seen_lf := false, seen_eod := false, linebuf := [], cur_header := some [],
    num_headers := 0, headers := [], sig := [], bodyhash := [],
    dkim_collect_input := collect }

/-- The function `pdkim_set_bodyhash` on a non-NULL context: the Body Hash
with the given tuple if the list has one, else a new one put at the head of
the list.  The second component is the returned pointer (`none` for NULL). -/
def pdkim_set_bodyhash (env : Env) (ctx : pdkim_ctx)
    (hashtype canon_method bodylength : Int) : pdkim_ctx × Option pdkim_bodyhash :=
  if hashtype = -1 ∨ canon_method = -1 then (ctx, none)
  else
    match ctx.bodyhash.find? (fun b => decide (hashtype = b.hashtype) &&
        decide (canon_method = b.canon_method) && decide (bodylength = b.bodylength)) with
    | some b => (ctx, some b)
    | none =>
      if env.exim_sha_init hashtype then
        let b : pdkim_bodyhash :=
          { hashtype := hashtype, canon_method := canon_method, bodylength := bodylength,
            hashed := [], signed_body_bytes := 0, num_buffered_blanklines := 0 }
        ({ ctx with bodyhash := b :: ctx.bodyhash }, some b)
      else (ctx, none)

/-- The identifying tuple of a Body Hash. -/
def pdkim_bodyhash.key (b : pdkim_bodyhash) : Int × Int × Int :=
  (b.hashtype, b.canon_method, b.bodylength)

/-- The function `pdkim_set_sig_bodyhash`. -/
def pdkim_set_sig_bodyhash (env : Env) (ctx : pdkim_ctx) (sig : pdkim_signature) :
    pdkim_ctx × pdkim_signature × Option pdkim_bodyhash :=
  let r := pdkim_set_bodyhash env ctx sig.hashtype sig.canon_body sig.bodylength
  (r.1, { sig with calc_body_hash := r.2.map pdkim_bodyhash.key }, r.2)

/-! ## Parsing a `DKIM-Signature:` header (`pdkim_parse_sig_header`) -/

/-- Number of values of the C type `unsigned` (32 bits). -/
def UINT_RANGE : Nat := 2 ^ 32

/-- The C library call `strncmp(s, t, n) == 0` on C strings: the first `n`
bytes agree, the comparison ending at a NUL the two strings share. -/
def Ustrncmp_eq (s t : List Nat) (n : Nat) : Bool :=
  (cstr s ++ [0]).take n == (cstr t ++ [0]).take n

/-- The table `pdkim_combined_canons` without its NULL terminator: string,
`canon_headers`, `canon_body`. -/
def pdkim_combined_canons : List (List Nat × Int × Int) :=
  [(US "simple/simple", PDKIM_CANON_SIMPLE, PDKIM_CANON_SIMPLE),
   (US "simple/relaxed", PDKIM_CANON_SIMPLE, PDKIM_CANON_RELAXED),
   (US "relaxed/simple", PDKIM_CANON_RELAXED, PDKIM_CANON_SIMPLE),
   (US "relaxed/relaxed", PDKIM_CANON_RELAXED, PDKIM_CANON_RELAXED),
   (US "simple", PDKIM_CANON_SIMPLE, PDKIM_CANON_SIMPLE),
   (US "relaxed", PDKIM_CANON_RELAXED, PDKIM_CANON_SIMPLE)]

/-- The function `pdkim_cstring_to_canons`: the values of `*canon_head` and
`*canon_body` after the call, given their values before it.  `len` is an
`unsigned`; when it is 0 it is set to `Ustrlen(s)`, which is converted to
`unsigned`.  The first table entry whose string agrees with `s` on `len`
bytes and is `len` bytes long sets both. -/
def pdkim_cstring_to_canons (s : List Nat) (len : Nat) (canon_head canon_body : Int) :
    Int × Int :=
  let len1 := if len = 0 then (cstr s).length % UINT_RANGE else len
  match pdkim_combined_canons.find?
      (fun e => Ustrncmp_eq s e.1 len1 && decide (len1 = e.1.length)) with
  | some e => (e.2.1, e.2.2)
  | none => (canon_head, canon_body)

/-- The table `pdkim_keytypes`: "rsa" at `KEYTYPE_RSA` and, when the build
defines `SIGN_HAVE_ED25519`, "ed25519" at `KEYTYPE_ED25519`. -/
def pdkim_keytypes (env : Env) : List (List Nat) :=
  US "rsa" :: (if env.sign_have_ed25519 then [US "ed25519"] else [])

/-- The names `dkim_hashname` of the table `pdkim_hashes`. -/
def pdkim_hashes : List (List Nat) := [US "sha1", US "sha256", US "sha512"]

/-- The table `pdkim_querymethods` without its NULL terminator. -/
def pdkim_querymethods : List (List Nat) := [US "dns/txt"]

/-- The index of the first string of `table` equal to the C string `s`
(`Ustrcmp(s, table[i]) == 0`), as the loops over the tables find it. -/
def table_index (table : List (List Nat)) (s : List Nat) : Option Nat :=
  table.findIdx? (fun t => t == cstr s)

/-- The function `pdkim_keyname_to_keytype`. -/
def pdkim_keyname_to_keytype (env : Env) (s : List Nat) : Int :=
  match table_index (pdkim_keytypes env) s with
  | some i => i
  | none => -1

/-- The C library function `isxdigit` in the "C" locale. -/
def isxdigit (c : Nat) : Bool :=
  decide (48 ≤ c ∧ c ≤ 57) || decide (65 ≤ c ∧ c ≤ 70) || decide (97 ≤ c ∧ c ≤ 102)

/-- The value `pdkim_decode_qp_char` gives a hexadecimal digit:
`isdigit(c) ? c - '0' : toupper(c) - 'A' + 10`. -/
def hex_value (c : Nat) : Nat :=
  if 48 ≤ c ∧ c ≤ 57 then c - 48
  else (if 97 ≤ c ∧ c ≤ 122 then c - 32 else c) - 65 + 10

/-- The function `pdkim_decode_qp` (with `pdkim_decode_qp_char`): `=` and two
hexadecimal digits give the byte they denote, any other `=` is dropped,
every other byte is copied. -/
def pdkim_decode_qp : List Nat → List Nat
  | [] => []
  | c :: h1 :: h2 :: rest =>
    if c = EQUALS ∧ isxdigit h1 = true ∧ isxdigit h2 = true then
      (hex_value h1 * 16 ||| hex_value h2) :: pdkim_decode_qp rest
    else if c = EQUALS then pdkim_decode_qp (h1 :: h2 :: rest)
    else c :: pdkim_decode_qp (h1 :: h2 :: rest)
  | c :: rest => if c = EQUALS then pdkim_decode_qp rest else c :: pdkim_decode_qp rest

/-- The function `pdkim_strtrim` on the content of a growable string that is
NUL terminated.  Its first loop tests the byte `*p` and never moves `p`: when
the string begins with a tab or a space the function does not return, which
is the value `none`.  Otherwise the trailing tabs and spaces are dropped. -/
def pdkim_strtrim (s : List Nat) : Option (List Nat) :=
  match s with
  | [] => some []
  | c :: _ =>
    if c = TAB ∨ c = SP then none
    else some (s.reverse.dropWhile (fun x => x == TAB || x == SP)).reverse

/-- The signature `pdkim_parse_sig_header` starts from: all zero, except
`bodylength`, `keytype` and `hashtype`, which are -1. -/
def sig_init : pdkim_signature :=
  { version := 0, keytype := -1, hashtype := -1, canon_headers := 0, canon_body := 0,
    querymethod := 0, selector := none, domain := none, identity := none, created := 0,
    expires := 0, bodylength := -1, headernames := none, copiedheaders := none,
    sighash := none, bodyhash := none, rawsig_no_b_val := [],
    verify_status := pdkim_verify_status.PDKIM_VERIFY_NONE,
    verify_ext_status := pdkim_verify_ext_status.PDKIM_VERIFY_EXT_NONE,
    headers := [], calc_body_hash := none, pubkey := none, keybits := 0 }

/-- The case `'a'` of the tag switch of `pdkim_parse_sig_header`: the first
element of the `-` separated value gives the key type, the second one, when
it is the name of a hash, the hash type. -/
def sig_set_algorithm (env : Env) (sig : pdkim_signature) (val : List Nat) : pdkim_signature :=
  let r1 := env.string_nextinlist val DASH
  let sig1 : pdkim_signature :=
    match r1.1 with
    | some elem => { sig with keytype := pdkim_keyname_to_keytype env elem }
    | none => sig
  match (env.string_nextinlist r1.2 DASH).1 with
  | some elem =>
    (match table_index pdkim_hashes elem with
     | some i => { sig1 with hashtype := i }
     | none => sig1)
  | none => sig1

/-- The tag switch of `pdkim_parse_sig_header` (`switch (*cur_tag->s)`) for a
tag and its trimmed value; an unknown tag (`bad_tag`) leaves the signature as
it is.  The caller has made sure that the tag has one byte or begins with
`b`. -/
def sig_set_tag (env : Env) (sig : pdkim_signature) (tag val : List Nat) : pdkim_signature :=
  match tag with
  | [] => sig
  | t0 :: trest =>
    if t0 = 98 then
      (match trest with
       | [] => { sig with sighash := env.b64decode val }
       | t1 :: _ =>
         if t1 = 104 then
           (if tag.length ≠ 2 then sig else { sig with bodyhash := env.b64decode val })
         else sig)
    else if t0 = 118 then { sig with version := if cstr val = US "1" then 1 else -1 }
    else if t0 = 97 then sig_set_algorithm env sig val
    else if t0 = 99 then
      { sig with
        canon_headers := (pdkim_cstring_to_canons val 0 sig.canon_headers sig.canon_body).1,
        canon_body := (pdkim_cstring_to_canons val 0 sig.canon_headers sig.canon_body).2 }
    else if t0 = 113 then
      (match table_index pdkim_querymethods val with
       | some i => { sig with querymethod := i }
       | none => sig)
    else if t0 = 115 then { sig with selector := some val }
    else if t0 = 100 then { sig with domain := some val }
    else if t0 = 105 then { sig with identity := some (pdkim_decode_qp (cstr val)) }
    else if t0 = 116 then { sig with created := env.strtoul val }
    else if t0 = 120 then { sig with expires := env.strtoul val }
    else if t0 = 108 then { sig with bodylength := env.strtol val }
    else if t0 = 104 then { sig with headernames := some val }
    else if t0 = 122 then { sig with copiedheaders := some (pdkim_decode_qp (cstr val)) }
    else sig

/-- The value `PDKIM_HDR_LIMBO` of the local `where`. -/
def PDKIM_HDR_LIMBO : Nat := 0
/-- The value `PDKIM_HDR_TAG` of the local `where`. -/
def PDKIM_HDR_TAG : Nat := 1
/-- The value `PDKIM_HDR_VALUE` of the local `where`. -/
def PDKIM_HDR_VALUE : Nat := 2

/-- The state of the scanning loop of `pdkim_parse_sig_header`: the signature
under construction, the bytes written through `q` so far (the copy of the
header without the value of `b`), and the locals `cur_tag`, `cur_val`,
`past_hname`, `in_b_val` and `where` (here `hdr_where`). -/
structure sig_scan where
  sig : pdkim_signature
  q : List Nat
  cur_tag : Option (List Nat)
  cur_val : Option (List Nat)
  past_hname : Bool
  in_b_val : Bool
  hdr_where : Nat
  deriving DecidableEq, Repr

/-- The state before the first byte. -/
def scan_init : sig_scan :=
  { sig := sig_init, q := [], cur_tag := none, cur_val := none, past_hname := false,
    in_b_val := false, hdr_where := PDKIM_HDR_LIMBO }

/-- The scanning loop at `=` in a tag name: for the tag `b` the `=` is written
to the copy and `in_b_val` is set; the value begins. -/
def tag_end (st : sig_scan) : sig_scan :=
  if cstr (st.cur_tag.getD []) = US "b" then
    { st with q := st.q ++ [EQUALS], in_b_val := true, hdr_where := PDKIM_HDR_VALUE }
  else { st with hdr_where := PDKIM_HDR_VALUE }

/-- The scanning loop at `;` or NUL in a value, up to the tag switch: a tag
with a value, whose name has one byte or begins with `b`, has its value
trimmed and is given to the switch; `none` when `pdkim_strtrim` does not
return. -/
def value_sig (env : Env) (st : sig_scan) : Option pdkim_signature :=
  match st.cur_tag, st.cur_val with
  | some tag, some val =>
    if tag.length = 1 ∨ tag.head? = some 98 then
      (pdkim_strtrim val).map (fun v => sig_set_tag env st.sig tag v)
    else some st.sig
  | _, _ => some st.sig

/-- The scanning loop at `;` or NUL in a value: the tag is dealt with, then
tag and value are forgotten and the scan is in limbo again. -/
def value_end (env : Env) (st : sig_scan) : Option sig_scan :=
  (value_sig env st).map (fun sig =>
    { st with sig := sig, cur_tag := none, cur_val := none, in_b_val := false,
              hdr_where := PDKIM_HDR_LIMBO })

/-- The scanning loop in state `PDKIM_HDR_VALUE`: folding whitespace is
skipped, `;` or NUL ends the value, any other byte is appended to it. -/
def value_char (env : Env) (st : sig_scan) (c : Nat) : Option sig_scan :=
  if c = CR ∨ c = LF ∨ c = SP ∨ c = TAB then some st
  else if c = SEMICOLON ∨ c = 0 then value_end env st
  else some { st with cur_val := string_catn st.cur_val [c] }

/-- The scanning loop in state `PDKIM_HDR_TAG`: `=` ends the tag name, a byte
that is not white space is appended to it. -/
def tag_char (st : sig_scan) (c : Nat) : sig_scan :=
  if c = EQUALS then tag_end st
  else if isspace c = false then { st with cur_tag := string_catn st.cur_tag [c] }
  else st

/-- The body of the scanning loop of `pdkim_parse_sig_header` for the byte
`c`, up to the label `NEXT_CHAR`. -/
def scan_char (env : Env) (st : sig_scan) (c : Nat) : Option sig_scan :=
  if c = CR ∨ c = LF then some st
  else if st.past_hname = false then
    some (if c = COLON then { st with past_hname := true } else st)
  else if st.hdr_where = PDKIM_HDR_LIMBO then
    if ¬(97 ≤ c ∧ c ≤ 122) then some st
    else some (tag_char { st with hdr_where := PDKIM_HDR_TAG } c)
  else if st.hdr_where = PDKIM_HDR_TAG then some (tag_char st c)
  else if st.hdr_where = PDKIM_HDR_VALUE then value_char env st c
  else some st

/-- The statements at the label `NEXT_CHAR` for a byte that is not NUL: the
byte is copied unless the scan is inside the value of `b`. -/
def next_char (st : sig_scan) (c : Nat) : sig_scan :=
  if st.in_b_val then st else { st with q := st.q ++ [c] }

/-- One round of the scanning loop for a byte that is not NUL. -/
def scan_step (env : Env) (st : sig_scan) (c : Nat) : Option sig_scan :=
  (scan_char env st c).map (fun s => next_char s c)

/-- The rounds of the scanning loop for the bytes of a string. -/
def scan_chars (env : Env) : sig_scan → List Nat → Option sig_scan
  | st, [] => some st
  | st, c :: rest => (scan_step env st c).bind (fun s => scan_chars env s rest)

/-- The scanning loop of `pdkim_parse_sig_header` on the C string `raw_hdr`:
the rounds for its bytes, then the round for the terminating NUL, which
leaves the loop at `NEXT_CHAR`.  The value is `none` when the loop does not
come to its end. -/
def parse_sig_scan (env : Env) (raw_hdr : List Nat) : Option sig_scan :=
  (scan_chars env scan_init (cstr raw_hdr)).bind (fun st => scan_char env st 0)

/-- The loop that chomps the copy of the header: trailing CRs and LFs are
cut off, the first byte is never looked at. -/
def chomp_rawsig (q : List Nat) : List Nat :=
  match q with
  | [] => []
  | c :: rest => c :: (rest.reverse.dropWhile (fun x => x == CR || x == LF)).reverse

/-- The function `pdkim_parse_sig_header`: no signature without a key type
and a hash type, or without a Body Hash.  The scanning loop always comes to
its end (`parse_sig_scan_total`), so that the first case does not arise. -/
def pdkim_parse_sig_header (env : Env) (ctx : pdkim_ctx) (raw_hdr : List Nat) :
    pdkim_ctx × Option pdkim_signature :=
  match parse_sig_scan env raw_hdr with
  | none => (ctx, none)
  | some st =>
    if st.sig.keytype < 0 ∨ st.sig.hashtype < 0 then (ctx, none)
    else
      match pdkim_set_sig_bodyhash env ctx
          { st.sig with rawsig_no_b_val := chomp_rawsig st.q } with
      | (ctx1, sig1, some _) => (ctx1, some sig1)
      | (ctx1, _, none) => (ctx1, none)

/-- The Body Hash after a sequence of calls of `pdkim_update_ctx_bodyhash`,
each given by its `orig_data` and `relaxed_data` arguments. -/
def update_calls (b : pdkim_bodyhash) (calls : List (List Nat × Option (List Nat))) :
    pdkim_bodyhash :=
  calls.foldl (fun b c => (pdkim_update_ctx_bodyhash b c.1 c.2).1) b

/-- The context after a sequence of calls of `pdkim_set_bodyhash`, each given
by its tuple (hash type, canonicalisation, body length). -/
def set_bodyhash_calls (env : Env) (ctx : pdkim_ctx) (calls : List (Int × Int × Int)) :
    pdkim_ctx :=
  calls.foldl (fun c k => (pdkim_set_bodyhash env c k.1 k.2.1 k.2.2).1) ctx

/-- A Body Hash with a five-byte limit, used as a concrete instance. -/
def example_limited_bodyhash : pdkim_bodyhash :=
  { hashtype := 1, canon_method := PDKIM_CANON_SIMPLE, bodylength := 5, hashed := [],
    signed_body_bytes := 0, num_buffered_blanklines := 0 }

/-- A relaxed Body Hash without limit, used as a concrete instance. -/
def example_unlimited_bodyhash : pdkim_bodyhash :=
  { hashtype := 1, canon_method := PDKIM_CANON_RELAXED, bodylength := -1, hashed := [],
    signed_body_bytes := 0, num_buffered_blanklines := 0 }

/-- The decimal digits at the start of a string, as a number. -/
def leading_number (s : List Nat) : Nat :=
  (s.takeWhile (fun c => decide (48 ≤ c ∧ c ≤ 57))).foldl (fun n c => 10 * n + (c - 48)) 0

/-- An environment in which every hash context can be set up, trimming
removes every trailing occurrence of the byte or of white space, base64
decoding is the identity, a list is split at the first separator and is at its end when it
is empty, and numbers are read from the leading decimal digits; used in
concrete instances. -/
def example_env : Env :=
  { exim_sha_init := fun _ => true,
    gstring_trim_trailing := fun g c => (g.reverse.dropWhile (fun x => x == c)).reverse,
    trim_trailing_space := fun val => some (val.reverse.dropWhile isspace).reverse,
    b64decode := fun s => some s,
    string_nextinlist := fun l sep =>
      if l = [] then (none, [])
      else (some (l.takeWhile (fun c => c != sep)), (l.dropWhile (fun c => c != sep)).tail),
    strtoul := leading_number,
    strtol := fun s => (leading_number s : Int),
    sign_have_ed25519 := true }

/-! ## Completed body lines -/

/-- The C library call `memcmp(data, pat, n) == 0` for a pattern `pat` of `n`
bytes, none of them NUL, on a line buffer: `pdkim_bodyline_complete` stores a
NUL right after the line, so the comparison is decided within the line and
that NUL. -/
def memcmp_eq (data pat : List Nat) : Bool :=
  (data ++ [0]).take pat.length == pat

/-- The scan `pdkim_bodyline_complete` makes for a relaxed Body Hash: `true`
when the loop over the line (which is followed by a NUL) ends at a NUL or at
CR LF having met only spaces and tabs, so that the line is buffered as
blank; `false` when it jumps to `hash_process`. -/
def relaxed_blank_scan : List Nat → Bool
  | [] => true
  | c :: rest =>
    if c = 0 then true
    else if c = CR ∧ rest.head? = some LF then true
    else if c ≠ SP ∧ c ≠ TAB then false
    else relaxed_blank_scan rest

/-- The loop `while (b->num_buffered_blanklines)` of
`pdkim_bodyline_complete`, run for the `n` buffered blank lines of `b`:
each round hashes one CR LF and decrements the counter. -/
def release_blanklines : Nat → pdkim_bodyhash → Option (List Nat) →
    pdkim_bodyhash × Option (List Nat)
  | 0, b, rnl => (b, rnl)
  | n + 1, b, rnl =>
    let r := pdkim_update_ctx_bodyhash b lineending rnl
    release_blanklines n
      { r.1 with num_buffered_blanklines := r.1.num_buffered_blanklines - 1 } r.2

/-- The loop of `pdkim_bodyline_complete` over the Body Hashes for a line that
is not empty; `rnl` and `rline` are the relaxed copies of CR LF and of the
line made so far (the locals of the same names). -/
def bodyline_hashes (line : List Nat) :
    List pdkim_bodyhash → Option (List Nat) → Option (List Nat) → List pdkim_bodyhash
  | [], _, _ => []
  | b :: bs, rnl, rline =>
    if b.canon_method = PDKIM_CANON_RELAXED ∧ relaxed_blank_scan line = true then
      { b with num_buffered_blanklines := b.num_buffered_blanklines + 1 } ::
        bodyline_hashes line bs rnl rline
    else
      let r1 := release_blanklines b.num_buffered_blanklines b rnl
      let r2 := pdkim_update_ctx_bodyhash r1.1 line rline
      r2.1 :: bodyline_hashes line bs r1.2 r2.2

/-- The function `pdkim_body_complete`. -/
def pdkim_body_complete (ctx : pdkim_ctx) : pdkim_ctx :=
  { ctx with
    bodyhash := ctx.bodyhash.map (fun b =>
      if b.canon_method = PDKIM_CANON_SIMPLE ∧ b.signed_body_bytes = 0 ∧
          0 < b.num_buffered_blanklines then
        (pdkim_update_ctx_bodyhash b lineending none).1
      else b),
    seen_eod := true,
    linebuf := [] }

/-- The line `pdkim_bodyline_complete` goes on with after its dot handling:
with dot-stuffing on, a line that begins with two dots loses the first. -/
def unstuff_line (dot_term : Bool) (line : List Nat) : List Nat :=
  if dot_term = true ∧ memcmp_eq line [DOT, DOT] = true then line.tail else line

/-- The function `pdkim_bodyline_complete`; the line is `ctx.linebuf`. -/
def pdkim_bodyline_complete (ctx : pdkim_ctx) : pdkim_ctx :=
  if ctx.seen_eod then { ctx with linebuf := [] }
  else if ctx.dot_term = true ∧ memcmp_eq ctx.linebuf [DOT, CR, LF] = true then
    pdkim_body_complete ctx
  else
    let line := unstuff_line ctx.dot_term ctx.linebuf
    if memcmp_eq line [CR, LF] = true then
      { ctx with
        bodyhash := ctx.bodyhash.map (fun b =>
          { b with num_buffered_blanklines := b.num_buffered_blanklines + 1 }),
        linebuf := [] }
    else
      { ctx with bodyhash := bodyline_hashes line ctx.bodyhash none none, linebuf := [] }

/-! ## Completed headers -/

/-- The macro of the same name in `pdkim.c`: the bytes of "DKIM-Signature:". -/
def DKIM_SIGNATURE_HEADERNAME : List Nat :=
  [68, 75, 73, 77, 45, 83, 105, 103, 110, 97, 116, 117, 114, 101, 58]

/-- The C library call `strncasecmp(s, t, n) == 0` on C strings. -/
def strncasecmp_eq (s t : List Nat) (n : Nat) : Bool :=
  (s.take n).map tolower == (t.take n).map tolower

/-- The header text `pdkim_header_complete` works on: the header buffer, its
trailing CRs trimmed when it holds more than one byte, read as a C string.
The callers in `pdkim_feed` and `pdkim_feed_finish` have made the buffer
non-NULL. -/
def header_text (env : Env) (ctx : pdkim_ctx) : List Nat :=
  cstr (if 1 < (ctx.cur_header.getD []).length then
      env.gstring_trim_trailing (ctx.cur_header.getD []) CR
    else ctx.cur_header.getD [])

/-- The part of `pdkim_header_complete` for a `DKIM-Signature:` header in
verify mode: the header is parsed, the signature (if any) is chained at the
end of `ctx->sig`, the header is stored, and `PDKIM_ERR_EXCESS_SIGS` is
returned when `dkim_collect_input` has counted down to zero. -/
def header_complete_sig (env : Env) (ctx : pdkim_ctx) (s : List Nat) : pdkim_ctx × pdkim_rc :=
  if (pdkim_parse_sig_header env ctx s).1.dkim_collect_input ≠ 0 ∧
      (pdkim_parse_sig_header env ctx s).1.dkim_collect_input - 1 = 0 then
    ({ (pdkim_parse_sig_header env ctx s).1 with
        sig := (pdkim_parse_sig_header env ctx s).1.sig ++
          (pdkim_parse_sig_header env ctx s).2.toList,
        dkim_collect_input := (pdkim_parse_sig_header env ctx s).1.dkim_collect_input - 1,
        headers := s :: (pdkim_parse_sig_header env ctx s).1.headers,
        cur_header := some [] }, PDKIM_ERR_EXCESS_SIGS)
  else
    ({ (pdkim_parse_sig_header env ctx s).1 with
        sig := (pdkim_parse_sig_header env ctx s).1.sig ++
          (pdkim_parse_sig_header env ctx s).2.toList,
        dkim_collect_input := (pdkim_parse_sig_header env ctx s).1.dkim_collect_input - 1,
        headers := s :: (pdkim_parse_sig_header env ctx s).1.headers,
        cur_header := some [] }, PDKIM_OK)

/-- The function `pdkim_header_complete` (without the ARC hook). -/
def pdkim_header_complete (env : Env) (ctx : pdkim_ctx) : pdkim_ctx × pdkim_rc :=
  if PDKIM_MAX_HEADERS < ctx.num_headers + 1 then
    ({ ctx with num_headers := ctx.num_headers + 1, cur_header := some [] }, PDKIM_OK)
  else if ctx.mode_sign then
    ({ ctx with
        num_headers := ctx.num_headers + 1,
        sig := ctx.sig.map (fun sig =>
          { sig with headers := header_text env ctx :: sig.headers }),
        cur_header := some [] }, PDKIM_OK)
  else if strncasecmp_eq (header_text env ctx) DKIM_SIGNATURE_HEADERNAME
      DKIM_SIGNATURE_HEADERNAME.length then
    header_complete_sig env { ctx with num_headers := ctx.num_headers + 1 }
      (header_text env ctx)
  else
    ({ ctx with
        num_headers := ctx.num_headers + 1,
        headers := header_text env ctx :: ctx.headers,
        cur_header := some [] }, PDKIM_OK)

/-! ## The line feeder -/

/-- The last statement of the header branch of `pdkim_feed`: the byte is
appended unless the header has reached `PDKIM_MAX_HEADER_LEN`. -/
def header_append (ctx : pdkim_ctx) (c : Nat) : pdkim_ctx :=
  match ctx.cur_header with
  | none => { ctx with cur_header := string_catn ctx.cur_header [c] }
  | some g =>
    if g.length < PDKIM_MAX_HEADER_LEN then
      { ctx with cur_header := string_catn ctx.cur_header [c] }
    else ctx

/-- Body branch of the loop of `pdkim_feed`, first statement: a line feed
that no CR has announced gets a CR stored before it. -/
def body_emulate_cr (ctx : pdkim_ctx) (c : Nat) : pdkim_ctx :=
  if c = LF ∧ ctx.seen_cr = false then { ctx with linebuf := ctx.linebuf ++ [CR] }
  else ctx

/-- Body branch of the loop of `pdkim_feed`, "Processing body byte": the byte
is stored, a CR sets `PDKIM_SEEN_CR`, a line feed clears it and completes
the line. -/
def body_store (ctx : pdkim_ctx) (c : Nat) : pdkim_ctx :=
  if c = CR then { ctx with linebuf := ctx.linebuf ++ [c], seen_cr := true }
  else if c = LF then
    pdkim_bodyline_complete { ctx with linebuf := ctx.linebuf ++ [c], seen_cr := false }
  else { ctx with linebuf := ctx.linebuf ++ [c] }

/-- Body branch of one round of the loop of `pdkim_feed`, with its two
checks of the line length. -/
def feed_body_byte (ctx : pdkim_ctx) (c : Nat) : pdkim_ctx × pdkim_rc :=
  if c = LF ∧ ctx.seen_cr = false ∧
      (body_emulate_cr ctx c).linebuf_offset = PDKIM_MAX_BODY_LINE_LEN - 1 then
    (body_emulate_cr ctx c, PDKIM_ERR_LONG_LINE)
  else if (body_store (body_emulate_cr ctx c) c).linebuf_offset =
      PDKIM_MAX_BODY_LINE_LEN - 1 then
    (body_store (body_emulate_cr ctx c) c, PDKIM_ERR_LONG_LINE)
  else (body_store (body_emulate_cr ctx c) c, PDKIM_OK)

/-- Header branch of the loop of `pdkim_feed`, line feed case, first
statement: a line feed that no CR has announced gets a CR appended to the
header before it. -/
def header_emulate_cr (ctx : pdkim_ctx) : pdkim_ctx :=
  if ctx.seen_cr = false then { ctx with cur_header := string_catn ctx.cur_header [CR] }
  else ctx

/-- Header branch of the loop of `pdkim_feed`, reached when the second of
two line ends arrives ("Seen last header line"): the last header is
completed and the feeder switches to body mode. -/
def header_end (env : Env) (ctx : pdkim_ctx) : pdkim_ctx × pdkim_rc :=
  if (pdkim_header_complete env ctx).2 ≠ PDKIM_OK then pdkim_header_complete env ctx
  else
    ({ (pdkim_header_complete env ctx).1 with
        seen_lf := false, seen_cr := false, past_hdrs := true }, PDKIM_OK)

/-- Header branch of the loop of `pdkim_feed`, reached when a byte other than
CR and LF follows a line end: unless it is a space or a tab (a continuation
line) the header before it is completed; the byte then starts or continues
a header. -/
def header_after_lf (env : Env) (ctx : pdkim_ctx) (c : Nat) : pdkim_ctx × pdkim_rc :=
  if ¬(c = TAB ∨ c = SP) then
    if (pdkim_header_complete env ctx).2 ≠ PDKIM_OK then pdkim_header_complete env ctx
    else
      (header_append { (pdkim_header_complete env ctx).1 with seen_lf := false } c, PDKIM_OK)
  else (header_append { ctx with seen_lf := false } c, PDKIM_OK)

/-- Header branch of one round of the loop of `pdkim_feed`. -/
def feed_header_byte (env : Env) (ctx : pdkim_ctx) (c : Nat) : pdkim_ctx × pdkim_rc :=
  if c = CR then (header_append { ctx with seen_cr := true } c, PDKIM_OK)
  else if c = LF then
    if (header_emulate_cr ctx).seen_lf then header_end env (header_emulate_cr ctx)
    else
      (header_append { header_emulate_cr ctx with seen_cr := false, seen_lf := true } c,
        PDKIM_OK)
  else if ctx.seen_lf then header_after_lf env ctx c
  else (header_append ctx c, PDKIM_OK)

/-- One round of the `for` loop of `pdkim_feed` on byte `c`.  A result code
other than `PDKIM_OK` is the value `pdkim_feed` returns at once. -/
def pdkim_feed_byte (env : Env) (ctx : pdkim_ctx) (c : Nat) : pdkim_ctx × pdkim_rc :=
  if ctx.past_hdrs then feed_body_byte ctx c else feed_header_byte env ctx c

/-- The `for` loop of `pdkim_feed` over the bytes of `data`. -/
def pdkim_feed_loop (env : Env) : pdkim_ctx → List Nat → pdkim_ctx × pdkim_rc
  | ctx, [] => (ctx, PDKIM_OK)
  | ctx, c :: rest =>
    let r := pdkim_feed_byte env ctx c
    if r.2 = PDKIM_OK then pdkim_feed_loop env r.1 rest else r

/-- The function `pdkim_feed`; `data = none` is the NULL pointer, the
end-of-data signal used without dot-stuffing. -/
def pdkim_feed (env : Env) (ctx : pdkim_ctx) (data : Option (List Nat)) :
    pdkim_ctx × pdkim_rc :=
  match data with
  | none => (pdkim_body_complete ctx, PDKIM_OK)
  | some d => pdkim_feed_loop env ctx d

/-- The loop of `pdkim_feed_finish` that hashes `lineending` into every Body
Hash, `rnl` being the relaxed copy made so far. -/
def hash_lineending_all : List pdkim_bodyhash → Option (List Nat) → List pdkim_bodyhash
  | [], _ => []
  | b :: bs, rnl =>
    let r := pdkim_update_ctx_bodyhash b lineending rnl
    r.1 :: hash_lineending_all bs r.2

/-- The first part of `pdkim_feed_finish`, up to the call of
`pdkim_finish_bodyhash`: a header still in the buffer is completed and, for
the message then has no body, CR LF is hashed into every Body Hash.  A
result code other than `PDKIM_OK` is returned by `pdkim_feed_finish` at
once.  Nothing after this part gives bytes to a Body Hash. -/
def pdkim_feed_finish_flush (env : Env) (ctx : pdkim_ctx) : pdkim_ctx × pdkim_rc :=
  if (match ctx.cur_header with
      | some g => decide (0 < g.length)
      | none => false) = true then
    let r := pdkim_header_complete env ctx
    if r.2 ≠ PDKIM_OK then r
    else ({ r.1 with bodyhash := hash_lineending_all r.1.bodyhash none }, PDKIM_OK)
  else (ctx, PDKIM_OK)

/-- What `pdkim_bodyline_complete` does to one Body Hash for a line that is
not empty: the body of its loop over the Body Hashes, no relaxed copy being
at hand. -/
def bodyline_hash_one (line : List Nat) (b : pdkim_bodyhash) : pdkim_bodyhash :=
  if b.canon_method = PDKIM_CANON_RELAXED ∧ relaxed_blank_scan line = true then
    { b with num_buffered_blanklines := b.num_buffered_blanklines + 1 }
  else
    (pdkim_update_ctx_bodyhash (release_blanklines b.num_buffered_blanklines b none).1
      line none).1

/-- What `pdkim_body_complete` does to one Body Hash. -/
def body_complete_one (b : pdkim_bodyhash) : pdkim_bodyhash :=
  if b.canon_method = PDKIM_CANON_SIMPLE ∧ b.signed_body_bytes = 0 ∧
      0 < b.num_buffered_blanklines then
    (pdkim_update_ctx_bodyhash b lineending none).1
  else b

/-- The bytes of `n` empty lines: `n` times CR LF. -/
def blank_lines (n : Nat) : List Nat := (List.replicate n [CR, LF]).flatten

/-- The bytes of a body given by the contents of its lines, each line being
terminated by CR LF. -/
def body_of_lines (lines : List (List Nat)) : List Nat :=
  (lines.map (fun l => l ++ [CR, LF])).flatten

/-- A sign-mode context without dot-stuffing that has a simple and a relaxed
Body Hash, both sha256 and without limit; used in concrete instances. -/
def example_sign_ctx : pdkim_ctx :=
  set_bodyhash_calls example_env (pdkim_init_context false 0) [(1, 1, -1), (1, 0, -1)]

/-- The bytes of the header line `A: b` CR LF followed by the empty separator
line CR LF. -/
def example_headers : List Nat := [65, 58, 32, 98, 13, 10, 13, 10]

/-- The context `example_sign_ctx` after it has been fed `example_headers`:
it is in body mode and no body byte has arrived. -/
def example_body_ctx : pdkim_ctx :=
  (pdkim_feed example_env example_sign_ctx (some example_headers)).1

/-- End of data as the caller signals it: `pdkim_feed` with NULL first when
`feed_null` is set (the way without dot-stuffing), then the first part of
`pdkim_feed_finish`. -/
def end_of_data (env : Env) (ctx : pdkim_ctx) (feed_null : Bool) : pdkim_ctx × pdkim_rc :=
  pdkim_feed_finish_flush env (if feed_null then (pdkim_feed env ctx none).1 else ctx)

/-! ## Invariants used in the proofs -/

/-- The loop invariant of `pdkim_relax_header_n`. -/
structure RelaxHeaderInv (s : RelaxHeaderState) : Prop where
  noctl : ∀ x ∈ s.relaxed, x ≠ CR ∧ x ≠ LF ∧ x ≠ TAB
  chain : List.Chain' (fun a b => ¬(a = SP ∧ b = SP)) s.relaxed
  wspF : s.seen_wsp = false → s.relaxed.getLast? ≠ some SP
  wspT : s.past_field_name = false → s.seen_wsp = true → s.relaxed.getLast? = some SP
  nocolon : s.past_field_name = false → COLON ∉ s.relaxed
  colon : s.past_field_name = true → ∃ pre post, s.relaxed = pre ++ COLON :: post ∧
    COLON ∉ pre ∧ pre.getLast? ≠ some SP ∧ post.head? ≠ some SP ∧
    (post = [] → s.seen_wsp = true)

/-- The loop invariant of the relaxing loop of `pdkim_update_ctx_bodyhash`:
no TAB is stored, a stored space is followed neither by a space nor by a CR,
and the buffer can end with a space only while `seen_wsp` is set. -/
structure RelaxBodyInv (s : RelaxBodyState) : Prop where
  notab : TAB ∉ s.data
  chain : List.Chain' (fun a b => ¬(a = SP ∧ (b = SP ∨ b = CR))) s.data
  wspF : s.seen_wsp = false → s.data.getLast? ≠ some SP

/-- The invariant of the list `ctx->bodyhash`: the identifying tuples are
pairwise different and none has a hash type or canonicalisation of -1. -/
def BodyhashSetInv (l : List pdkim_bodyhash) : Prop :=
  (l.map pdkim_bodyhash.key).Nodup ∧ ∀ b ∈ l, b.hashtype ≠ -1 ∧ b.canon_method ≠ -1

/-- A relaxed copy handed to `pdkim_update_ctx_bodyhash` by the loops of
`pdkim.c` is, when present, the relaxed form of the line. -/
def CacheOk (orig : List Nat) (rd : Option (List Nat)) : Prop :=
  rd = none ∨ rd = some (relax_body_line orig)

/-- Two Body Hashes that differ at most in the number of buffered blank
lines. -/
def SameButBlanks (b b2 : pdkim_bodyhash) : Prop :=
  b2.hashtype = b.hashtype ∧ b2.canon_method = b.canon_method ∧
    b2.bodylength = b.bodylength ∧ b2.hashed = b.hashed ∧
    b2.signed_body_bytes = b.signed_body_bytes

/-- What completing a line does to one Body Hash when the end-of-data flag is
clear and dot-stuffing is off: an empty line is buffered, any other line is
given to the Body Hash. -/
def line_effect (line : List Nat) (b : pdkim_bodyhash) : pdkim_bodyhash :=
  if memcmp_eq line [CR, LF] = true then
    { b with num_buffered_blanklines := b.num_buffered_blanklines + 1 }
  else bodyline_hash_one line b

/-- What feeding the lines with the given contents, each terminated by CR LF,
does to one Body Hash (end-of-data flag clear, dot-stuffing off). -/
def lines_effect (lines : List (List Nat)) (b : pdkim_bodyhash) : pdkim_bodyhash :=
  lines.foldl (fun b l => line_effect (l ++ [CR, LF]) b) b

/-- A context at a line start in the body, without dot-stuffing and before
end of data. -/
def BodyLineStart (ctx : pdkim_ctx) : Prop :=
  ctx.past_hdrs = true ∧ ctx.dot_term = false ∧ ctx.seen_eod = false ∧ ctx.linebuf = []

/-- The content of a body line the feeder accepts: no line feed in it and,
with its CR LF, shorter than `PDKIM_MAX_BODY_LINE_LEN` bytes. -/
def BodyLineOk (l : List Nat) : Prop :=
  LF ∉ l ∧ l.length + 2 < PDKIM_MAX_BODY_LINE_LEN

/-- The counter `signed_body_bytes` agrees with the number of bytes hashed,
modulo the range of `unsigned long`. -/
def SignedCountOk (b : pdkim_bodyhash) : Prop :=
  b.signed_body_bytes = b.hashed.length % ULONG_RANGE

/-- A Body Hash as `pdkim_set_bodyhash` creates it: nothing hashed, nothing
counted, no blank line buffered. -/
def FreshBodyhash (b : pdkim_bodyhash) : Prop :=
  b.hashed = [] ∧ b.signed_body_bytes = 0 ∧ b.num_buffered_blanklines = 0

/-- Every Body Hash of the list is as `pdkim_set_bodyhash` creates it. -/
def AllFresh (l : List pdkim_bodyhash) : Prop :=
  ∀ b ∈ l, FreshBodyhash b

/-- The body-length limit of the Body Hash is absent or leaves room for the
two bytes CR LF (`bodylength` is a `long`). -/
def RoomForLineending (b : pdkim_bodyhash) : Prop :=
  b.bodylength < 0 ∨ (2 ≤ b.bodylength ∧ b.bodylength < 2 ^ 63)

/-! ## Sequences of calls of the feeder -/

/-- The context after a sequence of calls of `pdkim_feed`, whatever each call
returned; every call is given by its `data` argument, `none` being NULL. -/
def feed_calls (env : Env) (ctx : pdkim_ctx) (calls : List (Option (List Nat))) : pdkim_ctx :=
  calls.foldl (fun c d => (pdkim_feed env c d).1) ctx

/-- A body-mode context with dot-stuffing whose line buffer holds the line
that consists of a dot alone; used as a concrete instance. -/
def example_dot_ctx : pdkim_ctx :=
  { example_body_ctx with
    dot_term := true,
    linebuf := [DOT, CR, LF],
    bodyhash := example_body_ctx.bodyhash.map (fun b =>
      { b with num_buffered_blanklines := 2 }) }

/-! ## Messages with many header lines -/

/-- The bytes of the header line `X:` CR LF. -/
def example_header_line : List Nat := [88, 58, CR, LF]

/-- The bytes of `n` header lines `X:` CR LF. -/
def header_lines (n : Nat) : List Nat := (List.replicate n example_header_line).flatten

/-- A verify-mode context in header mode in which `n` headers have been
completed and stored as `hs`, and the header line `X:` CR LF is in the header
buffer. -/
def headers_ctx (n : Nat) (hs : List (List Nat)) : pdkim_ctx :=
  { pdkim_init_verify false 0 with
    seen_lf := true,
    cur_header := some example_header_line,
    num_headers := n,
    headers := hs }

/-! ## Writes into the body line buffer -/

/-- The index at which `pdkim_bodyline_complete` writes into `ctx->linebuf`:
the NUL it stores at `line.len`, unless end of data has been seen. -/
def bodyline_complete_writes (ctx : pdkim_ctx) : List Nat :=
  if ctx.seen_eod then [] else [ctx.linebuf_offset]

/-- The index at which the first statement of the body branch of `pdkim_feed`
writes: the emulated CR goes to `linebuf[linebuf_offset]`. -/
def body_emulate_cr_writes (ctx : pdkim_ctx) (c : Nat) : List Nat :=
  if c = LF ∧ ctx.seen_cr = false then [ctx.linebuf_offset] else []

/-- The indices at which "Processing body byte" writes: the byte goes to
`linebuf[linebuf_offset]`, and a line feed has `pdkim_bodyline_complete`
called on the line with that byte in it. -/
def body_store_writes (ctx : pdkim_ctx) (c : Nat) : List Nat :=
  ctx.linebuf_offset ::
    (if c = CR then []
     else if c = LF then
       bodyline_complete_writes { ctx with linebuf := ctx.linebuf ++ [c], seen_cr := false }
     else [])

/-- The indices of `ctx->linebuf` written in one round of the loop of
`pdkim_feed` in body mode, in the order of the writes; the cases are those of
`feed_body_byte`. -/
def feed_body_byte_writes (ctx : pdkim_ctx) (c : Nat) : List Nat :=
  if c = LF ∧ ctx.seen_cr = false ∧
      (body_emulate_cr ctx c).linebuf_offset = PDKIM_MAX_BODY_LINE_LEN - 1 then
    body_emulate_cr_writes ctx c
  else body_emulate_cr_writes ctx c ++ body_store_writes (body_emulate_cr ctx c) c

/-- The indices of `ctx->linebuf` written in one round of the loop of
`pdkim_feed`: the header branch does not write there. -/
def pdkim_feed_byte_writes (ctx : pdkim_ctx) (c : Nat) : List Nat :=
  if ctx.past_hdrs then feed_body_byte_writes ctx c else []

/-- The indices of `ctx->linebuf` written by the loop of `pdkim_feed` over
the bytes of `data`, up to the round that returns. -/
def pdkim_feed_loop_writes (env : Env) : pdkim_ctx → List Nat → List Nat
  | _, [] => []
  | ctx, c :: rest =>
    pdkim_feed_byte_writes ctx c ++
      (if (pdkim_feed_byte env ctx c).2 = PDKIM_OK then
        pdkim_feed_loop_writes env (pdkim_feed_byte env ctx c).1 rest
      else [])

/-- The indices of `ctx->linebuf` written by one call of `pdkim_feed`, the
writes of `pdkim_bodyline_complete` included; with NULL nothing is written. -/
def pdkim_feed_writes (env : Env) (ctx : pdkim_ctx) (data : Option (List Nat)) : List Nat :=
  match data with
  | none => []
  | some d => pdkim_feed_loop_writes env ctx d

/-- The codes returned by a sequence of calls of `pdkim_feed`, each call
working on the context the call before it left. -/
def feed_calls_rcs (env : Env) : pdkim_ctx → List (Option (List Nat)) → List pdkim_rc
  | _, [] => []
  | ctx, d :: ds => (pdkim_feed env ctx d).2 :: feed_calls_rcs env (pdkim_feed env ctx d).1 ds

/-! ## Bare line feeds -/

/-- The byte stream in which every LF that is not immediately preceded by CR
is replaced by CR LF (the transformation of claim C12, not code of
`pdkim.c`); `prev_cr` tells whether the byte before the stream is a CR. -/
def crlf_fix : Bool → List Nat → List Nat
  | _, [] => []
  | prev_cr, c :: rest =>
    if c = LF ∧ prev_cr = false then CR :: LF :: crlf_fix false rest
    else c :: crlf_fix (decide (c = CR)) rest

/-- The class of byte streams of the amended claim C12 (not code of
`pdkim.c`): every LF that is not immediately preceded by CR has no CR
anywhere before it on its line, that is, after the LF before it.  `seen`
tells whether the line so far holds a CR, `prev_cr` whether the byte before
the stream is a CR. -/
def bare_lf_lines_ok : Bool → Bool → List Nat → Bool
  | _, _, [] => true
  | seen, prev_cr, c :: rest =>
    if c = LF then (prev_cr || !seen) && bare_lf_lines_ok false false rest
    else if c = CR then bare_lf_lines_ok true true rest
    else bare_lf_lines_ok seen false rest

/-- What claim C12 compares in two contexts: the stored header lines (in the
context and in every signature) and the Body Hashes. -/
def SameStored (c1 c2 : pdkim_ctx) : Prop :=
  c1.headers = c2.headers ∧ c1.sig = c2.sig ∧ c1.bodyhash = c2.bodyhash

/-! ## The tag list of a `DKIM-Signature:` header, read as a list of tags -/

/-- A byte that can begin a tag name: a lower-case letter. -/
def is_tag_start (c : Nat) : Bool := decide (97 ≤ c ∧ c ≤ 122)

/-- Folding white space: CR, LF, space and tab. -/
def is_fws (c : Nat) : Bool := c == CR || c == LF || c == SP || c == TAB

/-- The tags of a tag list, in order, read by splitting (a description of
the header, not code of `pdkim.c`): a tag begins at the first lower-case
letter; its name is what stands before the next `=`, white space removed;
its value is what stands between that `=` and the next `;` (or the end),
folding white space removed; the next tag is looked for after that `;`.
The first argument bounds the number of tags. -/
def lex_tags_fuel : Nat → List Nat → List (List Nat × List Nat)
  | 0, _ => []
  | n + 1, s =>
    match s.dropWhile (fun c => !is_tag_start c) with
    | [] => []
    | c1 :: s1 =>
      match (c1 :: s1).dropWhile (fun c => c != EQUALS) with
      | [] => []
      | _ :: s3 =>
        (((c1 :: s1).takeWhile (fun c => c != EQUALS)).filter (fun c => !isspace c),
          (s3.takeWhile (fun c => c != SEMICOLON)).filter (fun c => !is_fws c)) ::
          (match s3.dropWhile (fun c => c != SEMICOLON) with
           | [] => []
           | _ :: s5 => lex_tags_fuel n s5)

/-- The bytes of a tag list with the value of every tag `b` deleted, all
other bytes kept in order; the tags are those of `lex_tags_fuel`. -/
def without_b_fuel : Nat → List Nat → List Nat
  | 0, s => s
  | n + 1, s =>
    s.takeWhile (fun c => !is_tag_start c) ++
      (match s.dropWhile (fun c => !is_tag_start c) with
       | [] => []
       | c1 :: s1 =>
         (c1 :: s1).takeWhile (fun c => c != EQUALS) ++
           (match (c1 :: s1).dropWhile (fun c => c != EQUALS) with
            | [] => []
            | _ :: s3 =>
              EQUALS ::
                ((if ((c1 :: s1).takeWhile (fun c => c != EQUALS)).filter
                      (fun c => !isspace c) = US "b" then []
                  else s3.takeWhile (fun c => c != SEMICOLON)) ++
                  (match s3.dropWhile (fun c => c != SEMICOLON) with
                   | [] => []
                   | _ :: s5 => SEMICOLON :: without_b_fuel n s5))))

/-- The tag list of a header: what follows its first colon. -/
def tag_list_of (raw_hdr : List Nat) : List Nat :=
  ((cstr raw_hdr).dropWhile (fun c => c != COLON)).tail

/-- The tags of a header, as `lex_tags_fuel` reads them in its tag list. -/
def lex_tags (raw_hdr : List Nat) : List (List Nat × List Nat) :=
  lex_tags_fuel ((tag_list_of raw_hdr).length + 1) (tag_list_of raw_hdr)

/-- The header with every byte between the `=` of a tag `b` and the `;` that
ends the tag (or the end of the string) deleted, all other bytes kept in
order. -/
def without_b_value (raw_hdr : List Nat) : List Nat :=
  (cstr raw_hdr).takeWhile (fun c => c != COLON) ++
    (match (cstr raw_hdr).dropWhile (fun c => c != COLON) with
     | [] => []
     | _ :: rest => COLON :: without_b_fuel (rest.length + 1) rest)

/-- A byte string with its trailing CRs and LFs removed. -/
def drop_trailing_crlf (s : List Nat) : List Nat :=
  (s.reverse.dropWhile (fun x => x == CR || x == LF)).reverse

/-- What a tag does to the signature: a tag with a value, whose name has one
byte or begins with `b`, goes through the tag switch. -/
def tag_apply (env : Env) (sig : pdkim_signature) (tv : List Nat × List Nat) :
    pdkim_signature :=
  if tv.2 ≠ [] ∧ (tv.1.length = 1 ∨ tv.1.head? = some 98) then sig_set_tag env sig tv.1 tv.2
  else sig

/-- The value accumulated in `cur_val` after more bytes have been appended. -/
def val_acc (v : Option (List Nat)) (add : List Nat) : Option (List Nat) :=
  if add = [] then v else some (v.getD [] ++ add)

/-- The scanning loop, started in state `st` on the bytes `s` and ended by the
NUL after them, comes to its end with the copy `q` and the signature `sig`. -/
def ScanGives (env : Env) (st : sig_scan) (s : List Nat) (q : List Nat)
    (sig : pdkim_signature) : Prop :=
  ∃ st2, (scan_chars env st s).bind (fun x => scan_char env x 0) = some st2 ∧
    st2.q = q ∧ st2.sig = sig

/-- A state of the scanning loop between two tags. -/
def LimboState (st : sig_scan) : Prop :=
  st.past_hname = true ∧ st.hdr_where = PDKIM_HDR_LIMBO ∧ st.in_b_val = false ∧
    st.cur_tag = none ∧ st.cur_val = none

/-- A `DKIM-Signature:` header with a folded value of `b`; used in concrete
instances. -/
def example_sig_header : List Nat :=
  US "DKIM-Signature: v=1; a=rsa-sha256; bh=aGFzaA==; b=c2ln\r\n bmF0; d=example.com\r\n"

/-- A `DKIM-Signature:` header that has the tag `a` and no other tag. -/
def example_a_only_header : List Nat := US "DKIM-Signature: a=rsa-sha256"

/-- A `DKIM-Signature:` header with a space inside the value of `d`. -/
def example_spaced_header : List Nat := US "DKIM-Signature: a=rsa-sha256; d=exam ple.com"

/-- A scan state with the copy of the header left out. -/
def erase_q (st : sig_scan) : sig_scan := { st with q := [] }

/-- The string fields of a signature that are copies of a tag value hold no
folding white space. -/
def NoFwsFields (sig : pdkim_signature) : Prop :=
  ∀ v, (sig.domain = some v ∨ sig.selector = some v ∨ sig.headernames = some v) →
    ∀ c ∈ v, is_fws c = false

/-! ## The end of the message (`pdkim_feed_finish`) -/

/-- The index `KEYTYPE_ED25519` of "ed25519" in the table `pdkim_keytypes`. -/
def KEYTYPE_ED25519 : Int := 1

/-- What `pdkim_feed_finish` takes from outside its own code.
`exim_sha_finish h data` is the digest of a hash context that was set up for
the hash type `h` and was given the bytes `data`.
`dkim_verify_hashes`, `dkim_verify_keytypes` and `dkim_verify_minimal` are
the Exim globals of these names; `acl_signers` tells whether `acl_smtp_dkim`
is set and `dkim_verify_signers` is a string that is not empty.
`list_elements list sep` is the sequence of elements that successive calls of
`string_nextinlist` return for `list` when the separator variable starts as
`sep`.
`dns_txt_callback` is the callback of the context, `none` being NULL.
`exim_dkim_verify_init key ed25519` is the number of bits of the key, or
`none` when the import of the key reports an error.
`exim_dkim_verify key keytype hashtype hhash sighash` tells whether the check
of the signature reports no error; the key type and the hash type fix the
hash method handed over.
`min_keybits keytype` is the number read from the entry of the key type in
`dkim_verify_min_keysizes`, `none` when that string is empty or has no such
entry.
`exim_dkim_signing_init privkey` is the key type of the private key, or
`none` when the import of the key reports an error.
`exim_dkim_sign privkey keytype hashtype data` is the signature over `data`
with the key that was imported, or `none` when signing reports an error; the
key type and the hash type fix the hash method handed over.
`string_append_listele g sep ele` is the growable string `g` (`none` for
NULL) after the Exim function of that name has appended the list element
`ele`; `string_append_listele_n` is the same function for the first bytes of
a string.
`b64encode` is the Exim function of that name. -/
structure FinishEnv where
  exim_sha_finish : Int → List Nat → List Nat
  dkim_verify_hashes : List Nat
  dkim_verify_keytypes : List Nat
  dkim_verify_minimal : Bool
  acl_signers : Bool
  list_elements : List Nat → Nat → List (List Nat)
  dns_txt_callback : List Nat → Option (List Nat)
  exim_dkim_verify_init : List Nat → Bool → Option Nat
  exim_dkim_verify : List Nat → Int → Int → List Nat → List Nat → Bool
  min_keybits : Int → Option Nat
  exim_dkim_signing_init : List Nat → Option Int
  exim_dkim_sign : List Nat → Int → Int → List Nat → Option (List Nat)
  string_append_listele : Option (List Nat) → Nat → List Nat → Option (List Nat)
  b64encode : List Nat → List Nat

/-- The function `pdkim_hashname_to_hashtype`: the index of the first hash
name whose first `len` bytes agree with those of `s`, `len` being the length
of `s` when it is given as 0. -/
def pdkim_hashname_to_hashtype (s : List Nat) (len : Nat) : Int :=
  match pdkim_hashes.findIdx?
      (fun t => Ustrncmp_eq s t (if len = 0 then (cstr s).length % UINT_RANGE else len)) with
  | some i => i
  | none => -1

/-- The Body Hash a signature points to with `calc_body_hash`; `none` when
the pointer is NULL. -/
def sig_body_hash (ctx : pdkim_ctx) (sig : pdkim_signature) : Option pdkim_bodyhash :=
  sig.calc_body_hash.bind (fun k => ctx.bodyhash.find? (fun b => decide (b.key = k)))

/-- The body of the loop over the signatures in `pdkim_finish_bodyhash`; the
digest `b->bh` is what `exim_sha_finish` gave for the Body Hash in the loop
before.  When signing, a body-length limit the body did not reach is taken
off.  When verifying, a signature whose header gave no body hash, or one
that differs from the digest, is marked FAIL with FAIL_BODY.  The value is
`none` when a NULL `calc_body_hash` is dereferenced. -/
def finish_bodyhash_sig (fenv : FinishEnv) (ctx : pdkim_ctx) (sig : pdkim_signature) :
    Option pdkim_signature :=
  if ctx.mode_sign then
    (sig_body_hash ctx sig).map (fun b =>
      if b.signed_body_bytes < (sig.bodylength % (ULONG_RANGE : Int)).toNat then
        { sig with bodylength := -1 }
      else sig)
  else
    match sig.bodyhash with
    | none =>
      some { sig with
        verify_status := pdkim_verify_status.PDKIM_VERIFY_FAIL,
        verify_ext_status := pdkim_verify_ext_status.PDKIM_VERIFY_FAIL_BODY }
    | some d =>
      (sig_body_hash ctx sig).map (fun b =>
        if d = fenv.exim_sha_finish b.hashtype b.hashed then sig
        else
          { sig with
            verify_status := pdkim_verify_status.PDKIM_VERIFY_FAIL,
            verify_ext_status := pdkim_verify_ext_status.PDKIM_VERIFY_FAIL_BODY })

/-- The loop over the signatures in `pdkim_finish_bodyhash`. -/
def finish_bodyhash_sigs (fenv : FinishEnv) (ctx : pdkim_ctx) :
    List pdkim_signature → Option (List pdkim_signature)
  | [] => some []
  | sig :: rest =>
    match finish_bodyhash_sig fenv ctx sig, finish_bodyhash_sigs fenv ctx rest with
    | some s, some r => some (s :: r)
    | _, _ => none

/-- The function `pdkim_finish_bodyhash`. -/
def pdkim_finish_bodyhash (fenv : FinishEnv) (ctx : pdkim_ctx) : Option pdkim_ctx :=
  (finish_bodyhash_sigs fenv ctx ctx.sig).map (fun l => { ctx with sig := l })

/-- One of the two passes of `sort_sig_methods`: for every preferred type in
turn, the signatures of that type are moved, in their order, from `siglist`
to the end of the list that is built. -/
def select_sigs (type_of : pdkim_signature → Int) :
    List Int → List pdkim_signature → List pdkim_signature
  | [], _ => []
  | i :: prefs, siglist =>
    siglist.filter (fun s => decide (type_of s = i)) ++
      select_sigs type_of prefs (siglist.filter (fun s => !decide (type_of s = i)))

/-- The function `sort_sig_methods`: the signatures are selected in the order
of the hash types of `dkim_verify_hashes`, then in the order of the key
types of `dkim_verify_keytypes`; a signature of another type is dropped. -/
def sort_sig_methods (fenv : FinishEnv) (env : Env) (siglist : List pdkim_signature) :
    List pdkim_signature :=
  if siglist = [] then []
  else
    select_sigs (fun s => s.keytype)
      ((fenv.list_elements fenv.dkim_verify_keytypes 0).map
        (fun ele => pdkim_keyname_to_keytype env ele))
      (select_sigs (fun s => s.hashtype)
        ((fenv.list_elements fenv.dkim_verify_hashes 0).map
          (fun ele => pdkim_hashname_to_hashtype ele 0))
        siglist)

/-- The macro `PDKIM_PUB_RECORD_VERSION` of `pdkim.c` (line 50), the fixed
record-version string "DKIM1". -/
def PDKIM_PUB_RECORD_VERSION : List Nat := US "DKIM1"

/-- The public key record after `memset(pub, 0, sizeof(pdkim_pubkey))`. -/
def pubkey_init : pdkim_pubkey :=
  { version := none, granularity := none, hashes := none, keytype := none, srvtype := none,
    notes := none, key := none, testing := 0, no_subdomaining := 0 }

/-- The strings `tspec` of the rounds of the loop of
`pdkim_parse_pubkey_record`: the record is cut at its semicolons and the
white space at the start of each piece is skipped (`Uskip_whitespace`).  The
loop makes no round for an empty rest after the last semicolon; such a round
would find no `=` and change nothing. -/
def pubkey_elements (raw_record : List Nat) : List (List Nat) :=
  (List.splitOn SEMICOLON (cstr raw_record)).map (fun ele => ele.dropWhile isspace)

/-- The tag length `taglen` after the loop that ignores white space before
the `=`: the loop runs while `taglen` is more than 1. -/
def pubkey_taglen (tag : List Nat) : Nat :=
  if tag.length ≤ 1 then tag.length else max 1 (tag.reverse.dropWhile isspace).length

/-- The tag byte of an element of a public key record, for an element that
has a `=` and a tag of length 1: the byte the tag switch looks at. -/
def pubkey_tag (tspec : List Nat) : Option Nat :=
  if EQUALS ∈ tspec ∧ pubkey_taglen (tspec.takeWhile (fun c => c != EQUALS)) = 1 then
    tspec.head?
  else none

/-- The value of an element of a public key record that has a `=`: the
bytes behind the first `=`, the white space at their start skipped, and,
when the last byte of the element is white space, the white space at their
end trimmed.  The value is `none` when the trimming gives NULL. -/
def pubkey_value (env : Env) (tspec : List Nat) : Option (List Nat) :=
  if isspace (tspec.getLast?.getD 0) = true then
    env.trim_trailing_space (((tspec.dropWhile (fun c => c != EQUALS)).tail).dropWhile isspace)
  else some (((tspec.dropWhile (fun c => c != EQUALS)).tail).dropWhile isspace)

/-- The tag switch of `pdkim_parse_pubkey_record` for a tag of one byte; an
unknown tag (`bad_tag`) leaves the record as it is. -/
def pubkey_set_tag (env : Env) (pub : pdkim_pubkey) (t : Nat) (val : List Nat) :
    pdkim_pubkey :=
  if t = 118 then { pub with version := some val }
  else if t = 104 then { pub with hashes := some val }
  else if t = 107 then { pub with keytype := some val }
  else if t = 103 then { pub with granularity := some val }
  else if t = 110 then { pub with notes := some (pdkim_decode_qp (cstr val)) }
  else if t = 112 then { pub with key := env.b64decode val }
  else if t = 115 then { pub with srvtype := some val }
  else if t = 116 then
    { pub with
      testing := if 121 ∈ cstr val then 1 else pub.testing,
      no_subdomaining := if 115 ∈ cstr val then 1 else pub.no_subdomaining }
  else pub

/-- One round of the loop of `pdkim_parse_pubkey_record` for the element
`tspec`; `none` when the function returns NULL in this round ("Missing
value for tag"). -/
def pubkey_element (env : Env) (pub : pdkim_pubkey) (tspec : List Nat) :
    Option pdkim_pubkey :=
  if EQUALS ∈ tspec then
    match pubkey_value env tspec with
    | none => none
    | some val =>
      (match pubkey_tag tspec with
       | some t => some (pubkey_set_tag env pub t val)
       | none => some pub)
  else some pub

/-- The rounds of the loop of `pdkim_parse_pubkey_record`. -/
def pubkey_rounds (env : Env) : List (List Nat) → pdkim_pubkey → Option pdkim_pubkey
  | [], pub => some pub
  | tspec :: rest, pub =>
    match pubkey_element env pub tspec with
    | none => none
    | some pub1 => pubkey_rounds env rest pub1

/-- The statements of `pdkim_parse_pubkey_record` behind its loop: the
fallback defaults, the check of the version and the check that there is key
material. -/
def pubkey_finish (pub : pdkim_pubkey) : Option pdkim_pubkey :=
  if (match pub.version with
      | some v => decide (cstr v ≠ PDKIM_PUB_RECORD_VERSION)
      | none => false) = true then none
  else if pub.key.isSome then
    some { pub with
      version := some (pub.version.getD PDKIM_PUB_RECORD_VERSION),
      granularity := some (pub.granularity.getD (US "*")),
      keytype := some (pub.keytype.getD (US "rsa")),
      srvtype := some (pub.srvtype.getD (US "*")) }
  else none

/-- The function `pdkim_parse_pubkey_record`; `none` is NULL. -/
def pdkim_parse_pubkey_record (env : Env) (raw_record : List Nat) : Option pdkim_pubkey :=
  match pubkey_rounds env (pubkey_elements raw_record) pubkey_init with
  | none => none
  | some pub => pubkey_finish pub

/-- The function `check_bare_ed25519_pubkey`: of a key blob longer than 32
bytes the 32 bytes from the offset `excess` on are kept; `excess` is an
`int`. -/
def check_bare_ed25519_pubkey (p : pdkim_pubkey) : pdkim_pubkey :=
  let excess : Int := (((p.key.getD []).length : Int) - 32 + 2 ^ 31) % 2 ^ 32 - 2 ^ 31
  if 0 < excess then { p with key := p.key.map (fun k => (k.drop excess.toNat).take 32) }
  else p

/-- The statements of `pdkim_key_from_dns` that take the key type from the
public key record when the signature has none. -/
def key_from_dns_keytype (env : Env) (sig : pdkim_signature) (p : pdkim_pubkey) :
    pdkim_signature :=
  if sig.keytype < 0 then
    { sig with keytype := pdkim_keyname_to_keytype env (p.keytype.getD []) }
  else sig

/-- The end of `pdkim_key_from_dns`, the import of the public key: a key
type that is still unknown and a key that cannot be imported make the
signature INVALID with PUBKEY_IMPORT. -/
def key_from_dns_import (fenv : FinishEnv) (sig : pdkim_signature) (p : pdkim_pubkey) :
    pdkim_signature × Option pdkim_pubkey :=
  if sig.keytype < 0 then
    ({ sig with
        verify_status := pdkim_verify_status.PDKIM_VERIFY_INVALID,
        verify_ext_status := pdkim_verify_ext_status.PDKIM_VERIFY_INVALID_PUBKEY_IMPORT },
      none)
  else
    match fenv.exim_dkim_verify_init
        ((if sig.keytype = KEYTYPE_ED25519 then check_bare_ed25519_pubkey p else p).key.getD [])
        (decide (sig.keytype = KEYTYPE_ED25519)) with
    | none =>
      ({ sig with
          verify_status := pdkim_verify_status.PDKIM_VERIFY_INVALID,
          verify_ext_status := pdkim_verify_ext_status.PDKIM_VERIFY_INVALID_PUBKEY_IMPORT },
        none)
    | some bits =>
      ({ sig with keybits := bits },
        some (if sig.keytype = KEYTYPE_ED25519 then check_bare_ed25519_pubkey p else p))

/-- The function `pdkim_key_from_dns` for a signature whose selector and
domain are not NULL: the signature as the function leaves it, and the public
key it returns (`none` for NULL).  Without a DNS record the signature is
INVALID with PUBKEY_UNAVAILABLE, with a record that cannot be used it is
INVALID with PUBKEY_DNSRECORD. -/
def pdkim_key_from_dns (fenv : FinishEnv) (env : Env) (sig : pdkim_signature) :
    pdkim_signature × Option pdkim_pubkey :=
  match fenv.dns_txt_callback
      (cstr (sig.selector.getD []) ++ US "._domainkey." ++ cstr (sig.domain.getD []) ++
        US ".") with
  | none =>
    ({ sig with
        verify_status := pdkim_verify_status.PDKIM_VERIFY_INVALID,
        verify_ext_status := pdkim_verify_ext_status.PDKIM_VERIFY_INVALID_PUBKEY_UNAVAILABLE },
      none)
  | some dns_txt_reply =>
    if cstr dns_txt_reply = [] then
      ({ sig with
          verify_status := pdkim_verify_status.PDKIM_VERIFY_INVALID,
          verify_ext_status :=
            pdkim_verify_ext_status.PDKIM_VERIFY_INVALID_PUBKEY_UNAVAILABLE },
        none)
    else
      match pdkim_parse_pubkey_record env dns_txt_reply with
      | none =>
        ({ sig with
            verify_status := pdkim_verify_status.PDKIM_VERIFY_INVALID,
            verify_ext_status :=
              pdkim_verify_ext_status.PDKIM_VERIFY_INVALID_PUBKEY_DNSRECORD },
          none)
      | some p =>
        if cstr (p.srvtype.getD []) ≠ US "*" ∧ cstr (p.srvtype.getD []) ≠ US "email" then
          ({ sig with
              verify_status := pdkim_verify_status.PDKIM_VERIFY_INVALID,
              verify_ext_status :=
                pdkim_verify_ext_status.PDKIM_VERIFY_INVALID_PUBKEY_DNSRECORD },
            none)
        else key_from_dns_import fenv (key_from_dns_keytype env sig p) p

/-- The inner loop of the verification branch over the stored headers, which
carry a tag each: the first header that is not tagged, begins with `name`
(letter case apart) and has a colon right after it, is tagged and given to
the hash. -/
def select_header (name : List Nat) :
    List (List Nat × Bool) → Option (List Nat) × List (List Nat × Bool)
  | [] => (none, [])
  | (value, tag) :: hdrs =>
    if tag = false ∧ strncasecmp_eq value name name.length = true ∧
        value.get? name.length = some COLON then
      (some value, (value, true) :: hdrs)
    else ((select_header name hdrs).1, (value, tag) :: (select_header name hdrs).2)

/-- The loop of the verification branch over the header names of `h=`: the
bytes given to the header hash, every header in relaxed form with CR LF when
the header canonicalisation is relaxed. -/
def verify_headers_data (canon_headers : Int) :
    List (List Nat) → List (List Nat × Bool) → List Nat
  | [], _ => []
  | name :: names, hdrs =>
    (match (select_header name hdrs).1 with
     | some value =>
       if canon_headers = PDKIM_CANON_RELAXED then cstr (pdkim_relax_header value true)
       else value
     | none => []) ++
      verify_headers_data canon_headers names (select_header name hdrs).2

/-- The bytes given to the header hash of a signature in verify mode: the
headers that `h=` selects from the stored headers, then the signature header
without the value of `b`, relaxed when the header canonicalisation is;
without `h=` there is only the empty string. -/
def verify_hash_data (ctx : pdkim_ctx) (sig : pdkim_signature) : List Nat :=
  match sig.headernames with
  | none => []
  | some p =>
    verify_headers_data sig.canon_headers (List.splitOn COLON (cstr p))
        (ctx.headers.map (fun value => (cstr value, false))) ++
      cstr (if sig.canon_headers = PDKIM_CANON_RELAXED then
          pdkim_relax_header (cstr sig.rawsig_no_b_val) false
        else sig.rawsig_no_b_val)

/-- The test "all required signature tags" of the verification branch. -/
def has_required_tags (sig : pdkim_signature) : Bool :=
  decide (cstr (sig.domain.getD []) ≠ []) && decide (cstr (sig.selector.getD []) ≠ []) &&
    decide (cstr (sig.headernames.getD []) ≠ []) && sig.bodyhash.isSome &&
    sig.sighash.isSome && decide (0 ≤ sig.keytype) && decide (0 ≤ sig.hashtype) &&
    decide (sig.version ≠ 0)

/-- The check of the key size in the verification branch: a key with fewer
bits than asked for its key type makes the signature FAIL with
PUBKEY_KEYSIZE.  The public key is stored in the signature. -/
def verify_keysize (fenv : FinishEnv) (sig1 : pdkim_signature) (p : pdkim_pubkey) :
    pdkim_signature :=
  if (match fenv.min_keybits sig1.keytype with
      | some minbits => decide (sig1.keybits < minbits)
      | none => false) = true then
    { sig1 with
      pubkey := some p,
      verify_status := pdkim_verify_status.PDKIM_VERIFY_FAIL,
      verify_ext_status := pdkim_verify_ext_status.PDKIM_VERIFY_INVALID_PUBKEY_KEYSIZE }
  else { sig1 with pubkey := some p }

/-- The test of the hash allow-list of the public key in the verification
branch: the key has a list and no element of it is the name of the hash type
of the signature. -/
def hash_not_allowed (fenv : FinishEnv) (sig1 : pdkim_signature) (p : pdkim_pubkey) : Bool :=
  match p.hashes with
  | none => false
  | some list =>
    !(fenv.list_elements list COLON).any
      (fun ele => decide (pdkim_hashes.get? sig1.hashtype.toNat = some (cstr ele)))

/-- The verification branch behind the key lookup, for the signature and the
public key that `pdkim_key_from_dns` has left: the hash allow-list of the
key, the check of the signature over the hash of the headers, the key size,
and the verdict PASS for a signature that has no verdict yet. -/
def verify_with_key (fenv : FinishEnv) (ctx : pdkim_ctx) (sig1 : pdkim_signature)
    (p : pdkim_pubkey) : pdkim_signature × Bool :=
  if hash_not_allowed fenv sig1 p = true then
    ({ sig1 with
        pubkey := some p,
        verify_status := pdkim_verify_status.PDKIM_VERIFY_FAIL,
        verify_ext_status := pdkim_verify_ext_status.PDKIM_VERIFY_FAIL_SIG_ALGO_MISMATCH },
      false)
  else if fenv.exim_dkim_verify (p.key.getD []) sig1.keytype sig1.hashtype
      (fenv.exim_sha_finish sig1.hashtype (verify_hash_data ctx sig1))
      (sig1.sighash.getD []) = false then
    ({ sig1 with
        pubkey := some p,
        verify_status := pdkim_verify_status.PDKIM_VERIFY_FAIL,
        verify_ext_status := pdkim_verify_ext_status.PDKIM_VERIFY_FAIL_MESSAGE },
      false)
  else if (verify_keysize fenv sig1 p).verify_status =
      pdkim_verify_status.PDKIM_VERIFY_NONE then
    ({ verify_keysize fenv sig1 p with
        verify_status := pdkim_verify_status.PDKIM_VERIFY_PASS }, true)
  else (verify_keysize fenv sig1 p, false)

/-! ## Folding the signature header (`pdkim_headcat`) -/

/-- The function `pdkim_hdr_cont`: the column it sets and the string with the
continuation line break appended. -/
def pdkim_hdr_cont (str : List Nat) : Int × List Nat := (1, str ++ [CR, LF, TAB])

/-- The head of the loop of `pdkim_headcat` over the payload: a line that has
reached column 78 is continued on a new one. -/
def payload_line (col : Int) (str : List Nat) : Int × List Nat :=
  if 78 ≤ col then pdkim_hdr_cont str else (col, str)

/-- The variable `chomp` of the loop of `pdkim_headcat` over the payload, for
the column `col` and `len` bytes that remain. -/
def payload_chomp (col : Int) (len : Nat) : Int :=
  if col + len > 78 then 78 - col else len

/-- The loop of `pdkim_headcat` over the payload; `payload` is what remains of
it, `len` in the code being its length.  The number bounds the passes of the
loop; every pass takes at least one byte, so the length of the payload is
enough. -/
def headcat_payload : Nat → Int → List Nat → List Nat → Int × List Nat
  | 0, col, str, _ => (col, str)
  | fuel + 1, col, str, payload =>
    if payload = [] then (col, str)
    else
      headcat_payload fuel
        ((payload_line col str).1 + payload_chomp (payload_line col str).1 payload.length)
        ((payload_line col str).2 ++
          payload.take (payload_chomp (payload_line col str).1 payload.length).toNat)
        (payload.drop (payload_chomp (payload_line col str).1 payload.length).toNat)

/-- The "special case" of `pdkim_headcat`: an addition of `len` bytes that
does not fit at the end of the line but fits on a line of its own starts a
new line.  The flag is `padded`. -/
def headcat_fit (len : Int) (col : Int) (str : List Nat) (padded : Bool) :
    Int × List Nat × Bool :=
  if len ≤ 77 ∧ col + len > 78 then
    ((pdkim_hdr_cont str).1, (pdkim_hdr_cont str).2, false)
  else (col, str, padded)

/-- The call `pdkim_headcat(col, str, NULL, NULL, payload)`, which
`pdkim_headcat` makes for its `intro`. -/
def headcat_simple (col : Int) (str : List Nat) (payload : List Nat) : Int × List Nat :=
  headcat_payload payload.length
    (headcat_fit payload.length col str false).1
    (headcat_fit payload.length col str false).2.1 payload

/-- The first statement of `pdkim_headcat`: with a pad, its first byte is
appended when the line has room for it, and the line is continued otherwise.
The value is the column, the string, whether `pad` is still set, and
`padded`. -/
def headcat_pad (col : Int) (str : List Nat) (pad : Option (List Nat)) :
    Int × List Nat × Bool × Bool :=
  match pad with
  | none => (col, str, false, false)
  | some p =>
    if col + 1 ≤ 78 then (col + 1, str ++ [(cstr p).headD 0], false, true)
    else ((pdkim_hdr_cont str).1, (pdkim_hdr_cont str).2, true, false)

/-- The third statement of `pdkim_headcat`: a pad that is still set is
appended with a space; after a pad that was appended before, a space is
appended when the line has room for it. -/
def headcat_space (col : Int) (str : List Nat) (pad0 : Nat) (padset padded : Bool) :
    Int × List Nat :=
  if padset = true then (col + 2, str ++ [pad0, SP])
  else if padded = true ∧ col < 78 then (col + 1, str ++ [SP])
  else (col, str)

/-- The C expression `x ? Ustrlen(x) : 0`. -/
def opt_strlen (x : Option (List Nat)) : Int :=
  match x with
  | none => 0
  | some s => (cstr s).length

/-- The state of `pdkim_headcat` when it comes to its `intro`: column and
string. -/
def headcat_head (col : Int) (str : List Nat) (pad intro payload : Option (List Nat)) :
    Int × List Nat :=
  headcat_space
    (headcat_fit
      ((if (headcat_pad col str pad).2.2.1 = true then 2
        else if (headcat_pad col str pad).2.2.2 = true then 1 else 0) +
          opt_strlen intro + opt_strlen payload)
      (headcat_pad col str pad).1 (headcat_pad col str pad).2.1
      (headcat_pad col str pad).2.2.2).1
    (headcat_fit
      ((if (headcat_pad col str pad).2.2.1 = true then 2
        else if (headcat_pad col str pad).2.2.2 = true then 1 else 0) +
          opt_strlen intro + opt_strlen payload)
      (headcat_pad col str pad).1 (headcat_pad col str pad).2.1
      (headcat_pad col str pad).2.2.2).2.1
    ((cstr (pad.getD [])).headD 0)
    (headcat_pad col str pad).2.2.1
    (headcat_fit
      ((if (headcat_pad col str pad).2.2.1 = true then 2
        else if (headcat_pad col str pad).2.2.2 = true then 1 else 0) +
          opt_strlen intro + opt_strlen payload)
      (headcat_pad col str pad).1 (headcat_pad col str pad).2.1
      (headcat_pad col str pad).2.2.2).2.2

/-- The state of `pdkim_headcat` after its `intro`. -/
def headcat_intro (c : Int × List Nat) (intro : Option (List Nat)) : Int × List Nat :=
  match intro with
  | none => c
  | some i => headcat_simple c.1 c.2 (cstr i)

/-- The function `pdkim_headcat`: the column it leaves in `*col` and the
string it returns.  `none` is a NULL argument; of `pad` only the first byte
is used, which is the NUL for an empty pad.  The lengths are those of C
strings that fit the type `int`. -/
def pdkim_headcat (col : Int) (str : List Nat) (pad intro payload : Option (List Nat)) :
    Int × List Nat :=
  match payload with
  | none => headcat_intro (headcat_head col str pad intro payload) intro
  | some p =>
    headcat_payload (cstr p).length
      (headcat_intro (headcat_head col str pad intro payload) intro).1
      (headcat_intro (headcat_head col str pad intro payload) intro).2 (cstr p)

/-- One byte of a text read for its folding.  The state is the column (the
bytes since the last line feed, as `pdkim_headcat` counts them) and the
number of bytes of a line break CR LF TAB that have been read; there is no
state after a line of more than 78 bytes, after a CR or LF outside such a
line break, and after a CR LF that no TAB follows. -/
def fold_step (s : Option (Int × Nat)) (c : Nat) : Option (Int × Nat) :=
  match s with
  | none => none
  | some (col, k) =>
    if k = 1 then (if c = LF then some (col, 2) else none)
    else if k = 2 then (if c = TAB then some (1, 0) else none)
    else if c = CR then some (col, 1)
    else if c = LF then none
    else if col + 1 ≤ 78 then some (col + 1, 0)
    else none

/-- The column at the end of a text that continues a line at column `col`,
when every line of the text has at most 78 bytes without its CR LF (the
first one counted from `col`) and every CR or LF in it is part of a line
break CR LF TAB; `none` otherwise. -/
def folded_col (col : Int) (text : List Nat) : Option Int :=
  match text.foldl fold_step (some (col, 0)) with
  | some (c, 0) => some c
  | _ => none

/-- The result `r` of a step of `pdkim_headcat` that starts at column `col`
with the string `str`: the string has grown at its end by a text that is
folded as `folded_col` asks, and the column is that of the end of the text
and at most 78. -/
def Appends (col : Int) (str : List Nat) (r : Int × List Nat) : Prop :=
  ∃ out, r.2 = str ++ out ∧ out.foldl fold_step (some (col, 0)) = some (r.1, 0) ∧ r.1 ≤ 78

/-- A C string without CR and LF. -/
def break_free (s : List Nat) : Prop := CR ∉ cstr s ∧ LF ∉ cstr s

/-! ## Ticking header names off the sign list (`header_name_match`) -/

/-- The byte `_`, which marks a ticked-off entry of the sign list. -/
def UNDERSCORE : Nat := 95

/-- The byte `+`. -/
def PLUS : Nat := 43

/-- Modelled from the spec: the Exim function `strcmpic` gives 0 for two
strings that are equal case-insensitively, that is after `tolower` on every
byte. -/
def strcmpic_eq (s t : List Nat) : Bool := s.map tolower == t.map tolower

/-- The flag `multisign` that the `switch (*ele)` of `header_name_match` sets:
the entry begins with `=` or `+`. -/
def tick_multisign (ele : List Nat) : Bool :=
  ele.head? == some EQUALS || ele.head? == some PLUS

/-- The entry after the `switch (*ele)` of `header_name_match`: a leading `=`
or `+` is stepped over. -/
def tick_name (ele : List Nat) : List Nat :=
  if tick_multisign ele then ele.tail else ele

/-- The loop of `header_name_match` over the tick list.  `l` is the list from
`ticklist` on and `done` the bytes of `tick` before it, so that `p` points at
the first byte of `l`; the value is the return code and, for PDKIM_OK, the
bytes of `tick` on return.  The number bounds the passes of the loop, one more than the
length of the list being enough when every call of `string_nextinlist` moves
the list pointer on. -/
def header_name_match_loop (env : Env) (hname : List Nat) :
    Nat → List Nat → List Nat → pdkim_rc × List Nat
  | 0, done, l => (PDKIM_FAIL, done ++ l)
  | fuel + 1, done, l =>
    match (env.string_nextinlist l COLON).1 with
    | none => (PDKIM_FAIL, done ++ l)
    | some ele =>
      if strcmpic_eq (tick_name ele) hname = true then
        (PDKIM_OK, if tick_multisign ele = true then done ++ l else done ++ l.set 0 UNDERSCORE)
      else
        header_name_match_loop env hname fuel
          (done ++ l.take (l.length - (env.string_nextinlist l COLON).2.length))
          (env.string_nextinlist l COLON).2

/-- The function `header_name_match`: the return code and the bytes of `tick`
on return, which are written to only before PDKIM_OK is returned. -/
def header_name_match (env : Env) (header tick : List Nat) : pdkim_rc × List Nat :=
  if COLON ∈ cstr header ∧
      (header_name_match_loop env ((cstr header).takeWhile (fun c => c != COLON))
        ((cstr tick).length + 1) [] (cstr tick)).1 = PDKIM_OK then
    header_name_match_loop env ((cstr header).takeWhile (fun c => c != COLON))
      ((cstr tick).length + 1) [] (cstr tick)
  else (PDKIM_FAIL, cstr tick)

/-- A colon-separated list written out: the entries with a colon between
them. -/
def join_list : List (List Nat) → List Nat
  | [] => []
  | [e] => e
  | e :: es => e ++ COLON :: join_list es

/-- Entries that a colon-separated list holds as they are written: none is
empty and none has a colon, a NUL or white space. -/
def plain_entries (es : List (List Nat)) : Prop :=
  ∀ e ∈ es, e ≠ [] ∧ ∀ c ∈ e, c ≠ COLON ∧ c ≠ 0 ∧ isspace c = false

/-- What the tick loop needs of `string_nextinlist`: an empty list has no
element, and a list of plain entries gives its first entry and the list of
the other entries. -/
def SplitsLists (env : Env) : Prop :=
  env.string_nextinlist [] COLON = (none, []) ∧
    ∀ e es, plain_entries (e :: es) →
      env.string_nextinlist (join_list (e :: es)) COLON = (some e, join_list es)

/-- What `header_name_match` does to the entries of the list for the header
name `hname`: the first entry that is the name, a leading `=` or `+` apart,
ends the search, and gets `_` as its first byte when it has no such prefix. -/
def tick_entry (hname : List Nat) : List (List Nat) → pdkim_rc × List (List Nat)
  | [] => (PDKIM_FAIL, [])
  | e :: es =>
    if strcmpic_eq (tick_name e) hname = true then
      (PDKIM_OK, (if tick_multisign e = true then e else UNDERSCORE :: e.tail) :: es)
    else ((tick_entry hname es).1, e :: (tick_entry hname es).2)

/-- The name of a header: the bytes before its first colon. -/
def header_name (header : List Nat) : List Nat :=
  (cstr header).takeWhile (fun c => c != COLON)

/-! ## The signature header that is built when signing (`pdkim_create_header`) -/

/-- The macro `PDKIM_SIGNATURE_VERSION` of `pdkim.c` (line 49), the version
`1` that a signature header of this library announces. -/
def PDKIM_SIGNATURE_VERSION : List Nat := US "1"

/-- The function `dkim_sig_to_a_tag`: "err" for a key type or hash type
below 0 or above the number of entries of its table, and the two names with
a dash between them otherwise.  For a type that equals the number of
entries the C code reads past the end of the table; the value is `none`
there. -/
def dkim_sig_to_a_tag (env : Env) (sig : pdkim_signature) : Option (List Nat) :=
  if sig.keytype < 0 ∨ ((pdkim_keytypes env).length : Int) < sig.keytype ∨
      sig.hashtype < 0 ∨ (pdkim_hashes.length : Int) < sig.hashtype then some (US "err")
  else
    match (pdkim_keytypes env).get? sig.keytype.toNat, pdkim_hashes.get? sig.hashtype.toNat with
    | some k, some h => some (k ++ US "-" ++ h)
    | _, _ => none

/-- The entry `pdkim_canons[i]` as `string_cat` can take it: `none` for the
NULL that ends the table and for an index outside the table. -/
def canon_name (i : Int) : Option (List Nat) :=
  if i = PDKIM_CANON_SIMPLE then some (US "simple")
  else if i = PDKIM_CANON_RELAXED then some (US "relaxed")
  else none

/-- The entry `pdkim_querymethods[i]` as an argument of `pdkim_headcat`: the
inner value is `none` for the NULL that ends the table, the outer one for an
index outside the table. -/
def querymethod_name (i : Int) : Option (Option (List Nat)) :=
  if i = 0 then some (some (US "dns/txt"))
  else if i = 1 then some none
  else none

/-- The text `snprintf` writes for `%lu`: the decimal digits of the number. -/
def decimal (n : Nat) : List Nat := (Nat.toDigits 10 n).map Char.toNat

/-- A call of `pdkim_headcat` on the column and string of the header so
far. -/
def headcat_at (c : Int × List Nat) (pad intro payload : Option (List Nat)) :
    Int × List Nat :=
  pdkim_headcat c.1 c.2 pad intro payload

/-- The start of `pdkim_create_header`: the name of the header with the
version, and the tags `a`, `q`, `c`, `d` and `s`. -/
def create_header_start (a_tag : List Nat) (q : Option (List Nat)) (canon_all : List Nat)
    (sig : pdkim_signature) : Int × List Nat :=
  headcat_at
    (headcat_at
      (headcat_at
        (headcat_at
          (headcat_at
            (((US "DKIM-Signature: v=" ++ PDKIM_SIGNATURE_VERSION).length : Int),
              US "DKIM-Signature: v=" ++ PDKIM_SIGNATURE_VERSION)
            (some (US ";")) (some (US "a=")) (some a_tag))
          (some (US ";")) (some (US "q=")) q)
        (some (US ";")) (some (US "c=")) (some canon_all))
      (some (US ";")) (some (US "d=")) sig.domain)
    (some (US ";")) (some (US "s=")) sig.selector

/-- One pass of the loop of `pdkim_create_header` over the header names: the
first name follows `h=` after the pad, a later one follows a colon. -/
def create_header_name (first : Bool) (c : Int × List Nat) (name : List Nat) :
    Int × List Nat :=
  if first = true then headcat_at c (some (US ";")) (some (US "h=")) (some name)
  else headcat_at (headcat_at c none none (some (US ":"))) none none (some name)

/-- The loop of `pdkim_create_header` over the header names; `n` is what
remains of the copy of `headernames`.  The number bounds the passes of the
loop, every pass taking the list past a colon. -/
def create_header_names : Nat → Bool → Int × List Nat → List Nat → Int × List Nat
  | 0, _, c, _ => c
  | fuel + 1, first, c, n =>
    if n = [] then c
    else if COLON ∈ n then
      create_header_names fuel false
        (create_header_name first c (n.takeWhile (fun x => x != COLON)))
        (n.dropWhile (fun x => x != COLON)).tail
    else create_header_name first c n

/-- The tag `i` of `pdkim_create_header`, written when there is an
identity. -/
def create_header_i (sig : pdkim_signature) (c : Int × List Nat) : Int × List Nat :=
  match sig.identity with
  | some identity => headcat_at c (some (US ";")) (some (US "i=")) (some identity)
  | none => c

/-- The tag `t` of `pdkim_create_header`, written when `created` is above
0. -/
def create_header_t (sig : pdkim_signature) (c : Int × List Nat) : Int × List Nat :=
  if 0 < sig.created then
    headcat_at c (some (US ";")) (some (US "t=")) (some (decimal sig.created))
  else c

/-- The tag `x` of `pdkim_create_header`, written when `expires` is above
0. -/
def create_header_x (sig : pdkim_signature) (c : Int × List Nat) : Int × List Nat :=
  if 0 < sig.expires then
    headcat_at c (some (US ";")) (some (US "x=")) (some (decimal sig.expires))
  else c

/-- The tag `l` of `pdkim_create_header`, written when `bodylength` is not
negative. -/
def create_header_l (sig : pdkim_signature) (c : Int × List Nat) : Int × List Nat :=
  if 0 ≤ sig.bodylength then
    headcat_at c (some (US ";")) (some (US "l=")) (some (decimal sig.bodylength.toNat))
  else c

/-- The optional tags of `pdkim_create_header`: `i`, `t`, `x` and `l`, in
this order. -/
def create_header_optional (sig : pdkim_signature) (c : Int × List Nat) : Int × List Nat :=
  create_header_l sig (create_header_x sig (create_header_t sig (create_header_i sig c)))

/-- The end of `pdkim_create_header`: the tag `b` with the signature in
base64 and a semicolon in the final version, `b=;` in the preliminary one. -/
def create_header_end (b64encode : List Nat → List Nat) (sig : pdkim_signature)
    (final : Bool) (c : Int × List Nat) : Int × List Nat :=
  if final = true then
    headcat_at
      (headcat_at c (some (US ";")) (some (US "b=")) (some (b64encode (sig.sighash.getD []))))
      none (some (US ";")) (some [])
  else headcat_at c (some (US ";")) (some (US "b=;")) (some [])

/-- The function `pdkim_create_header`, the digest of the Body Hash of the
signature being `bh`.  The value is `none` where the C code has no defined
result: when `headernames` is NULL (it is copied with `string_copy`), when a
canonicalisation or the query method is outside its table, and when
`dkim_sig_to_a_tag` reads past a table. -/
def create_header_with (b64encode : List Nat → List Nat) (env : Env) (sig : pdkim_signature)
    (bh : List Nat) (final : Bool) : Option (List Nat) :=
  match canon_name sig.canon_headers, canon_name sig.canon_body, dkim_sig_to_a_tag env sig,
      querymethod_name sig.querymethod, sig.headernames with
  | some ch, some cb, some a_tag, some q, some names =>
    some (create_header_end b64encode sig final
      (create_header_optional sig
        (headcat_at
          (create_header_names ((cstr names).length + 1) true
            (create_header_start a_tag q (ch ++ US "/" ++ cb) sig) (cstr names))
          (some (US ";")) (some (US "bh=")) (some (b64encode bh))))).2
  | _, _, _, _, _ => none

/-! ## The signing branch of `pdkim_feed_finish` -/

/-- The first loop of the signing branch, over the headers of the signature
(newest first): a header whose name `header_name_match` finds in the sign
list `tick` has its name appended to the list of names `g` and is given to
the header hash, in relaxed form with CR LF when the header canonicalisation
is relaxed.  The value is the sign list, the list of names and the bytes
given to the hash. -/
def sign_walk (fenv : FinishEnv) (env : Env) (canon_headers : Int) :
    List (List Nat) → List Nat → Option (List Nat) → List Nat →
      List Nat × Option (List Nat) × List Nat
  | [], tick, g, data => (tick, g, data)
  | rh :: rest, tick, g, data =>
    if (header_name_match env rh tick).1 = PDKIM_OK then
      sign_walk fenv env canon_headers rest (header_name_match env rh tick).2
        (fenv.string_append_listele g COLON (header_name rh))
        (data ++
          (if canon_headers = PDKIM_CANON_RELAXED then cstr (pdkim_relax_header (cstr rh) true)
           else cstr rh))
    else sign_walk fenv env canon_headers rest tick g data

/-- The element `s` of the second loop of the signing branch after
`if (*s == '+') s++`. -/
def leftover_name (s : List Nat) : List Nat :=
  if s.head? = some PLUS then s.tail else s

/-- The second loop of the signing branch, over the elements of the sign
list: an element is appended to the list of names, without a leading `+`,
unless it then begins with `_` or `=`. -/
def sign_leftover (fenv : FinishEnv) : List (List Nat) → Option (List Nat) → Option (List Nat)
  | [], g => g
  | s :: rest, g =>
    if (leftover_name s).head? ≠ some UNDERSCORE ∧ (leftover_name s).head? ≠ some EQUALS then
      sign_leftover fenv rest (fenv.string_append_listele g COLON (leftover_name s))
    else sign_leftover fenv rest g

/-- The two loops of the signing branch: the signature with the sign list as
`header_name_match` leaves it and with the header names that were collected,
and the bytes given to the header hash.  A NULL sign list has no element. -/
def sign_collect (fenv : FinishEnv) (env : Env) (sig : pdkim_signature) :
    pdkim_signature × List Nat :=
  ({ sig with
      sign_headers := sig.sign_headers.map (fun l =>
        (sign_walk fenv env sig.canon_headers sig.headers (cstr l) none []).1),
      headernames :=
        sign_leftover fenv
          (fenv.list_elements
            (sign_walk fenv env sig.canon_headers sig.headers
              (cstr (sig.sign_headers.getD [])) none []).1 0)
          (sign_walk fenv env sig.canon_headers sig.headers
            (cstr (sig.sign_headers.getD [])) none []).2.1 },
    (sign_walk fenv env sig.canon_headers sig.headers
      (cstr (sig.sign_headers.getD [])) none []).2.2)

/-- The function `pdkim_create_header` for a signature of the context; the
value is `none` also when the signature has no Body Hash. -/
def pdkim_create_header (fenv : FinishEnv) (env : Env) (ctx : pdkim_ctx)
    (sig : pdkim_signature) (final : Bool) : Option (List Nat) :=
  (sig_body_hash ctx sig).bind (fun b =>
    create_header_with fenv.b64encode env sig (fenv.exim_sha_finish b.hashtype b.hashed) final)

/-- The bytes given to the header hash of a signature in sign mode, the key
type being set: the headers that the sign list selects, then the signature
header with `b=;`, relaxed when the header canonicalisation is.  The value
is `none` when `pdkim_create_header` has no defined result. -/
def sign_hash_data (fenv : FinishEnv) (env : Env) (ctx : pdkim_ctx) (sig : pdkim_signature) :
    Option (List Nat) :=
  (pdkim_create_header fenv env ctx (sign_collect fenv env sig).1 false).map (fun sig_hdr =>
    (sign_collect fenv env sig).2 ++
      cstr (if sig.canon_headers = PDKIM_CANON_RELAXED then
          pdkim_relax_header (cstr sig_hdr) false
        else sig_hdr))

/-- The signing of the header data, the key type being set: the signature
gets its `sighash` and the final signature header, and the loop goes on
(`none`); or the function returns PDKIM_ERR_RSA_SIGNING; or
`pdkim_create_header` has no defined result (`some none`).  With
`SIGN_HAVE_ED25519`, an Ed25519 key signs the digest of the header data, any
other key the header data. -/
def sign_with_key (fenv : FinishEnv) (env : Env) (ctx : pdkim_ctx) (sig : pdkim_signature) :
    pdkim_signature × Option (Option pdkim_rc) :=
  match sign_hash_data fenv env ctx sig with
  | none => ((sign_collect fenv env sig).1, some none)
  | some data =>
    match fenv.exim_dkim_sign (sig.privkey.getD []) sig.keytype sig.hashtype
        (if env.sign_have_ed25519 = true ∧ sig.keytype = KEYTYPE_ED25519 then
          fenv.exim_sha_finish sig.hashtype data
        else data) with
    | none => ((sign_collect fenv env sig).1, some (some PDKIM_ERR_RSA_SIGNING))
    | some sighash =>
      ({ (sign_collect fenv env sig).1 with
          sighash := some sighash,
          signature_header :=
            pdkim_create_header fenv env ctx
              { (sign_collect fenv env sig).1 with sighash := some sighash } true },
        none)

/-- The signing branches of the loop of `pdkim_feed_finish` for one
signature: the signature as they leave it, and the way the loop is left, if
it is: `some (some rc)` for `return rc`, `some none` when the code has no
defined result. -/
def sign_signature (fenv : FinishEnv) (env : Env) (ctx : pdkim_ctx) (sig : pdkim_signature) :
    pdkim_signature × Option (Option pdkim_rc) :=
  match fenv.exim_dkim_signing_init (sig.privkey.getD []) with
  | none => (sig, some (some PDKIM_ERR_RSA_PRIVKEY))
  | some keytype => sign_with_key fenv env ctx { sig with keytype := keytype }

/-- The verification branch of the loop of `pdkim_feed_finish` for one
signature, up to the label `NEXT_VERIFY`: the signature as it is left, and
whether it was found to pass here.  A signature that lacks a required tag is
INVALID with SIGNATURE_ERROR, one with another version than 1 is INVALID
with DKIM_VERSION; then comes the key lookup. -/
def verify_signature (fenv : FinishEnv) (env : Env) (ctx : pdkim_ctx)
    (sig : pdkim_signature) : pdkim_signature × Bool :=
  if has_required_tags sig = false then
    ({ sig with
        verify_status := pdkim_verify_status.PDKIM_VERIFY_INVALID,
        verify_ext_status := pdkim_verify_ext_status.PDKIM_VERIFY_INVALID_SIGNATURE_ERROR },
      false)
  else if sig.version ≠ 1 then
    ({ sig with
        verify_status := pdkim_verify_status.PDKIM_VERIFY_INVALID,
        verify_ext_status := pdkim_verify_ext_status.PDKIM_VERIFY_INVALID_DKIM_VERSION },
      false)
  else
    match (pdkim_key_from_dns fenv env sig).2 with
    | none => ({ (pdkim_key_from_dns fenv env sig).1 with pubkey := none }, false)
    | some p => verify_with_key fenv ctx (pdkim_key_from_dns fenv env sig).1 p

/-- The loop of `pdkim_feed_finish` over the signatures, `verify_pass` being
the flag of that name: the signatures as the loop leaves them, the flag, and
the way the function is left from within the loop: `some (some rc)` for
`return rc`, `some none` when the code has no defined result, `none` when
the loop ends.  In verify mode a signature marked FAIL is passed over; the
loop is left when the hash of the headers cannot be set up, and after a pass
when `dkim_verify_minimal` asks for it. -/
def finish_loop (fenv : FinishEnv) (env : Env) (ctx : pdkim_ctx) :
    List pdkim_signature → Bool → List pdkim_signature × Bool × Option (Option pdkim_rc)
  | [], verify_pass => ([], verify_pass, none)
  | sig :: rest, verify_pass =>
    if ctx.mode_sign = false ∧
        sig.verify_status = pdkim_verify_status.PDKIM_VERIFY_FAIL then
      (sig :: (finish_loop fenv env ctx rest verify_pass).1,
        (finish_loop fenv env ctx rest verify_pass).2)
    else if env.exim_sha_init sig.hashtype = false then (sig :: rest, verify_pass, none)
    else if ctx.mode_sign then
      if (sign_signature fenv env ctx sig).2 = none then
        ((sign_signature fenv env ctx sig).1 :: (finish_loop fenv env ctx rest verify_pass).1,
          (finish_loop fenv env ctx rest verify_pass).2)
      else
        ((sign_signature fenv env ctx sig).1 :: rest, verify_pass,
          (sign_signature fenv env ctx sig).2)
    else if ((verify_pass || (verify_signature fenv env ctx sig).2) &&
        fenv.dkim_verify_minimal && !fenv.acl_signers) = true then
      ((verify_signature fenv env ctx sig).1 :: rest,
        verify_pass || (verify_signature fenv env ctx sig).2, none)
    else
      ((verify_signature fenv env ctx sig).1 ::
          (finish_loop fenv env ctx rest
            (verify_pass || (verify_signature fenv env ctx sig).2)).1,
        (finish_loop fenv env ctx rest
          (verify_pass || (verify_signature fenv env ctx sig).2)).2)

/-- The function `pdkim_feed_finish`: the context it leaves and its return
code; the list it hands back in `*return_signatures` is the field `sig` of
that context.  The value is `none` when `pdkim_finish_bodyhash` dereferences
a NULL pointer and when the signing branch has no defined result. -/
def pdkim_feed_finish (fenv : FinishEnv) (env : Env) (ctx : pdkim_ctx) :
    Option (pdkim_ctx × pdkim_rc) :=
  if (pdkim_feed_finish_flush env ctx).2 ≠ PDKIM_OK then some (pdkim_feed_finish_flush env ctx)
  else
    (pdkim_finish_bodyhash fenv (pdkim_feed_finish_flush env ctx).1).bind (fun ctx1 =>
      let sigs := if ctx1.mode_sign then ctx1.sig else sort_sig_methods fenv env ctx1.sig
      if sigs = [] then some ({ ctx1 with sig := [] }, PDKIM_OK)
      else
        match (finish_loop fenv env ctx1 sigs false).2.2 with
        | some exit =>
          exit.map (fun rc => ({ ctx1 with sig := (finish_loop fenv env ctx1 sigs false).1 }, rc))
        | none =>
          some ({ ctx1 with sig := (finish_loop fenv env ctx1 sigs false).1 },
            if ctx1.mode_sign = true ∨ (finish_loop fenv env ctx1 sigs false).2.1 = true then
              PDKIM_OK
            else PDKIM_FAIL))

/-- Every signature of the context points to one of its Body Hashes. -/
def SigsLinked (ctx : pdkim_ctx) : Prop :=
  ∀ sig ∈ ctx.sig, ∃ b ∈ ctx.bodyhash, sig.calc_body_hash = some b.key

/-- The second context has the mode, the signatures and the tuples of the
Body Hashes of the first. -/
def SameSigs (c1 c2 : pdkim_ctx) : Prop :=
  c2.mode_sign = c1.mode_sign ∧ c2.sig = c1.sig ∧
    c2.bodyhash.map pdkim_bodyhash.key = c1.bodyhash.map pdkim_bodyhash.key

/-- The verdict of a signature that has no body hash is FAIL with
FAIL_BODY. -/
def NoBhFails (sig : pdkim_signature) : Prop :=
  sig.bodyhash = none →
    sig.verify_status = pdkim_verify_status.PDKIM_VERIFY_FAIL ∧
      sig.verify_ext_status = pdkim_verify_ext_status.PDKIM_VERIFY_FAIL_BODY

/-- A setting for `pdkim_feed_finish` in which the digest is the data itself,
sha256 and sha512 and both key types are accepted, lists are split at
colons, and there is no DNS record; every private key is an RSA key, the
signature over some data is the data itself, list elements are appended
with the separator between them, and base64 is the identity; used in
concrete instances. -/
def example_fenv : FinishEnv :=
  { exim_sha_finish := fun _ data => data,
    dkim_verify_hashes := US "sha256:sha512",
    dkim_verify_keytypes := US "ed25519:rsa",
    dkim_verify_minimal := false,
    acl_signers := false,
    list_elements := fun l _ => if l = [] then [] else List.splitOn COLON l,
    dns_txt_callback := fun _ => none,
    exim_dkim_verify_init := fun _ _ => none,
    exim_dkim_verify := fun _ _ _ _ _ => false,
    min_keybits := fun _ => none,
    exim_dkim_signing_init := fun _ => some 0,
    exim_dkim_sign := fun _ _ _ data => some data,
    string_append_listele := fun g sep ele =>
      some (if g.getD [] = [] then ele else g.getD [] ++ sep :: ele),
    b64encode := fun data => data }

/-- A message whose `DKIM-Signature:` header has every required tag except
`bh`, followed by one body line. -/
def example_no_bh_message : List Nat :=
  US "DKIM-Signature: v=1; a=rsa-sha256; d=example.com; s=sel; h=from; b=c2ln\r\nFrom: a@example.com\r\n\r\nhello\r\n"

/-- The verify-mode context that has been fed `example_no_bh_message`. -/
def example_no_bh_ctx : pdkim_ctx :=
  (pdkim_feed example_env (pdkim_init_verify false 0) (some example_no_bh_message)).1

/-! ## The verdicts of the verification branch -/

/-- The names the verification branch asks the DNS callback for, for one
signature: `pdkim_key_from_dns`, which calls the callback once, is reached
behind the check of the required tags and the check of the version only. -/
def verify_signature_queries (sig : pdkim_signature) : List (List Nat) :=
  if has_required_tags sig = false then []
  else if sig.version ≠ 1 then []
  else [cstr (sig.selector.getD []) ++ US "._domainkey." ++ cstr (sig.domain.getD []) ++ US "."]

/-- The hash allow-list of a public key, if it has one, holds the name of
the hash type. -/
def key_allows_hash (fenv : FinishEnv) (p : pdkim_pubkey) (hashtype : Int) : Prop :=
  ∀ list, p.hashes = some list →
    ∃ ele ∈ fenv.list_elements list COLON, pdkim_hashes.get? hashtype.toNat = some (cstr ele)

/-- The key has at least the number of bits asked for its key type, if a
number is asked for. -/
def keysize_ok (fenv : FinishEnv) (keytype : Int) (keybits : Nat) : Prop :=
  ∀ minbits, fenv.min_keybits keytype = some minbits → minbits ≤ keybits

/-- What the loop of `pdkim_feed_finish` makes of a signature in verify mode:
a signature marked FAIL is left as it is, another one is left as it is (when
the loop ends before it) or is what the verification branch makes of it. -/
def LoopStep (fenv : FinishEnv) (env : Env) (ctx : pdkim_ctx) (x s : pdkim_signature) :
    Prop :=
  (x.verify_status = pdkim_verify_status.PDKIM_VERIFY_FAIL ∧ s = x) ∨
    (x.verify_status ≠ pdkim_verify_status.PDKIM_VERIFY_FAIL ∧
      (s = x ∨ s = (verify_signature fenv env ctx x).1))

/-- What the loop of `pdkim_finish_bodyhash` makes of a signature in verify
mode: it is left as it is when its body hash is the digest of its Body Hash,
and is marked FAIL with FAIL_BODY otherwise. -/
def BodyhashStep (fenv : FinishEnv) (ctx : pdkim_ctx) (x s : pdkim_signature) : Prop :=
  (s = x ∧ ∃ b ∈ ctx.bodyhash, x.calc_body_hash = some b.key ∧
      x.bodyhash = some (fenv.exim_sha_finish b.hashtype b.hashed)) ∨
    s = { x with
      verify_status := pdkim_verify_status.PDKIM_VERIFY_FAIL,
      verify_ext_status := pdkim_verify_ext_status.PDKIM_VERIFY_FAIL_BODY }

/-- Every signature of the second context is one of the first or one that
`pdkim_parse_sig_header` has returned; the mode is the same. -/
def SigsFrom (env : Env) (c1 c2 : pdkim_ctx) : Prop :=
  c2.mode_sign = c1.mode_sign ∧
    ∀ sig ∈ c2.sig, sig ∈ c1.sig ∨
      ∃ c0 raw c, pdkim_parse_sig_header env c0 raw = (c, some sig)

/-- A setting for `pdkim_feed_finish` in which the digest of some data is one
letter that stands for their length, every DNS name has the record
`p=a2V5`, every key is imported with 2048 bits and every signature checks;
used in concrete instances. -/
def example_pass_fenv : FinishEnv :=
  { exim_sha_finish := fun _ data => [97 + data.length % 26],
    dkim_verify_hashes := US "sha256:sha512",
    dkim_verify_keytypes := US "ed25519:rsa",
    dkim_verify_minimal := false,
    acl_signers := false,
    list_elements := fun l _ => if l = [] then [] else List.splitOn COLON l,
    dns_txt_callback := fun _ => some (US "p=a2V5"),
    exim_dkim_verify_init := fun _ _ => some 2048,
    exim_dkim_verify := fun _ _ _ _ _ => true,
    min_keybits := fun _ => none,
    exim_dkim_signing_init := fun _ => some 0,
    exim_dkim_sign := fun _ _ _ data => some data,
    string_append_listele := fun g sep ele =>
      some (if g.getD [] = [] then ele else g.getD [] ++ sep :: ele),
    b64encode := fun data => data }

/-- The setting `example_pass_fenv` with `dkim_verify_minimal` set. -/
def example_minimal_fenv : FinishEnv :=
  { example_pass_fenv with dkim_verify_minimal := true }

/-- A message with one signature whose body hash is right and whose version
is 2, and the body `hello`. -/
def example_v2_message : List Nat :=
  US "DKIM-Signature: v=2; a=rsa-sha256; d=example.com; s=sel; h=from; bh=h; b=c2ln\r\nFrom: a@example.com\r\n\r\nhello\r\n"

/-- A message with one signature whose body hash is right and that has no
version tag, and the body `hello`. -/
def example_no_v_message : List Nat :=
  US "DKIM-Signature: a=rsa-sha256; d=example.com; s=sel; h=from; bh=h; b=c2ln\r\nFrom: a@example.com\r\n\r\nhello\r\n"

/-- A message with one signature that has every required tag, the right body
hash and version 1, and the body `hello`. -/
def example_good_message : List Nat :=
  US "DKIM-Signature: v=1; a=rsa-sha256; d=example.com; s=sel; h=from; bh=h; b=c2ln\r\nFrom: a@example.com\r\n\r\nhello\r\n"

/-- A message without a signature. -/
def example_unsigned_message : List Nat :=
  US "From: a@example.com\r\n\r\nhello\r\n"

/-- The verify-mode context, without dot-stuffing, that has been fed the
message in one call. -/
def fed_verify_ctx (env : Env) (message : List Nat) : pdkim_ctx :=
  feed_calls env (pdkim_init_verify false 0) [some message]

/-! ## The headers that `h=` selects in verify mode -/

/-- The test of the inner loop of the verification branch: the stored header
`value` begins with `name` (letter case apart) and has a colon right after
it. -/
def hdr_matches (name value : List Nat) : Bool :=
  strncasecmp_eq value name name.length && decide (value.get? name.length = some COLON)

/-- Two header names that differ in letter case at most. -/
def same_name (a b : List Nat) : Bool := a.map tolower == b.map tolower

/-- The place, in the list of stored headers, of the header that the inner
loop of the verification branch selects for `name`: the first one that is
not tagged and passes the test. -/
def select_header_idx (name : List Nat) : List (List Nat × Bool) → Option Nat
  | [] => none
  | (value, tag) :: hdrs =>
    if tag = false ∧ strncasecmp_eq value name name.length = true ∧
        value.get? name.length = some COLON then some 0
    else (select_header_idx name hdrs).map (fun i => i + 1)

/-- The stored headers with the header at the selected place tagged. -/
def tag_selected (hdrs : List (List Nat × Bool)) (o : Option Nat) : List (List Nat × Bool) :=
  match o with
  | none => hdrs
  | some i => hdrs.set i ((hdrs.getD i ([], false)).1, true)

/-- For every position of `h=`, the place of the stored header that is given
to the header hash for it, `none` when no header is. -/
def selected_indices : List (List Nat) → List (List Nat × Bool) → List (Option Nat)
  | [], _ => []
  | name :: names, hdrs =>
    select_header_idx name hdrs ::
      selected_indices names (tag_selected hdrs (select_header_idx name hdrs))

/-- The bytes given to the header hash for one position of `h=`: the
selected header, in relaxed form with CR LF when the header canonicalisation
is relaxed, and nothing when no header is selected. -/
def position_data (canon_headers : Int) (stored : List (List Nat × Bool)) (o : Option Nat) :
    List Nat :=
  match o with
  | some i =>
    if canon_headers = PDKIM_CANON_RELAXED then
      cstr (pdkim_relax_header (stored.getD i ([], false)).1 true)
    else (stored.getD i ([], false)).1
  | none => []

/-- The number of stored headers that are not tagged and pass the test for
`name`. -/
def unused_matching (name : List Nat) (hdrs : List (List Nat × Bool)) : Nat :=
  hdrs.countP (fun h => !h.2 && hdr_matches name h.1)

/-- The number of positions with a name like `n` for which a header is
selected. -/
def selected_count (n : List Nat) : List (List Nat) → List (Option Nat) → Nat
  | name :: names, o :: os =>
    (if same_name name n = true ∧ o.isSome = true then 1 else 0) + selected_count n names os
  | _, _ => 0

/-! ## Setting up a signature for signing -/

/-- The function `pdkim_init_sign` without its debug output: NULL for a NULL
argument and for a hash name that is not in `pdkim_hashes`; otherwise a
signature that is all zero except for the domain, the selector, the private
key, `bodylength` and `keytype`, which are -1, and the hash type. -/
def pdkim_init_sign (domain selector privkey : Option (List Nat)) (hashname : List Nat) :
    Option pdkim_signature :=
  match domain, selector, privkey with
  | some d, some s, some k =>
    (table_index pdkim_hashes hashname).map (fun i =>
      { sig_init with
        domain := some (cstr d), selector := some (cstr s), privkey := some (cstr k),
        keytype := -1, hashtype := i })
  | _, _, _ => none

/-- The function `pdkim_set_optional`; `default_sign_headers` is the macro
`PDKIM_DEFAULT_SIGN_HEADERS`, taken when `sign_headers` is NULL. -/
def pdkim_set_optional (default_sign_headers : List Nat) (sig : pdkim_signature)
    (sign_headers identity : Option (List Nat)) (canon_headers canon_body bodylength : Int)
    (created expires : Nat) : pdkim_signature :=
  { sig with
    identity := match identity with
      | some i => some (cstr i)
      | none => sig.identity,
    sign_headers := some (cstr (sign_headers.getD default_sign_headers)),
    canon_headers := canon_headers, canon_body := canon_body, bodylength := bodylength,
    created := created, expires := expires }

/-- A sign-mode context with one signature, set up with the functions of the
library: the signature of `pdkim_init_sign` for the domain `example.com`,
the selector `sel` and sha256, with the sign list `sign_headers` and the
given header canonicalisation from `pdkim_set_optional`, linked to its Body
Hash by `pdkim_set_sig_bodyhash` and put on the list of the context; used in
concrete instances. -/
def example_signing_ctx (sign_headers : List Nat) (canon_headers : Int) : pdkim_ctx :=
  match pdkim_init_sign (some (US "example.com")) (some (US "sel")) (some (US "key"))
      (US "sha256") with
  | none => pdkim_init_context false 0
  | some sig =>
    { (pdkim_set_sig_bodyhash example_env (pdkim_init_context false 0)
          (pdkim_set_optional [] sig (some sign_headers) none canon_headers 0 (-1) 0 0)).1 with
      sig := [(pdkim_set_sig_bodyhash example_env (pdkim_init_context false 0)
          (pdkim_set_optional [] sig (some sign_headers) none canon_headers 0 (-1) 0 0)).2.1] }

/-- A message with a `From:` header, then a `To:` header, and the body
`hello`. -/
def example_two_headers : List Nat :=
  US "From: a@example.com\r\nTo: b@example.com\r\n\r\nhello\r\n"

/-! ## What the signing branch selects -/

/-- The headers for which the first loop of the signing branch finds the
name in the sign list, in the order of the walk. -/
def sign_matched (env : Env) : List (List Nat) → List Nat → List (List Nat)
  | [], _ => []
  | rh :: rest, tick =>
    if (header_name_match env rh tick).1 = PDKIM_OK then
      rh :: sign_matched env rest (header_name_match env rh tick).2
    else sign_matched env rest tick

/-- The sign list as the first loop of the signing branch leaves it. -/
def sign_ticked (env : Env) : List (List Nat) → List Nat → List Nat
  | [], tick => tick
  | rh :: rest, tick =>
    if (header_name_match env rh tick).1 = PDKIM_OK then
      sign_ticked env rest (header_name_match env rh tick).2
    else sign_ticked env rest tick

/-- The bytes of a header that are given to the header hash when signing:
the header in relaxed form with CR LF when the header canonicalisation is
relaxed, the header as it is otherwise. -/
def canon_header (canon_headers : Int) (rh : List Nat) : List Nat :=
  if canon_headers = PDKIM_CANON_RELAXED then cstr (pdkim_relax_header (cstr rh) true)
  else cstr rh

/-- The list of names `g` after the names have been appended, one call of
`string_append_listele` each. -/
def append_names (fenv : FinishEnv) (g : Option (List Nat)) (names : List (List Nat)) :
    Option (List Nat) :=
  names.foldl (fun g n => fenv.string_append_listele g COLON n) g

/-- The test of the second loop of the signing branch: the element, a
leading `+` apart, begins neither with `_` nor with `=`. -/
def leftover_kept (s : List Nat) : Bool :=
  decide ((leftover_name s).head? ≠ some UNDERSCORE ∧ (leftover_name s).head? ≠ some EQUALS)

/-- What the first loop of the signing branch does to the entries of the
sign list: the headers whose name is found, and the entries at the end. -/
def tick_walk : List (List Nat) → List (List Nat) → List (List Nat) × List (List Nat)
  | [], es => ([], es)
  | rh :: rest, es =>
    if COLON ∈ cstr rh ∧ (tick_entry (header_name rh) es).1 = PDKIM_OK then
      (rh :: (tick_walk rest (tick_entry (header_name rh) es).2).1,
        (tick_walk rest (tick_entry (header_name rh) es).2).2)
    else tick_walk rest es

/-- The byte `<`, which changes the separator at the start of a list that is
read with the default separator. -/
def LESS : Nat := 60

/-- What the second loop of the signing branch needs of `string_nextinlist`
with the default separator: a list of plain entries that does not begin with
`<` gives its entries. -/
def SplitsDefault (fenv : FinishEnv) : Prop :=
  ∀ es, plain_entries es → (join_list es).head? ≠ some LESS →
    fenv.list_elements (join_list es) 0 = es

/-- A message with one `To:` header and the body `hello`. -/
def example_to_message : List Nat :=
  US "To: b@example.com\r\n\r\nhello\r\n"

/-- A message whose `DKIM-Signature:` header has every required tag except
`h`, and the body `hello` that its `bh` is the digest of in the setting
`example_pass_fenv`. -/
def example_no_h_message : List Nat :=
  US "DKIM-Signature: v=1; a=rsa-sha256; d=example.com; s=sel; bh=h; b=c2ln\r\nFrom: a@example.com\r\n\r\nhello\r\n"

/-! ## The index of the white space test in `pdkim_parse_pubkey_record` -/

/-- The string `val` of a round of `pdkim_parse_pubkey_record` after
`Uskip_whitespace(&val)`: the bytes of the element behind its first `=`,
the white space at their start skipped. -/
def pubkey_val (tspec : List Nat) : List Nat :=
  ((tspec.dropWhile (fun c => c != EQUALS)).tail).dropWhile isspace

/-- The index `Ustrlen(val)-1` at which the test
`isspace(val[ Ustrlen(val)-1 ])` reads `val`. -/
def pubkey_test_index (tspec : List Nat) : Int :=
  ((pubkey_val tspec).length : Int) - 1

/-- The byte `val[i]` for an index `i` from -1 on: `val` points into the NUL
terminated copy `tspec` of the element, at the offset
`tspec.length - val.length`, so the index -1 is the byte of `tspec` before
the start of `val`. -/
def pubkey_val_at (tspec : List Nat) (i : Int) : Option Nat :=
  (tspec ++ [0]).get? (((tspec.length : Int) - (pubkey_val tspec).length + i).toNat)

/-! ## What `pdkim_headcat` appends, its line breaks taken out -/

/-- A text with every sequence CR LF TAB in it deleted. -/
def strip_breaks : List Nat → List Nat
  | [] => []
  | [c] => [c]
  | [c, d] => [c, d]
  | c :: l :: t :: rest =>
    if c = CR ∧ l = LF ∧ t = TAB then strip_breaks rest
    else c :: strip_breaks (l :: t :: rest)

/-- The result `r` of a step of `pdkim_headcat` that starts with the string
`str`: the string has grown at its end by a text that is made of line breaks
CR LF TAB and of pieces without CR, and the pieces without the line breaks
make up `added`. -/
def AppendsText (str : List Nat) (r : Int × List Nat) (added : List Nat) : Prop :=
  ∃ pieces : List (List Nat),
    r.2 = str ++ pieces.flatten ∧ (∀ p ∈ pieces, p = [CR, LF, TAB] ∨ CR ∉ p) ∧
      (pieces.filter (fun p => p != [CR, LF, TAB])).flatten = added

/-! ## One Body Hash among the others -/

/-- Everything a Body Hash holds but its hash type: canonicalisation, length
limit, the bytes hashed so far, their count and the number of buffered blank
lines. -/
def bodyhash_view (b : pdkim_bodyhash) : Int × Int × List Nat × Nat × Nat :=
  (b.canon_method, b.bodylength, b.hashed, b.signed_body_bytes, b.num_buffered_blanklines)

/-- A Body Hash with its hash type replaced. -/
def with_hashtype (h : Int) (b : pdkim_bodyhash) : pdkim_bodyhash :=
  { b with hashtype := h }

/-- What `pdkim_bodyline_complete` does to one Body Hash; of the context it
is given the end-of-data flag, the dot-stuffing flag and the line buffer. -/
def bodyline_complete_one (seen_eod dot_term : Bool) (linebuf : List Nat)
    (b : pdkim_bodyhash) : pdkim_bodyhash :=
  if seen_eod then b
  else if dot_term = true ∧ memcmp_eq linebuf [DOT, CR, LF] = true then body_complete_one b
  else if memcmp_eq (unstuff_line dot_term linebuf) [CR, LF] = true then
    { b with num_buffered_blanklines := b.num_buffered_blanklines + 1 }
  else bodyline_hash_one (unstuff_line dot_term linebuf) b

/-- What one round of the loop of `pdkim_feed` does to one Body Hash: only a
line feed in body mode that does not overflow the line buffer touches it, by
completing the line.  Of the context the flags and the line buffer are
used. -/
def feed_byte_one (ctx : pdkim_ctx) (c : Nat) (b : pdkim_bodyhash) : pdkim_bodyhash :=
  if ctx.past_hdrs = true ∧ c = LF ∧
      ¬(ctx.seen_cr = false ∧
        (body_emulate_cr ctx c).linebuf_offset = PDKIM_MAX_BODY_LINE_LEN - 1) then
    bodyline_complete_one ctx.seen_eod ctx.dot_term ((body_emulate_cr ctx c).linebuf ++ [c]) b
  else b

/-- Two contexts whose line feeders hold the same: the flags, the line
buffer, the header buffer and the header count agree. -/
def FeederEq (c1 c2 : pdkim_ctx) : Prop :=
  c1.dot_term = c2.dot_term ∧ c1.past_hdrs = c2.past_hdrs ∧ c1.seen_cr = c2.seen_cr ∧
    c1.seen_lf = c2.seen_lf ∧ c1.seen_eod = c2.seen_eod ∧ c1.linebuf = c2.linebuf ∧
    c1.cur_header = c2.cur_header ∧ c1.num_headers = c2.num_headers

/-- Two contexts whose line feeders are in the same state: their feeders hold
the same, and the contexts are past the headers or both in sign mode.
Nothing is said about their signatures and Body Hashes. -/
def SameFeeder (c1 c2 : pdkim_ctx) : Prop :=
  FeederEq c1 c2 ∧ (c1.past_hdrs = true ∨ (c1.mode_sign = true ∧ c2.mode_sign = true))

/-- A sign-mode context without dot-stuffing that has three Body Hashes, set
up in another order and with other hash types than those of
`example_sign_ctx`, after it has been fed `example_headers`. -/
def example_body_ctx2 : pdkim_ctx :=
  (pdkim_feed example_env
    (set_bodyhash_calls example_env (pdkim_init_context false 0)
      [(0, 1, -1), (1, 0, 7), (0, 0, -1)]) (some example_headers)).1

/-! ## Signing with several signatures -/

/-- The setting `example_pass_fenv` with two private keys that fail: the key
`bad` cannot be imported, and signing with the key `nosign` fails. -/
def example_key_fenv : FinishEnv :=
  { example_pass_fenv with
    exim_dkim_signing_init := fun k => if k = US "bad" then none else some 0,
    exim_dkim_sign := fun k _ _ data => if k = US "nosign" then none else some data }

/-- A signature set up with the functions of the library:
the signature of `pdkim_init_sign` for the domain `example.com`, the selector
`sel`, the given private key and sha256, with the sign list `From` and
simple canonicalisation from `pdkim_set_optional`. -/
def example_key_sig (privkey : List Nat) : Option pdkim_signature :=
  (pdkim_init_sign (some (US "example.com")) (some (US "sel")) (some privkey)
    (US "sha256")).map (fun sig =>
      pdkim_set_optional [] sig (some (US "From")) none 0 0 (-1) 0 0)

/-- A sign-mode context with one signature of `example_key_sig` for each of
the private keys, in their order, each linked to its Body Hash by
`pdkim_set_sig_bodyhash`; used in concrete instances. -/
def example_keys_ctx (keys : List (List Nat)) : pdkim_ctx :=
  keys.foldl (fun c k =>
    match example_key_sig k with
    | none => c
    | some s =>
      { (pdkim_set_sig_bodyhash example_env c s).1 with
        sig := (pdkim_set_sig_bodyhash example_env c s).1.sig ++
          [(pdkim_set_sig_bodyhash example_env c s).2.1] }) (pdkim_init_context false 0)

/-- The context `example_keys_ctx keys` after it has been fed
`example_two_headers`. -/
def example_keys_fed (keys : List (List Nat)) : pdkim_ctx :=
  (pdkim_feed example_env (example_keys_ctx keys) (some example_two_headers)).1

/-- What a call of `pdkim_feed_finish` shows of its result: the return code
and, for each signature, its private key and whether it has a signature
header. -/
def finish_summary (r : Option (pdkim_ctx × pdkim_rc)) :
    Option (pdkim_rc × List (Option (List Nat) × Bool)) :=
  r.map (fun x => (x.2, x.1.sig.map (fun s => (s.privkey, s.signature_header.isSome))))

/-- The context `example_keys_fed keys` as `pdkim_finish_bodyhash` leaves it
in `pdkim_feed_finish`, that is as the loop over the signatures finds it. -/
def example_keys_hashed (keys : List (List Nat)) : pdkim_ctx :=
  (pdkim_finish_bodyhash example_key_fenv
    (pdkim_feed_finish_flush example_env (example_keys_fed keys)).1).getD (example_keys_fed keys)

/-! ## Signing a message and verifying the result -/

/-- A digest of 44 letters, the length of a sha256 digest in base64: 40
letters `A`, then a checksum of the data written with four letters. -/
def example_digest (data : List Nat) : List Nat :=
  List.replicate 40 65 ++
    [97 + data.foldl (fun a c => (a * 31 + c) % 456976) 0 % 26,
     97 + data.foldl (fun a c => (a * 31 + c) % 456976) 0 / 26 % 26,
     97 + data.foldl (fun a c => (a * 31 + c) % 456976) 0 / 676 % 26,
     97 + data.foldl (fun a c => (a * 31 + c) % 456976) 0 / 17576 % 26]

/-- The signature `example_round_fenv` makes over a digest: 44 letters `B`,
then the digest, 88 bytes for a digest of 44 bytes. -/
def example_signature (digest : List Nat) : List Nat :=
  List.replicate 44 66 ++ digest

/-- A setting for `pdkim_feed_finish` with primitives that fit each other:
the digest of some data is `example_digest`, the signature over some data
is `example_signature` of their digest (an Ed25519 key is handed the digest),
and a signature checks exactly when it is the `example_signature` of the
digest handed to the check.  Every DNS name has the record `p=a2V5`, every
key is an RSA key of 2048 bits, and base64 is the identity. -/
def example_round_fenv : FinishEnv :=
  { example_pass_fenv with
    exim_sha_finish := fun _ data => example_digest data,
    exim_dkim_sign := fun _ keytype _ data =>
      some (example_signature (if keytype = KEYTYPE_ED25519 then data else example_digest data)),
    exim_dkim_verify := fun _ _ _ digest sighash => sighash == example_signature digest }

/-- A sign-mode context with one signature, set up with the functions of the
library as `example_signing_ctx` is: the signature of `pdkim_init_sign` for
the domain `example.com`, the selector `sel`, the private key `key` and
sha256, with the sign list `From:To:Subject:Date`, the given header and
body canonicalisation, no body length limit and the time stamps 1700000000
(created) and 1700086400 (expires) from `pdkim_set_optional`. -/
def example_round_ctx (canon_headers canon_body : Int) : pdkim_ctx :=
  match pdkim_init_sign (some (US "example.com")) (some (US "sel")) (some (US "key"))
      (US "sha256") with
  | none => pdkim_init_context false 0
  | some sig =>
    { (pdkim_set_sig_bodyhash example_env (pdkim_init_context false 0)
          (pdkim_set_optional [] sig (some (US "From:To:Subject:Date")) none canon_headers
            canon_body (-1) 1700000000 1700086400)).1 with
      sig := [(pdkim_set_sig_bodyhash example_env (pdkim_init_context false 0)
          (pdkim_set_optional [] sig (some (US "From:To:Subject:Date")) none canon_headers
            canon_body (-1) 1700000000 1700086400)).2.1] }

/-- The signature header `pdkim_feed_finish` makes for the first signature of
a sign-mode context that is fed the message and then the end-of-data signal;
`none` when there is none. -/
def signed_header (fenv : FinishEnv) (env : Env) (ctx : pdkim_ctx) (message : List Nat) :
    Option (List Nat) :=
  (pdkim_feed_finish fenv env
    (pdkim_feed env (pdkim_feed env ctx (some message)).1 none).1).bind (fun r =>
      r.1.sig.head?.bind (fun s => s.signature_header))

/-- The result of `pdkim_feed_finish` in a verify-mode context that is fed
the signature header, CR LF, the message and then the end-of-data signal. -/
def verify_signed (fenv : FinishEnv) (env : Env) (header message : List Nat) :
    Option (pdkim_ctx × pdkim_rc) :=
  pdkim_feed_finish fenv env
    (pdkim_feed env
      (pdkim_feed env (pdkim_init_verify false 0) (some (header ++ [CR, LF] ++ message))).1
      none).1

/-- The verdicts of the signatures after signing the message in the context
and verifying the signed message: `none` when no signature header is made or
`pdkim_feed_finish` has no defined result. -/
def round_trip (fenv : FinishEnv) (env : Env) (ctx : pdkim_ctx) (message : List Nat) :
    Option (List (pdkim_verify_status × pdkim_verify_ext_status)) :=
  (signed_header fenv env ctx message).bind (fun h =>
    (verify_signed fenv env h message).map (fun r =>
      r.1.sig.map (fun s => (s.verify_status, s.verify_ext_status))))

/-- A message with the headers `From:`, `To:`, `Subject:` and `Date:` and
the body line `hello`. -/
def example_round_message : List Nat :=
  US "From: a@example.com\r\nTo: b@example.com\r\nSubject: hi\r\nDate: Mon, 1 Jan 2024 00:00:00 +0000\r\n\r\nhello\r\n"

/-- The bytes given to the header hash of the first signature of a sign-mode
context that is fed the message and then the end-of-data signal, as
`pdkim_feed_finish` computes them after `pdkim_finish_bodyhash` and after
the private key has been imported. -/
def signed_hash_data (fenv : FinishEnv) (env : Env) (ctx : pdkim_ctx) (message : List Nat) :
    Option (List Nat) :=
  (pdkim_finish_bodyhash fenv
    (pdkim_feed_finish_flush env
      (pdkim_feed env (pdkim_feed env ctx (some message)).1 none).1).1).bind (fun c =>
    c.sig.head?.bind (fun s =>
      (fenv.exim_dkim_signing_init (s.privkey.getD [])).bind (fun k =>
        sign_hash_data fenv env c { s with keytype := k })))

/-- The signature value of the first signature after `pdkim_feed_finish` in
a sign-mode context that is fed the message and then the end-of-data
signal. -/
def signed_sighash (fenv : FinishEnv) (env : Env) (ctx : pdkim_ctx) (message : List Nat) :
    Option (List Nat) :=
  (pdkim_feed_finish fenv env
    (pdkim_feed env (pdkim_feed env ctx (some message)).1 none).1).bind (fun r =>
      r.1.sig.head?.bind (fun s => s.sighash))

/-- The signature header made for `example_round_message` with simple header
canonicalisation; its `b=` stands on a continuation line that follows a
space. -/
def example_round_header : List Nat :=
  US "DKIM-Signature: v=1; a=rsa-sha256; q=dns/txt; c=simple/simple; d=example.com;\r\n\ts=sel; h=Date:Subject:To:From;\r\n\tbh=AAAAAAAAAAAAAAAAAAAAAAAAAAAAAAAAAAAAAAAAlwqx; t=1700000000; x=1700086400; \r\n\tb=BBBBBBBBBBBBBBBBBBBBBBBBBBBBBBBBBBBBBBBBBBBBAAAAAAAAAAAAAAAAAAAAAAAAAAAAAAA\r\n\tAAAAAAAAAamnb;"

/-- The bytes before the last tag of the header-hash input for
`example_round_message` signed with simple header canonicalisation: the
four signed headers, newest first, and the signature header up to the value
of `x`. -/
def example_round_hashed : List Nat :=
  US "Date: Mon, 1 Jan 2024 00:00:00 +0000\r\nSubject: hi\r\nTo: b@example.com\r\nFrom: a@example.com\r\nDKIM-Signature: v=1; a=rsa-sha256; q=dns/txt; c=simple/simple; d=example.com;\r\n\ts=sel; h=Date:Subject:To:From;\r\n\tbh=AAAAAAAAAAAAAAAAAAAAAAAAAAAAAAAAAAAAAAAAlwqx; t=1700000000; x=1700086400"

/-- What verifying shows for each signature: the bytes given to its header
hash and its signature value. -/
def verify_hashed (r : Option (pdkim_ctx × pdkim_rc)) :
    Option (List (List Nat × Option (List Nat))) :=
  r.map (fun x => x.1.sig.map (fun s => (verify_hash_data x.1 s, s.sighash)))

/-- The verdicts of the signatures after verifying. -/
def verify_verdicts (r : Option (pdkim_ctx × pdkim_rc)) :
    Option (List (pdkim_verify_status × pdkim_verify_ext_status)) :=
  r.map (fun x => x.1.sig.map (fun s => (s.verify_status, s.verify_ext_status)))

/-! ## Concrete inputs for the header of maximal length -/

/-- An environment like `example_env`, but whose `gstring_trim_trailing`
removes one trailing occurrence of the byte, when there is one, and no
more. -/
def example_trim_one_env : Env :=
  { example_env with
    gstring_trim_trailing := fun g c => if g.getLast? = some c then g.dropLast else g }

/-- A header of `PDKIM_MAX_HEADER_LEN` bytes, all of them the letter `A`. -/
def example_long_header : List Nat := List.replicate PDKIM_MAX_HEADER_LEN 65

/-! ## The value of the tag `a`, read as a list of names -/

/-- A dash-separated list written out: the entries with a dash between them. -/
def join_dash : List (List Nat) → List Nat
  | [] => []
  | [e] => e
  | e :: es => e ++ DASH :: join_dash es

/-- A name that a dash-separated list holds as it is written: it is not
empty and has no dash, no NUL and no white space. -/
def dash_plain (e : List Nat) : Prop :=
  e ≠ [] ∧ ∀ c ∈ e, c ≠ DASH ∧ c ≠ 0 ∧ isspace c = false

/-- What the case `'a'` of the tag switch needs of `string_nextinlist` with
the separator `-`: an empty list has no element, and a list of plain names
gives its first name and the list of the other names. -/
def SplitsDash (env : Env) : Prop :=
  env.string_nextinlist [] DASH = (none, []) ∧
    ∀ e es, (∀ x ∈ e :: es, dash_plain x) →
      env.string_nextinlist (join_dash (e :: es)) DASH = (some e, join_dash es)

/-- A `DKIM-Signature:` header with other tags around the tag `a`. -/
def example_a_among_header : List Nat :=
  US "DKIM-Signature: v=1; a=rsa-sha256; d=example.com"

/-! ## Generic facts about buffers that grow at their end -/

theorem getLast?_snoc_split {l : List Nat} {a : Nat} (h : l.getLast? = some a) :
    l = l.dropLast ++ [a] :=
  (List.dropLast_append_getLast? a h).symm

theorem chain_snoc {R : Nat → Nat → Prop} {l : List Nat} {c : Nat}
    (hl : List.Chain' R l) (hc : ∀ x, l.getLast? = some x → R x c) :
    List.Chain' R (l ++ [c]) := by
  rw [List.chain'_append]
  refine ⟨hl, List.chain'_singleton c, ?_⟩
  intro x hx y hy
  simp only [List.head?_cons, Option.mem_def, Option.some.injEq] at hy
  subst hy
  exact hc x hx

theorem chain_dropLast {R : Nat → Nat → Prop} {l : List Nat}
    (hl : List.Chain' R l) : List.Chain' R l.dropLast :=
  hl.prefix (List.dropLast_prefix l)

/-- In a buffer without two adjacent spaces that ends with a space, the byte
before that space is not a space. -/
theorem getLast?_dropLast_ne_SP {l : List Nat}
    (hl : List.Chain' (fun a b => ¬(a = SP ∧ b = SP)) l)
    (h : l.getLast? = some SP) : l.dropLast.getLast? ≠ some SP := by
  have hs := getLast?_snoc_split h
  rw [hs, List.chain'_append] at hl
  intro hx
  exact hl.2.2 SP hx SP (by simp) ⟨rfl, rfl⟩

/-- The place of the first occurrence of a byte in a list is unique. -/
theorem first_split_unique {c : Nat} :
    ∀ {p1 p2 q1 q2 : List Nat}, p1 ++ c :: q1 = p2 ++ c :: q2 →
      c ∉ p1 → c ∉ p2 → p1 = p2 ∧ q1 = q2
  | [], [], _, _, h, _, _ => by simpa using h
  | [], y :: p2, _, _, h, _, h2 => by
      simp only [List.nil_append, List.cons_append, List.cons.injEq] at h
      exact absurd (by simp [h.1]) h2
  | x :: p1, [], _, _, h, h1, _ => by
      simp only [List.nil_append, List.cons_append, List.cons.injEq] at h
      exact absurd (by simp [h.1]) h1
  | x :: p1, y :: p2, q1, q2, h, h1, h2 => by
      simp only [List.cons_append, List.cons.injEq] at h
      have := @first_split_unique c p1 p2 q1 q2 h.2
        (fun hm => h1 (List.mem_cons_of_mem _ hm)) (fun hm => h2 (List.mem_cons_of_mem _ hm))
      exact ⟨by rw [h.1, this.1], this.2⟩

/-! ## Relaxed header canonicalisation: what the output looks like -/

theorem tolower_eq_or (c : Nat) :
    tolower c = c ∨ (97 ≤ tolower c ∧ tolower c ≤ 122) := by
  unfold tolower
  split <;> omega

theorem relaxHeaderInv_init :
    RelaxHeaderInv { past_field_name := false, seen_wsp := false, relaxed := [] } where
  noctl := by simp
  chain := List.chain'_nil
  wspF := by simp
  wspT := by simp
  nocolon := by simp
  colon := by simp

theorem relaxHeaderInv_step (s : RelaxHeaderState) (c : Nat) (inv : RelaxHeaderInv s) :
    RelaxHeaderInv (relax_header_step s c) := by
  unfold relax_header_step
  by_cases h1 : c = CR ∨ c = LF
  · simpa [h1] using inv
  by_cases h2 : c = TAB ∨ c = SP
  · rw [if_neg h1, if_pos h2]
    by_cases hw : s.seen_wsp = true
    · simpa [hw] using inv
    have hw' : s.seen_wsp = false := by simpa using hw
    have hlow : (if s.past_field_name = true then SP else tolower SP) = SP := by
      split <;> rfl
    simp only [hw', Bool.false_eq_true, if_false, hlow]
    refine ⟨?_, ?_, ?_, ?_, ?_, ?_⟩
    · intro x hx
      rcases List.mem_append.1 hx with hx | hx
      · exact inv.noctl x hx
      · simp only [List.mem_singleton] at hx
        subst hx
        simp [SP, CR, LF, TAB]
    · exact chain_snoc inv.chain (fun x hx hh => inv.wspF hw' (by rw [hx, hh.1]))
    · simp
    · intro _ _
      simp
    · intro hp hm
      rcases List.mem_append.1 hm with hm | hm
      · exact inv.nocolon hp hm
      · simp [COLON, SP] at hm
    · intro hp
      obtain ⟨pre, post, he, hc, hpre, hpost, hnil⟩ := inv.colon hp
      refine ⟨pre, post ++ [SP], by simp [he], hc, hpre, ?_, by simp⟩
      cases post with
      | nil => exact absurd (hnil rfl) (by simp [hw'])
      | cons a post => simpa using hpost
  rw [if_neg h1, if_neg h2]
  have hc13 : c ≠ CR := fun h => h1 (Or.inl h)
  have hc10 : c ≠ LF := fun h => h1 (Or.inr h)
  have hc9 : c ≠ TAB := fun h => h2 (Or.inl h)
  have hc32 : c ≠ SP := fun h => h2 (Or.inr h)
  by_cases h3 : s.past_field_name = false ∧ c = COLON
  · rw [if_pos h3]
    obtain ⟨hp, hcol⟩ := h3
    subst hcol
    have hq : ∀ x ∈ (if s.seen_wsp = true then s.relaxed.dropLast else s.relaxed),
        x ∈ s.relaxed := by
      intro x hx
      split at hx
      · exact List.mem_of_mem_dropLast hx
      · exact hx
    have hqchain : List.Chain' (fun a b => ¬(a = SP ∧ b = SP))
        (if s.seen_wsp = true then s.relaxed.dropLast else s.relaxed) := by
      split
      · exact chain_dropLast inv.chain
      · exact inv.chain
    have hqlast : (if s.seen_wsp = true then s.relaxed.dropLast else s.relaxed).getLast?
        ≠ some SP := by
      split
      · rename_i hw
        exact getLast?_dropLast_ne_SP inv.chain (inv.wspT hp hw)
      · rename_i hw
        exact inv.wspF (by simpa using hw)
    refine ⟨?_, ?_, ?_, ?_, ?_, ?_⟩
    · intro x hx
      rcases List.mem_append.1 hx with hx | hx
      · exact inv.noctl x (hq x hx)
      · simp only [List.mem_singleton] at hx
        subst hx
        simp [COLON, CR, LF, TAB]
    · exact chain_snoc hqchain (fun x _ hh => by simp [COLON, SP] at hh)
    · simp
    · simp
    · simp
    · intro _
      exact ⟨_, [], rfl, fun hm => inv.nocolon hp (hq _ hm), hqlast, by simp, by simp⟩
  · rw [if_neg h3]
    have hc2 : ∀ d, d = (if s.past_field_name = true then c else tolower c) →
        d ≠ CR ∧ d ≠ LF ∧ d ≠ TAB ∧ d ≠ SP ∧ (s.past_field_name = false → d ≠ COLON) := by
      intro d hd
      have ht := tolower_eq_or c
      have hcc : s.past_field_name = false → c ≠ COLON := fun hp hcc => h3 ⟨hp, hcc⟩
      simp only [CR, LF, TAB, SP, COLON] at *
      by_cases hp : s.past_field_name = true
      · simp only [hp, if_true] at hd
        subst hd
        refine ⟨hc13, hc10, hc9, hc32, ?_⟩
        intro hf
        simp [hp] at hf
      · simp only [hp, if_false] at hd
        have hp' : s.past_field_name = false := by simpa using hp
        have := hcc hp'
        subst hd
        simp only [Bool.false_eq_true, if_false]
        exact ⟨by omega, by omega, by omega, by omega, fun _ => by omega⟩
    obtain ⟨g13, g10, g9, g32, g58⟩ := hc2 _ rfl
    refine ⟨?_, ?_, ?_, ?_, ?_, ?_⟩
    · intro x hx
      rcases List.mem_append.1 hx with hx | hx
      · exact inv.noctl x hx
      · simp only [List.mem_singleton] at hx
        subst hx
        exact ⟨g13, g10, g9⟩
    · exact chain_snoc inv.chain (fun x _ hh => g32 hh.2)
    · intro _
      simp only [List.getLast?_concat, ne_eq, Option.some.injEq]
      exact g32
    · simp
    · intro hp hm
      rcases List.mem_append.1 hm with hm | hm
      · exact inv.nocolon hp hm
      · simp only [List.mem_singleton] at hm
        exact g58 hp hm.symm
    · intro hp
      obtain ⟨pre, post, he, hc, hpre, hpost, _⟩ := inv.colon hp
      refine ⟨pre, post ++ [_], by simp only [he, List.append_assoc, List.cons_append]; rfl,
        hc, hpre, ?_, by simp⟩
      cases post with
      | nil => simpa using g32
      | cons a post => simpa using hpost

theorem relaxHeaderInv_loop (bytes : List Nat) : RelaxHeaderInv (relax_header_loop bytes) := by
  unfold relax_header_loop
  induction bytes using List.reverseRecOn with
  | nil => exact relaxHeaderInv_init
  | append_singleton l a ih =>
    rw [List.foldl_append]
    exact relaxHeaderInv_step _ _ ih

/-- The shape of a buffer that satisfies the loop invariant and does not end
with a space, or of such a buffer with its final space removed. -/
theorem relaxHeader_shape {s : RelaxHeaderState} (inv : RelaxHeaderInv s) (r : List Nat)
    (hr : r = if s.relaxed.getLast? = some SP then s.relaxed.dropLast else s.relaxed) :
    (CR ∉ r ∧ LF ∉ r ∧ TAB ∉ r) ∧ ¬ [SP, SP] <:+: r ∧
    (∀ pre post, r = pre ++ COLON :: post → COLON ∉ pre →
      pre.getLast? ≠ some SP ∧ post.head? ≠ some SP) ∧
    r.getLast? ≠ some SP := by
  have hsub : ∀ x ∈ r, x ∈ s.relaxed := by
    intro x hx
    rw [hr] at hx
    split at hx
    · exact List.mem_of_mem_dropLast hx
    · exact hx
  have hchain : List.Chain' (fun a b => ¬(a = SP ∧ b = SP)) r := by
    rw [hr]
    split
    · exact chain_dropLast inv.chain
    · exact inv.chain
  refine ⟨⟨fun hm => (inv.noctl _ (hsub _ hm)).1 rfl, fun hm => (inv.noctl _ (hsub _ hm)).2.1 rfl,
    fun hm => (inv.noctl _ (hsub _ hm)).2.2 rfl⟩, ?_, ?_, ?_⟩
  · intro hinf
    have := hchain.infix hinf
    simp at this
  · intro pre post hsplit hpre
    have hcolmem : COLON ∈ s.relaxed := hsub _ (by rw [hsplit]; simp)
    have hpast : s.past_field_name = true := by
      by_contra hp
      exact inv.nocolon (by simpa using hp) hcolmem
    obtain ⟨pre', post', he, hc', hpre', hpost', _⟩ := inv.colon hpast
    by_cases hl : s.relaxed.getLast? = some SP
    · rw [if_pos hl] at hr
      have hs := getLast?_snoc_split hl
      rw [← hr, hsplit] at hs
      have hs' : pre' ++ COLON :: post' = pre ++ COLON :: (post ++ [SP]) := by
        rw [← he, hs]; simp
      obtain ⟨e1, e2⟩ := first_split_unique hs' hc' hpre
      subst e1 e2
      refine ⟨hpre', ?_⟩
      cases post with
      | nil => simp
      | cons a post => simpa using hpost'
    · rw [if_neg hl] at hr
      have hs' : pre' ++ COLON :: post' = pre ++ COLON :: post := by
        rw [← he, ← hr, hsplit]
      obtain ⟨e1, e2⟩ := first_split_unique hs' hc' hpre
      subst e1 e2
      exact ⟨hpre', hpost'⟩
  · rw [hr]
    split
    · rename_i hl
      exact getLast?_dropLast_ne_SP inv.chain hl
    · rename_i hl
      exact hl

/-- C1. For every header `h` and every length `len`, the string returned by
`pdkim_relax_header_n(h, len, FALSE)` contains no CR, no LF and no TAB,
contains no two adjacent spaces, has no space immediately before or
immediately after its first colon, and does not end with a space. -/
theorem C1_relax_header_shape (h : List Nat) (len : Nat) :
    (CR ∉ pdkim_relax_header_n h len false ∧ LF ∉ pdkim_relax_header_n h len false ∧
      TAB ∉ pdkim_relax_header_n h len false) ∧
    ¬ [SP, SP] <:+: pdkim_relax_header_n h len false ∧
    (∀ pre post, pdkim_relax_header_n h len false = pre ++ COLON :: post → COLON ∉ pre →
      pre.getLast? ≠ some SP ∧ post.head? ≠ some SP) ∧
    (pdkim_relax_header_n h len false).getLast? ≠ some SP := by
  apply relaxHeader_shape (relaxHeaderInv_loop (h.take len))
  simp [pdkim_relax_header_n]

/-! ## Relaxed header canonicalisation: the bytes that are kept -/

theorem isWsp_iff (c : Nat) :
    isWsp c = true ↔ (c = SP ∨ c = TAB ∨ c = CR ∨ c = LF) := by
  simp [isWsp, or_assoc]

theorem isWsp_tolower (c : Nat) : isWsp (tolower c) = isWsp c := by
  rw [Bool.eq_iff_iff, isWsp_iff, isWsp_iff]
  unfold tolower SP TAB CR LF
  split <;> omega

theorem filter_single_wsp {w : Nat} (h : isWsp w = true) :
    [w].filter (fun c => !isWsp c) = [] := by
  simp [h]

theorem filter_single_nonwsp {w : Nat} (h : isWsp w = false) :
    [w].filter (fun c => !isWsp c) = [w] := by
  simp [h]

theorem filter_cons_split (c : Nat) (l : List Nat) :
    (c :: l).filter (fun c => !isWsp c) =
      [c].filter (fun c => !isWsp c) ++ l.filter (fun c => !isWsp c) := by
  rw [← List.filter_append]
  rfl

theorem filter_dropLast_SP {l : List Nat} (h : l.getLast? = some SP) :
    l.dropLast.filter (fun c => !isWsp c) = l.filter (fun c => !isWsp c) := by
  conv_rhs => rw [getLast?_snoc_split h]
  rw [List.filter_append]
  simp [isWsp]

theorem lowerFieldName_cons (c : Nat) (l : List Nat) :
    lowerFieldName (c :: l) =
      if c = COLON then c :: l else tolower c :: lowerFieldName l := by
  unfold lowerFieldName
  by_cases h : c = COLON
  · simp [h]
  · simp [h]

/-- One loop iteration appends to the kept bytes the byte read (lower-cased
while in the field name) when it is not whitespace, and nothing otherwise. -/
theorem relax_header_step_filter (s : RelaxHeaderState) (c : Nat) (inv : RelaxHeaderInv s) :
    (relax_header_step s c).relaxed.filter (fun c => !isWsp c) =
        s.relaxed.filter (fun c => !isWsp c) ++
          [if s.past_field_name then c else tolower c].filter (fun c => !isWsp c) ∧
      (relax_header_step s c).past_field_name =
        (s.past_field_name || decide (c = COLON)) := by
  have hw : isWsp (if s.past_field_name = true then c else tolower c) = isWsp c := by
    split
    · rfl
    · exact isWsp_tolower c
  unfold relax_header_step
  by_cases h1 : c = CR ∨ c = LF
  · rw [if_pos h1]
    have : isWsp c = true := by
      rcases h1 with h | h <;> simp [h, isWsp]
    have hc : c ≠ COLON := by
      rcases h1 with h | h <;> simp [h, CR, LF, COLON]
    rw [filter_single_wsp (hw.trans this)]
    simp [hc]
  rw [if_neg h1]
  by_cases h2 : c = TAB ∨ c = SP
  · rw [if_pos h2]
    have : isWsp c = true := by
      rcases h2 with h | h <;> simp [h, isWsp]
    have hc : c ≠ COLON := by
      rcases h2 with h | h <;> simp [h, TAB, SP, COLON]
    have hlow : (if s.past_field_name = true then SP else tolower SP) = SP := by
      split <;> rfl
    rw [filter_single_wsp (hw.trans this)]
    by_cases hs : s.seen_wsp = true
    · simp [hc, hs]
    · have hsp : [SP].filter (fun c => !isWsp c) = [] := filter_single_wsp rfl
      simp only [hs, if_false, hlow, List.filter_append, hsp]
      simp [hc, hsp]
  rw [if_neg h2]
  have hnw : isWsp c = false := by
    have a1 : c ≠ CR := fun h => h1 (Or.inl h)
    have a2 : c ≠ LF := fun h => h1 (Or.inr h)
    have a3 : c ≠ TAB := fun h => h2 (Or.inl h)
    have a4 : c ≠ SP := fun h => h2 (Or.inr h)
    simp [isWsp, a1, a2, a3, a4]
  by_cases h3 : s.past_field_name = false ∧ c = COLON
  · rw [if_pos h3]
    obtain ⟨hp, hcol⟩ := h3
    have hq : (if s.seen_wsp = true then s.relaxed.dropLast else s.relaxed).filter
        (fun c => !isWsp c) = s.relaxed.filter (fun c => !isWsp c) := by
      split
      · rename_i hs
        exact filter_dropLast_SP (inv.wspT hp hs)
      · rfl
    have ht : tolower c = c := by
      subst hcol
      rfl
    simp only [List.filter_append, hq, hp, Bool.false_eq_true, if_false, ht, Bool.false_or]
    simp [hcol]
  · rw [if_neg h3]
    simp only [List.filter_append, true_and]
    by_cases hp : s.past_field_name = true
    · simp [hp]
    · have hp' : s.past_field_name = false := by simpa using hp
      have hc : c ≠ COLON := fun h => h3 ⟨hp', h⟩
      simp [hp', hc]

theorem relax_header_foldl_filter :
    ∀ (l : List Nat) (s : RelaxHeaderState), RelaxHeaderInv s →
      (l.foldl relax_header_step s).relaxed.filter (fun c => !isWsp c) =
        s.relaxed.filter (fun c => !isWsp c) ++
          (if s.past_field_name then l else lowerFieldName l).filter (fun c => !isWsp c)
  | [], s, _ => by
      cases h : s.past_field_name <;> simp [lowerFieldName]
  | c :: l, s, inv => by
      have ih := relax_header_foldl_filter l _ (relaxHeaderInv_step s c inv)
      obtain ⟨e1, e2⟩ := relax_header_step_filter s c inv
      rw [List.foldl_cons, ih, e1, e2, List.append_assoc]
      congr 1
      by_cases hp : s.past_field_name = true
      · simp only [hp, if_true, Bool.true_or]
        exact (filter_cons_split c l).symm
      · have hp' : s.past_field_name = false := by simpa using hp
        rw [lowerFieldName_cons]
        by_cases hc : c = COLON
        · have ht : tolower c = c := by
            subst hc
            rfl
          simp only [hp', hc, Bool.false_eq_true, if_false, if_true, Bool.false_or,
            decide_True]
          rw [← hc, ht]
          exact (filter_cons_split c l).symm
        · simp only [hp', hc, Bool.false_eq_true, if_false, Bool.false_or, decide_False]
          exact (filter_cons_split _ _).symm

/-- C2. For every header `h`, the non-whitespace bytes (everything except SP,
TAB, CR, LF) of `pdkim_relax_header(h, FALSE)` are, in order, the
non-whitespace bytes of `h` with exactly the bytes before the first colon
lower-cased and every byte from the first colon onward unchanged. -/
theorem C2_relax_header_keeps_bytes (h : List Nat) :
    (pdkim_relax_header h false).filter (fun c => !isWsp c) =
      (lowerFieldName h).filter (fun c => !isWsp c) := by
  have hf := relax_header_foldl_filter h _ relaxHeaderInv_init
  simp only [Bool.false_eq_true, if_false, List.filter_nil, List.nil_append] at hf
  unfold pdkim_relax_header pdkim_relax_header_n relax_header_loop
  simp only [List.take_length, Bool.false_eq_true, if_false]
  split
  · rename_i hl
    rw [filter_dropLast_SP hl, hf]
  · exact hf

/-! ## Relaxed body-line canonicalisation -/

theorem getLast?_dropLast_ne_SP_body {l : List Nat}
    (hl : List.Chain' (fun a b => ¬(a = SP ∧ (b = SP ∨ b = CR))) l)
    (h : l.getLast? = some SP) : l.dropLast.getLast? ≠ some SP := by
  have hs := getLast?_snoc_split h
  rw [hs, List.chain'_append] at hl
  intro hx
  exact hl.2.2 SP hx SP (by simp) ⟨rfl, Or.inl rfl⟩

theorem relaxBodyInv_step (s : RelaxBodyState) (c : Nat) (inv : RelaxBodyInv s) :
    RelaxBodyInv (relax_body_step s c) := by
  unfold relax_body_step
  by_cases h1 : c = CR
  · rw [if_pos h1]
    subst h1
    have hd : (if s.data.getLast? = some SP then s.data.dropLast else s.data).getLast?
        ≠ some SP := by
      split
      · rename_i hl
        exact getLast?_dropLast_ne_SP_body inv.chain hl
      · rename_i hl
        exact hl
    refine ⟨?_, ?_, ?_⟩
    · intro hm
      rcases List.mem_append.1 hm with hm | hm
      · split at hm
        · exact inv.notab (List.mem_of_mem_dropLast hm)
        · exact inv.notab hm
      · simp [TAB, CR] at hm
    · refine chain_snoc ?_ (fun x hx hh => hd (by rw [hx, hh.1]))
      split
      · exact chain_dropLast inv.chain
      · exact inv.chain
    · intro _
      simp [CR, SP]
  rw [if_neg h1]
  by_cases h2 : c = TAB ∨ c = SP
  · rw [if_pos h2]
    by_cases hw : s.seen_wsp = true
    · simpa [hw] using inv
    have hw' : s.seen_wsp = false := by simpa using hw
    simp only [hw', Bool.false_eq_true, if_false]
    refine ⟨?_, ?_, by simp⟩
    · intro hm
      rcases List.mem_append.1 hm with hm | hm
      · exact inv.notab hm
      · simp [TAB, SP] at hm
    · exact chain_snoc inv.chain (fun x hx hh => inv.wspF hw' (by rw [hx, hh.1]))
  · rw [if_neg h2]
    have hc9 : c ≠ TAB := fun h => h2 (Or.inl h)
    have hc32 : c ≠ SP := fun h => h2 (Or.inr h)
    refine ⟨?_, ?_, ?_⟩
    · intro hm
      rcases List.mem_append.1 hm with hm | hm
      · exact inv.notab hm
      · simp only [List.mem_singleton] at hm
        exact hc9 hm.symm
    · exact chain_snoc inv.chain (fun x _ hh => hh.2.elim hc32 h1)
    · intro _
      simp only [List.getLast?_concat, ne_eq, Option.some.injEq]
      exact hc32

theorem relaxBodyInv_foldl (l : List Nat) :
    RelaxBodyInv (l.foldl relax_body_step { seen_wsp := false, data := [] }) := by
  induction l using List.reverseRecOn with
  | nil => exact ⟨by simp, List.chain'_nil, by simp⟩
  | append_singleton l a ih =>
    rw [List.foldl_append]
    exact relaxBodyInv_step _ _ ih

/-- One loop iteration keeps the bytes other than SP and TAB and appends the
byte read when it is neither. -/
theorem relax_body_step_filter (s : RelaxBodyState) (c : Nat) :
    (relax_body_step s c).data.filter (fun c => c != SP && c != TAB) =
      s.data.filter (fun c => c != SP && c != TAB) ++
        [c].filter (fun c => c != SP && c != TAB) := by
  unfold relax_body_step
  by_cases h1 : c = CR
  · rw [if_pos h1]
    subst h1
    have hq : (if s.data.getLast? = some SP then s.data.dropLast else s.data).filter
        (fun c => c != SP && c != TAB) = s.data.filter (fun c => c != SP && c != TAB) := by
      split
      · rename_i hl
        conv_rhs => rw [getLast?_snoc_split hl]
        rw [List.filter_append]
        simp
      · rfl
    simp only [List.filter_append, hq]
  rw [if_neg h1]
  by_cases h2 : c = TAB ∨ c = SP
  · rw [if_pos h2]
    have hc : [c].filter (fun c => c != SP && c != TAB) = [] := by
      rcases h2 with h | h <;> simp [h]
    by_cases hw : s.seen_wsp = true
    · simp [hw, hc]
    · simp only [hw, if_false, List.filter_append, hc]
      simp
  · rw [if_neg h2]
    simp only [List.filter_append]

theorem relax_body_filter (l : List Nat) :
    (relax_body_line l).filter (fun c => c != SP && c != TAB) =
      l.filter (fun c => c != SP && c != TAB) := by
  unfold relax_body_line
  induction l using List.reverseRecOn with
  | nil => rfl
  | append_singleton l a ih =>
    rw [List.foldl_append, List.foldl_cons, List.foldl_nil, relax_body_step_filter, ih,
      List.filter_append]

/-- On a byte that may follow the buffer in a relaxed line, one loop iteration
stores that byte and nothing else. -/
theorem relax_body_step_fixed (buf : List Nat) (w : Bool) (c : Nat) (hc9 : c ≠ TAB)
    (hadj : ∀ x, buf.getLast? = some x → ¬(x = SP ∧ (c = SP ∨ c = CR)))
    (hw : w = true ↔ buf.getLast? = some SP) :
    ∃ w2 : Bool, relax_body_step { seen_wsp := w, data := buf } c =
        { seen_wsp := w2, data := buf ++ [c] } ∧
      (w2 = true ↔ (buf ++ [c]).getLast? = some SP) := by
  unfold relax_body_step
  by_cases h1 : c = CR
  · have hl : buf.getLast? ≠ some SP := fun h => hadj SP h ⟨rfl, Or.inr h1⟩
    have hwf : w = false := by
      cases w
      · rfl
      · exact absurd (hw.1 rfl) hl
    refine ⟨false, ?_, by simp [h1, CR, SP]⟩
    simp only [h1, if_true, hl, if_false, hwf]
  · rw [if_neg h1]
    by_cases h2 : c = SP
    · have hl : buf.getLast? ≠ some SP := fun h => hadj SP h ⟨rfl, Or.inl h2⟩
      have hwf : w = false := by
        cases w
        · rfl
        · exact absurd (hw.1 rfl) hl
      refine ⟨true, ?_, by simp [h2]⟩
      simp only [h2, or_true, if_true, hwf, Bool.false_eq_true, if_false]
    · have h3 : ¬(c = TAB ∨ c = SP) := fun h => h.elim hc9 h2
      rw [if_neg h3]
      exact ⟨false, rfl, by simp [h2]⟩

/-- On input that is already in relaxed form the loop copies every byte. -/
theorem relax_body_foldl_fixed :
    ∀ (o buf : List Nat) (w : Bool), TAB ∉ o →
      List.Chain' (fun a b => ¬(a = SP ∧ (b = SP ∨ b = CR))) (buf ++ o) →
      (w = true ↔ buf.getLast? = some SP) →
      (o.foldl relax_body_step { seen_wsp := w, data := buf }).data = buf ++ o
  | [], buf, w, _, _, _ => by simp
  | c :: o, buf, w, ht, hch, hw => by
      have hto : TAB ∉ o := fun h => ht (List.mem_cons_of_mem _ h)
      have hc9 : c ≠ TAB := fun h => ht (by simp [h])
      have hch2 : List.Chain' (fun a b => ¬(a = SP ∧ (b = SP ∨ b = CR))) ((buf ++ [c]) ++ o) := by
        simpa using hch
      have hadj : ∀ x, buf.getLast? = some x → ¬(x = SP ∧ (c = SP ∨ c = CR)) := by
        intro x hx
        exact (List.chain'_append.1 hch).2.2 x hx c (by simp)
      obtain ⟨w2, hstep, hw2⟩ := relax_body_step_fixed buf w c hc9 hadj hw
      rw [List.foldl_cons, hstep, relax_body_foldl_fixed o (buf ++ [c]) w2 hto hch2 hw2]
      simp

/-- C3. The relaxed body-line transform inside `pdkim_update_ctx_bodyhash` is
idempotent: for every byte string `L`, relaxing the relaxed form of `L` gives
the relaxed form of `L` again. -/
theorem C3_relax_body_idempotent (L : List Nat) :
    relax_body_line (relax_body_line L) = relax_body_line L := by
  have inv := relaxBodyInv_foldl L
  have := relax_body_foldl_fixed (relax_body_line L) [] false inv.notab
    (by simpa [relax_body_line] using inv.chain) (by simp)
  simpa [relax_body_line] using this

/-- C4. For every body line `L`, the relaxed form computed by
`pdkim_update_ctx_bodyhash` contains no TAB, no two adjacent spaces and no
space immediately before a CR, and its bytes other than SP and TAB are
exactly the bytes of `L` other than SP and TAB, in the same order. -/
theorem C4_relax_body_shape (L : List Nat) :
    TAB ∉ relax_body_line L ∧
    ¬ [SP, SP] <:+: relax_body_line L ∧
    ¬ [SP, CR] <:+: relax_body_line L ∧
    (relax_body_line L).filter (fun c => c != SP && c != TAB) =
      L.filter (fun c => c != SP && c != TAB) := by
  have inv := relaxBodyInv_foldl L
  refine ⟨inv.notab, ?_, ?_, relax_body_filter L⟩
  · intro hinf
    have := inv.chain.infix hinf
    simp at this
  · intro hinf
    have := inv.chain.infix hinf
    simp at this

/-! ## The body-length limit in `pdkim_update_ctx_bodyhash` -/

theorem update_bodylength (b : pdkim_bodyhash) (o : List Nat) (rd : Option (List Nat)) :
    (pdkim_update_ctx_bodyhash b o rd).1.bodylength = b.bodylength := by
  unfold pdkim_update_ctx_bodyhash
  simp only
  split <;> rfl

theorem update_canon_method (b : pdkim_bodyhash) (o : List Nat) (rd : Option (List Nat)) :
    (pdkim_update_ctx_bodyhash b o rd).1.canon_method = b.canon_method := by
  unfold pdkim_update_ctx_bodyhash
  simp only
  split <;> rfl

theorem update_blanklines (b : pdkim_bodyhash) (o : List Nat) (rd : Option (List Nat)) :
    (pdkim_update_ctx_bodyhash b o rd).1.num_buffered_blanklines =
      b.num_buffered_blanklines := by
  unfold pdkim_update_ctx_bodyhash
  simp only
  split <;> rfl

theorem update_hashtype (b : pdkim_bodyhash) (o : List Nat) (rd : Option (List Nat)) :
    (pdkim_update_ctx_bodyhash b o rd).1.hashtype = b.hashtype := by
  unfold pdkim_update_ctx_bodyhash
  simp only
  split <;> rfl

/-- What one call hashes, in terms of `bytes_to_hash`. -/
theorem update_hashed (b : pdkim_bodyhash) (o : List Nat) (rd : Option (List Nat)) :
    (pdkim_update_ctx_bodyhash b o rd).1.hashed =
      b.hashed ++ (canon_data b o rd).take (bytes_to_hash b (canon_data b o rd)) := by
  unfold pdkim_update_ctx_bodyhash
  simp only
  split
  · rfl
  · rename_i h
    have : bytes_to_hash b (canon_data b o rd) = 0 := by omega
    simp [this]

theorem update_signed (b : pdkim_bodyhash) (o : List Nat) (rd : Option (List Nat)) :
    (pdkim_update_ctx_bodyhash b o rd).1.signed_body_bytes =
      if 0 < bytes_to_hash b (canon_data b o rd) then
        (b.signed_body_bytes + bytes_to_hash b (canon_data b o rd)) % ULONG_RANGE
      else b.signed_body_bytes := by
  unfold pdkim_update_ctx_bodyhash
  simp only
  split <;> rfl

/-- With a limit in force and not yet exceeded, the unsigned subtraction does
not wrap and the number of bytes hashed is the smaller of the line length and
the room left. -/
theorem bytes_to_hash_limited (b : pdkim_bodyhash) (canon : List Nat)
    (h0 : 0 ≤ b.bodylength) (h1 : b.bodylength < 2 ^ 63)
    (h2 : b.signed_body_bytes ≤ b.bodylength.toNat) :
    bytes_to_hash b canon = min canon.length (b.bodylength.toNat - b.signed_body_bytes) := by
  have hb : b.bodylength.toNat < 2 ^ 63 := by omega
  have hroom : bodylength_room b = b.bodylength.toNat - b.signed_body_bytes := by
    unfold bodylength_room ULONG_RANGE
    omega
  unfold bytes_to_hash
  rw [hroom]
  split
  · omega
  · omega

theorem bytes_to_hash_unlimited (b : pdkim_bodyhash) (canon : List Nat)
    (h0 : b.bodylength < 0) : bytes_to_hash b canon = canon.length := by
  unfold bytes_to_hash
  rw [if_neg]
  omega

/-- One call keeps `signed_body_bytes` within the limit. -/
theorem update_keeps_limit (b : pdkim_bodyhash) (o : List Nat) (rd : Option (List Nat))
    (h0 : 0 ≤ b.bodylength) (h1 : b.bodylength < 2 ^ 63)
    (h2 : b.signed_body_bytes ≤ b.bodylength.toNat) :
    (pdkim_update_ctx_bodyhash b o rd).1.signed_body_bytes =
        b.signed_body_bytes +
          min (canon_data b o rd).length (b.bodylength.toNat - b.signed_body_bytes) ∧
      (pdkim_update_ctx_bodyhash b o rd).1.signed_body_bytes ≤ b.bodylength.toNat := by
  have hb : b.bodylength.toNat < 2 ^ 63 := by omega
  rw [update_signed, bytes_to_hash_limited b _ h0 h1 h2]
  unfold ULONG_RANGE
  split <;> omega

theorem update_calls_bodylength (b : pdkim_bodyhash)
    (calls : List (List Nat × Option (List Nat))) :
    (update_calls b calls).bodylength = b.bodylength := by
  unfold update_calls
  induction calls generalizing b with
  | nil => rfl
  | cons c cs ih => rw [List.foldl_cons, ih, update_bodylength]

theorem update_calls_keeps_limit (b : pdkim_bodyhash)
    (calls : List (List Nat × Option (List Nat)))
    (h0 : 0 ≤ b.bodylength) (h1 : b.bodylength < 2 ^ 63)
    (h2 : b.signed_body_bytes ≤ b.bodylength.toNat) :
    (update_calls b calls).signed_body_bytes ≤ b.bodylength.toNat := by
  unfold update_calls
  induction calls generalizing b with
  | nil => exact h2
  | cons c cs ih =>
    rw [List.foldl_cons]
    have hk := (update_keeps_limit b c.1 c.2 h0 h1 h2).2
    have hbl := update_bodylength b c.1 c.2
    have := ih (pdkim_update_ctx_bodyhash b c.1 c.2).1 (by rw [hbl]; exact h0)
      (by rw [hbl]; exact h1) (by rw [hbl]; exact hk)
    rw [hbl] at this
    exact this

/-- C5. For a Body Hash with `bodylength >= 0` (a `long`, so below `2 ^ 63`)
whose `signed_body_bytes` does not exceed the limit (it starts at 0), every
sequence `calls` of `pdkim_update_ctx_bodyhash` calls keeps
`signed_body_bytes <= bodylength`, and a further call hashes exactly the
first `min(canonical line length, bodylength - signed_body_bytes)` bytes of
the canonical line and adds that number to `signed_body_bytes`; the function
has no error result.  With `bodylength < 0` the whole canonical line is
hashed. -/
theorem C5_bodylength_limit (b : pdkim_bodyhash)
    (calls : List (List Nat × Option (List Nat))) (orig : List Nat)
    (rd : Option (List Nat)) :
    (0 ≤ b.bodylength → b.bodylength < 2 ^ 63 →
      b.signed_body_bytes ≤ b.bodylength.toNat →
        (update_calls b calls).signed_body_bytes ≤ b.bodylength.toNat ∧
        (pdkim_update_ctx_bodyhash (update_calls b calls) orig rd).1.hashed =
          (update_calls b calls).hashed ++
            (canon_data (update_calls b calls) orig rd).take
              (min (canon_data (update_calls b calls) orig rd).length
                (b.bodylength.toNat - (update_calls b calls).signed_body_bytes)) ∧
        (pdkim_update_ctx_bodyhash (update_calls b calls) orig rd).1.signed_body_bytes =
          (update_calls b calls).signed_body_bytes +
            min (canon_data (update_calls b calls) orig rd).length
              (b.bodylength.toNat - (update_calls b calls).signed_body_bytes) ∧
        (pdkim_update_ctx_bodyhash (update_calls b calls) orig rd).1.signed_body_bytes ≤
          b.bodylength.toNat) ∧
    (b.bodylength < 0 →
      (pdkim_update_ctx_bodyhash (update_calls b calls) orig rd).1.hashed =
        (update_calls b calls).hashed ++ canon_data (update_calls b calls) orig rd) := by
  have hbl := update_calls_bodylength b calls
  constructor
  · intro h0 h1 h2
    have hk := update_calls_keeps_limit b calls h0 h1 h2
    have h0' : 0 ≤ (update_calls b calls).bodylength := by rw [hbl]; exact h0
    have h1' : (update_calls b calls).bodylength < 2 ^ 63 := by rw [hbl]; exact h1
    have h2' : (update_calls b calls).signed_body_bytes ≤
        (update_calls b calls).bodylength.toNat := by rw [hbl]; exact hk
    have hu := update_keeps_limit (update_calls b calls) orig rd h0' h1' h2'
    rw [hbl] at hu
    refine ⟨hk, ?_, hu.1, hu.2⟩
    rw [update_hashed, bytes_to_hash_limited _ _ h0' h1' h2', hbl]
  · intro h0
    have h0' : (update_calls b calls).bodylength < 0 := by rw [hbl]; exact h0
    rw [update_hashed, bytes_to_hash_unlimited _ _ h0', List.take_length]

/-- C5 at a concrete input: a simple Body Hash with limit 5 that has been fed
the line `abc` CR LF and is then fed `de` CR LF, and a relaxed Body Hash
without limit fed the line `a`, two spaces, `b`, CR LF. -/
theorem C5_bodylength_limit_witness :
    ((0 : Int) ≤ example_limited_bodyhash.bodylength ∧
      example_limited_bodyhash.bodylength < 2 ^ 63 ∧
      example_limited_bodyhash.signed_body_bytes ≤
        example_limited_bodyhash.bodylength.toNat ∧
      example_unlimited_bodyhash.bodylength < 0) ∧
    ((update_calls example_limited_bodyhash [([97, 98, 99, 13, 10], none)]).signed_body_bytes
        ≤ example_limited_bodyhash.bodylength.toNat ∧
      (pdkim_update_ctx_bodyhash
          (update_calls example_limited_bodyhash [([97, 98, 99, 13, 10], none)])
          [100, 101, 13, 10] none).1.hashed =
        (update_calls example_limited_bodyhash [([97, 98, 99, 13, 10], none)]).hashed ++
          (canon_data (update_calls example_limited_bodyhash [([97, 98, 99, 13, 10], none)])
            [100, 101, 13, 10] none).take
            (min (canon_data
                (update_calls example_limited_bodyhash [([97, 98, 99, 13, 10], none)])
                [100, 101, 13, 10] none).length
              (example_limited_bodyhash.bodylength.toNat -
                (update_calls example_limited_bodyhash
                  [([97, 98, 99, 13, 10], none)]).signed_body_bytes)) ∧
      (pdkim_update_ctx_bodyhash
          (update_calls example_limited_bodyhash [([97, 98, 99, 13, 10], none)])
          [100, 101, 13, 10] none).1.signed_body_bytes =
        (update_calls example_limited_bodyhash [([97, 98, 99, 13, 10], none)]).signed_body_bytes +
          min (canon_data
              (update_calls example_limited_bodyhash [([97, 98, 99, 13, 10], none)])
              [100, 101, 13, 10] none).length
            (example_limited_bodyhash.bodylength.toNat -
              (update_calls example_limited_bodyhash
                [([97, 98, 99, 13, 10], none)]).signed_body_bytes) ∧
      (pdkim_update_ctx_bodyhash
          (update_calls example_limited_bodyhash [([97, 98, 99, 13, 10], none)])
          [100, 101, 13, 10] none).1.signed_body_bytes ≤
        example_limited_bodyhash.bodylength.toNat) ∧
    (pdkim_update_ctx_bodyhash (update_calls example_unlimited_bodyhash [])
        [97, 32, 32, 98, 13, 10] none).1.hashed =
      (update_calls example_unlimited_bodyhash []).hashed ++
        canon_data (update_calls example_unlimited_bodyhash []) [97, 32, 32, 98, 13, 10] none :=
  ⟨⟨by decide, by decide, by decide, by decide⟩,
    (C5_bodylength_limit example_limited_bodyhash [([97, 98, 99, 13, 10], none)]
      [100, 101, 13, 10] none).1 (by decide) (by decide) (by decide),
    (C5_bodylength_limit example_unlimited_bodyhash [] [97, 32, 32, 98, 13, 10] none).2
      (by decide)⟩

/-! ## The Body Hash set: one entry per tuple -/

theorem find_key_none {l : List pdkim_bodyhash} {h c n : Int}
    (hf : l.find? (fun b => decide (h = b.hashtype) && decide (c = b.canon_method) &&
      decide (n = b.bodylength)) = none) : (h, c, n) ∉ l.map pdkim_bodyhash.key := by
  rw [List.find?_eq_none] at hf
  intro hm
  obtain ⟨b, hb, hk⟩ := List.mem_map.1 hm
  simp only [pdkim_bodyhash.key, Prod.mk.injEq] at hk
  exact hf b hb (by simp [hk.1, hk.2.1, hk.2.2])

theorem find_key_some {l : List pdkim_bodyhash} {h c n : Int} {b : pdkim_bodyhash}
    (hf : l.find? (fun b => decide (h = b.hashtype) && decide (c = b.canon_method) &&
      decide (n = b.bodylength)) = some b) : b ∈ l ∧ b.key = (h, c, n) := by
  refine ⟨List.mem_of_find?_eq_some hf, ?_⟩
  have := List.find?_some hf
  simp only [Bool.and_eq_true, decide_eq_true_eq] at this
  simp [pdkim_bodyhash.key, this.1.1, this.1.2, this.2]

/-- A call of `pdkim_set_bodyhash` keeps the invariant of the list. -/
theorem set_bodyhash_inv (env : Env) (ctx : pdkim_ctx) (h c n : Int)
    (inv : BodyhashSetInv ctx.bodyhash) :
    BodyhashSetInv (pdkim_set_bodyhash env ctx h c n).1.bodyhash := by
  unfold pdkim_set_bodyhash
  by_cases h1 : h = -1 ∨ c = -1
  · rw [if_pos h1]
    exact inv
  rw [if_neg h1]
  split
  · exact inv
  · rename_i hf
    split
    · refine ⟨?_, ?_⟩
      · simp only [List.map_cons, List.nodup_cons]
        exact ⟨find_key_none hf, inv.1⟩
      · intro b hb
        rcases List.mem_cons.1 hb with hb | hb
        · subst hb
          exact ⟨fun e => h1 (Or.inl e), fun e => h1 (Or.inr e)⟩
        · exact inv.2 b hb
    · exact inv

theorem set_bodyhash_calls_inv (env : Env) (ctx : pdkim_ctx) (calls : List (Int × Int × Int))
    (inv : BodyhashSetInv ctx.bodyhash) :
    BodyhashSetInv (set_bodyhash_calls env ctx calls).bodyhash := by
  unfold set_bodyhash_calls
  induction calls generalizing ctx with
  | nil => exact inv
  | cons k ks ih =>
    rw [List.foldl_cons]
    exact ih _ (set_bodyhash_inv env ctx _ _ _ inv)

/-- With the invariant in force, a call whose tuple is already present returns
that entry and leaves the context as it is. -/
theorem set_bodyhash_existing (env : Env) (ctx : pdkim_ctx) (h c n : Int)
    (inv : BodyhashSetInv ctx.bodyhash) (b : pdkim_bodyhash) (hb : b ∈ ctx.bodyhash)
    (hk : b.key = (h, c, n)) : pdkim_set_bodyhash env ctx h c n = (ctx, some b) := by
  simp only [pdkim_bodyhash.key, Prod.mk.injEq] at hk
  have hne := inv.2 b hb
  unfold pdkim_set_bodyhash
  have h1 : ¬(h = -1 ∨ c = -1) := by
    rw [← hk.1, ← hk.2.1]
    exact fun e => e.elim hne.1 hne.2
  rw [if_neg h1]
  split
  · rename_i b2 hf
    obtain ⟨hb2, hk2⟩ := find_key_some hf
    have : b2 = b := List.inj_on_of_nodup_map inv.1 hb2 hb (by
      rw [hk2]
      simp [pdkim_bodyhash.key, hk.1, hk.2.1, hk.2.2])
    rw [this]
  · rename_i hf
    exact absurd (List.mem_map.2 ⟨b, hb, by
      simp [pdkim_bodyhash.key, hk.1, hk.2.1, hk.2.2]⟩) (find_key_none hf)

/-- The entry a call returns is in the resulting list and has the tuple asked
for. -/
theorem set_bodyhash_result (env : Env) (ctx : pdkim_ctx) (h c n : Int)
    (r : pdkim_bodyhash) (hr : (pdkim_set_bodyhash env ctx h c n).2 = some r) :
    r ∈ (pdkim_set_bodyhash env ctx h c n).1.bodyhash ∧ r.key = (h, c, n) := by
  unfold pdkim_set_bodyhash at hr ⊢
  by_cases h1 : h = -1 ∨ c = -1
  · rw [if_pos h1] at hr
    simp at hr
  rw [if_neg h1] at hr ⊢
  split at hr
  · rename_i b hf
    simp only [Option.some.injEq] at hr
    subst hr
    exact find_key_some hf
  · rename_i hf
    split at hr
    · rename_i hi
      simp only [Option.some.injEq] at hr
      subst hr
      simp [hi, pdkim_bodyhash.key]
    · simp at hr

/-- C6. In every context reached from an initial context (empty Body Hash
list) by calls of `pdkim_set_bodyhash`, no two Body Hashes have the same
(hashtype, canon_method, bodylength); a call with a tuple already present
returns the existing entry and leaves the context unchanged; hence a second
call with the tuple of a first, successful call returns the same Body Hash,
and two signatures with the same tuple, set up one after the other by
`pdkim_set_sig_bodyhash`, refer to one and the same Body Hash. -/
theorem C6_bodyhash_dedup (env : Env) (ctx0 : pdkim_ctx) (calls : List (Int × Int × Int))
    (h c n : Int) (hinit : ctx0.bodyhash = []) :
    ((set_bodyhash_calls env ctx0 calls).bodyhash.map pdkim_bodyhash.key).Nodup ∧
    (∀ b ∈ (set_bodyhash_calls env ctx0 calls).bodyhash, b.key = (h, c, n) →
      pdkim_set_bodyhash env (set_bodyhash_calls env ctx0 calls) h c n =
        (set_bodyhash_calls env ctx0 calls, some b)) ∧
    (∀ r, (pdkim_set_bodyhash env (set_bodyhash_calls env ctx0 calls) h c n).2 = some r →
      pdkim_set_bodyhash env
          (pdkim_set_bodyhash env (set_bodyhash_calls env ctx0 calls) h c n).1 h c n =
        ((pdkim_set_bodyhash env (set_bodyhash_calls env ctx0 calls) h c n).1, some r)) ∧
    (∀ (sig1 sig2 : pdkim_signature) (r : pdkim_bodyhash),
      (sig1.hashtype, sig1.canon_body, sig1.bodylength) = (h, c, n) →
      (sig2.hashtype, sig2.canon_body, sig2.bodylength) = (h, c, n) →
      (pdkim_set_sig_bodyhash env (set_bodyhash_calls env ctx0 calls) sig1).2.2 = some r →
      (pdkim_set_sig_bodyhash env
          (pdkim_set_sig_bodyhash env (set_bodyhash_calls env ctx0 calls) sig1).1 sig2).2.2 =
        some r ∧
      (pdkim_set_sig_bodyhash env
          (pdkim_set_sig_bodyhash env (set_bodyhash_calls env ctx0 calls) sig1).1
            sig2).2.1.calc_body_hash =
        (pdkim_set_sig_bodyhash env (set_bodyhash_calls env ctx0 calls)
          sig1).2.1.calc_body_hash ∧
      (pdkim_set_sig_bodyhash env
          (pdkim_set_sig_bodyhash env (set_bodyhash_calls env ctx0 calls) sig1).1 sig2).1 =
        (pdkim_set_sig_bodyhash env (set_bodyhash_calls env ctx0 calls) sig1).1) := by
  have inv0 : BodyhashSetInv ctx0.bodyhash := by
    rw [hinit]
    exact ⟨List.nodup_nil, by simp⟩
  have inv := set_bodyhash_calls_inv env ctx0 calls inv0
  have hsecond : ∀ r,
      (pdkim_set_bodyhash env (set_bodyhash_calls env ctx0 calls) h c n).2 = some r →
      pdkim_set_bodyhash env
          (pdkim_set_bodyhash env (set_bodyhash_calls env ctx0 calls) h c n).1 h c n =
        ((pdkim_set_bodyhash env (set_bodyhash_calls env ctx0 calls) h c n).1, some r) := by
    intro r hr
    obtain ⟨hm, hk⟩ := set_bodyhash_result env _ h c n r hr
    exact set_bodyhash_existing env _ h c n (set_bodyhash_inv env _ h c n inv) r hm hk
  refine ⟨inv.1, fun b hb hk => set_bodyhash_existing env _ h c n inv b hb hk, hsecond, ?_⟩
  intro sig1 sig2 r h1 h2 hr
  simp only [Prod.mk.injEq] at h1 h2
  obtain ⟨a1, a2, a3⟩ := h1
  obtain ⟨b1, b2, b3⟩ := h2
  simp only [pdkim_set_sig_bodyhash, a1, a2, a3, b1, b2, b3] at hr ⊢
  rw [hsecond r hr, hr]
  exact ⟨rfl, rfl, rfl⟩

/-- C6 at a concrete input: starting from the context of `pdkim_init_context`,
after calls for (sha256, relaxed, no limit), (sha256, simple, no limit) and
again (sha256, relaxed, no limit), a further call for (sha256, relaxed, no
limit). -/
theorem C6_bodyhash_dedup_witness :
    (pdkim_init_context false 0).bodyhash = [] ∧
    ((set_bodyhash_calls example_env (pdkim_init_context false 0)
        [(1, 1, -1), (1, 0, -1), (1, 1, -1)]).bodyhash.map pdkim_bodyhash.key).Nodup ∧
    (∀ b ∈ (set_bodyhash_calls example_env (pdkim_init_context false 0)
        [(1, 1, -1), (1, 0, -1), (1, 1, -1)]).bodyhash, b.key = (1, 1, -1) →
      pdkim_set_bodyhash example_env (set_bodyhash_calls example_env
          (pdkim_init_context false 0) [(1, 1, -1), (1, 0, -1), (1, 1, -1)]) 1 1 (-1) =
        (set_bodyhash_calls example_env (pdkim_init_context false 0)
          [(1, 1, -1), (1, 0, -1), (1, 1, -1)], some b)) ∧
    (set_bodyhash_calls example_env (pdkim_init_context false 0)
        [(1, 1, -1), (1, 0, -1), (1, 1, -1)]).bodyhash.length = 2 :=
  ⟨rfl,
    (C6_bodyhash_dedup example_env (pdkim_init_context false 0)
      [(1, 1, -1), (1, 0, -1), (1, 1, -1)] 1 1 (-1) rfl).1,
    (C6_bodyhash_dedup example_env (pdkim_init_context false 0)
      [(1, 1, -1), (1, 0, -1), (1, 1, -1)] 1 1 (-1) rfl).2.1,
    by decide⟩

/-! ## The line feeder: general facts -/

/-- Feeding is resumable: feeding `a ++ b` is feeding `a` and, unless that
ended with an error, feeding `b` to the resulting context. -/
theorem pdkim_feed_loop_append (env : Env) :
    ∀ (a b : List Nat) (ctx : pdkim_ctx),
      pdkim_feed_loop env ctx (a ++ b) =
        if (pdkim_feed_loop env ctx a).2 = PDKIM_OK then
          pdkim_feed_loop env (pdkim_feed_loop env ctx a).1 b
        else pdkim_feed_loop env ctx a
  | [], b, ctx => by simp [pdkim_feed_loop]
  | c :: a, b, ctx => by
      simp only [List.cons_append, pdkim_feed_loop]
      by_cases h : (pdkim_feed_byte env ctx c).2 = PDKIM_OK
      · simp only [h, if_true]
        exact pdkim_feed_loop_append env a b _
      · simp only [h, if_false]

theorem body_complete_map (ctx : pdkim_ctx) :
    pdkim_body_complete ctx =
      { ctx with bodyhash := ctx.bodyhash.map body_complete_one, seen_eod := true,
                 linebuf := [] } := rfl

theorem canon_data_cache (b : pdkim_bodyhash) (orig : List Nat) (rd : Option (List Nat))
    (h : CacheOk orig rd) : canon_data b orig rd = canon_data b orig none := by
  rcases h with h | h <;> subst h <;> unfold canon_data <;> split <;> rfl

theorem update_cache (b : pdkim_bodyhash) (orig : List Nat) (rd : Option (List Nat))
    (h : CacheOk orig rd) :
    (pdkim_update_ctx_bodyhash b orig rd).1 = (pdkim_update_ctx_bodyhash b orig none).1 ∧
      CacheOk orig (pdkim_update_ctx_bodyhash b orig rd).2 := by
  have hc := canon_data_cache b orig rd h
  unfold pdkim_update_ctx_bodyhash
  simp only [hc]
  constructor
  · split <;> rfl
  · have hout : CacheOk orig (if b.canon_method = PDKIM_CANON_RELAXED then
        some (canon_data b orig none) else rd) := by
      split
      · rename_i hr
        right
        simp [canon_data, hr]
      · exact h
    split <;> exact hout

theorem release_cache :
    ∀ (n : Nat) (b : pdkim_bodyhash) (rnl : Option (List Nat)), CacheOk lineending rnl →
      (release_blanklines n b rnl).1 = (release_blanklines n b none).1 ∧
        CacheOk lineending (release_blanklines n b rnl).2
  | 0, b, rnl, h => ⟨rfl, h⟩
  | n + 1, b, rnl, h => by
      obtain ⟨e1, c1⟩ := update_cache b lineending rnl h
      obtain ⟨_, c0⟩ := update_cache b lineending none (Or.inl rfl)
      simp only [release_blanklines]
      rw [e1]
      obtain ⟨e2, c2⟩ := release_cache n
        { (pdkim_update_ctx_bodyhash b lineending none).1 with
          num_buffered_blanklines :=
            (pdkim_update_ctx_bodyhash b lineending none).1.num_buffered_blanklines - 1 }
        (pdkim_update_ctx_bodyhash b lineending rnl).2 c1
      obtain ⟨e3, _⟩ := release_cache n
        { (pdkim_update_ctx_bodyhash b lineending none).1 with
          num_buffered_blanklines :=
            (pdkim_update_ctx_bodyhash b lineending none).1.num_buffered_blanklines - 1 }
        (pdkim_update_ctx_bodyhash b lineending none).2 c0
      exact ⟨e2.trans e3.symm, c2⟩

/-- The loop over the Body Hashes treats every Body Hash as if it were alone:
the relaxed copies it carries along save work and change nothing. -/
theorem bodyline_hashes_map (line : List Nat) :
    ∀ (bs : List pdkim_bodyhash) (rnl rline : Option (List Nat)),
      CacheOk lineending rnl → CacheOk line rline →
      bodyline_hashes line bs rnl rline = bs.map (bodyline_hash_one line)
  | [], _, _, _, _ => rfl
  | b :: bs, rnl, rline, h1, h2 => by
      simp only [bodyline_hashes, List.map_cons, bodyline_hash_one]
      split
      · rw [bodyline_hashes_map line bs rnl rline h1 h2]
      · obtain ⟨e1, c1⟩ := release_cache b.num_buffered_blanklines b rnl h1
        obtain ⟨e2, c2⟩ := update_cache (release_blanklines b.num_buffered_blanklines b rnl).1
          line rline h2
        rw [bodyline_hashes_map line bs _ _ c1 c2, e2, e1]

theorem hash_lineending_all_map :
    ∀ (bs : List pdkim_bodyhash) (rnl : Option (List Nat)), CacheOk lineending rnl →
      hash_lineending_all bs rnl =
        bs.map (fun b => (pdkim_update_ctx_bodyhash b lineending none).1)
  | [], _, _ => rfl
  | b :: bs, rnl, h => by
      obtain ⟨e1, c1⟩ := update_cache b lineending rnl h
      simp only [hash_lineending_all, List.map_cons]
      rw [hash_lineending_all_map bs _ c1, e1]

/-! ## The line feeder in body mode -/

/-- Apart from the Body Hashes, `pdkim_bodyline_complete` only empties the
line buffer and may set the end-of-data flag. -/
theorem bodyline_complete_shape (ctx : pdkim_ctx) :
    pdkim_bodyline_complete ctx =
      { ctx with bodyhash := (pdkim_bodyline_complete ctx).bodyhash,
                 seen_eod := (pdkim_bodyline_complete ctx).seen_eod,
                 linebuf := [] } := by
  unfold pdkim_bodyline_complete
  split
  · rfl
  · split
    · rfl
    · simp only
      split <;> rfl

theorem bodyline_complete_linebuf (ctx : pdkim_ctx) :
    (pdkim_bodyline_complete ctx).linebuf = [] := by
  rw [bodyline_complete_shape]

theorem bodyline_complete_past_hdrs (ctx : pdkim_ctx) :
    (pdkim_bodyline_complete ctx).past_hdrs = ctx.past_hdrs := by
  rw [bodyline_complete_shape]

theorem body_emulate_cr_past_hdrs (ctx : pdkim_ctx) (c : Nat) :
    (body_emulate_cr ctx c).past_hdrs = ctx.past_hdrs := by
  unfold body_emulate_cr
  split <;> rfl

theorem body_store_past_hdrs (ctx : pdkim_ctx) (c : Nat) :
    (body_store ctx c).past_hdrs = ctx.past_hdrs := by
  unfold body_store
  split
  · rfl
  · split
    · rw [bodyline_complete_past_hdrs]
    · rfl

theorem feed_byte_body (env : Env) (ctx : pdkim_ctx) (c : Nat)
    (hb : ctx.past_hdrs = true) : pdkim_feed_byte env ctx c = feed_body_byte ctx c := by
  unfold pdkim_feed_byte
  rw [if_pos hb]

/-- In body mode one round of the loop of `pdkim_feed` stays in body mode. -/
theorem feed_byte_body_past_hdrs (env : Env) (ctx : pdkim_ctx) (c : Nat)
    (hb : ctx.past_hdrs = true) : (pdkim_feed_byte env ctx c).1.past_hdrs = true := by
  rw [feed_byte_body env ctx c hb]
  unfold feed_body_byte
  split
  · rw [body_emulate_cr_past_hdrs]
    exact hb
  · split
    · rw [body_store_past_hdrs, body_emulate_cr_past_hdrs]
      exact hb
    · rw [body_store_past_hdrs, body_emulate_cr_past_hdrs]
      exact hb

theorem feed_loop_body_past_hdrs (env : Env) :
    ∀ (xs : List Nat) (ctx : pdkim_ctx), ctx.past_hdrs = true →
      (pdkim_feed_loop env ctx xs).1.past_hdrs = true
  | [], ctx, hb => hb
  | c :: xs, ctx, hb => by
      simp only [pdkim_feed_loop]
      split
      · exact feed_loop_body_past_hdrs env xs _ (feed_byte_body_past_hdrs env ctx c hb)
      · exact feed_byte_body_past_hdrs env ctx c hb

theorem body_store_LF (ctx : pdkim_ctx) :
    body_store ctx LF =
      pdkim_bodyline_complete { ctx with linebuf := ctx.linebuf ++ [LF], seen_cr := false } := by
  unfold body_store
  have hne : LF ≠ CR := by decide
  rw [if_neg hne, if_pos rfl]

/-- In body mode a line feed that is accepted leaves the line buffer empty. -/
theorem feed_byte_body_LF_linebuf (env : Env) (ctx : pdkim_ctx)
    (hb : ctx.past_hdrs = true) (hok : (pdkim_feed_byte env ctx LF).2 = PDKIM_OK) :
    (pdkim_feed_byte env ctx LF).1.linebuf = [] := by
  rw [feed_byte_body env ctx LF hb] at hok ⊢
  unfold feed_body_byte at hok ⊢
  by_cases h1 : LF = LF ∧ ctx.seen_cr = false ∧
      (body_emulate_cr ctx LF).linebuf_offset = PDKIM_MAX_BODY_LINE_LEN - 1
  · rw [if_pos h1] at hok
    simp at hok
  · rw [if_neg h1]
    have hl : (body_store (body_emulate_cr ctx LF) LF).linebuf = [] := by
      rw [body_store_LF]
      exact bodyline_complete_linebuf _
    split <;> exact hl

/-- A body that ends with a line feed and is accepted leaves the feeder in
body mode with an empty line buffer. -/
theorem feed_loop_body_ends_LF (env : Env) (ctx : pdkim_ctx) (B : List Nat)
    (hb : ctx.past_hdrs = true) (hB : B.getLast? = some LF)
    (hok : (pdkim_feed_loop env ctx B).2 = PDKIM_OK) :
    (pdkim_feed_loop env ctx B).1.past_hdrs = true ∧
      (pdkim_feed_loop env ctx B).1.linebuf = [] := by
  refine ⟨feed_loop_body_past_hdrs env B ctx hb, ?_⟩
  have hs := getLast?_snoc_split hB
  rw [hs, pdkim_feed_loop_append] at hok ⊢
  by_cases h1 : (pdkim_feed_loop env ctx B.dropLast).2 = PDKIM_OK
  · rw [if_pos h1] at hok ⊢
    have hb1 := feed_loop_body_past_hdrs env B.dropLast ctx hb
    simp only [pdkim_feed_loop] at hok ⊢
    by_cases h2 : (pdkim_feed_byte env (pdkim_feed_loop env ctx B.dropLast).1 LF).2 = PDKIM_OK
    · rw [if_pos h2]
      exact feed_byte_body_LF_linebuf env _ hb1 h2
    · rw [if_neg h2] at hok
      exact absurd hok h2
  · rw [if_neg h1] at hok
    exact absurd hok h1

theorem sameButBlanks_refl (b : pdkim_bodyhash) : SameButBlanks b b :=
  ⟨rfl, rfl, rfl, rfl, rfl⟩

/-- From a context in body mode whose line buffer is empty, an empty line
(CR LF) is accepted and changes, in the Body Hashes, at most the number of
buffered blank lines; the flags for dot-stuffing and end of data stay. -/
theorem feed_blank_line (env : Env) (ctx : pdkim_ctx) (l0 : List pdkim_bodyhash)
    (hb : ctx.past_hdrs = true) (hl : ctx.linebuf = [])
    (h0 : List.Forall₂ SameButBlanks l0 ctx.bodyhash) :
    (pdkim_feed_loop env ctx [CR, LF]).2 = PDKIM_OK ∧
      (pdkim_feed_loop env ctx [CR, LF]).1.past_hdrs = true ∧
      (pdkim_feed_loop env ctx [CR, LF]).1.linebuf = [] ∧
      List.Forall₂ SameButBlanks l0 (pdkim_feed_loop env ctx [CR, LF]).1.bodyhash ∧
      (pdkim_feed_loop env ctx [CR, LF]).1.dot_term = ctx.dot_term ∧
      (pdkim_feed_loop env ctx [CR, LF]).1.seen_eod = ctx.seen_eod := by
  have e1 : pdkim_feed_byte env ctx CR =
      ({ ctx with linebuf := [CR], seen_cr := true }, PDKIM_OK) := by
    rw [feed_byte_body env ctx CR hb]
    have hne : CR ≠ LF := by decide
    simp [feed_body_byte, body_emulate_cr, body_store, hl, hne, pdkim_ctx.linebuf_offset,
      PDKIM_MAX_BODY_LINE_LEN]
  have e2 : pdkim_feed_byte env { ctx with linebuf := [CR], seen_cr := true } LF =
      (pdkim_bodyline_complete { ctx with linebuf := [CR, LF], seen_cr := false },
        PDKIM_OK) := by
    have hfb := feed_byte_body env { ctx with linebuf := [CR], seen_cr := true } LF hb
    rw [hfb]
    have hbs : body_store (body_emulate_cr { ctx with linebuf := [CR], seen_cr := true } LF)
        LF = pdkim_bodyline_complete { ctx with linebuf := [CR, LF], seen_cr := false } := by
      rw [body_store_LF]
      simp [body_emulate_cr]
    unfold feed_body_byte
    rw [hbs]
    simp [pdkim_ctx.linebuf_offset, bodyline_complete_linebuf, PDKIM_MAX_BODY_LINE_LEN]
  have e3 : pdkim_feed_loop env ctx [CR, LF] =
      (pdkim_bodyline_complete { ctx with linebuf := [CR, LF], seen_cr := false },
        PDKIM_OK) := by
    simp [pdkim_feed_loop, e1, e2]
  have m1 : memcmp_eq [CR, LF] [DOT, CR, LF] = false := by decide
  have m2 : memcmp_eq [CR, LF] [DOT, DOT] = false := by decide
  have m3 : memcmp_eq [CR, LF] [CR, LF] = true := by decide
  rw [e3]
  refine ⟨rfl, ?_, bodyline_complete_linebuf _, ?_, ?_, ?_⟩
  · rw [bodyline_complete_past_hdrs]
    exact hb
  · unfold pdkim_bodyline_complete
    split
    · exact h0
    · simp only [m1, Bool.false_eq_true, and_false, if_false, unstuff_line, m2, m3, if_true]
      rw [List.forall₂_map_right_iff]
      exact h0.imp (fun a b hab => hab)
  · rw [bodyline_complete_shape]
  · unfold pdkim_bodyline_complete
    split
    · rfl
    · simp only [m1, Bool.false_eq_true, and_false, if_false, unstuff_line, m2, m3, if_true]

theorem feed_blank_lines (env : Env) :
    ∀ (n : Nat) (ctx : pdkim_ctx) (l0 : List pdkim_bodyhash),
      ctx.past_hdrs = true → ctx.linebuf = [] →
      List.Forall₂ SameButBlanks l0 ctx.bodyhash →
      (pdkim_feed_loop env ctx (blank_lines n)).2 = PDKIM_OK ∧
        (pdkim_feed_loop env ctx (blank_lines n)).1.past_hdrs = true ∧
        (pdkim_feed_loop env ctx (blank_lines n)).1.linebuf = [] ∧
        List.Forall₂ SameButBlanks l0 (pdkim_feed_loop env ctx (blank_lines n)).1.bodyhash ∧
        (pdkim_feed_loop env ctx (blank_lines n)).1.dot_term = ctx.dot_term ∧
        (pdkim_feed_loop env ctx (blank_lines n)).1.seen_eod = ctx.seen_eod
  | 0, ctx, l0, hb, hl, h0 => ⟨rfl, hb, hl, h0, rfl, rfl⟩
  | n + 1, ctx, l0, hb, hl, h0 => by
      obtain ⟨a1, a2, a3, a4, a5, a6⟩ := feed_blank_line env ctx l0 hb hl h0
      have hsplit : blank_lines (n + 1) = [CR, LF] ++ blank_lines n := by
        simp [blank_lines, List.replicate_succ]
      obtain ⟨b1, b2, b3, b4, b5, b6⟩ := feed_blank_lines env n _ l0 a2 a3 a4
      rw [hsplit, pdkim_feed_loop_append, if_pos a1]
      exact ⟨b1, b2, b3, b4, b5.trans a5, b6.trans a6⟩

/-- End of data does not touch a relaxed Body Hash, and keeps the tuple of
every Body Hash. -/
theorem body_complete_one_same (b b2 : pdkim_bodyhash) (h : SameButBlanks b b2) :
    (body_complete_one b2).key = (body_complete_one b).key ∧
      ((body_complete_one b).canon_method = PDKIM_CANON_RELAXED →
        (body_complete_one b2).hashed = (body_complete_one b).hashed) := by
  obtain ⟨h1, h2, h3, h4, h5⟩ := h
  have hcm : (body_complete_one b).canon_method = b.canon_method := by
    unfold body_complete_one
    split
    · exact update_canon_method _ _ _
    · rfl
  have hk : ∀ x : pdkim_bodyhash, (body_complete_one x).key = x.key := by
    intro x
    unfold body_complete_one
    split
    · simp [pdkim_bodyhash.key, update_hashtype, update_canon_method, update_bodylength]
    · rfl
  refine ⟨by rw [hk, hk]; simp [pdkim_bodyhash.key, h1, h2, h3], ?_⟩
  intro hr
  rw [hcm] at hr
  have n1 : ¬(b.canon_method = PDKIM_CANON_SIMPLE ∧ b.signed_body_bytes = 0 ∧
      0 < b.num_buffered_blanklines) := by
    rw [hr]
    simp [PDKIM_CANON_RELAXED, PDKIM_CANON_SIMPLE]
  have n2 : ¬(b2.canon_method = PDKIM_CANON_SIMPLE ∧ b2.signed_body_bytes = 0 ∧
      0 < b2.num_buffered_blanklines) := by
    rw [h2, hr]
    simp [PDKIM_CANON_RELAXED, PDKIM_CANON_SIMPLE]
  unfold body_complete_one
  rw [if_neg n1, if_neg n2, h4]

/-! ## Complete body lines, one Body Hash at a time -/

/-- In body mode a byte other than a line feed is stored in the line buffer as
long as the buffer stays below the maximal line length. -/
theorem feed_byte_body_plain (env : Env) (ctx : pdkim_ctx) (c : Nat)
    (hb : ctx.past_hdrs = true) (hc : c ≠ LF)
    (hlen : ctx.linebuf.length + 1 < PDKIM_MAX_BODY_LINE_LEN - 1) :
    pdkim_feed_byte env ctx c =
      ({ ctx with linebuf := ctx.linebuf ++ [c],
                  seen_cr := ctx.seen_cr || decide (c = CR) }, PDKIM_OK) := by
  rw [feed_byte_body env ctx c hb]
  have he : body_emulate_cr ctx c = ctx := by
    unfold body_emulate_cr
    rw [if_neg (fun h => hc h.1)]
  have hs : body_store ctx c =
      { ctx with
        linebuf := ctx.linebuf ++ [c],
        seen_cr := ctx.seen_cr || decide (c = CR) } := by
    unfold body_store
    by_cases h : c = CR
    · simp [h]
    · simp [h, hc]
  unfold feed_body_byte
  rw [he, hs, if_neg (fun h => hc h.1)]
  have : ¬((ctx.linebuf ++ [c]).length = PDKIM_MAX_BODY_LINE_LEN - 1) := by
    simp only [List.length_append, List.length_singleton]
    omega
  simp only [pdkim_ctx.linebuf_offset]
  rw [if_neg this]

theorem feed_loop_body_plain (env : Env) :
    ∀ (xs : List Nat) (ctx : pdkim_ctx), ctx.past_hdrs = true → LF ∉ xs →
      ctx.linebuf.length + xs.length < PDKIM_MAX_BODY_LINE_LEN - 1 →
      pdkim_feed_loop env ctx xs =
        ({ ctx with linebuf := ctx.linebuf ++ xs,
                    seen_cr := ctx.seen_cr || xs.any (fun c => decide (c = CR)) }, PDKIM_OK)
  | [], ctx, _, _, _ => by simp [pdkim_feed_loop]
  | c :: xs, ctx, hb, hx, hlen => by
      have hc : c ≠ LF := fun h => hx (by simp [h])
      have hxs : LF ∉ xs := fun h => hx (List.mem_cons_of_mem _ h)
      simp only [List.length_cons] at hlen
      have h1 := feed_byte_body_plain env ctx c hb hc (by omega)
      have ih := feed_loop_body_plain env xs
        { ctx with
          linebuf := ctx.linebuf ++ [c],
          seen_cr := ctx.seen_cr || decide (c = CR) } hb hxs (by
        simp only [List.length_append, List.length_singleton]
        omega)
      simp only [pdkim_feed_loop]
      rw [h1]
      simp only [if_true]
      rw [ih]
      simp [Bool.or_assoc]

/-- A complete line that is short enough reaches `pdkim_bodyline_complete`
exactly as it was fed. -/
theorem feed_loop_body_line (env : Env) (ctx : pdkim_ctx) (l : List Nat)
    (hb : ctx.past_hdrs = true) (hl : ctx.linebuf = []) (hok : BodyLineOk l) :
    pdkim_feed_loop env ctx (l ++ [CR, LF]) =
      (pdkim_bodyline_complete { ctx with linebuf := l ++ [CR, LF], seen_cr := false },
        PDKIM_OK) := by
  obtain ⟨hlf, hlen⟩ := hok
  have hsplit : l ++ [CR, LF] = (l ++ [CR]) ++ [LF] := by simp
  have hlf2 : LF ∉ l ++ [CR] := by
    intro h
    rcases List.mem_append.1 h with h | h
    · exact hlf h
    · simp [LF, CR] at h
  have h1 := feed_loop_body_plain env (l ++ [CR]) ctx hb hlf2 (by
    simp only [hl, List.length_nil, List.length_append, List.length_singleton,
      PDKIM_MAX_BODY_LINE_LEN] at hlen ⊢
    omega)
  rw [hsplit, pdkim_feed_loop_append, h1, if_pos rfl]
  simp only [pdkim_feed_loop, hl, List.nil_append]
  have hb2 : ({ ctx with
      linebuf := l ++ [CR],
      seen_cr := ctx.seen_cr || (l ++ [CR]).any (fun c => decide (c = CR)) } :
        pdkim_ctx).past_hdrs = true := hb
  rw [feed_byte_body env _ LF hb2]
  have hcr : (ctx.seen_cr || (l ++ [CR]).any (fun c => decide (c = CR))) = true := by
    simp
  have he : body_emulate_cr { ctx with
      linebuf := l ++ [CR],
      seen_cr := ctx.seen_cr || (l ++ [CR]).any (fun c => decide (c = CR)) } LF =
      { ctx with linebuf := l ++ [CR], seen_cr := true } := by
    unfold body_emulate_cr
    simp only [hcr]
    simp
  unfold feed_body_byte
  rw [he, body_store_LF]
  simp [pdkim_ctx.linebuf_offset, bodyline_complete_linebuf, PDKIM_MAX_BODY_LINE_LEN]

theorem memcmp_line_crlf (l : List Nat) (hlf : LF ∉ l) :
    memcmp_eq (l ++ [CR, LF]) [CR, LF] = decide (l = []) := by
  unfold memcmp_eq
  match l, hlf with
  | [], _ => decide
  | [a], h =>
    have : a ≠ LF := fun e => h (by simp [e])
    simp [CR, LF]
  | a :: b :: r, h =>
    have : b ≠ LF := fun e => h (by simp [e])
    simp [this]

theorem bodyline_complete_plain (ctx : pdkim_ctx) (he : ctx.seen_eod = false)
    (hd : ctx.dot_term = false) :
    pdkim_bodyline_complete ctx =
      { ctx with bodyhash := ctx.bodyhash.map (line_effect ctx.linebuf), linebuf := [] } := by
  unfold pdkim_bodyline_complete
  rw [if_neg (by simp [he]), if_neg (by simp [hd])]
  have hu : unstuff_line ctx.dot_term ctx.linebuf = ctx.linebuf := by
    unfold unstuff_line
    rw [if_neg (by simp [hd])]
  simp only [hu]
  by_cases hm : memcmp_eq ctx.linebuf [CR, LF] = true
  · rw [if_pos hm]
    congr 1
    apply List.map_congr_left
    intro b _
    simp [line_effect, hm]
  · rw [if_neg hm, bodyline_hashes_map _ _ _ _ (Or.inl rfl) (Or.inl rfl)]
    congr 1
    apply List.map_congr_left
    intro b _
    simp [line_effect, hm]

/-- Without dot-stuffing and before end of data, a complete line that is short
enough is accepted and acts on every Body Hash by `line_effect`. -/
theorem feed_line_effect (env : Env) (ctx : pdkim_ctx) (l : List Nat)
    (hs : BodyLineStart ctx) (hok : BodyLineOk l) :
    (pdkim_feed_loop env ctx (l ++ [CR, LF])).2 = PDKIM_OK ∧
      BodyLineStart (pdkim_feed_loop env ctx (l ++ [CR, LF])).1 ∧
      (pdkim_feed_loop env ctx (l ++ [CR, LF])).1.bodyhash =
        ctx.bodyhash.map (line_effect (l ++ [CR, LF])) := by
  obtain ⟨hb, hd, he, hl⟩ := hs
  rw [feed_loop_body_line env ctx l hb hl hok,
    bodyline_complete_plain { ctx with linebuf := l ++ [CR, LF], seen_cr := false } he hd]
  exact ⟨rfl, ⟨hb, hd, he, rfl⟩, rfl⟩

theorem body_of_lines_cons (l : List Nat) (ls : List (List Nat)) :
    body_of_lines (l :: ls) = (l ++ [CR, LF]) ++ body_of_lines ls := by
  simp [body_of_lines]

theorem body_of_lines_append (l1 l2 : List (List Nat)) :
    body_of_lines (l1 ++ l2) = body_of_lines l1 ++ body_of_lines l2 := by
  simp [body_of_lines]

theorem blank_lines_eq (n : Nat) : blank_lines n = body_of_lines (List.replicate n []) := by
  simp [blank_lines, body_of_lines]

/-- Without dot-stuffing and before end of data, a body of complete lines that
are short enough is accepted and acts on every Body Hash by `lines_effect`. -/
theorem feed_lines_effect (env : Env) :
    ∀ (lines : List (List Nat)) (ctx : pdkim_ctx), BodyLineStart ctx →
      (∀ l ∈ lines, BodyLineOk l) →
      (pdkim_feed_loop env ctx (body_of_lines lines)).2 = PDKIM_OK ∧
        BodyLineStart (pdkim_feed_loop env ctx (body_of_lines lines)).1 ∧
        (pdkim_feed_loop env ctx (body_of_lines lines)).1.bodyhash =
          ctx.bodyhash.map (lines_effect lines)
  | [], ctx, hs, _ => by
      refine ⟨rfl, hs, ?_⟩
      have hid : lines_effect [] = id := rfl
      rw [hid, List.map_id]
      rfl
  | l :: ls, ctx, hs, hok => by
      obtain ⟨a1, a2, a3⟩ := feed_line_effect env ctx l hs (hok l (by simp))
      obtain ⟨b1, b2, b3⟩ := feed_lines_effect env ls _ a2
        (fun x hx => hok x (List.mem_cons_of_mem _ hx))
      rw [body_of_lines_cons, pdkim_feed_loop_append, if_pos a1]
      refine ⟨b1, b2, ?_⟩
      rw [b3, a3, List.map_map]
      rfl

/-! ## Trailing blank lines and a relaxed Body Hash -/

theorem body_emulate_cr_dot_term (ctx : pdkim_ctx) (c : Nat) :
    (body_emulate_cr ctx c).dot_term = ctx.dot_term := by
  unfold body_emulate_cr
  split <;> rfl

theorem body_store_dot_term (ctx : pdkim_ctx) (c : Nat) :
    (body_store ctx c).dot_term = ctx.dot_term := by
  unfold body_store
  split
  · rfl
  · split
    · rw [bodyline_complete_shape]
    · rfl

theorem feed_loop_body_dot_term (env : Env) :
    ∀ (xs : List Nat) (ctx : pdkim_ctx), ctx.past_hdrs = true →
      (pdkim_feed_loop env ctx xs).1.dot_term = ctx.dot_term
  | [], _, _ => rfl
  | c :: xs, ctx, hb => by
      have h1 : (pdkim_feed_byte env ctx c).1.dot_term = ctx.dot_term := by
        rw [feed_byte_body env ctx c hb]
        unfold feed_body_byte
        split
        · exact body_emulate_cr_dot_term ctx c
        · split <;> rw [body_store_dot_term, body_emulate_cr_dot_term]
      simp only [pdkim_feed_loop]
      split
      · rw [feed_loop_body_dot_term env xs _ (feed_byte_body_past_hdrs env ctx c hb), h1]
      · exact h1

/-- With dot-stuffing, a line that consists of a dot alone is accepted at a
line start and acts as end of data: nothing happens when end of data was
seen before, else every Body Hash is finished as by `pdkim_body_complete`. -/
theorem feed_dot_line (env : Env) (ctx : pdkim_ctx) (hb : ctx.past_hdrs = true)
    (hl : ctx.linebuf = []) (hd : ctx.dot_term = true) :
    (pdkim_feed_loop env ctx [DOT, CR, LF]).2 = PDKIM_OK ∧
      (pdkim_feed_loop env ctx [DOT, CR, LF]).1.bodyhash =
        if ctx.seen_eod = true then ctx.bodyhash else ctx.bodyhash.map body_complete_one := by
  have hline := feed_loop_body_line env ctx [DOT] hb hl
    ⟨by decide, by simp [PDKIM_MAX_BODY_LINE_LEN]⟩
  have hcat : [DOT] ++ [CR, LF] = [DOT, CR, LF] := rfl
  rw [hcat] at hline
  rw [hline]
  refine ⟨rfl, ?_⟩
  show (pdkim_bodyline_complete _).bodyhash = _
  unfold pdkim_bodyline_complete
  by_cases he : ctx.seen_eod = true
  · rw [if_pos he, if_pos he]
  · have hm : memcmp_eq [DOT, CR, LF] [DOT, CR, LF] = true := by decide
    rw [if_neg he, if_neg he, if_pos ⟨hd, hm⟩, body_complete_map]

theorem sameButBlanks_relaxed (b b2 : pdkim_bodyhash) (h : SameButBlanks b b2) :
    b2.key = b.key ∧ (b.canon_method = PDKIM_CANON_RELAXED → b2.hashed = b.hashed) := by
  obtain ⟨h1, h2, h3, h4, _⟩ := h
  exact ⟨by simp [pdkim_bodyhash.key, h1, h2, h3], fun _ => h4⟩

/-- C7. For every body `B` of complete lines (it ends with a line feed) fed to
a context in body mode and every `n`, feeding `B` followed by `n` empty lines
(CR LF) and then end of data returns the same code from the feed and leaves
the same Body Hashes, each relaxed one with exactly the same hashed byte
sequence, as feeding `B` alone and then end of data.  End of data is
`pdkim_feed` with NULL or, with dot-stuffing, the line that consists of a dot
alone. -/
theorem C7_trailing_blank_lines_relaxed (env : Env) (ctx : pdkim_ctx) (B : List Nat)
    (n : Nat) (hbody : ctx.past_hdrs = true) (hB : B.getLast? = some LF) :
    (pdkim_feed env ctx (some (B ++ blank_lines n))).2 = (pdkim_feed env ctx (some B)).2 ∧
    List.Forall₂
      (fun bA bB => bA.key = bB.key ∧
        (bB.canon_method = PDKIM_CANON_RELAXED → bA.hashed = bB.hashed))
      (pdkim_feed env (pdkim_feed env ctx (some (B ++ blank_lines n))).1 none).1.bodyhash
      (pdkim_feed env (pdkim_feed env ctx (some B)).1 none).1.bodyhash ∧
    (ctx.dot_term = true →
      List.Forall₂
        (fun bA bB => bA.key = bB.key ∧
          (bB.canon_method = PDKIM_CANON_RELAXED → bA.hashed = bB.hashed))
        (pdkim_feed env ctx (some (B ++ blank_lines n ++ [DOT, CR, LF]))).1.bodyhash
        (pdkim_feed env ctx (some (B ++ [DOT, CR, LF]))).1.bodyhash) := by
  simp only [pdkim_feed, body_complete_map]
  rw [pdkim_feed_loop_append env (B ++ blank_lines n) [DOT, CR, LF],
    pdkim_feed_loop_append env B [DOT, CR, LF], pdkim_feed_loop_append env B (blank_lines n)]
  by_cases hok : (pdkim_feed_loop env ctx B).2 = PDKIM_OK
  · rw [if_pos hok]
    obtain ⟨hb1, hl1⟩ := feed_loop_body_ends_LF env ctx B hbody hB hok
    obtain ⟨r1, r2, r3, r4, r5, r6⟩ := feed_blank_lines env n (pdkim_feed_loop env ctx B).1
      (pdkim_feed_loop env ctx B).1.bodyhash hb1 hl1
      (List.forall₂_same.2 (fun b _ => sameButBlanks_refl b))
    refine ⟨by rw [r1, hok], ?_, ?_⟩
    · rw [List.forall₂_map_left_iff, List.forall₂_map_right_iff]
      exact r4.flip.imp (fun a b hab => body_complete_one_same b a hab)
    · intro hd
      have hd1 : (pdkim_feed_loop env ctx B).1.dot_term = true := by
        rw [feed_loop_body_dot_term env B ctx hbody]
        exact hd
      obtain ⟨_, d2⟩ := feed_dot_line env (pdkim_feed_loop env ctx B).1 hb1 hl1 hd1
      obtain ⟨_, d4⟩ := feed_dot_line env
        (pdkim_feed_loop env (pdkim_feed_loop env ctx B).1 (blank_lines n)).1 r2 r3
        (r5.trans hd1)
      rw [if_pos r1, if_pos hok, d2, d4, r6]
      by_cases he : (pdkim_feed_loop env ctx B).1.seen_eod = true
      · rw [if_pos he, if_pos he]
        exact r4.flip.imp (fun a b hab => sameButBlanks_relaxed b a hab)
      · rw [if_neg he, if_neg he, List.forall₂_map_left_iff, List.forall₂_map_right_iff]
        exact r4.flip.imp (fun a b hab => body_complete_one_same b a hab)
  · rw [if_neg hok]
    exact ⟨rfl, List.forall₂_same.2 (fun b _ => ⟨rfl, fun _ => rfl⟩),
      fun _ => List.forall₂_same.2 (fun b _ => ⟨rfl, fun _ => rfl⟩)⟩

/-- C7 at a concrete input: the body `ab` CR LF followed by three empty lines,
fed after the headers of `example_headers`, to the context `example_body_ctx`
(no dot-stuffing) and to the same context with dot-stuffing switched on. -/
theorem C7_trailing_blank_lines_relaxed_witness :
    (example_body_ctx.past_hdrs = true ∧ [97, 98, 13, 10].getLast? = some LF ∧
      ({ example_body_ctx with dot_term := true } : pdkim_ctx).dot_term = true) ∧
    ((pdkim_feed example_env example_body_ctx (some ([97, 98, 13, 10] ++ blank_lines 3))).2 =
      (pdkim_feed example_env example_body_ctx (some [97, 98, 13, 10])).2 ∧
    List.Forall₂
      (fun bA bB => bA.key = bB.key ∧
        (bB.canon_method = PDKIM_CANON_RELAXED → bA.hashed = bB.hashed))
      (pdkim_feed example_env (pdkim_feed example_env example_body_ctx
        (some ([97, 98, 13, 10] ++ blank_lines 3))).1 none).1.bodyhash
      (pdkim_feed example_env (pdkim_feed example_env example_body_ctx
        (some [97, 98, 13, 10])).1 none).1.bodyhash) ∧
    List.Forall₂
      (fun bA bB => bA.key = bB.key ∧
        (bB.canon_method = PDKIM_CANON_RELAXED → bA.hashed = bB.hashed))
      (pdkim_feed example_env { example_body_ctx with dot_term := true }
        (some ([97, 98, 13, 10] ++ blank_lines 3 ++ [DOT, CR, LF]))).1.bodyhash
      (pdkim_feed example_env { example_body_ctx with dot_term := true }
        (some ([97, 98, 13, 10] ++ [DOT, CR, LF]))).1.bodyhash :=
  ⟨⟨by decide, by decide, rfl⟩,
    ⟨(C7_trailing_blank_lines_relaxed example_env example_body_ctx [97, 98, 13, 10] 3
        (by decide) (by decide)).1,
      (C7_trailing_blank_lines_relaxed example_env example_body_ctx [97, 98, 13, 10] 3
        (by decide) (by decide)).2.1⟩,
    (C7_trailing_blank_lines_relaxed example_env { example_body_ctx with dot_term := true }
      [97, 98, 13, 10] 3 (by decide) (by decide)).2.2 rfl⟩

/-! ## Body Hashes without a body-length limit -/

theorem bytes_to_hash_le (b : pdkim_bodyhash) (canon : List Nat) :
    bytes_to_hash b canon ≤ canon.length := by
  unfold bytes_to_hash
  split
  · rename_i h
    exact Nat.le_of_lt h.2
  · exact Nat.le_refl _

/-- A call of `pdkim_update_ctx_bodyhash` keeps `signed_body_bytes` in step
with the number of bytes hashed. -/
theorem update_signedCountOk (b : pdkim_bodyhash) (o : List Nat) (rd : Option (List Nat))
    (h : SignedCountOk b) : SignedCountOk (pdkim_update_ctx_bodyhash b o rd).1 := by
  unfold SignedCountOk at h ⊢
  have hle := bytes_to_hash_le b (canon_data b o rd)
  rw [update_signed, update_hashed, List.length_append, List.length_take,
    Nat.min_eq_left hle, h]
  unfold ULONG_RANGE
  split
  · omega
  · omega

theorem update_key (b : pdkim_bodyhash) (o : List Nat) (rd : Option (List Nat)) :
    (pdkim_update_ctx_bodyhash b o rd).1.key = b.key := by
  simp [pdkim_bodyhash.key, update_hashtype, update_canon_method, update_bodylength]

theorem update_unlimited (b : pdkim_bodyhash) (o : List Nat) (rd : Option (List Nat))
    (h : b.bodylength < 0) :
    (pdkim_update_ctx_bodyhash b o rd).1.hashed = b.hashed ++ canon_data b o rd := by
  rw [update_hashed, bytes_to_hash_unlimited _ _ h, List.take_length]

theorem canon_data_lineending (b : pdkim_bodyhash) :
    canon_data b lineending none = lineending := by
  unfold canon_data
  split
  · decide
  · rfl

theorem canon_data_congr (b b2 : pdkim_bodyhash) (o : List Nat) (rd : Option (List Nat))
    (h : b2.canon_method = b.canon_method) : canon_data b2 o rd = canon_data b o rd := by
  unfold canon_data
  rw [h]

theorem blank_lines_succ (n : Nat) : blank_lines (n + 1) = [CR, LF] ++ blank_lines n := by
  simp [blank_lines, List.replicate_succ]

theorem blank_lines_succ_right (n : Nat) :
    blank_lines (n + 1) = blank_lines n ++ [CR, LF] := by
  induction n with
  | zero => rfl
  | succ k ih =>
    calc blank_lines (k + 1 + 1) = [CR, LF] ++ blank_lines (k + 1) := blank_lines_succ (k + 1)
      _ = [CR, LF] ++ (blank_lines k ++ [CR, LF]) := by rw [ih]
      _ = ([CR, LF] ++ blank_lines k) ++ [CR, LF] := by rw [List.append_assoc]
      _ = blank_lines (k + 1) ++ [CR, LF] := by rw [← blank_lines_succ k]

/-- Releasing `n` buffered blank lines into a Body Hash without limit hashes
`n` times CR LF. -/
theorem release_unlimited :
    ∀ (n : Nat) (b : pdkim_bodyhash), b.bodylength < 0 →
      (release_blanklines n b none).1.hashed = b.hashed ++ blank_lines n ∧
      (release_blanklines n b none).1.num_buffered_blanklines =
        b.num_buffered_blanklines - n ∧
      (release_blanklines n b none).1.key = b.key ∧
      (SignedCountOk b → SignedCountOk (release_blanklines n b none).1)
  | 0, b, _ => by simp [release_blanklines, blank_lines]
  | n + 1, b, h => by
      have e := (release_cache n
        { (pdkim_update_ctx_bodyhash b lineending none).1 with
          num_buffered_blanklines :=
            (pdkim_update_ctx_bodyhash b lineending none).1.num_buffered_blanklines - 1 }
        (pdkim_update_ctx_bodyhash b lineending none).2
        (update_cache b lineending none (Or.inl rfl)).2).1
      have hbl : ({ (pdkim_update_ctx_bodyhash b lineending none).1 with
          num_buffered_blanklines :=
            (pdkim_update_ctx_bodyhash b lineending none).1.num_buffered_blanklines - 1 } :
            pdkim_bodyhash).bodylength < 0 := by
        show (pdkim_update_ctx_bodyhash b lineending none).1.bodylength < 0
        rw [update_bodylength]
        exact h
      obtain ⟨r1, r2, r3, r4⟩ := release_unlimited n _ hbl
      simp only [release_blanklines]
      rw [e]
      refine ⟨?_, ?_, ?_, ?_⟩
      · rw [r1]
        show (pdkim_update_ctx_bodyhash b lineending none).1.hashed ++ _ = _
        rw [update_unlimited _ _ _ h, canon_data_lineending, blank_lines_succ]
        simp [lineending]
      · rw [r2]
        show (pdkim_update_ctx_bodyhash b lineending none).1.num_buffered_blanklines - 1 - n = _
        rw [update_blanklines]
        omega
      · rw [r3]
        exact update_key b lineending none
      · intro hs
        exact r4 (update_signedCountOk b lineending none hs)

/-- A line given to a Body Hash without limit is hashed in full, in its
canonical form for that Body Hash, after the blank lines buffered before it. -/
theorem bodyline_hash_one_unlimited (line : List Nat) (b : pdkim_bodyhash)
    (h : b.bodylength < 0)
    (hn : ¬(b.canon_method = PDKIM_CANON_RELAXED ∧ relaxed_blank_scan line = true)) :
    (bodyline_hash_one line b).hashed =
        b.hashed ++ blank_lines b.num_buffered_blanklines ++ canon_data b line none ∧
      (bodyline_hash_one line b).num_buffered_blanklines = 0 ∧
      (bodyline_hash_one line b).key = b.key ∧
      (SignedCountOk b → SignedCountOk (bodyline_hash_one line b)) := by
  obtain ⟨r1, r2, r3, r4⟩ := release_unlimited b.num_buffered_blanklines b h
  have hk : (release_blanklines b.num_buffered_blanklines b none).1.bodylength < 0 := by
    have := congrArg (fun k => k.2.2) r3
    simp only [pdkim_bodyhash.key] at this
    rw [this]
    exact h
  have hc : (release_blanklines b.num_buffered_blanklines b none).1.canon_method =
      b.canon_method := by
    have := congrArg (fun k => k.2.1) r3
    simpa only [pdkim_bodyhash.key] using this
  unfold bodyline_hash_one
  rw [if_neg hn]
  refine ⟨?_, ?_, ?_, ?_⟩
  · rw [update_unlimited _ _ _ hk, r1, canon_data_congr _ _ _ _ hc]
  · rw [update_blanklines, r2]
    omega
  · rw [update_key, r3]
  · intro hs
    exact update_signedCountOk _ _ _ (r4 hs)

/-! ## Simple canonicalisation of a whole body -/

theorem line_effect_empty (b : pdkim_bodyhash) :
    line_effect ([] ++ [CR, LF]) b =
      { b with num_buffered_blanklines := b.num_buffered_blanklines + 1 } := by
  unfold line_effect
  rw [if_pos (by decide)]

/-- What a line does to a simple Body Hash without limit: the bytes hashed and
the blank lines buffered, taken together, grow by exactly the line. -/
theorem line_effect_simple (l : List Nat) (b : pdkim_bodyhash) (hlf : LF ∉ l)
    (hs : b.canon_method = PDKIM_CANON_SIMPLE) (hu : b.bodylength < 0)
    (hc : SignedCountOk b) :
    (line_effect (l ++ [CR, LF]) b).canon_method = PDKIM_CANON_SIMPLE ∧
      (line_effect (l ++ [CR, LF]) b).bodylength < 0 ∧
      SignedCountOk (line_effect (l ++ [CR, LF]) b) ∧
      (line_effect (l ++ [CR, LF]) b).hashed ++
          blank_lines (line_effect (l ++ [CR, LF]) b).num_buffered_blanklines =
        b.hashed ++ blank_lines b.num_buffered_blanklines ++ (l ++ [CR, LF]) ∧
      (l ≠ [] → (line_effect (l ++ [CR, LF]) b).num_buffered_blanklines = 0) ∧
      (l = [] → (line_effect (l ++ [CR, LF]) b).hashed = b.hashed ∧
        (line_effect (l ++ [CR, LF]) b).num_buffered_blanklines =
          b.num_buffered_blanklines + 1) := by
  by_cases hl : l = []
  · subst hl
    rw [line_effect_empty]
    refine ⟨hs, hu, hc, ?_, fun h => absurd rfl h, fun _ => ⟨rfl, rfl⟩⟩
    show b.hashed ++ blank_lines (b.num_buffered_blanklines + 1) = _
    rw [blank_lines_succ_right]
    simp
  · have hm : ¬(memcmp_eq (l ++ [CR, LF]) [CR, LF] = true) := by
      rw [memcmp_line_crlf l hlf]
      simp [hl]
    have hn : ¬(b.canon_method = PDKIM_CANON_RELAXED ∧
        relaxed_blank_scan (l ++ [CR, LF]) = true) := by
      rw [hs]
      simp [PDKIM_CANON_SIMPLE, PDKIM_CANON_RELAXED]
    obtain ⟨r1, r2, r3, r4⟩ := bodyline_hash_one_unlimited (l ++ [CR, LF]) b hu hn
    have hcd : canon_data b (l ++ [CR, LF]) none = l ++ [CR, LF] := by
      unfold canon_data
      rw [hs]
      simp [PDKIM_CANON_SIMPLE, PDKIM_CANON_RELAXED]
    unfold line_effect
    rw [if_neg hm]
    have k1 := congrArg (fun k => k.2.1) r3
    have k2 := congrArg (fun k => k.2.2) r3
    simp only [pdkim_bodyhash.key] at k1 k2
    refine ⟨by rw [k1]; exact hs, by rw [k2]; exact hu, r4 hc, ?_, fun _ => r2,
      fun h => absurd h hl⟩
    rw [r1, r2, hcd]
    simp [blank_lines]

/-- The invariant of a simple Body Hash without limit along a body: what has
been hashed, followed by the buffered blank lines, is the body fed so far. -/
theorem lines_effect_simple :
    ∀ (lines : List (List Nat)) (b : pdkim_bodyhash), (∀ l ∈ lines, LF ∉ l) →
      b.canon_method = PDKIM_CANON_SIMPLE → b.bodylength < 0 → SignedCountOk b →
      (lines_effect lines b).canon_method = PDKIM_CANON_SIMPLE ∧
        (lines_effect lines b).bodylength < 0 ∧
        SignedCountOk (lines_effect lines b) ∧
        (lines_effect lines b).hashed ++
            blank_lines (lines_effect lines b).num_buffered_blanklines =
          b.hashed ++ blank_lines b.num_buffered_blanklines ++ body_of_lines lines
  | [], b, _, hs, hu, hc => by
      refine ⟨hs, hu, hc, ?_⟩
      simp [lines_effect, body_of_lines]
  | l :: ls, b, hlf, hs, hu, hc => by
      obtain ⟨a1, a2, a3, a4, _, _⟩ := line_effect_simple l b (hlf l (by simp)) hs hu hc
      obtain ⟨b1, b2, b3, b4⟩ := lines_effect_simple ls (line_effect (l ++ [CR, LF]) b)
        (fun x hx => hlf x (List.mem_cons_of_mem _ hx)) a1 a2 a3
      have hstep : lines_effect (l :: ls) b =
          lines_effect ls (line_effect (l ++ [CR, LF]) b) := rfl
      rw [hstep]
      refine ⟨b1, b2, b3, ?_⟩
      rw [b4, a4, body_of_lines_cons]
      simp

theorem lines_effect_append (l1 l2 : List (List Nat)) (b : pdkim_bodyhash) :
    lines_effect (l1 ++ l2) b = lines_effect l2 (lines_effect l1 b) := by
  simp [lines_effect, List.foldl_append]

/-- Empty lines only add to the counter of buffered blank lines. -/
theorem lines_effect_blank :
    ∀ (m : Nat) (b : pdkim_bodyhash),
      lines_effect (List.replicate m []) b =
        { b with num_buffered_blanklines := b.num_buffered_blanklines + m }
  | 0, b => rfl
  | m + 1, b => by
      have hstep : lines_effect (List.replicate (m + 1) []) b =
          lines_effect (List.replicate m []) (line_effect ([] ++ [CR, LF]) b) := rfl
      rw [hstep, line_effect_empty, lines_effect_blank m]
      simp only [pdkim_bodyhash.mk.injEq, true_and]
      omega

/-- C9, as amended.  Take a context at the start of the body, without
dot-stuffing and before end of data, and in it a simple-canonicalisation Body
Hash without body-length limit that has hashed nothing yet.  Feed a body made
of CR LF terminated lines, each of them, CR LF included, shorter than
`PDKIM_MAX_BODY_LINE_LEN` bytes, of fewer than `2 ^ 64` bytes in all,
followed by `m` empty lines; then signal end of data.  The feed is accepted.
If the last of the lines is not empty, the Body Hash has hashed exactly the
bytes of those lines, unchanged, the trailing empty lines being dropped.  If
the body consists of one or more empty lines only, it has hashed exactly one
CR LF. -/
theorem C9_simple_body (env : Env) (ctx : pdkim_ctx) (lines : List (List Nat)) (m i : Nat)
    (b : pdkim_bodyhash) (hctx : BodyLineStart ctx) (hi : ctx.bodyhash[i]? = some b)
    (hsimple : b.canon_method = PDKIM_CANON_SIMPLE) (hnolimit : b.bodylength < 0)
    (hfresh : b.hashed = [] ∧ b.signed_body_bytes = 0 ∧ b.num_buffered_blanklines = 0)
    (hlines : ∀ l ∈ lines, BodyLineOk l)
    (hlen : (body_of_lines lines).length < ULONG_RANGE) :
    (pdkim_feed env ctx (some (body_of_lines lines ++ blank_lines m))).2 = PDKIM_OK ∧
    ((∃ l, lines.getLast? = some l ∧ l ≠ []) →
      ∃ b2, (pdkim_feed env (pdkim_feed env ctx
          (some (body_of_lines lines ++ blank_lines m))).1 none).1.bodyhash[i]? = some b2 ∧
        b2.hashed = body_of_lines lines) ∧
    (lines = [] → 0 < m →
      ∃ b2, (pdkim_feed env (pdkim_feed env ctx
          (some (body_of_lines lines ++ blank_lines m))).1 none).1.bodyhash[i]? = some b2 ∧
        b2.hashed = [CR, LF]) := by
  obtain ⟨hf1, hf2, hf3⟩ := hfresh
  have hall : ∀ l ∈ lines ++ List.replicate m [], BodyLineOk l := by
    intro l hl
    rcases List.mem_append.1 hl with hl | hl
    · exact hlines l hl
    · rw [(List.mem_replicate.1 hl).2]
      exact ⟨by simp, by simp [PDKIM_MAX_BODY_LINE_LEN]⟩
  have hbody : body_of_lines lines ++ blank_lines m =
      body_of_lines (lines ++ List.replicate m []) := by
    rw [body_of_lines_append, blank_lines_eq]
  obtain ⟨e1, _, e3⟩ := feed_lines_effect env (lines ++ List.replicate m []) ctx hctx hall
  have hsc : SignedCountOk b := by
    unfold SignedCountOk
    rw [hf1, hf2]
    rfl
  have hfin : (pdkim_feed env (pdkim_feed env ctx
      (some (body_of_lines lines ++ blank_lines m))).1 none).1.bodyhash[i]? =
      some (body_complete_one { lines_effect lines b with
        num_buffered_blanklines := (lines_effect lines b).num_buffered_blanklines + m }) := by
    simp only [pdkim_feed, body_complete_map]
    rw [hbody, e3, List.map_map, List.getElem?_map, hi]
    simp only [Option.map_some', Function.comp_apply]
    rw [lines_effect_append, lines_effect_blank]
  obtain ⟨c1, c2, c3, c4⟩ := lines_effect_simple lines b (fun l hl => (hlines l hl).1)
    hsimple hnolimit hsc
  rw [hf1, hf3] at c4
  simp only [blank_lines, List.replicate_zero, List.flatten_nil, List.nil_append] at c4
  refine ⟨by simp only [pdkim_feed]; rw [hbody]; exact e1, ?_, ?_⟩
  · rintro ⟨l, hlast, hne⟩
    have hsplit : lines.dropLast ++ [l] = lines := List.dropLast_append_getLast? l hlast
    obtain ⟨d1, d2, d3, _⟩ := lines_effect_simple lines.dropLast b
      (fun x hx => (hlines x (List.mem_of_mem_dropLast hx)).1) hsimple hnolimit hsc
    have hzero : (lines_effect lines b).num_buffered_blanklines = 0 := by
      have hle : lines_effect lines b =
          line_effect (l ++ [CR, LF]) (lines_effect lines.dropLast b) := by
        conv_lhs => rw [← hsplit, lines_effect_append]
        rfl
      rw [hle]
      exact (line_effect_simple l _ (hlines l (by rw [← hsplit]; simp)).1 d1 d2 d3).2.2.2.2.1 hne
    rw [hzero] at c4
    simp only [List.replicate_zero, List.flatten_nil, List.append_nil] at c4
    have hpos : 0 < (body_of_lines lines).length := by
      rw [← hsplit, body_of_lines_append]
      simp [body_of_lines]
    have hsig : (lines_effect lines b).signed_body_bytes ≠ 0 := by
      rw [c3, c4]
      exact Nat.ne_of_gt (by rw [Nat.mod_eq_of_lt hlen]; exact hpos)
    refine ⟨_, hfin, ?_⟩
    unfold body_complete_one
    rw [if_neg (fun h => hsig h.2.1)]
    exact c4
  · intro hnil hm
    subst hnil
    have hle : lines_effect [] b = b := rfl
    refine ⟨_, hfin, ?_⟩
    rw [hle]
    unfold body_complete_one
    rw [if_pos ⟨hsimple, hf2, by simp only; omega⟩]
    have hu := update_unlimited
      { b with num_buffered_blanklines := b.num_buffered_blanklines + m } lineending none
      hnolimit
    rw [hu, canon_data_lineending]
    simp [hf1, lineending]

/-! ## Lines that are too long -/

theorem body_store_plain (ctx : pdkim_ctx) (c : Nat) (hc : c ≠ LF) :
    body_store ctx c =
      { ctx with
        linebuf := ctx.linebuf ++ [c],
        seen_cr := ctx.seen_cr || decide (c = CR) } := by
  unfold body_store
  by_cases h : c = CR
  · simp [h]
  · simp [h, hc]

/-- A line that reaches `PDKIM_MAX_BODY_LINE_LEN - 1` bytes before its line
feed makes the feed stop with `PDKIM_ERR_LONG_LINE`; no Body Hash has been
touched. -/
theorem feed_loop_long_line (env : Env) (ctx : pdkim_ctx) (ys : List Nat) (c : Nat)
    (rest : List Nat) (hb : ctx.past_hdrs = true) (hl : ctx.linebuf = [])
    (hys : LF ∉ ys) (hlen : ys.length + 1 = PDKIM_MAX_BODY_LINE_LEN - 1) (hc : c ≠ LF) :
    (pdkim_feed_loop env ctx (ys ++ c :: rest)).2 = PDKIM_ERR_LONG_LINE ∧
      (pdkim_feed_loop env ctx (ys ++ c :: rest)).1.bodyhash = ctx.bodyhash := by
  have h1 := feed_loop_body_plain env ys ctx hb hys (by rw [hl]; simp; omega)
  have hb2 : ({ ctx with
      linebuf := ctx.linebuf ++ ys,
      seen_cr := ctx.seen_cr || ys.any (fun c => decide (c = CR)) } : pdkim_ctx).past_hdrs
        = true := hb
  have he : body_emulate_cr { ctx with
      linebuf := ctx.linebuf ++ ys,
      seen_cr := ctx.seen_cr || ys.any (fun c => decide (c = CR)) } c =
      { ctx with
        linebuf := ctx.linebuf ++ ys,
        seen_cr := ctx.seen_cr || ys.any (fun c => decide (c = CR)) } := by
    unfold body_emulate_cr
    rw [if_neg (fun h => hc h.1)]
  have hfb : feed_body_byte { ctx with
      linebuf := ctx.linebuf ++ ys,
      seen_cr := ctx.seen_cr || ys.any (fun c => decide (c = CR)) } c =
      ({ ctx with
          linebuf := ctx.linebuf ++ ys ++ [c],
          seen_cr := ctx.seen_cr || ys.any (fun c => decide (c = CR)) || decide (c = CR) },
        PDKIM_ERR_LONG_LINE) := by
    unfold feed_body_byte
    rw [he, body_store_plain _ _ hc, if_neg (fun h => hc h.1)]
    rw [if_pos (by
      simp only [pdkim_ctx.linebuf_offset, hl, List.nil_append, List.length_append,
        List.length_singleton]
      exact hlen)]
  rw [pdkim_feed_loop_append, h1, if_pos rfl]
  simp only [pdkim_feed_loop]
  rw [feed_byte_body env _ c hb2, hfb]
  simp

theorem body_of_single_line (ys : List Nat) :
    body_of_lines [ys] ++ blank_lines 0 = ys ++ CR :: [LF] := by
  simp [body_of_lines, blank_lines]

theorem body_of_single_line_ne_nil (ys : List Nat) : [] ≠ body_of_lines [ys] := by
  simp [body_of_lines]

/-- C9 fails as stated: a body of one non-empty CR LF terminated line of 16382
bytes `a`, fed at the start of the body to a context without dot-stuffing
whose first Body Hash is simple, without limit and fresh, is refused with
`PDKIM_ERR_LONG_LINE`, and after end of data that Body Hash has hashed
nothing, not the bytes of the line. -/
theorem C9_counterexample_long_line :
    (BodyLineStart example_body_ctx ∧
      example_body_ctx.bodyhash[0]? = some
        { hashtype := 1, canon_method := PDKIM_CANON_SIMPLE, bodylength := -1, hashed := [],
          signed_body_bytes := 0, num_buffered_blanklines := 0 }) ∧
    (pdkim_feed example_env example_body_ctx
      (some (body_of_lines [List.replicate 16382 97] ++ blank_lines 0))).2 =
        PDKIM_ERR_LONG_LINE ∧
    (∃ b2, (pdkim_feed example_env (pdkim_feed example_env example_body_ctx
        (some (body_of_lines [List.replicate 16382 97] ++ blank_lines 0))).1
          none).1.bodyhash[0]? = some b2 ∧
      b2.hashed = [] ∧ b2.hashed ≠ body_of_lines [List.replicate 16382 97]) := by
  have hbody := body_of_single_line (List.replicate 16382 97)
  have hstart : BodyLineStart example_body_ctx := by
    refine ⟨by decide, by decide, by decide, by decide⟩
  have hbh : example_body_ctx.bodyhash =
      [{ hashtype := 1, canon_method := PDKIM_CANON_SIMPLE, bodylength := -1, hashed := [],
         signed_body_bytes := 0, num_buffered_blanklines := 0 },
       { hashtype := 1, canon_method := PDKIM_CANON_RELAXED, bodylength := -1, hashed := [],
         signed_body_bytes := 0, num_buffered_blanklines := 0 }] := by decide
  obtain ⟨r1, r2⟩ := feed_loop_long_line example_env example_body_ctx
    (List.replicate 16382 97) CR [LF] hstart.1 hstart.2.2.2
    (fun h => absurd (List.mem_replicate.1 h).2 (by decide))
    (by rw [List.length_replicate]; rfl) (by decide)
  refine ⟨⟨hstart, by rw [hbh]; rfl⟩, ?_, ?_⟩
  · simp only [pdkim_feed]
    rw [hbody]
    exact r1
  · simp only [pdkim_feed, body_complete_map]
    rw [hbody, r2, hbh]
    exact ⟨_, rfl, by decide, body_of_single_line_ne_nil _⟩

/-- The amended C9 at a concrete input: the lines `ab` and `c` followed by two
empty lines, fed to the simple Body Hash of `example_body_ctx`. -/
theorem C9_simple_body_witness :
    (BodyLineStart example_body_ctx ∧
      example_body_ctx.bodyhash[0]? = some
        { hashtype := 1, canon_method := PDKIM_CANON_SIMPLE, bodylength := -1, hashed := [],
          signed_body_bytes := 0, num_buffered_blanklines := 0 } ∧
      (∀ l ∈ [[97, 98], [99]], BodyLineOk l) ∧
      (body_of_lines [[97, 98], [99]]).length < ULONG_RANGE ∧
      (∃ l, [[97, 98], [99]].getLast? = some l ∧ l ≠ [])) ∧
    (pdkim_feed example_env example_body_ctx
      (some (body_of_lines [[97, 98], [99]] ++ blank_lines 2))).2 = PDKIM_OK ∧
    (∃ b2, (pdkim_feed example_env (pdkim_feed example_env example_body_ctx
        (some (body_of_lines [[97, 98], [99]] ++ blank_lines 2))).1 none).1.bodyhash[0]? =
          some b2 ∧
      b2.hashed = body_of_lines [[97, 98], [99]]) :=
  have hstart : BodyLineStart example_body_ctx := ⟨by decide, by decide, by decide, by decide⟩
  have hok : ∀ l ∈ [[97, 98], [99]], BodyLineOk l := by
    intro l hl
    simp only [List.mem_cons, List.mem_singleton, List.not_mem_nil, or_false] at hl
    rcases hl with h | h <;> subst h <;>
      exact ⟨by decide, by simp [PDKIM_MAX_BODY_LINE_LEN]⟩
  have hlast : ∃ l, [[97, 98], [99]].getLast? = some l ∧ l ≠ [] := ⟨[99], rfl, by decide⟩
  have hlen : (body_of_lines [[97, 98], [99]]).length < ULONG_RANGE := by
    simp [body_of_lines, ULONG_RANGE]
  have hthm := C9_simple_body example_env example_body_ctx [[97, 98], [99]] 2 0
    { hashtype := 1, canon_method := PDKIM_CANON_SIMPLE, bodylength := -1, hashed := [],
      signed_body_bytes := 0, num_buffered_blanklines := 0 }
    hstart (by decide) rfl (by decide) ⟨rfl, rfl, rfl⟩ hok hlen
  ⟨⟨hstart, by decide, hok, hlen, hlast⟩, hthm.1, hthm.2.1 hlast⟩

/-! ## Dot-stuffing -/

theorem relaxed_blank_scan_dot (rest : List Nat) : relaxed_blank_scan (DOT :: rest) = false := by
  simp [relaxed_blank_scan, DOT, CR, SP, TAB]

/-- C10. Let a completed body line that begins with two dots reach
`pdkim_bodyline_complete` before end of data.  With dot-stuffing enabled
every Body Hash is given the line with exactly its first dot removed and the
rest unchanged; with dot-stuffing disabled every Body Hash is given the line
unchanged (and no line is changed then).  Giving a line that begins with a
dot to a Body Hash without limit means hashing the blank lines buffered for
it and then the whole line in the canonical form of that Body Hash. -/
theorem C10_dot_unstuffing (ctx : pdkim_ctx) (rest : List Nat)
    (heod : ctx.seen_eod = false) (hline : ctx.linebuf = DOT :: DOT :: rest) :
    (ctx.dot_term = true →
      pdkim_bodyline_complete ctx =
        { ctx with bodyhash := ctx.bodyhash.map (bodyline_hash_one (DOT :: rest)),
                   linebuf := [] }) ∧
    (ctx.dot_term = false →
      pdkim_bodyline_complete ctx =
        { ctx with bodyhash := ctx.bodyhash.map (bodyline_hash_one (DOT :: DOT :: rest)),
                   linebuf := [] }) ∧
    (∀ line, unstuff_line false line = line) ∧
    (∀ (b : pdkim_bodyhash) (tail : List Nat), b.bodylength < 0 →
      (bodyline_hash_one (DOT :: tail) b).hashed =
        b.hashed ++ blank_lines b.num_buffered_blanklines ++
          canon_data b (DOT :: tail) none) := by
  have m1 : memcmp_eq (DOT :: DOT :: rest) [DOT, CR, LF] = false := by
    simp [memcmp_eq, DOT, CR]
  have m2 : memcmp_eq (DOT :: DOT :: rest) [DOT, DOT] = true := by
    simp [memcmp_eq]
  have m3 : ∀ tail, memcmp_eq (DOT :: tail) [CR, LF] = false := by
    intro tail
    simp [memcmp_eq, DOT, CR]
  refine ⟨?_, ?_, ?_, ?_⟩
  · intro hd
    unfold pdkim_bodyline_complete
    rw [if_neg (by simp [heod]), hline, if_neg (by simp [m1])]
    have hu : unstuff_line ctx.dot_term (DOT :: DOT :: rest) = DOT :: rest := by
      unfold unstuff_line
      rw [if_pos ⟨hd, m2⟩]
      rfl
    simp only [hu]
    rw [if_neg (by simp [m3]), bodyline_hashes_map _ _ _ _ (Or.inl rfl) (Or.inl rfl)]
  · intro hd
    have hle : line_effect (DOT :: DOT :: rest) = bodyline_hash_one (DOT :: DOT :: rest) := by
      funext b
      unfold line_effect
      rw [if_neg (by simp [m3])]
    rw [bodyline_complete_plain ctx heod hd, hline, hle]
  · intro line
    unfold unstuff_line
    rw [if_neg (by simp)]
  · intro b tail hb
    exact (bodyline_hash_one_unlimited (DOT :: tail) b hb
      (by simp [relaxed_blank_scan_dot])).1

/-- C10 at a concrete input: the line `..a` CR LF completed in the context
`example_body_ctx`, with dot-stuffing switched on and as it is (off). -/
theorem C10_dot_unstuffing_witness :
    (example_body_ctx.seen_eod = false ∧
      ({ example_body_ctx with dot_term := true, linebuf := [46, 46, 97, 13, 10] } :
        pdkim_ctx).linebuf = DOT :: DOT :: [97, 13, 10]) ∧
    ((pdkim_bodyline_complete
        { example_body_ctx with dot_term := true, linebuf := [46, 46, 97, 13, 10] }).bodyhash.map
          (fun b => b.hashed) = [[46, 97, 13, 10], [46, 97, 13, 10]]) ∧
    ((pdkim_bodyline_complete
        { example_body_ctx with linebuf := [46, 46, 97, 13, 10] }).bodyhash.map
          (fun b => b.hashed) = [[46, 46, 97, 13, 10], [46, 46, 97, 13, 10]]) :=
  ⟨⟨by decide, rfl⟩,
    by
      rw [(C10_dot_unstuffing
        { example_body_ctx with dot_term := true, linebuf := [46, 46, 97, 13, 10] }
        [97, 13, 10] (by decide) rfl).1 rfl]
      decide,
    by
      rw [(C10_dot_unstuffing { example_body_ctx with linebuf := [46, 46, 97, 13, 10] }
        [97, 13, 10] (by decide) rfl).2.1 (by decide)]
      decide⟩

/-! ## The header section and messages without a body -/

theorem set_bodyhash_shape (env : Env) (ctx : pdkim_ctx) (h c n : Int) :
    (pdkim_set_bodyhash env ctx h c n).1 =
      { ctx with bodyhash := (pdkim_set_bodyhash env ctx h c n).1.bodyhash } := by
  unfold pdkim_set_bodyhash
  split
  · rfl
  · split
    · rfl
    · split <;> rfl

/-- `pdkim_set_bodyhash` leaves the Body Hashes that exist alone and creates
a Body Hash that has hashed nothing. -/
theorem set_bodyhash_fresh (env : Env) (ctx : pdkim_ctx) (h c n : Int)
    (hf : AllFresh ctx.bodyhash) : AllFresh (pdkim_set_bodyhash env ctx h c n).1.bodyhash := by
  unfold pdkim_set_bodyhash
  split
  · exact hf
  · split
    · exact hf
    · split
      · intro b hb
        rcases List.mem_cons.1 hb with hb | hb
        · subst hb
          exact ⟨rfl, rfl, rfl⟩
        · exact hf b hb
      · exact hf

/-- The two results of `pdkim_parse_sig_header`, in terms of the scan and of
`pdkim_set_bodyhash`. -/
theorem parse_sig_header_eq (env : Env) (ctx : pdkim_ctx) (raw : List Nat) :
    pdkim_parse_sig_header env ctx raw =
      match parse_sig_scan env raw with
      | none => (ctx, none)
      | some st =>
        if st.sig.keytype < 0 ∨ st.sig.hashtype < 0 then (ctx, none)
        else
          ((pdkim_set_bodyhash env ctx st.sig.hashtype st.sig.canon_body st.sig.bodylength).1,
            (pdkim_set_bodyhash env ctx st.sig.hashtype st.sig.canon_body
              st.sig.bodylength).2.map (fun b =>
                { st.sig with
                  rawsig_no_b_val := chomp_rawsig st.q,
                  calc_body_hash := some b.key })) := by
  unfold pdkim_parse_sig_header pdkim_set_sig_bodyhash
  cases parse_sig_scan env raw with
  | none => rfl
  | some st =>
    dsimp only
    split
    · rfl
    · cases (pdkim_set_bodyhash env ctx st.sig.hashtype st.sig.canon_body
        st.sig.bodylength).2 <;> rfl

/-- The context `pdkim_parse_sig_header` leaves is the one it was given or
the one a call of `pdkim_set_bodyhash` leaves. -/
theorem parse_sig_header_ctx (env : Env) (ctx : pdkim_ctx) (raw : List Nat) :
    (pdkim_parse_sig_header env ctx raw).1 = ctx ∨
      ∃ h c n, (pdkim_parse_sig_header env ctx raw).1 = (pdkim_set_bodyhash env ctx h c n).1 := by
  rw [parse_sig_header_eq]
  cases parse_sig_scan env raw with
  | none => exact Or.inl rfl
  | some st =>
    dsimp only
    split
    · exact Or.inl rfl
    · exact Or.inr ⟨_, _, _, rfl⟩

theorem parse_sig_header_shape (env : Env) (ctx : pdkim_ctx) (raw : List Nat) :
    (pdkim_parse_sig_header env ctx raw).1 =
      { ctx with bodyhash := (pdkim_parse_sig_header env ctx raw).1.bodyhash } := by
  rcases parse_sig_header_ctx env ctx raw with h | ⟨h, c, n, e⟩
  · rw [h]
  · rw [e]
    exact set_bodyhash_shape env ctx h c n

theorem parse_sig_header_fresh (env : Env) (ctx : pdkim_ctx) (raw : List Nat)
    (hf : AllFresh ctx.bodyhash) :
    AllFresh (pdkim_parse_sig_header env ctx raw).1.bodyhash := by
  rcases parse_sig_header_ctx env ctx raw with h | ⟨h, c, n, e⟩
  · rw [h]
    exact hf
  · rw [e]
    exact set_bodyhash_fresh env ctx h c n hf

theorem header_complete_sig_facts (env : Env) (ctx : pdkim_ctx) (s : List Nat)
    (hf : AllFresh ctx.bodyhash) :
    (header_complete_sig env ctx s).1.past_hdrs = ctx.past_hdrs ∧
      (header_complete_sig env ctx s).1.cur_header = some [] ∧
      AllFresh (header_complete_sig env ctx s).1.bodyhash := by
  have hp := congrArg pdkim_ctx.past_hdrs (parse_sig_header_shape env ctx s)
  have hfr := parse_sig_header_fresh env ctx s hf
  unfold header_complete_sig
  split
  · exact ⟨hp, rfl, hfr⟩
  · exact ⟨hp, rfl, hfr⟩

/-- What `pdkim_header_complete` leaves behind: the mode is kept, the header
buffer is emptied, and no Body Hash has been given a byte. -/
theorem header_complete_facts (env : Env) (ctx : pdkim_ctx) (hf : AllFresh ctx.bodyhash) :
    (pdkim_header_complete env ctx).1.past_hdrs = ctx.past_hdrs ∧
      (pdkim_header_complete env ctx).1.cur_header = some [] ∧
      AllFresh (pdkim_header_complete env ctx).1.bodyhash := by
  unfold pdkim_header_complete
  split
  · exact ⟨rfl, rfl, hf⟩
  · split
    · exact ⟨rfl, rfl, hf⟩
    · split
      · exact header_complete_sig_facts env { ctx with num_headers := ctx.num_headers + 1 }
          (header_text env ctx) hf
      · exact ⟨rfl, rfl, hf⟩

theorem header_append_facts (ctx : pdkim_ctx) (c : Nat) :
    (header_append ctx c).past_hdrs = ctx.past_hdrs ∧
      (header_append ctx c).bodyhash = ctx.bodyhash := by
  unfold header_append
  split
  · exact ⟨rfl, rfl⟩
  · split <;> exact ⟨rfl, rfl⟩

theorem header_emulate_cr_facts (ctx : pdkim_ctx) :
    (header_emulate_cr ctx).past_hdrs = ctx.past_hdrs ∧
      (header_emulate_cr ctx).bodyhash = ctx.bodyhash := by
  unfold header_emulate_cr
  split <;> exact ⟨rfl, rfl⟩

/-- One round of the loop of `pdkim_feed` in header mode gives no byte to a
Body Hash; when it switches to body mode the header buffer is empty. -/
theorem feed_header_byte_facts (env : Env) (ctx : pdkim_ctx) (c : Nat)
    (hm : ctx.past_hdrs = false) (hf : AllFresh ctx.bodyhash) :
    AllFresh (feed_header_byte env ctx c).1.bodyhash ∧
      ((feed_header_byte env ctx c).2 = PDKIM_OK →
        (feed_header_byte env ctx c).1.past_hdrs = true →
        (feed_header_byte env ctx c).1.cur_header = some []) := by
  unfold feed_header_byte
  split
  · obtain ⟨a1, a2⟩ := header_append_facts { ctx with seen_cr := true } c
    refine ⟨by rw [a2]; exact hf, fun _ hp => ?_⟩
    rw [a1] at hp
    exact absurd (hm.symm.trans hp) (by decide)
  · obtain ⟨e1, e2⟩ := header_emulate_cr_facts ctx
    have hfe : AllFresh (header_emulate_cr ctx).bodyhash := by rw [e2]; exact hf
    obtain ⟨h1, h2, h3⟩ := header_complete_facts env (header_emulate_cr ctx) hfe
    split
    · split
      · unfold header_end
        split
        · exact ⟨h3, fun hok => absurd hok (by assumption)⟩
        · exact ⟨h3, fun _ _ => h2⟩
      · obtain ⟨a1, a2⟩ := header_append_facts
          { header_emulate_cr ctx with seen_cr := false, seen_lf := true } c
        refine ⟨by rw [a2]; exact hfe, fun _ hp => ?_⟩
        rw [a1] at hp
        exact absurd ((hm.symm.trans e1.symm).trans hp) (by decide)
    · obtain ⟨g1, g2, g3⟩ := header_complete_facts env ctx hf
      split
      · unfold header_after_lf
        split
        · split
          · refine ⟨g3, fun hok => absurd hok (by assumption)⟩
          · obtain ⟨a1, a2⟩ := header_append_facts
              { (pdkim_header_complete env ctx).1 with seen_lf := false } c
            refine ⟨by rw [a2]; exact g3, fun _ hp => ?_⟩
            rw [a1] at hp
            exact absurd ((hm.symm.trans g1.symm).trans hp) (by decide)
        · obtain ⟨a1, a2⟩ := header_append_facts { ctx with seen_lf := false } c
          refine ⟨by rw [a2]; exact hf, fun _ hp => ?_⟩
          rw [a1] at hp
          exact absurd (hm.symm.trans hp) (by decide)
      · obtain ⟨a1, a2⟩ := header_append_facts ctx c
        refine ⟨by rw [a2]; exact hf, fun _ hp => ?_⟩
        rw [a1] at hp
        exact absurd (hm.symm.trans hp) (by decide)

theorem feed_byte_header (env : Env) (ctx : pdkim_ctx) (c : Nat)
    (hm : ctx.past_hdrs = false) : pdkim_feed_byte env ctx c = feed_header_byte env ctx c := by
  unfold pdkim_feed_byte
  rw [if_neg (by simp [hm])]

/-- As long as the feeder is in header mode no Body Hash has been given a
byte. -/
theorem feed_loop_header_fresh (env : Env) :
    ∀ (M : List Nat) (ctx : pdkim_ctx), ctx.past_hdrs = false → AllFresh ctx.bodyhash →
      (pdkim_feed_loop env ctx M).1.past_hdrs = false →
      AllFresh (pdkim_feed_loop env ctx M).1.bodyhash
  | [], _, _, hf, _ => hf
  | c :: rest, ctx, hm, hf, hend => by
      have hfb := (feed_header_byte_facts env ctx c hm hf).1
      rw [← feed_byte_header env ctx c hm] at hfb
      simp only [pdkim_feed_loop] at hend ⊢
      by_cases hok : (pdkim_feed_byte env ctx c).2 = PDKIM_OK
      · rw [if_pos hok] at hend ⊢
        by_cases hp : (pdkim_feed_byte env ctx c).1.past_hdrs = true
        · have := feed_loop_body_past_hdrs env rest _ hp
          rw [hend] at this
          exact absurd this (by decide)
        · exact feed_loop_header_fresh env rest _ (by simpa using hp) hfb hend
      · rw [if_neg hok]
        exact hfb

/-- End of data changes no Body Hash that has not been given anything. -/
theorem body_complete_fresh (ctx : pdkim_ctx) (hf : AllFresh ctx.bodyhash) :
    (pdkim_body_complete ctx).bodyhash = ctx.bodyhash ∧
      (pdkim_body_complete ctx).cur_header = ctx.cur_header := by
  refine ⟨?_, rfl⟩
  rw [body_complete_map]
  show ctx.bodyhash.map body_complete_one = ctx.bodyhash
  conv_rhs => rw [← List.map_id ctx.bodyhash]
  apply List.map_congr_left
  intro b hb
  unfold body_complete_one
  rw [if_neg]
  · rfl
  · intro h
    have := (hf b hb).2.2
    omega

/-- A Body Hash that has hashed nothing and has room for two bytes hashes
exactly CR LF when it is given `lineending`. -/
theorem fresh_update_lineending (b : pdkim_bodyhash) (hf : FreshBodyhash b)
    (hr : RoomForLineending b) :
    (pdkim_update_ctx_bodyhash b lineending none).1.hashed = [CR, LF] := by
  obtain ⟨h1, h2, _⟩ := hf
  rw [update_hashed, canon_data_lineending, h1]
  rcases hr with hr | ⟨hr1, hr2⟩
  · rw [bytes_to_hash_unlimited _ _ hr]
    rfl
  · rw [bytes_to_hash_limited b _ (by omega) hr2 (by rw [h2]; exact Nat.zero_le _), h2]
    have : min lineending.length (b.bodylength.toNat - 0) = 2 := by
      have : lineending.length = 2 := rfl
      omega
    rw [this]
    rfl

theorem end_of_data_ctx (env : Env) (ctx : pdkim_ctx) (feed_null : Bool)
    (hf : AllFresh ctx.bodyhash) :
    ∃ ctxE, end_of_data env ctx feed_null = pdkim_feed_finish_flush env ctxE ∧
      ctxE.cur_header = ctx.cur_header ∧ ctxE.bodyhash = ctx.bodyhash := by
  unfold end_of_data
  cases feed_null
  · exact ⟨ctx, rfl, rfl, rfl⟩
  · obtain ⟨e1, e2⟩ := body_complete_fresh ctx hf
    exact ⟨pdkim_body_complete ctx, rfl, e2, e1⟩

/-- Messages without a body.  Let `H` be bytes fed to a context that is in
header mode and whose Body Hashes have hashed nothing, and let the feeder
accept `H` and still be in header mode after it.
(1) If the message ends there, with a header still in the header buffer (no
empty separator line was fed), and the finish accepts that header, then every
Body Hash, simple or relaxed, whose body-length limit is absent or at least 2
has hashed exactly the two bytes CR LF at finish.
(2) If a line feed follows that completes the empty separator line and the
message ends there, without a body byte, then the finish succeeds and every
Body Hash, simple or relaxed, has hashed no byte at finish.
End of data is `pdkim_feed` with NULL followed by `pdkim_feed_finish`, or
`pdkim_feed_finish` alone. -/
theorem no_body_hashes (env : Env) (ctx0 : pdkim_ctx) (H : List Nat) (feed_null : Bool)
    (hmode : ctx0.past_hdrs = false) (hfresh : AllFresh ctx0.bodyhash)
    (hok : (pdkim_feed env ctx0 (some H)).2 = PDKIM_OK)
    (hhdr : (pdkim_feed env ctx0 (some H)).1.past_hdrs = false) :
    ((∃ g, (pdkim_feed env ctx0 (some H)).1.cur_header = some g ∧ g ≠ []) →
      (end_of_data env (pdkim_feed env ctx0 (some H)).1 feed_null).2 = PDKIM_OK →
      ∀ b ∈ (end_of_data env (pdkim_feed env ctx0 (some H)).1 feed_null).1.bodyhash,
        RoomForLineending b → b.hashed = [CR, LF]) ∧
    ((pdkim_feed env ctx0 (some (H ++ [LF]))).2 = PDKIM_OK →
      (pdkim_feed env ctx0 (some (H ++ [LF]))).1.past_hdrs = true →
      (end_of_data env (pdkim_feed env ctx0 (some (H ++ [LF]))).1 feed_null).2 = PDKIM_OK ∧
      ∀ b ∈ (end_of_data env (pdkim_feed env ctx0 (some (H ++ [LF]))).1 feed_null).1.bodyhash,
        b.hashed = []) := by
  simp only [pdkim_feed] at hok hhdr ⊢
  have hfH := feed_loop_header_fresh env H ctx0 hmode hfresh hhdr
  constructor
  · rintro ⟨g, hg, hne⟩ hfin b hb hroom
    obtain ⟨ctxE, e1, e2, e3⟩ := end_of_data_ctx env (pdkim_feed_loop env ctx0 H).1
      feed_null hfH
    rw [e1] at hfin hb
    have hfE : AllFresh ctxE.bodyhash := by rw [e3]; exact hfH
    obtain ⟨_, _, c3⟩ := header_complete_facts env ctxE hfE
    have hcond : (match ctxE.cur_header with
        | some g => decide (0 < g.length)
        | none => false) = true := by
      rw [e2, hg]
      simpa using List.length_pos.2 hne
    unfold pdkim_feed_finish_flush at hfin hb
    rw [if_pos hcond] at hfin hb
    simp only at hfin hb
    by_cases hrc : (pdkim_header_complete env ctxE).2 = PDKIM_OK
    · rw [if_neg (by simp [hrc])] at hb
      simp only at hb
      rw [hash_lineending_all_map _ _ (Or.inl rfl)] at hb
      obtain ⟨b0, hb0, hb0e⟩ := List.mem_map.1 hb
      subst hb0e
      have hroom0 : RoomForLineending b0 := by
        unfold RoomForLineending at hroom ⊢
        rw [update_bodylength] at hroom
        exact hroom
      exact fresh_update_lineending b0 (c3 b0 hb0) hroom0
    · rw [if_pos hrc] at hfin
      exact absurd hfin hrc
  · intro hok2 hbody
    rw [pdkim_feed_loop_append, if_pos hok] at hok2 hbody ⊢
    simp only [pdkim_feed_loop] at hok2 hbody ⊢
    have hrb : (pdkim_feed_byte env (pdkim_feed_loop env ctx0 H).1 LF).2 = PDKIM_OK := by
      by_contra hne
      rw [if_neg hne] at hok2
      exact hne hok2
    rw [if_pos hrb] at hbody ⊢
    simp only at hbody ⊢
    rw [feed_byte_header env _ LF hhdr] at hrb hbody ⊢
    obtain ⟨f1, f2⟩ := feed_header_byte_facts env (pdkim_feed_loop env ctx0 H).1 LF hhdr hfH
    obtain ⟨ctxE, e1, e2, e3⟩ := end_of_data_ctx env
      (feed_header_byte env (pdkim_feed_loop env ctx0 H).1 LF).1 feed_null f1
    have hflush : pdkim_feed_finish_flush env ctxE = (ctxE, PDKIM_OK) := by
      unfold pdkim_feed_finish_flush
      rw [if_neg]
      rw [e2, f2 hrb hbody]
      simp
    rw [e1, hflush]
    refine ⟨rfl, fun b hb => ?_⟩
    simp only at hb
    rw [e3] at hb
    exact (f1 b hb).1

theorem example_sign_ctx_fresh : AllFresh example_sign_ctx.bodyhash := by
  intro b hb
  have hl : example_sign_ctx.bodyhash =
      [{ hashtype := 1, canon_method := PDKIM_CANON_SIMPLE, bodylength := -1, hashed := [],
         signed_body_bytes := 0, num_buffered_blanklines := 0 },
       { hashtype := 1, canon_method := PDKIM_CANON_RELAXED, bodylength := -1, hashed := [],
         signed_body_bytes := 0, num_buffered_blanklines := 0 }] := by decide
  rw [hl] at hb
  simp only [List.mem_cons, List.mem_singleton, List.not_mem_nil, or_false] at hb
  rcases hb with h | h <;> subst h <;> exact ⟨rfl, rfl, rfl⟩

/-- C8: the code does not do what the claim (and its own comments) say for a
message with the empty separator line and no body byte.
(1) For every message that ends in its header section, the last header still
in the header buffer, `pdkim_feed_finish` flushes the header and every Body
Hash, simple or relaxed, whose body-length limit is absent or at least 2 has
hashed exactly CR LF: on this path the claim holds.
(2) For every message whose last line feed completes the empty separator
line, with no body byte after it, the finish succeeds and every Body Hash,
simple or relaxed, has hashed no byte at all, so none has hashed CR LF.
(3) The failing input `A: b` CR LF CR LF, fed to a sign-mode context with a
fresh simple and a fresh relaxed Body Hash without limit: after end of data,
by `pdkim_feed` with NULL and `pdkim_feed_finish` or by `pdkim_feed_finish`
alone, both Body Hashes have hashed nothing.
(4) The same context given `A: b` CR LF only, without the separator line:
both Body Hashes have hashed CR LF. -/
theorem C8_separator_then_end_hashes_nothing :
    (∀ (env : Env) (ctx0 : pdkim_ctx) (H : List Nat) (feed_null : Bool),
      ctx0.past_hdrs = false → AllFresh ctx0.bodyhash →
      (pdkim_feed env ctx0 (some H)).2 = PDKIM_OK →
      (pdkim_feed env ctx0 (some H)).1.past_hdrs = false →
      (∃ g, (pdkim_feed env ctx0 (some H)).1.cur_header = some g ∧ g ≠ []) →
      (end_of_data env (pdkim_feed env ctx0 (some H)).1 feed_null).2 = PDKIM_OK →
      ∀ b ∈ (end_of_data env (pdkim_feed env ctx0 (some H)).1 feed_null).1.bodyhash,
        RoomForLineending b → b.hashed = [CR, LF]) ∧
    (∀ (env : Env) (ctx0 : pdkim_ctx) (H : List Nat) (feed_null : Bool),
      ctx0.past_hdrs = false → AllFresh ctx0.bodyhash →
      (pdkim_feed env ctx0 (some H)).2 = PDKIM_OK →
      (pdkim_feed env ctx0 (some H)).1.past_hdrs = false →
      (pdkim_feed env ctx0 (some (H ++ [LF]))).2 = PDKIM_OK →
      (pdkim_feed env ctx0 (some (H ++ [LF]))).1.past_hdrs = true →
      (end_of_data env (pdkim_feed env ctx0 (some (H ++ [LF]))).1 feed_null).2 = PDKIM_OK ∧
      ∀ b ∈ (end_of_data env (pdkim_feed env ctx0 (some (H ++ [LF]))).1 feed_null).1.bodyhash,
        b.hashed = [] ∧ b.hashed ≠ [CR, LF]) ∧
    ((example_sign_ctx.bodyhash.map (fun b => (b.canon_method, b.bodylength, b.hashed)) =
        [(PDKIM_CANON_SIMPLE, -1, []), (PDKIM_CANON_RELAXED, -1, [])] ∧
      example_headers = [65, 58, 32, 98, 13, 10, 13, 10]) ∧
    (pdkim_feed example_env example_sign_ctx (some example_headers)).2 = PDKIM_OK ∧
    (pdkim_feed example_env example_sign_ctx (some example_headers)).1.past_hdrs = true ∧
    (end_of_data example_env
        (pdkim_feed example_env example_sign_ctx (some example_headers)).1 true).2 =
      PDKIM_OK ∧
    (end_of_data example_env
        (pdkim_feed example_env example_sign_ctx (some example_headers)).1 true).1.bodyhash.map
        (fun b => (b.canon_method, b.hashed)) =
      [(PDKIM_CANON_SIMPLE, []), (PDKIM_CANON_RELAXED, [])] ∧
    (end_of_data example_env
        (pdkim_feed example_env example_sign_ctx (some example_headers)).1 false).2 =
      PDKIM_OK ∧
    (end_of_data example_env
        (pdkim_feed example_env example_sign_ctx (some example_headers)).1 false).1.bodyhash.map
        (fun b => (b.canon_method, b.hashed)) =
      [(PDKIM_CANON_SIMPLE, []), (PDKIM_CANON_RELAXED, [])]) ∧
    ((pdkim_feed example_env example_sign_ctx (some [65, 58, 32, 98, 13, 10])).2 = PDKIM_OK ∧
    (end_of_data example_env
        (pdkim_feed example_env example_sign_ctx (some [65, 58, 32, 98, 13, 10])).1 true).2 =
      PDKIM_OK ∧
    (end_of_data example_env
        (pdkim_feed example_env example_sign_ctx
          (some [65, 58, 32, 98, 13, 10])).1 true).1.bodyhash.map
        (fun b => (b.canon_method, b.hashed)) =
      [(PDKIM_CANON_SIMPLE, [CR, LF]), (PDKIM_CANON_RELAXED, [CR, LF])] ∧
    (end_of_data example_env
        (pdkim_feed example_env example_sign_ctx
          (some [65, 58, 32, 98, 13, 10])).1 false).1.bodyhash.map
        (fun b => (b.canon_method, b.hashed)) =
      [(PDKIM_CANON_SIMPLE, [CR, LF]), (PDKIM_CANON_RELAXED, [CR, LF])]) := by
  refine ⟨?_, ?_, ?_, ?_⟩
  · intro env ctx0 H feed_null hmode hfresh hok hhdr hbuf hfin
    exact (no_body_hashes env ctx0 H feed_null hmode hfresh hok hhdr).1 hbuf hfin
  · intro env ctx0 H feed_null hmode hfresh hok hhdr hok2 hbody
    obtain ⟨a1, a2⟩ := (no_body_hashes env ctx0 H feed_null hmode hfresh hok hhdr).2 hok2 hbody
    refine ⟨a1, fun b hb => ⟨a2 b hb, ?_⟩⟩
    rw [a2 b hb]
    exact List.noConfusion
  · exact ⟨⟨by decide, rfl⟩, by decide, by decide, by decide, by decide, by decide, by decide⟩
  · exact ⟨by decide, by decide, by decide, by decide⟩

/-! ## After end of data -/

/-- Running `pdkim_body_complete` on a Body Hash a second time changes nothing. -/
theorem body_complete_one_idem (b : pdkim_bodyhash) :
    body_complete_one (body_complete_one b) = body_complete_one b := by
  by_cases h : b.canon_method = PDKIM_CANON_SIMPLE ∧ b.signed_body_bytes = 0 ∧
      0 < b.num_buffered_blanklines
  · have e1 : body_complete_one b = (pdkim_update_ctx_bodyhash b lineending none).1 := by
      unfold body_complete_one
      rw [if_pos h]
    rw [e1]
    by_cases hl : 0 < bytes_to_hash b (canon_data b lineending none)
    · have hs := update_signed b lineending none
      rw [if_pos hl, h.2.1, Nat.zero_add] at hs
      have hle := bytes_to_hash_le b (canon_data b lineending none)
      rw [canon_data_lineending] at hle hl hs
      have hlen : lineending.length = 2 := rfl
      rw [hlen] at hle
      have hne : (pdkim_update_ctx_bodyhash b lineending none).1.signed_body_bytes ≠ 0 := by
        rw [hs]
        unfold ULONG_RANGE
        omega
      unfold body_complete_one
      rw [if_neg]
      exact fun hc => hne hc.2.1
    · have e2 : (pdkim_update_ctx_bodyhash b lineending none).1 = b := by
        unfold pdkim_update_ctx_bodyhash
        simp only
        rw [if_neg hl]
      rw [e2, e1, e2]
  · have e1 : body_complete_one b = b := by
      unfold body_complete_one
      rw [if_neg h]
    rw [e1, e1]

theorem body_emulate_cr_keeps (ctx : pdkim_ctx) (c : Nat) :
    (body_emulate_cr ctx c).bodyhash = ctx.bodyhash ∧
      (body_emulate_cr ctx c).seen_eod = ctx.seen_eod := by
  unfold body_emulate_cr
  split <;> exact ⟨rfl, rfl⟩

/-- Once end of data has been seen, storing a body byte changes no Body Hash. -/
theorem body_store_eod (ctx : pdkim_ctx) (c : Nat) (he : ctx.seen_eod = true) :
    (body_store ctx c).bodyhash = ctx.bodyhash ∧ (body_store ctx c).seen_eod = true := by
  unfold body_store
  split
  · exact ⟨rfl, he⟩
  · split
    · unfold pdkim_bodyline_complete
      rw [if_pos (by exact he)]
      exact ⟨rfl, he⟩
    · exact ⟨rfl, he⟩

theorem feed_byte_body_eod (env : Env) (ctx : pdkim_ctx) (c : Nat)
    (hb : ctx.past_hdrs = true) (he : ctx.seen_eod = true) :
    (pdkim_feed_byte env ctx c).1.bodyhash = ctx.bodyhash ∧
      (pdkim_feed_byte env ctx c).1.seen_eod = true := by
  rw [feed_byte_body env ctx c hb]
  obtain ⟨k1, k2⟩ := body_emulate_cr_keeps ctx c
  obtain ⟨s1, s2⟩ := body_store_eod (body_emulate_cr ctx c) c (k2.trans he)
  unfold feed_body_byte
  split
  · exact ⟨k1, k2.trans he⟩
  · split
    · exact ⟨s1.trans k1, s2⟩
    · exact ⟨s1.trans k1, s2⟩

theorem feed_loop_body_eod (env : Env) :
    ∀ (xs : List Nat) (ctx : pdkim_ctx), ctx.past_hdrs = true → ctx.seen_eod = true →
      (pdkim_feed_loop env ctx xs).1.bodyhash = ctx.bodyhash ∧
        (pdkim_feed_loop env ctx xs).1.seen_eod = true
  | [], _, _, he => ⟨rfl, he⟩
  | c :: xs, ctx, hb, he => by
      obtain ⟨k1, k2⟩ := feed_byte_body_eod env ctx c hb he
      simp only [pdkim_feed_loop]
      split
      · obtain ⟨j1, j2⟩ := feed_loop_body_eod env xs _
          (feed_byte_body_past_hdrs env ctx c hb) k2
        exact ⟨j1.trans k1, j2⟩
      · exact ⟨k1, k2⟩

/-- In body mode, after end of data has been seen and `pdkim_body_complete`
has run, no call of `pdkim_feed` changes a Body Hash. -/
theorem feed_calls_eod (env : Env) :
    ∀ (calls : List (Option (List Nat))) (ctx : pdkim_ctx), ctx.past_hdrs = true →
      ctx.seen_eod = true → ctx.bodyhash.map body_complete_one = ctx.bodyhash →
      (feed_calls env ctx calls).bodyhash = ctx.bodyhash ∧
        (feed_calls env ctx calls).seen_eod = true
  | [], _, _, he, _ => ⟨rfl, he⟩
  | none :: calls, ctx, hb, he, hs => by
      have e : feed_calls env ctx (none :: calls) =
          feed_calls env (pdkim_body_complete ctx) calls := rfl
      have hbh : (pdkim_body_complete ctx).bodyhash = ctx.bodyhash := by
        rw [body_complete_map]
        exact hs
      rw [e]
      obtain ⟨j1, j2⟩ := feed_calls_eod env calls (pdkim_body_complete ctx) hb rfl
        (by rw [hbh]; exact hs)
      exact ⟨j1.trans hbh, j2⟩
  | some d :: calls, ctx, hb, he, hs => by
      have e : feed_calls env ctx (some d :: calls) =
          feed_calls env (pdkim_feed_loop env ctx d).1 calls := rfl
      obtain ⟨k1, k2⟩ := feed_loop_body_eod env d ctx hb he
      rw [e]
      obtain ⟨j1, j2⟩ := feed_calls_eod env calls _ (feed_loop_body_past_hdrs env d ctx hb) k2
        (by rw [k1]; exact hs)
      exact ⟨j1.trans k1, j2⟩

/-- C11. With dot-stuffing enabled, when `pdkim_bodyline_complete` processes a
body line equal to a dot followed by CR LF (the feeder is in body mode and
end of data has not been seen before, so that the line is not skipped), the
end-of-data flag is set, and after every sequence of later calls of
`pdkim_feed`, with data or with NULL and whatever they return, the flag is
still set and the list of Body Hashes is the one `pdkim_bodyline_complete`
left: in particular the hashed bytes, `signed_body_bytes` and
`num_buffered_blanklines` of every Body Hash are unchanged. -/
theorem C11_dot_line_ends_body (env : Env) (ctx : pdkim_ctx)
    (hdot : ctx.dot_term = true) (hbody : ctx.past_hdrs = true)
    (hfirst : ctx.seen_eod = false) (hline : ctx.linebuf = [DOT, CR, LF]) :
    (pdkim_bodyline_complete ctx).seen_eod = true ∧
      ∀ calls : List (Option (List Nat)),
        (feed_calls env (pdkim_bodyline_complete ctx) calls).seen_eod = true ∧
          (feed_calls env (pdkim_bodyline_complete ctx) calls).bodyhash =
            (pdkim_bodyline_complete ctx).bodyhash := by
  have hm : memcmp_eq ctx.linebuf [DOT, CR, LF] = true := by
    rw [hline]
    decide
  have e : pdkim_bodyline_complete ctx = pdkim_body_complete ctx := by
    unfold pdkim_bodyline_complete
    rw [hfirst]
    simp only [Bool.false_eq_true, if_false]
    rw [if_pos ⟨hdot, hm⟩]
  rw [e]
  refine ⟨rfl, fun calls => ?_⟩
  have hs : (pdkim_body_complete ctx).bodyhash.map body_complete_one =
      (pdkim_body_complete ctx).bodyhash := by
    rw [body_complete_map]
    simp only [List.map_map]
    apply List.map_congr_left
    intro b _
    exact body_complete_one_idem b
  obtain ⟨j1, j2⟩ := feed_calls_eod env calls (pdkim_body_complete ctx) hbody rfl hs
  exact ⟨j2, j1⟩

/-- C11 at a concrete context: a dot line is in the buffer, both Body Hashes
have two blank lines buffered, and the later calls are a line of body text, a
NULL feed and another dot line. -/
theorem C11_dot_line_ends_body_witness :
    (pdkim_bodyline_complete example_dot_ctx).seen_eod = true ∧
      (feed_calls example_env (pdkim_bodyline_complete example_dot_ctx)
          [some [97, CR, LF], none, some [DOT, CR, LF]]).bodyhash =
        (pdkim_bodyline_complete example_dot_ctx).bodyhash :=
  ⟨(C11_dot_line_ends_body example_env example_dot_ctx (by decide) (by decide) (by decide)
      (by decide)).1,
    ((C11_dot_line_ends_body example_env example_dot_ctx (by decide) (by decide) (by decide)
      (by decide)).2 [some [97, CR, LF], none, some [DOT, CR, LF]]).2⟩

/-! ## More headers than `PDKIM_MAX_HEADERS` -/

/-- Beyond `PDKIM_MAX_HEADERS` headers `pdkim_header_complete` only counts the
header and empties the buffer, and returns `PDKIM_OK`. -/
theorem header_complete_excess (env : Env) (ctx : pdkim_ctx)
    (h : PDKIM_MAX_HEADERS ≤ ctx.num_headers) :
    pdkim_header_complete env ctx =
      ({ ctx with num_headers := ctx.num_headers + 1, cur_header := some [] }, PDKIM_OK) := by
  unfold pdkim_header_complete
  rw [if_pos (by omega)]

theorem header_append_keeps (ctx : pdkim_ctx) (c : Nat) :
    header_append ctx c = { ctx with cur_header := (header_append ctx c).cur_header } := by
  unfold header_append
  split
  · rfl
  · split <;> rfl

theorem header_emulate_cr_keeps (ctx : pdkim_ctx) :
    header_emulate_cr ctx = { ctx with cur_header := (header_emulate_cr ctx).cur_header } := by
  unfold header_emulate_cr
  split <;> rfl

/-- In header mode beyond `PDKIM_MAX_HEADERS` headers, one round of the loop of
`pdkim_feed` returns `PDKIM_OK`, stores no header, adds no signature and no
Body Hash, and the count stays beyond the maximum. -/
theorem feed_header_byte_excess (env : Env) (ctx : pdkim_ctx) (c : Nat)
    (h : PDKIM_MAX_HEADERS ≤ ctx.num_headers) :
    (feed_header_byte env ctx c).2 = PDKIM_OK ∧
      (feed_header_byte env ctx c).1.headers = ctx.headers ∧
      (feed_header_byte env ctx c).1.sig = ctx.sig ∧
      (feed_header_byte env ctx c).1.bodyhash = ctx.bodyhash ∧
      PDKIM_MAX_HEADERS ≤ (feed_header_byte env ctx c).1.num_headers := by
  have ha : ∀ x : pdkim_ctx, (header_append x c).headers = x.headers ∧
      (header_append x c).sig = x.sig ∧ (header_append x c).bodyhash = x.bodyhash ∧
      (header_append x c).num_headers = x.num_headers := by
    intro x
    rw [header_append_keeps]
    exact ⟨rfl, rfl, rfl, rfl⟩
  have he : (header_emulate_cr ctx).headers = ctx.headers ∧
      (header_emulate_cr ctx).sig = ctx.sig ∧
      (header_emulate_cr ctx).bodyhash = ctx.bodyhash ∧
      (header_emulate_cr ctx).num_headers = ctx.num_headers := by
    rw [header_emulate_cr_keeps]
    exact ⟨rfl, rfl, rfl, rfl⟩
  unfold feed_header_byte
  split
  · obtain ⟨a1, a2, a3, a4⟩ := ha { ctx with seen_cr := true }
    exact ⟨rfl, a1, a2, a3, by rw [a4]; exact h⟩
  · split
    · split
      · have hx := header_complete_excess env (header_emulate_cr ctx) (by rw [he.2.2.2]; exact h)
        unfold header_end
        rw [hx]
        have hne : ¬ (PDKIM_OK ≠ PDKIM_OK) := by simp
        rw [if_neg hne]
        exact ⟨rfl, he.1, he.2.1, he.2.2.1, by show _ ≤ (header_emulate_cr ctx).num_headers + 1; rw [he.2.2.2]; omega⟩
      · obtain ⟨a1, a2, a3, a4⟩ := ha
          { header_emulate_cr ctx with seen_cr := false, seen_lf := true }
        exact ⟨rfl, a1.trans he.1, a2.trans he.2.1, a3.trans he.2.2.1,
          by rw [a4]; show _ ≤ (header_emulate_cr ctx).num_headers; rw [he.2.2.2]; exact h⟩
    · split
      · unfold header_after_lf
        split
        · rw [header_complete_excess env ctx h]
          have hne : ¬ (PDKIM_OK ≠ PDKIM_OK) := by simp
          rw [if_neg hne]
          obtain ⟨a1, a2, a3, a4⟩ := ha
            { ({ ctx with num_headers := ctx.num_headers + 1, cur_header := some [] } :
                pdkim_ctx) with seen_lf := false }
          exact ⟨rfl, a1, a2, a3, by rw [a4]; show _ ≤ ctx.num_headers + 1; omega⟩
        · obtain ⟨a1, a2, a3, a4⟩ := ha { ctx with seen_lf := false }
          exact ⟨rfl, a1, a2, a3, by rw [a4]; exact h⟩
      · obtain ⟨a1, a2, a3, a4⟩ := ha ctx
        exact ⟨rfl, a1, a2, a3, by rw [a4]; exact h⟩

theorem body_emulate_cr_shape (ctx : pdkim_ctx) (c : Nat) :
    body_emulate_cr ctx c = { ctx with linebuf := (body_emulate_cr ctx c).linebuf } := by
  unfold body_emulate_cr
  split <;> rfl

theorem body_store_shape (ctx : pdkim_ctx) (c : Nat) :
    body_store ctx c =
      { ctx with linebuf := (body_store ctx c).linebuf,
                 seen_cr := (body_store ctx c).seen_cr,
                 seen_eod := (body_store ctx c).seen_eod,
                 bodyhash := (body_store ctx c).bodyhash } := by
  unfold body_store
  split
  · rfl
  · split
    · rw [bodyline_complete_shape]
    · rfl

/-- In body mode the feeder touches neither the stored headers nor the
signatures nor the header count. -/
theorem feed_body_byte_headers (ctx : pdkim_ctx) (c : Nat) :
    (feed_body_byte ctx c).1.headers = ctx.headers ∧
      (feed_body_byte ctx c).1.sig = ctx.sig ∧
      (feed_body_byte ctx c).1.num_headers = ctx.num_headers := by
  have h1 : (body_emulate_cr ctx c).headers = ctx.headers ∧
      (body_emulate_cr ctx c).sig = ctx.sig ∧
      (body_emulate_cr ctx c).num_headers = ctx.num_headers := by
    rw [body_emulate_cr_shape]
    exact ⟨rfl, rfl, rfl⟩
  have h2 : (body_store (body_emulate_cr ctx c) c).headers = ctx.headers ∧
      (body_store (body_emulate_cr ctx c) c).sig = ctx.sig ∧
      (body_store (body_emulate_cr ctx c) c).num_headers = ctx.num_headers := by
    rw [body_store_shape]
    exact h1
  unfold feed_body_byte
  split
  · exact h1
  · split <;> exact h2

/-- Once the header count is at `PDKIM_MAX_HEADERS`, nothing that is fed
stores a header or adds a signature, and no round of the loop in header mode
returns an error. -/
theorem feed_loop_excess (env : Env) :
    ∀ (d : List Nat) (ctx : pdkim_ctx), PDKIM_MAX_HEADERS ≤ ctx.num_headers →
      (pdkim_feed_loop env ctx d).1.headers = ctx.headers ∧
        (pdkim_feed_loop env ctx d).1.sig = ctx.sig ∧
        PDKIM_MAX_HEADERS ≤ (pdkim_feed_loop env ctx d).1.num_headers ∧
        ((pdkim_feed_loop env ctx d).1.past_hdrs = false →
          (pdkim_feed_loop env ctx d).2 = PDKIM_OK)
  | [], _, h => ⟨rfl, rfl, h, fun _ => rfl⟩
  | c :: d, ctx, h => by
      have hstep : (pdkim_feed_byte env ctx c).1.headers = ctx.headers ∧
          (pdkim_feed_byte env ctx c).1.sig = ctx.sig ∧
          PDKIM_MAX_HEADERS ≤ (pdkim_feed_byte env ctx c).1.num_headers ∧
          ((pdkim_feed_byte env ctx c).1.past_hdrs = false →
            (pdkim_feed_byte env ctx c).2 = PDKIM_OK) := by
        by_cases hb : ctx.past_hdrs = true
        · have hp := feed_byte_body_past_hdrs env ctx c hb
          rw [feed_byte_body env ctx c hb] at hp ⊢
          obtain ⟨b1, b2, b3⟩ := feed_body_byte_headers ctx c
          refine ⟨b1, b2, by rw [b3]; exact h, fun hf => ?_⟩
          rw [hp] at hf
          exact absurd hf (by decide)
        · rw [feed_byte_header env ctx c (by simpa using hb)]
          obtain ⟨a1, a2, a3, _, a5⟩ := feed_header_byte_excess env ctx c h
          exact ⟨a2, a3, a5, fun _ => a1⟩
      obtain ⟨s1, s2, s3, s4⟩ := hstep
      simp only [pdkim_feed_loop]
      by_cases hok : (pdkim_feed_byte env ctx c).2 = PDKIM_OK
      · rw [if_pos hok]
        obtain ⟨r1, r2, r3, r4⟩ := feed_loop_excess env d _ s3
        exact ⟨r1.trans s1, r2.trans s2, r3, r4⟩
      · rw [if_neg hok]
        exact ⟨s1, s2, s3, s4⟩

/-- C13, as amended.  When `PDKIM_MAX_HEADERS` (512) headers have been
counted, `pdkim_header_complete` returns `PDKIM_OK` for every further header:
the header is counted, the header buffer is emptied, the header is neither
stored nor given to a signature nor parsed.  Accordingly `pdkim_feed`, given
any data, stores no further header and adds no signature, and returns
`PDKIM_OK` whenever it ends still in header mode. -/
theorem C13_excess_headers (env : Env) (ctx : pdkim_ctx) (d : List Nat)
    (hmax : PDKIM_MAX_HEADERS ≤ ctx.num_headers) :
    pdkim_header_complete env ctx =
        ({ ctx with num_headers := ctx.num_headers + 1, cur_header := some [] }, PDKIM_OK) ∧
      (pdkim_feed env ctx (some d)).1.headers = ctx.headers ∧
      (pdkim_feed env ctx (some d)).1.sig = ctx.sig ∧
      ((pdkim_feed env ctx (some d)).1.past_hdrs = false →
        (pdkim_feed env ctx (some d)).2 = PDKIM_OK) := by
  obtain ⟨r1, r2, _, r4⟩ := feed_loop_excess env d ctx hmax
  exact ⟨header_complete_excess env ctx hmax, r1, r2, r4⟩

/-- Feeding one more header line when fewer than `PDKIM_MAX_HEADERS` headers
have been counted: the header in the buffer is stored. -/
theorem headers_ctx_step_store (n : Nat) (hs : List (List Nat)) (h : n < PDKIM_MAX_HEADERS) :
    pdkim_feed_loop example_env (headers_ctx n hs) example_header_line =
      (headers_ctx (n + 1) (example_header_line :: hs), PDKIM_OK) := by
  have h1 : ¬ PDKIM_MAX_HEADERS < (headers_ctx n hs).num_headers + 1 := by
    show ¬ PDKIM_MAX_HEADERS < n + 1
    omega
  have ht : header_text example_env (headers_ctx n hs) = example_header_line := rfl
  have hc : pdkim_header_complete example_env (headers_ctx n hs) =
      ({ headers_ctx n hs with
          num_headers := n + 1,
          headers := example_header_line :: hs,
          cur_header := some [] }, PDKIM_OK) := by
    unfold pdkim_header_complete
    rw [if_neg h1, ht]
    have hm : (headers_ctx n hs).mode_sign = false := rfl
    have hd : strncasecmp_eq example_header_line DKIM_SIGNATURE_HEADERNAME
        DKIM_SIGNATURE_HEADERNAME.length = false := by decide
    rw [hm, hd]
    rfl
  have b1 : pdkim_feed_byte example_env (headers_ctx n hs) 88 =
      ({ headers_ctx n hs with
          num_headers := n + 1,
          headers := example_header_line :: hs,
          seen_lf := false,
          cur_header := some [88] }, PDKIM_OK) := by
    unfold pdkim_feed_byte
    have hp : (headers_ctx n hs).past_hdrs = false := rfl
    rw [hp]
    simp only [Bool.false_eq_true, if_false]
    unfold feed_header_byte
    have hl : (headers_ctx n hs).seen_lf = true := rfl
    rw [if_neg (by decide), if_neg (by decide), hl]
    simp only [if_true]
    unfold header_after_lf
    rw [if_pos (by decide), hc]
    simp only [ne_eq, not_true_eq_false, if_false]
    rfl
  simp only [example_header_line, pdkim_feed_loop, b1, if_true]
  rfl

/-- Feeding one more header line when `PDKIM_MAX_HEADERS` headers have been
counted: the header in the buffer is dropped, and the code is `PDKIM_OK`. -/
theorem headers_ctx_step_drop (n : Nat) (hs : List (List Nat)) (h : PDKIM_MAX_HEADERS ≤ n) :
    pdkim_feed_loop example_env (headers_ctx n hs) example_header_line =
      (headers_ctx (n + 1) hs, PDKIM_OK) := by
  have hc := header_complete_excess example_env (headers_ctx n hs) h
  have b1 : pdkim_feed_byte example_env (headers_ctx n hs) 88 =
      ({ headers_ctx n hs with
          num_headers := n + 1,
          seen_lf := false,
          cur_header := some [88] }, PDKIM_OK) := by
    unfold pdkim_feed_byte
    have hp : (headers_ctx n hs).past_hdrs = false := rfl
    rw [hp]
    simp only [Bool.false_eq_true, if_false]
    unfold feed_header_byte
    have hl : (headers_ctx n hs).seen_lf = true := rfl
    rw [if_neg (by decide), if_neg (by decide), hl]
    simp only [if_true]
    unfold header_after_lf
    rw [if_pos (by decide), hc]
    simp only [ne_eq, not_true_eq_false, if_false]
    rfl
  simp only [example_header_line, pdkim_feed_loop, b1, if_true]
  rfl

theorem header_lines_succ (n : Nat) :
    header_lines (n + 1) = example_header_line ++ header_lines n := by
  simp [header_lines, List.replicate_succ]

/-- The feeder on `k` more header lines while the maximum is not exceeded. -/
theorem headers_ctx_store_many :
    ∀ (k n : Nat) (hs : List (List Nat)), n + k ≤ PDKIM_MAX_HEADERS →
      pdkim_feed_loop example_env (headers_ctx n hs) (header_lines k) =
        (headers_ctx (n + k) (List.replicate k example_header_line ++ hs), PDKIM_OK)
  | 0, n, hs, _ => rfl
  | k + 1, n, hs, h => by
      rw [header_lines_succ, pdkim_feed_loop_append,
        headers_ctx_step_store n hs (by omega)]
      simp only [if_true]
      rw [headers_ctx_store_many k (n + 1) (example_header_line :: hs) (by omega)]
      have e1 : n + 1 + k = n + (k + 1) := by omega
      have e2 : List.replicate k example_header_line ++ example_header_line :: hs =
          List.replicate (k + 1) example_header_line ++ hs := by
        rw [List.replicate_succ']
        simp
      rw [e1, e2]

/-- The feeder on `k` more header lines beyond the maximum. -/
theorem headers_ctx_drop_many :
    ∀ (k n : Nat) (hs : List (List Nat)), PDKIM_MAX_HEADERS ≤ n →
      pdkim_feed_loop example_env (headers_ctx n hs) (header_lines k) =
        (headers_ctx (n + k) hs, PDKIM_OK)
  | 0, n, hs, _ => rfl
  | k + 1, n, hs, h => by
      rw [header_lines_succ, pdkim_feed_loop_append, headers_ctx_step_drop n hs h]
      simp only [if_true]
      rw [headers_ctx_drop_many k (n + 1) hs (by omega)]
      have e1 : n + 1 + k = n + (k + 1) := by omega
      rw [e1]

/-- The empty separator line after a header beyond the maximum: the header
in the buffer is dropped, the code is `PDKIM_OK`, the feeder is in body
mode. -/
theorem headers_ctx_separator (n : Nat) (hs : List (List Nat)) (h : PDKIM_MAX_HEADERS ≤ n) :
    pdkim_feed_loop example_env (headers_ctx n hs) [CR, LF] =
      ({ headers_ctx n hs with
          num_headers := n + 1,
          cur_header := some [],
          seen_lf := false,
          seen_cr := false,
          past_hdrs := true }, PDKIM_OK) := by
  have b1 : pdkim_feed_byte example_env (headers_ctx n hs) CR =
      ({ headers_ctx n hs with
          seen_cr := true,
          cur_header := some (example_header_line ++ [CR]) }, PDKIM_OK) := by
    rw [feed_byte_header example_env _ CR rfl]
    unfold feed_header_byte
    rw [if_pos rfl]
    rfl
  have hc := header_complete_excess example_env
    { headers_ctx n hs with
      seen_cr := true,
      cur_header := some (example_header_line ++ [CR]) } h
  have b2 : pdkim_feed_byte example_env
      { headers_ctx n hs with
        seen_cr := true,
        cur_header := some (example_header_line ++ [CR]) } LF =
      ({ headers_ctx n hs with
          num_headers := n + 1,
          cur_header := some [],
          seen_lf := false,
          seen_cr := false,
          past_hdrs := true }, PDKIM_OK) := by
    rw [feed_byte_header example_env _ LF rfl]
    unfold feed_header_byte
    rw [if_neg (by decide), if_pos rfl]
    have he : header_emulate_cr
        { headers_ctx n hs with
          seen_cr := true,
          cur_header := some (example_header_line ++ [CR]) } =
        { headers_ctx n hs with
          seen_cr := true,
          cur_header := some (example_header_line ++ [CR]) } := rfl
    rw [he]
    have hl : ({ headers_ctx n hs with
          seen_cr := true,
          cur_header := some (example_header_line ++ [CR]) } : pdkim_ctx).seen_lf = true := rfl
    rw [hl]
    simp only [if_true]
    unfold header_end
    rw [hc]
    have hne : ¬ (PDKIM_OK ≠ PDKIM_OK) := by simp
    rw [if_neg hne]
    rfl
  simp only [pdkim_feed_loop, b1, b2, if_true]

theorem if_ok_fst (c : pdkim_ctx) (x y : pdkim_ctx × pdkim_rc) :
    (if ((c, PDKIM_OK) : pdkim_ctx × pdkim_rc).2 = PDKIM_OK then x else y) = x :=
  if_pos rfl

theorem header_lines_add (a b : Nat) :
    header_lines (a + b) = header_lines a ++ header_lines b := by
  unfold header_lines
  rw [List.replicate_add, List.flatten_append]

/-- A message of more than 512 header lines and the empty separator line,
fed to a fresh verify-mode context in one call. -/
theorem feed_excess_message (j : Nat) :
    pdkim_feed_loop example_env (pdkim_init_verify false 0)
        (header_lines (512 + j + 1) ++ [CR, LF]) =
      ({ headers_ctx (0 + 512 + j) (List.replicate 512 example_header_line ++ []) with
          num_headers := 0 + 512 + j + 1,
          cur_header := some [],
          seen_lf := false,
          seen_cr := false,
          past_hdrs := true }, PDKIM_OK) := by
  have e0 : pdkim_feed_loop example_env (pdkim_init_verify false 0) example_header_line =
      (headers_ctx 0 [], PDKIM_OK) := by decide
  have e1 := headers_ctx_store_many 512 0 [] (by decide)
  have e2 := headers_ctx_drop_many j (0 + 512)
    (List.replicate 512 example_header_line ++ []) (by decide)
  have e3 := headers_ctx_separator (0 + 512 + j)
    (List.replicate 512 example_header_line ++ []) (by unfold PDKIM_MAX_HEADERS; omega)
  rw [header_lines_succ, header_lines_add, List.append_assoc, List.append_assoc,
    pdkim_feed_loop_append, e0]
  rw [if_ok_fst]
  rw [pdkim_feed_loop_append, e1]
  rw [if_ok_fst]
  rw [pdkim_feed_loop_append, e2]
  rw [if_ok_fst]
  rw [e3]

/-- C13, counterexample.  A message of 520 header lines and the empty
separator line is fed to a fresh verify-mode context in one call: the code
is `PDKIM_OK`, 520 headers have been counted, 512 are stored. -/
theorem C13_counterexample_ok :
    (pdkim_feed example_env (pdkim_init_verify false 0)
        (some (header_lines (512 + 7 + 1) ++ [CR, LF]))).2 = PDKIM_OK ∧
      (pdkim_feed example_env (pdkim_init_verify false 0)
        (some (header_lines (512 + 7 + 1) ++ [CR, LF]))).1.num_headers = 520 ∧
      (pdkim_feed example_env (pdkim_init_verify false 0)
        (some (header_lines (512 + 7 + 1) ++ [CR, LF]))).1.headers.length = 512 := by
  have e := feed_excess_message 7
  have e2 : pdkim_feed example_env (pdkim_init_verify false 0)
      (some (header_lines (512 + 7 + 1) ++ [CR, LF])) = _ := e
  rw [e2]
  refine ⟨rfl, rfl, ?_⟩
  show (List.replicate 512 example_header_line ++ []).length = 512
  rw [List.append_nil, List.length_replicate]

/-- C13 at a concrete context: 512 headers have been counted and one more
header line and the separator line are fed. -/
theorem C13_excess_headers_witness :
    (pdkim_header_complete example_env (headers_ctx 512 [])).2 = PDKIM_OK ∧
      (pdkim_feed example_env (headers_ctx 512 [])
        (some [88, 58, CR, LF, CR, LF])).1.headers = [] :=
  ⟨congrArg Prod.snd (C13_excess_headers example_env (headers_ctx 512 [])
      [88, 58, CR, LF, CR, LF] (by decide)).1,
    (C13_excess_headers example_env (headers_ctx 512 []) [88, 58, CR, LF, CR, LF]
      (by decide)).2.1⟩

/-! ## The body line buffer is not overrun -/

theorem parse_sig_header_linebuf (env : Env) (ctx : pdkim_ctx) (raw : List Nat) :
    (pdkim_parse_sig_header env ctx raw).1.linebuf = ctx.linebuf := by
  rw [parse_sig_header_shape]

theorem header_complete_sig_linebuf (env : Env) (ctx : pdkim_ctx) (s : List Nat) :
    (header_complete_sig env ctx s).1.linebuf = ctx.linebuf := by
  have h := parse_sig_header_linebuf env ctx s
  unfold header_complete_sig
  split <;> exact h

theorem header_complete_linebuf (env : Env) (ctx : pdkim_ctx) :
    (pdkim_header_complete env ctx).1.linebuf = ctx.linebuf := by
  unfold pdkim_header_complete
  split
  · rfl
  · split
    · rfl
    · split
      · exact header_complete_sig_linebuf env _ _
      · rfl

/-- The header branch of the feeder leaves the body line buffer alone. -/
theorem feed_header_byte_linebuf (env : Env) (ctx : pdkim_ctx) (c : Nat) :
    (feed_header_byte env ctx c).1.linebuf = ctx.linebuf := by
  have ha : ∀ x : pdkim_ctx, (header_append x c).linebuf = x.linebuf := by
    intro x
    rw [header_append_keeps]
  have he : (header_emulate_cr ctx).linebuf = ctx.linebuf := by
    rw [header_emulate_cr_keeps]
  unfold feed_header_byte
  split
  · exact ha _
  · split
    · split
      · unfold header_end
        split
        · exact (header_complete_linebuf env _).trans he
        · exact (header_complete_linebuf env _).trans he
      · exact (ha _).trans he
    · split
      · unfold header_after_lf
        split
        · split
          · exact header_complete_linebuf env _
          · exact (ha _).trans (header_complete_linebuf env _)
        · exact ha _
      · exact ha _

/-- One round of the loop in body mode, entered with fewer than
`PDKIM_MAX_BODY_LINE_LEN - 1` buffered bytes: every write is below
`PDKIM_MAX_BODY_LINE_LEN`, and unless the round returns
`PDKIM_ERR_LONG_LINE` it leaves fewer than `PDKIM_MAX_BODY_LINE_LEN - 1`
buffered bytes. -/
theorem feed_body_byte_bound (ctx : pdkim_ctx) (c : Nat)
    (h : ctx.linebuf_offset < PDKIM_MAX_BODY_LINE_LEN - 1) :
    (∀ i ∈ feed_body_byte_writes ctx c, i < PDKIM_MAX_BODY_LINE_LEN) ∧
      ((feed_body_byte ctx c).2 ≠ PDKIM_ERR_LONG_LINE →
        (feed_body_byte ctx c).1.linebuf_offset < PDKIM_MAX_BODY_LINE_LEN - 1) := by
  unfold feed_body_byte_writes feed_body_byte
  unfold PDKIM_MAX_BODY_LINE_LEN at h ⊢
  have hew : ∀ i ∈ body_emulate_cr_writes ctx c, i < 16384 := by
    intro i hi
    unfold body_emulate_cr_writes at hi
    split at hi
    · rw [List.mem_singleton] at hi
      omega
    · simp at hi
  have heo : (body_emulate_cr ctx c).linebuf_offset ≤ ctx.linebuf_offset + 1 := by
    unfold body_emulate_cr
    split
    · simp [pdkim_ctx.linebuf_offset]
    · omega
  have hsw : (body_emulate_cr ctx c).linebuf_offset < 16383 →
      ∀ i ∈ body_store_writes (body_emulate_cr ctx c) c, i < 16384 := by
    intro hlt i hi
    unfold body_store_writes at hi
    rcases List.mem_cons.1 hi with hi | hi
    · omega
    · split at hi
      · simp at hi
      · split at hi
        · unfold bodyline_complete_writes at hi
          split at hi
          · simp at hi
          · rw [List.mem_singleton] at hi
            simp only [pdkim_ctx.linebuf_offset, List.length_append, List.length_singleton]
              at hi hlt
            omega
        · simp at hi
  have hso : (body_store (body_emulate_cr ctx c) c).linebuf_offset ≤
      (body_emulate_cr ctx c).linebuf_offset + 1 := by
    unfold body_store
    split
    · simp [pdkim_ctx.linebuf_offset]
    · split
      · simp [pdkim_ctx.linebuf_offset, bodyline_complete_linebuf]
      · simp [pdkim_ctx.linebuf_offset]
  by_cases h1 : c = LF ∧ ctx.seen_cr = false ∧ (body_emulate_cr ctx c).linebuf_offset = 16384 - 1
  · rw [if_pos h1, if_pos h1]
    exact ⟨hew, fun hne => absurd rfl hne⟩
  · rw [if_neg h1, if_neg h1]
    have hlt : (body_emulate_cr ctx c).linebuf_offset < 16383 := by
      by_cases h2 : c = LF ∧ ctx.seen_cr = false
      · have : (body_emulate_cr ctx c).linebuf_offset ≠ 16384 - 1 :=
          fun h3 => h1 ⟨h2.1, h2.2, h3⟩
        omega
      · have : body_emulate_cr ctx c = ctx := by
          unfold body_emulate_cr
          rw [if_neg h2]
        rw [this]
        exact h
    constructor
    · intro i hi
      rcases List.mem_append.1 hi with hi | hi
      · exact hew i hi
      · exact hsw hlt i hi
    · by_cases h3 : (body_store (body_emulate_cr ctx c) c).linebuf_offset = 16384 - 1
      · rw [if_pos h3]
        exact fun hne => absurd rfl hne
      · rw [if_neg h3]
        intro _
        show (body_store (body_emulate_cr ctx c) c).linebuf_offset < 16383
        omega

/-- One round of the loop in body mode returns `PDKIM_ERR_LONG_LINE` when,
and only when, it leaves `PDKIM_MAX_BODY_LINE_LEN - 1` buffered bytes. -/
theorem feed_body_byte_long_line (ctx : pdkim_ctx) (c : Nat) :
    (feed_body_byte ctx c).2 = PDKIM_ERR_LONG_LINE ↔
      (feed_body_byte ctx c).1.linebuf_offset = PDKIM_MAX_BODY_LINE_LEN - 1 := by
  unfold feed_body_byte
  by_cases h1 : c = LF ∧ ctx.seen_cr = false ∧
      (body_emulate_cr ctx c).linebuf_offset = PDKIM_MAX_BODY_LINE_LEN - 1
  · rw [if_pos h1]
    exact ⟨fun _ => h1.2.2, fun _ => rfl⟩
  · rw [if_neg h1]
    by_cases h3 : (body_store (body_emulate_cr ctx c) c).linebuf_offset =
        PDKIM_MAX_BODY_LINE_LEN - 1
    · rw [if_pos h3]
      exact ⟨fun _ => h3, fun _ => rfl⟩
    · rw [if_neg h3]
      have hne : PDKIM_OK ≠ PDKIM_ERR_LONG_LINE := by decide
      exact ⟨fun h => absurd h hne, fun h => absurd h h3⟩

theorem feed_byte_bound (env : Env) (ctx : pdkim_ctx) (c : Nat)
    (h : ctx.linebuf_offset < PDKIM_MAX_BODY_LINE_LEN - 1) :
    (∀ i ∈ pdkim_feed_byte_writes ctx c, i < PDKIM_MAX_BODY_LINE_LEN) ∧
      ((pdkim_feed_byte env ctx c).2 ≠ PDKIM_ERR_LONG_LINE →
        (pdkim_feed_byte env ctx c).1.linebuf_offset < PDKIM_MAX_BODY_LINE_LEN - 1) := by
  unfold pdkim_feed_byte_writes pdkim_feed_byte
  by_cases hb : ctx.past_hdrs = true
  · rw [if_pos hb, if_pos hb]
    exact feed_body_byte_bound ctx c h
  · rw [if_neg hb, if_neg hb]
    refine ⟨fun i hi => by simp at hi, fun _ => ?_⟩
    unfold pdkim_ctx.linebuf_offset
    rw [feed_header_byte_linebuf]
    exact h

theorem feed_loop_bound (env : Env) :
    ∀ (d : List Nat) (ctx : pdkim_ctx),
      ctx.linebuf_offset < PDKIM_MAX_BODY_LINE_LEN - 1 →
      (∀ i ∈ pdkim_feed_loop_writes env ctx d, i < PDKIM_MAX_BODY_LINE_LEN) ∧
        ((pdkim_feed_loop env ctx d).2 ≠ PDKIM_ERR_LONG_LINE →
          (pdkim_feed_loop env ctx d).1.linebuf_offset < PDKIM_MAX_BODY_LINE_LEN - 1)
  | [], _, h => ⟨fun i hi => by simp [pdkim_feed_loop_writes] at hi, fun _ => h⟩
  | c :: d, ctx, h => by
      obtain ⟨s1, s2⟩ := feed_byte_bound env ctx c h
      simp only [pdkim_feed_loop_writes, pdkim_feed_loop]
      by_cases hok : (pdkim_feed_byte env ctx c).2 = PDKIM_OK
      · rw [if_pos hok, if_pos hok]
        obtain ⟨r1, r2⟩ := feed_loop_bound env d _ (s2 (by rw [hok]; decide))
        refine ⟨fun i hi => ?_, r2⟩
        rcases List.mem_append.1 hi with hi | hi
        · exact s1 i hi
        · exact r1 i hi
      · rw [if_neg hok, if_neg hok]
        refine ⟨fun i hi => ?_, s2⟩
        rw [List.append_nil] at hi
        exact s1 i hi

theorem feed_bound (env : Env) (ctx : pdkim_ctx) (data : Option (List Nat))
    (h : ctx.linebuf_offset < PDKIM_MAX_BODY_LINE_LEN - 1) :
    (∀ i ∈ pdkim_feed_writes env ctx data, i < PDKIM_MAX_BODY_LINE_LEN) ∧
      ((pdkim_feed env ctx data).2 ≠ PDKIM_ERR_LONG_LINE →
        (pdkim_feed env ctx data).1.linebuf_offset < PDKIM_MAX_BODY_LINE_LEN - 1) := by
  cases data with
  | none =>
    refine ⟨fun i hi => by simp [pdkim_feed_writes] at hi, fun _ => ?_⟩
    show (pdkim_body_complete ctx).linebuf.length < _
    rw [body_complete_map]
    show (0 : Nat) < PDKIM_MAX_BODY_LINE_LEN - 1
    decide
  | some d => exact feed_loop_bound env d ctx h

/-- As long as no call of `pdkim_feed` returns `PDKIM_ERR_LONG_LINE`, fewer
than `PDKIM_MAX_BODY_LINE_LEN - 1` bytes are buffered between the calls. -/
theorem feed_calls_bound (env : Env) :
    ∀ (calls : List (Option (List Nat))) (ctx : pdkim_ctx),
      ctx.linebuf_offset < PDKIM_MAX_BODY_LINE_LEN - 1 →
      PDKIM_ERR_LONG_LINE ∉ feed_calls_rcs env ctx calls →
      (feed_calls env ctx calls).linebuf_offset < PDKIM_MAX_BODY_LINE_LEN - 1
  | [], _, h, _ => h
  | d :: ds, ctx, h, hn => by
      simp only [feed_calls_rcs, List.mem_cons, not_or] at hn
      have e : feed_calls env ctx (d :: ds) = feed_calls env (pdkim_feed env ctx d).1 ds := rfl
      rw [e]
      exact feed_calls_bound env ds _ ((feed_bound env ctx d h).2 (fun hc => hn.1 hc.symm)) hn.2

/-- C14. Start from a context whose body line buffer holds fewer than
`PDKIM_MAX_BODY_LINE_LEN - 1` bytes, as a fresh context does (it holds none),
and let no earlier call of `pdkim_feed` have returned `PDKIM_ERR_LONG_LINE`.
Then (1) every write the next call of `pdkim_feed` makes into the body line
buffer, the writes of `pdkim_bodyline_complete` included, is at an index
below `PDKIM_MAX_BODY_LINE_LEN` (16384); and (2) when, in body mode, the round
of the loop for a byte `c` leaves `PDKIM_MAX_BODY_LINE_LEN - 1` bytes in the
buffer, `pdkim_feed` returns `PDKIM_ERR_LONG_LINE` in that very round: the
bytes `post` after `c` are not looked at. -/
theorem C14_linebuf_bound (env : Env) (ctx0 : pdkim_ctx) (calls : List (Option (List Nat)))
    (data : Option (List Nat))
    (hfresh : ctx0.linebuf_offset < PDKIM_MAX_BODY_LINE_LEN - 1)
    (hearlier : PDKIM_ERR_LONG_LINE ∉ feed_calls_rcs env ctx0 calls) :
    (∀ i ∈ pdkim_feed_writes env (feed_calls env ctx0 calls) data,
        i < PDKIM_MAX_BODY_LINE_LEN) ∧
      (∀ (pre post : List Nat) (c : Nat),
        (pdkim_feed env (feed_calls env ctx0 calls) (some pre)).2 = PDKIM_OK →
        (pdkim_feed env (feed_calls env ctx0 calls) (some pre)).1.past_hdrs = true →
        (pdkim_feed_byte env (pdkim_feed env (feed_calls env ctx0 calls) (some pre)).1
          c).1.linebuf_offset = PDKIM_MAX_BODY_LINE_LEN - 1 →
        pdkim_feed env (feed_calls env ctx0 calls) (some (pre ++ c :: post)) =
          ((pdkim_feed_byte env (pdkim_feed env (feed_calls env ctx0 calls) (some pre)).1 c).1,
            PDKIM_ERR_LONG_LINE)) := by
  have hinv := feed_calls_bound env calls ctx0 hfresh hearlier
  refine ⟨(feed_bound env _ data hinv).1, ?_⟩
  intro pre post c hok hb hfull
  show pdkim_feed_loop env _ (pre ++ c :: post) = _
  have hok2 : (pdkim_feed_loop env (feed_calls env ctx0 calls) pre).2 = PDKIM_OK := hok
  have hb2 : (pdkim_feed_loop env (feed_calls env ctx0 calls) pre).1.past_hdrs = true := hb
  have hfull2 : (pdkim_feed_byte env (pdkim_feed_loop env (feed_calls env ctx0 calls) pre).1
      c).1.linebuf_offset = PDKIM_MAX_BODY_LINE_LEN - 1 := hfull
  show _ = ((pdkim_feed_byte env (pdkim_feed_loop env (feed_calls env ctx0 calls) pre).1 c).1,
    PDKIM_ERR_LONG_LINE)
  rw [pdkim_feed_loop_append, if_pos hok2]
  have hrc : (pdkim_feed_byte env (pdkim_feed_loop env (feed_calls env ctx0 calls) pre).1
      c).2 = PDKIM_ERR_LONG_LINE := by
    rw [feed_byte_body env _ c hb2] at hfull2 ⊢
    exact (feed_body_byte_long_line _ c).2 hfull2
  simp only [pdkim_feed_loop]
  rw [if_neg (by rw [hrc]; decide)]
  exact Prod.ext rfl hrc

/-- In body mode a byte other than a line feed that makes the line
`PDKIM_MAX_BODY_LINE_LEN - 1` bytes long is stored. -/
theorem feed_byte_fills (env : Env) (ctx : pdkim_ctx) (c : Nat)
    (hb : ctx.past_hdrs = true) (hc : c ≠ LF)
    (hlen : ctx.linebuf.length + 1 = PDKIM_MAX_BODY_LINE_LEN - 1) :
    (pdkim_feed_byte env ctx c).1.linebuf_offset = PDKIM_MAX_BODY_LINE_LEN - 1 := by
  rw [feed_byte_body env ctx c hb]
  have he : body_emulate_cr ctx c = ctx := by
    unfold body_emulate_cr
    rw [if_neg (fun h => hc h.1)]
  have hs : (body_store ctx c).linebuf_offset = PDKIM_MAX_BODY_LINE_LEN - 1 := by
    rw [body_store_plain ctx c hc]
    show (ctx.linebuf ++ [c]).length = _
    rw [List.length_append]
    exact hlen
  unfold feed_body_byte
  rw [he, if_neg (fun h => hc h.1), if_pos hs]
  exact hs

/-- C14 at concrete inputs: (1) after a first call that fed the line `a`, a
call that feeds `bc` and a line feed writes below 16384; (2) at the start of
a body, 16382 bytes `a` are accepted and the byte after them makes the line
16383 bytes long, so that `pdkim_feed` returns `PDKIM_ERR_LONG_LINE` there. -/
theorem C14_linebuf_bound_witness :
    (∀ i ∈ pdkim_feed_writes example_env
        (feed_calls example_env example_body_ctx [some [97, CR, LF]]) (some [98, 99, LF]),
        i < PDKIM_MAX_BODY_LINE_LEN) ∧
      (pdkim_feed example_env (feed_calls example_env example_body_ctx [])
        (some (List.replicate 16382 97 ++ 98 :: [99]))).2 = PDKIM_ERR_LONG_LINE := by
  have hb : example_body_ctx.past_hdrs = true := by decide
  have hl : example_body_ctx.linebuf = [] := by decide
  have hpre := feed_loop_body_plain example_env (List.replicate 16382 97) example_body_ctx hb
    (fun h => absurd (List.mem_replicate.1 h).2 (by decide))
    (by rw [hl, List.length_replicate]; decide)
  have hpre2 : pdkim_feed example_env (feed_calls example_env example_body_ctx [])
      (some (List.replicate 16382 97)) = _ := hpre
  have hfresh : example_body_ctx.linebuf_offset < PDKIM_MAX_BODY_LINE_LEN - 1 := by
    unfold pdkim_ctx.linebuf_offset
    rw [hl]
    decide
  refine ⟨(C14_linebuf_bound example_env example_body_ctx [some [97, CR, LF]]
    (some [98, 99, LF]) hfresh (by decide)).1, ?_⟩
  have h2 := (C14_linebuf_bound example_env example_body_ctx [] none hfresh (by decide)).2
    (List.replicate 16382 97) [99] 98 (by rw [hpre2]) (by rw [hpre2]; exact hb) (by
      rw [hpre2]
      apply feed_byte_fills
      · exact hb
      · decide
      · show (example_body_ctx.linebuf ++ List.replicate 16382 97).length + 1 = _
        rw [hl, List.nil_append, List.length_replicate]
        rfl)
  rw [h2]
/-! ## Feeding in pieces -/

/-- C15. For all byte strings `a` and `b`, if `pdkim_feed` on `a ++ b`
returns `PDKIM_OK`, then `pdkim_feed` on `a` followed by `pdkim_feed` on `b`
from the same starting context returns `PDKIM_OK` both times and ends in the
same context: every field of the state (flags, header buffer, line buffer,
header count, stored headers, signatures, Body Hashes) is the same. -/
theorem C15_feed_in_two_pieces (env : Env) (ctx : pdkim_ctx) (a b : List Nat)
    (hok : (pdkim_feed env ctx (some (a ++ b))).2 = PDKIM_OK) :
    (pdkim_feed env ctx (some a)).2 = PDKIM_OK ∧
      (pdkim_feed env (pdkim_feed env ctx (some a)).1 (some b)).2 = PDKIM_OK ∧
      (pdkim_feed env (pdkim_feed env ctx (some a)).1 (some b)).1 =
        (pdkim_feed env ctx (some (a ++ b))).1 := by
  have happ := pdkim_feed_loop_append env a b ctx
  have hok2 : (pdkim_feed_loop env ctx (a ++ b)).2 = PDKIM_OK := hok
  show (pdkim_feed_loop env ctx a).2 = PDKIM_OK ∧
    (pdkim_feed_loop env (pdkim_feed_loop env ctx a).1 b).2 = PDKIM_OK ∧
    (pdkim_feed_loop env (pdkim_feed_loop env ctx a).1 b).1 = (pdkim_feed_loop env ctx (a ++ b)).1
  by_cases ha : (pdkim_feed_loop env ctx a).2 = PDKIM_OK
  · rw [if_pos ha] at happ
    rw [happ] at hok2 ⊢
    exact ⟨ha, hok2, rfl⟩
  · rw [if_neg ha] at happ
    rw [happ] at hok2
    exact absurd hok2 ha

/-- C15 at a concrete message: a header, the separator line and a body line,
cut in the middle of the first line end. -/
theorem C15_feed_in_two_pieces_witness :
    (pdkim_feed example_env example_sign_ctx (some [65, 58, 32, 98, 13])).2 = PDKIM_OK ∧
      (pdkim_feed example_env
        (pdkim_feed example_env example_sign_ctx (some [65, 58, 32, 98, 13])).1
        (some [10, 13, 10, 120, 121, 13, 10])).2 = PDKIM_OK ∧
      (pdkim_feed example_env
        (pdkim_feed example_env example_sign_ctx (some [65, 58, 32, 98, 13])).1
        (some [10, 13, 10, 120, 121, 13, 10])).1 =
        (pdkim_feed example_env example_sign_ctx
          (some ([65, 58, 32, 98, 13] ++ [10, 13, 10, 120, 121, 13, 10]))).1 :=
  C15_feed_in_two_pieces example_env example_sign_ctx [65, 58, 32, 98, 13]
    [10, 13, 10, 120, 121, 13, 10] (by decide)

/-! ## Bare line feeds and CR LF -/

theorem set_bodyhash_congr (env : Env) (ctx : pdkim_ctx) (h c n : Int)
    (hd : Option (List Nat)) (s : Bool) :
    pdkim_set_bodyhash env { ctx with cur_header := hd, seen_cr := s } h c n =
      ({ (pdkim_set_bodyhash env ctx h c n).1 with cur_header := hd, seen_cr := s },
        (pdkim_set_bodyhash env ctx h c n).2) := by
  unfold pdkim_set_bodyhash
  split
  · rfl
  · simp only
    split
    · rfl
    · split <;> rfl

theorem parse_sig_header_congr (env : Env) (ctx : pdkim_ctx) (raw : List Nat)
    (hd : Option (List Nat)) (s : Bool) :
    pdkim_parse_sig_header env { ctx with cur_header := hd, seen_cr := s } raw =
      ({ (pdkim_parse_sig_header env ctx raw).1 with cur_header := hd, seen_cr := s },
        (pdkim_parse_sig_header env ctx raw).2) := by
  rw [parse_sig_header_eq, parse_sig_header_eq]
  cases parse_sig_scan env raw with
  | none => rfl
  | some st =>
    dsimp only
    rw [set_bodyhash_congr]
    split <;> rfl

theorem header_complete_sig_congr (env : Env) (ctx : pdkim_ctx) (t : List Nat)
    (hd : Option (List Nat)) (s : Bool) :
    header_complete_sig env { ctx with cur_header := hd, seen_cr := s } t =
      ({ (header_complete_sig env ctx t).1 with seen_cr := s },
        (header_complete_sig env ctx t).2) := by
  unfold header_complete_sig
  rw [parse_sig_header_congr]
  split <;> rfl

/-- The function `pdkim_header_complete` reads the header buffer through the
header text only, and hands the flag `PDKIM_SEEN_CR` through. -/
theorem header_complete_congr (env : Env) (ctx : pdkim_ctx) (hd : Option (List Nat))
    (s : Bool)
    (ht : header_text env { ctx with cur_header := hd, seen_cr := s } = header_text env ctx) :
    pdkim_header_complete env { ctx with cur_header := hd, seen_cr := s } =
      ({ (pdkim_header_complete env ctx).1 with seen_cr := s },
        (pdkim_header_complete env ctx).2) := by
  unfold pdkim_header_complete
  rw [ht]
  dsimp only
  by_cases h1 : PDKIM_MAX_HEADERS < ctx.num_headers + 1
  · rw [if_pos h1, if_pos h1]
  · rw [if_neg h1, if_neg h1]
    by_cases h2 : ctx.mode_sign = true
    · rw [if_pos h2, if_pos h2]
    · rw [if_neg h2, if_neg h2]
      by_cases h3 : strncasecmp_eq (header_text env ctx) DKIM_SIGNATURE_HEADERNAME
          DKIM_SIGNATURE_HEADERNAME.length = true
      · rw [if_pos h3, if_pos h3]
        exact header_complete_sig_congr env { ctx with num_headers := ctx.num_headers + 1 }
          (header_text env ctx) hd s
      · rw [if_neg h3, if_neg h3]

theorem header_complete_seen_cr (env : Env) (ctx : pdkim_ctx) :
    (pdkim_header_complete env ctx).1.seen_cr = ctx.seen_cr := by
  unfold pdkim_header_complete
  split
  · rfl
  · split
    · rfl
    · split
      · have h := congrArg pdkim_ctx.seen_cr (parse_sig_header_shape env
          { ctx with num_headers := ctx.num_headers + 1 } (header_text env ctx))
        unfold header_complete_sig
        split <;> exact h
      · rfl

theorem feed_header_byte_LF (env : Env) (ctx : pdkim_ctx) :
    feed_header_byte env ctx LF =
      if (header_emulate_cr ctx).seen_lf then header_end env (header_emulate_cr ctx)
      else
        (header_append { header_emulate_cr ctx with seen_cr := false, seen_lf := true } LF,
          PDKIM_OK) := by
  unfold feed_header_byte
  rw [if_neg (by decide), if_pos rfl]

/-- In body mode, a bare line feed has the effect of CR LF: same code, same
Body Hashes, and the same context when the code is `PDKIM_OK`. -/
theorem feed_body_bare_lf (env : Env) (ctx : pdkim_ctx) (hm : ctx.past_hdrs = true)
    (hs : ctx.seen_cr = false) :
    (feed_body_byte ctx LF).2 = (pdkim_feed_loop env ctx [CR, LF]).2 ∧
      SameStored (feed_body_byte ctx LF).1 (pdkim_feed_loop env ctx [CR, LF]).1 ∧
      ((pdkim_feed_loop env ctx [CR, LF]).2 = PDKIM_OK →
        (feed_body_byte ctx LF).1 = (pdkim_feed_loop env ctx [CR, LF]).1) := by
  have he : body_emulate_cr ctx LF = { ctx with linebuf := ctx.linebuf ++ [CR] } := by
    unfold body_emulate_cr
    rw [if_pos ⟨rfl, hs⟩]
  have hcr0 : body_emulate_cr ctx CR = ctx := by
    unfold body_emulate_cr
    rw [if_neg (fun h => absurd h.1 (by decide))]
  have hcr1 : body_store ctx CR = { ctx with linebuf := ctx.linebuf ++ [CR], seen_cr := true } := by
    unfold body_store
    rw [if_pos rfl]
  have hlf0 : body_emulate_cr { ctx with linebuf := ctx.linebuf ++ [CR], seen_cr := true } LF =
      { ctx with linebuf := ctx.linebuf ++ [CR], seen_cr := true } := by
    unfold body_emulate_cr
    rw [if_neg (by simp)]
  have hst : body_store { ctx with linebuf := ctx.linebuf ++ [CR], seen_cr := true } LF =
      body_store { ctx with linebuf := ctx.linebuf ++ [CR] } LF := by
    rw [body_store_LF, body_store_LF]
  have hsl : (body_store { ctx with linebuf := ctx.linebuf ++ [CR] } LF).linebuf_offset ≠
      PDKIM_MAX_BODY_LINE_LEN - 1 := by
    rw [body_store_LF]
    unfold pdkim_ctx.linebuf_offset
    rw [bodyline_complete_linebuf]
    decide
  have hm2 : ({ ctx with linebuf := ctx.linebuf ++ [CR], seen_cr := true } :
      pdkim_ctx).past_hdrs = true := hm
  by_cases hfull : (ctx.linebuf ++ [CR]).length = PDKIM_MAX_BODY_LINE_LEN - 1
  · have r1 : feed_body_byte ctx LF =
        ({ ctx with linebuf := ctx.linebuf ++ [CR] }, PDKIM_ERR_LONG_LINE) := by
      unfold feed_body_byte
      rw [he, if_pos ⟨rfl, hs, hfull⟩]
    have r2 : pdkim_feed_loop env ctx [CR, LF] =
        ({ ctx with linebuf := ctx.linebuf ++ [CR], seen_cr := true },
          PDKIM_ERR_LONG_LINE) := by
      have : pdkim_feed_byte env ctx CR =
          ({ ctx with linebuf := ctx.linebuf ++ [CR], seen_cr := true },
            PDKIM_ERR_LONG_LINE) := by
        rw [feed_byte_body env ctx CR hm]
        unfold feed_body_byte
        rw [hcr0, hcr1, if_neg (fun h => absurd h.1 (by decide)), if_pos (by exact hfull)]
      simp only [pdkim_feed_loop, this]
      rfl
    rw [r1, r2]
    exact ⟨rfl, ⟨rfl, rfl, rfl⟩,
      fun h => absurd h (show PDKIM_ERR_LONG_LINE ≠ PDKIM_OK by decide)⟩
  · have r1 : feed_body_byte ctx LF =
        (body_store { ctx with linebuf := ctx.linebuf ++ [CR] } LF, PDKIM_OK) := by
      unfold feed_body_byte
      rw [he, if_neg (fun h => hfull h.2.2), if_neg hsl]
    have r2 : pdkim_feed_loop env ctx [CR, LF] =
        (body_store { ctx with linebuf := ctx.linebuf ++ [CR] } LF, PDKIM_OK) := by
      have b1 : pdkim_feed_byte env ctx CR =
          ({ ctx with linebuf := ctx.linebuf ++ [CR], seen_cr := true }, PDKIM_OK) := by
        rw [feed_byte_body env ctx CR hm]
        unfold feed_body_byte
        rw [hcr0, hcr1, if_neg (fun h => absurd h.1 (by decide)), if_neg (by exact hfull)]
      have b2 : pdkim_feed_byte env
          { ctx with linebuf := ctx.linebuf ++ [CR], seen_cr := true } LF =
          (body_store { ctx with linebuf := ctx.linebuf ++ [CR] } LF, PDKIM_OK) := by
        rw [feed_byte_body env _ LF hm2]
        unfold feed_body_byte
        rw [hlf0, hst, if_neg (by simp), if_neg hsl]
      simp only [pdkim_feed_loop, b1, b2, if_true]
    rw [r1, r2]
    exact ⟨rfl, ⟨rfl, rfl, rfl⟩, fun _ => rfl⟩

/-- The flag `PDKIM_SEEN_CR` after a round of the loop that returned
`PDKIM_OK`: set by a CR, cleared by a line feed, kept by any other byte. -/
theorem feed_byte_seen_cr (env : Env) (ctx : pdkim_ctx) (x : Nat)
    (hok : (pdkim_feed_byte env ctx x).2 = PDKIM_OK) :
    (pdkim_feed_byte env ctx x).1.seen_cr =
      if x = CR then true else if x = LF then false else ctx.seen_cr := by
  by_cases hm : ctx.past_hdrs = true
  · rw [feed_byte_body env ctx x hm] at hok ⊢
    have hres : (feed_body_byte ctx x).1 = body_store (body_emulate_cr ctx x) x := by
      unfold feed_body_byte at hok ⊢
      split
      · rename_i h
        rw [if_pos h] at hok
        exact absurd hok (show PDKIM_ERR_LONG_LINE ≠ PDKIM_OK by decide)
      · split <;> rfl
    rw [hres]
    have hek : (body_emulate_cr ctx x).seen_cr = ctx.seen_cr := by
      rw [body_emulate_cr_shape]
    unfold body_store
    by_cases h1 : x = CR
    · rw [if_pos h1, if_pos h1]
    · rw [if_neg h1, if_neg h1]
      by_cases h2 : x = LF
      · rw [if_pos h2, if_pos h2, bodyline_complete_shape]
      · rw [if_neg h2, if_neg h2]
        exact hek
  · have hm2 : ctx.past_hdrs = false := by simpa using hm
    rw [feed_byte_header env ctx x hm2] at hok ⊢
    have ha : ∀ (y : pdkim_ctx) (z : Nat), (header_append y z).seen_cr = y.seen_cr := by
      intro y z
      rw [header_append_keeps]
    unfold feed_header_byte at hok ⊢
    by_cases h1 : x = CR
    · rw [if_pos h1, if_pos h1, ha]
    · rw [if_neg h1] at hok ⊢
      rw [if_neg h1]
      by_cases h2 : x = LF
      · rw [if_pos h2] at hok ⊢
        rw [if_pos h2]
        split
        · rename_i h3
          rw [if_pos h3] at hok
          unfold header_end at hok ⊢
          split
          · rename_i h4
            rw [if_pos h4] at hok
            exact absurd hok h4
          · rfl
        · rw [ha]
      · rw [if_neg h2] at hok ⊢
        rw [if_neg h2]
        split
        · unfold header_after_lf
          split
          · split
            · exact header_complete_seen_cr env ctx
            · rw [ha]
              exact header_complete_seen_cr env ctx
          · rw [ha]
        · rw [ha]

theorem pdkim_feed_loop_cons (env : Env) (ctx : pdkim_ctx) (c : Nat) (rest : List Nat) :
    pdkim_feed_loop env ctx (c :: rest) =
      if (pdkim_feed_byte env ctx c).2 = PDKIM_OK then
        pdkim_feed_loop env (pdkim_feed_byte env ctx c).1 rest
      else pdkim_feed_byte env ctx c := by
  simp only [pdkim_feed_loop]

/-! ## Canonicalisation names (`pdkim_cstring_to_canons`) -/

theorem cstr_idem (s : List Nat) : cstr (cstr s) = cstr s := by
  unfold cstr
  induction s with
  | nil => rfl
  | cons c s ih =>
    by_cases h : (c != 0) = true
    · simp only [List.takeWhile_cons, h, if_true]
      rw [ih]
    · simp only [List.takeWhile_cons, h, if_false, Bool.false_eq_true, List.takeWhile_nil]

theorem cstring_to_canons_cstr (s : List Nat) (len : Nat) (h b : Int) :
    pdkim_cstring_to_canons s len h b = pdkim_cstring_to_canons (cstr s) len h b := by
  unfold pdkim_cstring_to_canons Ustrncmp_eq
  simp only [cstr_idem]

/-- Comparing on the length of `s` and asking for a table string of that
length is comparing for equality. -/
theorem ustrncmp_full (s t : List Nat) (ht : cstr t = t) :
    (Ustrncmp_eq s t (cstr s).length && decide ((cstr s).length = t.length)) =
      decide (cstr s = t) := by
  by_cases hl : (cstr s).length = t.length
  · have e1 : (cstr s ++ [0]).take (cstr s).length = cstr s := List.take_left' rfl
    have e2 : (cstr t ++ [0]).take (cstr s).length = t := by
      rw [ht, hl]
      exact List.take_left' rfl
    unfold Ustrncmp_eq
    rw [e1, e2]
    by_cases h : cstr s = t <;> simp [h, hl]
  · have hne : cstr s ≠ t := fun h => hl (by rw [h])
    simp [hl, hne]

/-- A string that is none of the six table strings changes nothing. -/
theorem cstring_to_canons_other (s : List Nat) (h b : Int)
    (hlen : (cstr s).length < UINT_RANGE)
    (hs : cstr s ∉ pdkim_combined_canons.map Prod.fst) :
    pdkim_cstring_to_canons s 0 h b = (h, b) := by
  have hfind : pdkim_combined_canons.find? (fun e =>
      Ustrncmp_eq s e.1 (cstr s).length && decide ((cstr s).length = e.1.length)) = none := by
    rw [List.find?_eq_none]
    intro e he
    have hte : cstr e.1 = e.1 := by
      revert e
      decide
    rw [ustrncmp_full s e.1 hte]
    have hne : cstr s ≠ e.1 := fun hc => hs (by rw [hc]; exact List.mem_map_of_mem _ he)
    simp [hne]
  unfold pdkim_cstring_to_canons
  simp only [if_true, Nat.mod_eq_of_lt hlen]
  rw [hfind]

/-- C19. With `len` 0, `pdkim_cstring_to_canons` sets the header and body
canonicalisation to simple/simple, simple/relaxed, relaxed/simple and
relaxed/relaxed for the four strings `x/y`, to simple/simple for `simple` and
to relaxed/simple for `relaxed`; for every other string, the prefixes and
extensions of those six and the empty string among them, it leaves both as
they were.  The string is a C string of fewer than 2^32 bytes, so that its
length fits the `unsigned` parameter `len`. -/
theorem C19_cstring_to_canons (s : List Nat) (h b : Int)
    (hlen : (cstr s).length < UINT_RANGE) :
    (cstr s = US "simple/simple" →
      pdkim_cstring_to_canons s 0 h b = (PDKIM_CANON_SIMPLE, PDKIM_CANON_SIMPLE)) ∧
    (cstr s = US "simple/relaxed" →
      pdkim_cstring_to_canons s 0 h b = (PDKIM_CANON_SIMPLE, PDKIM_CANON_RELAXED)) ∧
    (cstr s = US "relaxed/simple" →
      pdkim_cstring_to_canons s 0 h b = (PDKIM_CANON_RELAXED, PDKIM_CANON_SIMPLE)) ∧
    (cstr s = US "relaxed/relaxed" →
      pdkim_cstring_to_canons s 0 h b = (PDKIM_CANON_RELAXED, PDKIM_CANON_RELAXED)) ∧
    (cstr s = US "simple" →
      pdkim_cstring_to_canons s 0 h b = (PDKIM_CANON_SIMPLE, PDKIM_CANON_SIMPLE)) ∧
    (cstr s = US "relaxed" →
      pdkim_cstring_to_canons s 0 h b = (PDKIM_CANON_RELAXED, PDKIM_CANON_SIMPLE)) ∧
    (cstr s ≠ US "simple/simple" → cstr s ≠ US "simple/relaxed" →
      cstr s ≠ US "relaxed/simple" → cstr s ≠ US "relaxed/relaxed" →
      cstr s ≠ US "simple" → cstr s ≠ US "relaxed" →
      pdkim_cstring_to_canons s 0 h b = (h, b)) := by
  refine ⟨?_, ?_, ?_, ?_, ?_, ?_, ?_⟩
  · intro e
    rw [cstring_to_canons_cstr, e]
    rfl
  · intro e
    rw [cstring_to_canons_cstr, e]
    rfl
  · intro e
    rw [cstring_to_canons_cstr, e]
    rfl
  · intro e
    rw [cstring_to_canons_cstr, e]
    rfl
  · intro e
    rw [cstring_to_canons_cstr, e]
    rfl
  · intro e
    rw [cstring_to_canons_cstr, e]
    rfl
  · intro n1 n2 n3 n4 n5 n6
    apply cstring_to_canons_other s h b hlen
    intro hm
    simp only [pdkim_combined_canons, List.map_cons, List.map_nil, List.mem_cons,
      List.mem_singleton, List.not_mem_nil, or_false] at hm
    rcases hm with hm | hm | hm | hm | hm | hm
    · exact n1 hm
    · exact n2 hm
    · exact n3 hm
    · exact n4 hm
    · exact n5 hm
    · exact n6 hm

/-- C19 at concrete strings: `relaxed/simple` sets both values, and its
proper prefix `relaxed/simpl` and its extension `relaxed/simplex` leave them
as they were. -/
theorem C19_cstring_to_canons_witness :
    pdkim_cstring_to_canons (US "relaxed/simple") 0 7 7 =
        (PDKIM_CANON_RELAXED, PDKIM_CANON_SIMPLE) ∧
      pdkim_cstring_to_canons (US "relaxed/simpl") 0 7 7 = (7, 7) ∧
      pdkim_cstring_to_canons (US "relaxed/simplex") 0 7 7 = (7, 7) :=
  ⟨(C19_cstring_to_canons (US "relaxed/simple") 7 7 (by decide)).2.2.1 (by decide),
    (C19_cstring_to_canons (US "relaxed/simpl") 7 7 (by decide)).2.2.2.2.2.2
      (by decide) (by decide) (by decide) (by decide) (by decide) (by decide),
    (C19_cstring_to_canons (US "relaxed/simplex") 7 7 (by decide)).2.2.2.2.2.2
      (by decide) (by decide) (by decide) (by decide) (by decide) (by decide)⟩

/-! ## The scanning loop of `pdkim_parse_sig_header`, byte by byte -/

theorem scan_chars_append (env : Env) :
    ∀ (a b : List Nat) (st : sig_scan),
      scan_chars env st (a ++ b) = (scan_chars env st a).bind (fun s => scan_chars env s b)
  | [], _, _ => rfl
  | c :: a, b, st => by
      simp only [List.cons_append, scan_chars]
      cases scan_step env st c with
      | none => rfl
      | some s => exact scan_chars_append env a b s

theorem scan_chars_cons (env : Env) (st : sig_scan) (c : Nat) (rest : List Nat) :
    scan_chars env st (c :: rest) =
      (scan_step env st c).bind (fun s => scan_chars env s rest) := rfl

/-- A byte of the header name other than the colon is copied. -/
theorem scan_step_hname (env : Env) (st : sig_scan) (c : Nat)
    (hp : st.past_hname = false) (hb : st.in_b_val = false) (hc : c ≠ COLON) :
    scan_step env st c = some { st with q := st.q ++ [c] } := by
  unfold scan_step scan_char
  by_cases h1 : c = CR ∨ c = LF
  · rw [if_pos h1]
    simp [next_char, hb]
  · rw [if_neg h1, if_pos hp, if_neg hc]
    simp [next_char, hb]

/-- The colon ends the header name. -/
theorem scan_step_colon (env : Env) (st : sig_scan)
    (hp : st.past_hname = false) (hb : st.in_b_val = false) :
    scan_step env st COLON = some { st with past_hname := true, q := st.q ++ [COLON] } := by
  unfold scan_step scan_char
  rw [if_neg (by decide), if_pos hp, if_pos rfl]
  simp [next_char, hb]

/-- In limbo a byte that is not a lower-case letter is copied. -/
theorem scan_step_limbo (env : Env) (st : sig_scan) (c : Nat)
    (hp : st.past_hname = true) (hw : st.hdr_where = PDKIM_HDR_LIMBO)
    (hb : st.in_b_val = false) (hc : is_tag_start c = false) :
    scan_step env st c = some { st with q := st.q ++ [c] } := by
  have hc2 : ¬(97 ≤ c ∧ c ≤ 122) := by simpa [is_tag_start] using hc
  unfold scan_step scan_char
  by_cases h1 : c = CR ∨ c = LF
  · rw [if_pos h1]
    simp [next_char, hb]
  · rw [if_neg h1, if_neg (by simp [hp]), if_pos hw, if_pos hc2]
    simp [next_char, hb]

/-- In limbo a lower-case letter begins a tag name. -/
theorem scan_step_tag_start (env : Env) (st : sig_scan) (c : Nat)
    (hp : st.past_hname = true) (hw : st.hdr_where = PDKIM_HDR_LIMBO)
    (hb : st.in_b_val = false) (hc : is_tag_start c = true) :
    scan_step env st c =
      some { st with hdr_where := PDKIM_HDR_TAG,
                     cur_tag := some (st.cur_tag.getD [] ++ [c]),
                     q := st.q ++ [c] } := by
  have hc2 : 97 ≤ c ∧ c ≤ 122 := by simpa [is_tag_start] using hc
  have h1 : ¬(c = CR ∨ c = LF) := by
    unfold CR LF
    omega
  have h2 : c ≠ EQUALS := by
    unfold EQUALS
    omega
  have h3 : isspace c = false := by
    simp only [isspace, Bool.or_eq_false_iff, decide_eq_false_iff_not]
    omega
  unfold scan_step scan_char
  rw [if_neg h1, if_neg (by simp [hp]), if_pos hw, if_neg (by simpa using hc2)]
  simp [tag_char, h2, h3, next_char, hb, string_catn]

/-- In a tag name a byte other than `=` is copied, and appended to the name
unless it is white space. -/
theorem scan_step_tag (env : Env) (st : sig_scan) (c : Nat)
    (hp : st.past_hname = true) (hw : st.hdr_where = PDKIM_HDR_TAG)
    (hb : st.in_b_val = false) (hc : c ≠ EQUALS) :
    scan_step env st c =
      some { st with cur_tag := if isspace c = true then st.cur_tag
                                else some (st.cur_tag.getD [] ++ [c]),
                     q := st.q ++ [c] } := by
  have hw0 : st.hdr_where ≠ PDKIM_HDR_LIMBO := by
    rw [hw]
    decide
  unfold scan_step scan_char
  by_cases h1 : c = CR ∨ c = LF
  · have hs : isspace c = true := by
      rcases h1 with h | h <;> subst h <;> decide
    rw [if_pos h1]
    simp [next_char, hb, hs]
  · rw [if_neg h1, if_neg (by simp [hp]), if_neg hw0, if_pos hw]
    unfold tag_char
    rw [if_neg hc]
    by_cases hs : isspace c = true
    · simp [hs, next_char, hb]
    · simp [hs, next_char, hb, string_catn]

/-- The `=` after a tag name begins the value; it is copied, and for the tag
`b` the copying stops behind it. -/
theorem scan_step_equals (env : Env) (st : sig_scan)
    (hp : st.past_hname = true) (hw : st.hdr_where = PDKIM_HDR_TAG)
    (hb : st.in_b_val = false) :
    scan_step env st EQUALS =
      some { st with hdr_where := PDKIM_HDR_VALUE,
                     in_b_val := decide (cstr (st.cur_tag.getD []) = US "b"),
                     q := st.q ++ [EQUALS] } := by
  have hw0 : st.hdr_where ≠ PDKIM_HDR_LIMBO := by
    rw [hw]
    decide
  unfold scan_step scan_char
  rw [if_neg (by decide), if_neg (by simp [hp]), if_neg hw0, if_pos hw]
  unfold tag_char tag_end
  rw [if_pos rfl]
  by_cases ht : cstr (st.cur_tag.getD []) = US "b"
  · simp [ht, next_char]
  · simp [ht, next_char, hb]

/-- In a value a byte other than `;` and NUL is copied unless the value is
that of `b`, and appended to the value unless it is folding white space. -/
theorem scan_step_value (env : Env) (st : sig_scan) (c : Nat)
    (hp : st.past_hname = true) (hw : st.hdr_where = PDKIM_HDR_VALUE)
    (hc : c ≠ SEMICOLON) (h0 : c ≠ 0) :
    scan_step env st c =
      some { st with cur_val := if is_fws c = true then st.cur_val
                                else some (st.cur_val.getD [] ++ [c]),
                     q := if st.in_b_val = true then st.q else st.q ++ [c] } := by
  obtain ⟨sig, q, tag, val, ph, inb, wh⟩ := st
  simp only at hp hw
  subst hp hw
  have hw0 : PDKIM_HDR_VALUE ≠ PDKIM_HDR_LIMBO := by decide
  have hw1 : PDKIM_HDR_VALUE ≠ PDKIM_HDR_TAG := by decide
  unfold scan_step scan_char
  by_cases h1 : c = CR ∨ c = LF
  · have hs : is_fws c = true := by
      rcases h1 with h | h <;> subst h <;> decide
    rw [if_pos h1]
    cases inb <;> simp [next_char, hs]
  · rw [if_neg h1, if_neg (by simp), if_neg hw0, if_neg hw1, if_pos rfl]
    unfold value_char
    by_cases h2 : c = CR ∨ c = LF ∨ c = SP ∨ c = TAB
    · have hs : is_fws c = true := by
        rcases h2 with h | h | h | h <;> subst h <;> decide
      rw [if_pos h2]
      cases inb <;> simp [next_char, hs]
    · have hs : is_fws c = false := by
        simp only [is_fws, Bool.or_eq_false_iff, beq_eq_false_iff_ne, ne_eq]
        simp only [not_or] at h2
        exact ⟨⟨⟨h2.1, h2.2.1⟩, h2.2.2.1⟩, h2.2.2.2⟩
      rw [if_neg h2, if_neg (by simp [hc, h0])]
      cases inb <;> simp [next_char, hs, string_catn]

/-- The `;` that ends a value: the tag is dealt with, the `;` is copied and the
scan is in limbo again. -/
theorem scan_step_semicolon (env : Env) (st : sig_scan)
    (hp : st.past_hname = true) (hw : st.hdr_where = PDKIM_HDR_VALUE) :
    scan_step env st SEMICOLON =
      (value_sig env st).map (fun sig =>
        { st with sig := sig, cur_tag := none, cur_val := none, in_b_val := false,
                  hdr_where := PDKIM_HDR_LIMBO, q := st.q ++ [SEMICOLON] }) := by
  have hw0 : st.hdr_where ≠ PDKIM_HDR_LIMBO := by
    rw [hw]
    decide
  have hw1 : st.hdr_where ≠ PDKIM_HDR_TAG := by
    rw [hw]
    decide
  unfold scan_step scan_char
  rw [if_neg (by decide), if_neg (by simp [hp]), if_neg hw0, if_neg hw1, if_pos hw]
  unfold value_char
  rw [if_neg (by decide), if_pos (Or.inl rfl)]
  unfold value_end
  cases value_sig env st with
  | none => rfl
  | some sig => simp [next_char]

/-- The NUL that ends the header in a value: the tag is dealt with. -/
theorem scan_char_nul_value (env : Env) (st : sig_scan)
    (hp : st.past_hname = true) (hw : st.hdr_where = PDKIM_HDR_VALUE) :
    scan_char env st 0 =
      (value_sig env st).map (fun sig =>
        { st with sig := sig, cur_tag := none, cur_val := none, in_b_val := false,
                  hdr_where := PDKIM_HDR_LIMBO }) := by
  have hw0 : st.hdr_where ≠ PDKIM_HDR_LIMBO := by
    rw [hw]
    decide
  have hw1 : st.hdr_where ≠ PDKIM_HDR_TAG := by
    rw [hw]
    decide
  unfold scan_char
  rw [if_neg (by decide), if_neg (by simp [hp]), if_neg hw0, if_neg hw1, if_pos hw]
  unfold value_char
  rw [if_neg (by decide), if_pos (Or.inr rfl)]
  rfl

/-- The NUL that ends the header outside a value changes neither the
signature nor the copy. -/
theorem scan_char_nul_other (env : Env) (st : sig_scan)
    (hw : st.past_hname = false ∨ st.hdr_where = PDKIM_HDR_LIMBO ∨
      st.hdr_where = PDKIM_HDR_TAG) :
    ∃ st2, scan_char env st 0 = some st2 ∧ st2.sig = st.sig ∧ st2.q = st.q := by
  unfold scan_char
  rw [if_neg (by decide)]
  by_cases hp : st.past_hname = false
  · rw [if_pos hp, if_neg (by decide)]
    exact ⟨st, rfl, rfl, rfl⟩
  · rw [if_neg hp]
    by_cases h0 : st.hdr_where = PDKIM_HDR_LIMBO
    · rw [if_pos h0, if_pos (by omega)]
      exact ⟨st, rfl, rfl, rfl⟩
    · rw [if_neg h0]
      have h1 : st.hdr_where = PDKIM_HDR_TAG := by
        rcases hw with h | h | h
        · exact absurd h hp
        · exact absurd h h0
        · exact h
      rw [if_pos h1]
      refine ⟨tag_char st 0, rfl, ?_, ?_⟩
      · unfold tag_char
        rw [if_neg (by decide)]
        split <;> rfl
      · unfold tag_char
        rw [if_neg (by decide)]
        split <;> rfl

/-- A string without tab and space is left as it is by `pdkim_strtrim`. -/
theorem strtrim_no_ws (v : List Nat) (h : ∀ x ∈ v, x ≠ TAB ∧ x ≠ SP) :
    pdkim_strtrim v = some v := by
  cases v with
  | nil => rfl
  | cons c rest =>
    have hc := h c (List.mem_cons_self _ _)
    unfold pdkim_strtrim
    simp only
    rw [if_neg (by simp [hc.1, hc.2])]
    have hd : ∀ l : List Nat, (∀ x ∈ l, x ≠ TAB ∧ x ≠ SP) →
        (l.reverse.dropWhile (fun x => x == TAB || x == SP)).reverse = l := by
      intro l hl
      cases hr : l.reverse with
      | nil =>
        have : l = [] := List.reverse_eq_nil_iff.1 hr
        rw [this]
        rfl
      | cons y ys =>
        have hy : y ∈ l := by
          rw [← List.mem_reverse, hr]
          exact List.mem_cons_self _ _
        have hyn := hl y hy
        rw [List.dropWhile_cons_of_neg (by simp [hyn.1, hyn.2]), ← hr, List.reverse_reverse]
    rw [hd _ h]

theorem filter_fws_no_ws (s : List Nat) :
    ∀ x ∈ s.filter (fun c => !is_fws c), x ≠ TAB ∧ x ≠ SP := by
  intro x hx
  have h := (List.mem_filter.1 hx).2
  constructor
  · intro e
    subst e
    exact absurd h (by decide)
  · intro e
    subst e
    exact absurd h (by decide)

/-- What the end of a value does to the signature, for a tag name `name` and
the value bytes `add` left after folding white space has been skipped. -/
theorem value_sig_eq (env : Env) (st : sig_scan) (name region : List Nat)
    (ht : st.cur_tag = some name)
    (hv : st.cur_val = val_acc none (region.filter (fun c => !is_fws c))) :
    value_sig env st =
      some (tag_apply env st.sig (name, region.filter (fun c => !is_fws c))) := by
  unfold value_sig tag_apply
  rw [ht, hv]
  unfold val_acc
  by_cases he : region.filter (fun c => !is_fws c) = []
  · rw [if_pos he, he]
    simp
  · rw [if_neg he]
    simp only [Option.getD_none, List.nil_append]
    rw [strtrim_no_ws _ (filter_fws_no_ws region)]
    by_cases hc : name.length = 1 ∨ name.head? = some 98
    · rw [if_pos hc, if_pos ⟨he, hc⟩]
      rfl
    · rw [if_neg hc, if_neg (fun h => hc h.2)]

/-! ## The scanning loop, region by region -/

/-- The scan over bytes of the header name. -/
theorem scan_chars_hname (env : Env) :
    ∀ (s : List Nat) (st : sig_scan), st.past_hname = false → st.in_b_val = false →
      COLON ∉ s → scan_chars env st s = some { st with q := st.q ++ s }
  | [], st, _, _, _ => by simp [scan_chars]
  | c :: s, st, hp, hb, hc => by
      have hc1 : c ≠ COLON := fun h => hc (by simp [h])
      have hc2 : COLON ∉ s := fun h => hc (List.mem_cons_of_mem _ h)
      rw [scan_chars_cons, scan_step_hname env st c hp hb hc1]
      simp only [Option.some_bind]
      rw [scan_chars_hname env s { st with q := st.q ++ [c] } hp hb hc2]
      simp only [List.append_assoc, List.singleton_append]

/-- The scan in limbo over bytes that are not lower-case letters. -/
theorem scan_chars_limbo (env : Env) :
    ∀ (s : List Nat) (st : sig_scan), st.past_hname = true →
      st.hdr_where = PDKIM_HDR_LIMBO → st.in_b_val = false →
      (∀ c ∈ s, is_tag_start c = false) →
      scan_chars env st s = some { st with q := st.q ++ s }
  | [], st, _, _, _, _ => by simp [scan_chars]
  | c :: s, st, hp, hw, hb, hc => by
      rw [scan_chars_cons, scan_step_limbo env st c hp hw hb (hc c (List.mem_cons_self _ _))]
      simp only [Option.some_bind]
      rw [scan_chars_limbo env s { st with q := st.q ++ [c] } hp hw hb
        (fun x hx => hc x (List.mem_cons_of_mem _ hx))]
      simp only [List.append_assoc, List.singleton_append]

/-- The scan over the bytes of a tag name. -/
theorem scan_chars_tag (env : Env) :
    ∀ (s : List Nat) (st : sig_scan) (t : List Nat), st.past_hname = true →
      st.hdr_where = PDKIM_HDR_TAG → st.in_b_val = false → st.cur_tag = some t →
      EQUALS ∉ s →
      scan_chars env st s =
        some { st with cur_tag := some (t ++ s.filter (fun c => !isspace c)),
                       q := st.q ++ s }
  | [], st, t, _, _, _, ht, _ => by simp [scan_chars, ← ht]
  | c :: s, st, t, hp, hw, hb, ht, hc => by
      have hc1 : c ≠ EQUALS := fun h => hc (by simp [h])
      have hc2 : EQUALS ∉ s := fun h => hc (List.mem_cons_of_mem _ h)
      rw [scan_chars_cons, scan_step_tag env st c hp hw hb hc1]
      simp only [Option.some_bind]
      by_cases hs : isspace c = true
      · rw [scan_chars_tag env s
          { st with cur_tag := if isspace c = true then st.cur_tag
                                else some (st.cur_tag.getD [] ++ [c]),
                    q := st.q ++ [c] } t hp hw hb (by simp [hs, ht]) hc2]
        simp only [List.append_assoc, List.singleton_append, List.filter_cons, hs,
          Bool.not_true, Bool.false_eq_true, if_false]
      · rw [scan_chars_tag env s
          { st with cur_tag := if isspace c = true then st.cur_tag
                                else some (st.cur_tag.getD [] ++ [c]),
                    q := st.q ++ [c] } (t ++ [c]) hp hw hb (by simp [hs, ht]) hc2]
        simp only [List.append_assoc, List.singleton_append, List.filter_cons, hs,
          Bool.not_false, if_true]

theorem val_acc_step (v : Option (List Nat)) (c : Nat) (rest : List Nat) :
    val_acc (if is_fws c = true then v else some (v.getD [] ++ [c]))
        (rest.filter (fun c => !is_fws c)) =
      val_acc v ((c :: rest).filter (fun c => !is_fws c)) := by
  unfold val_acc
  by_cases hs : is_fws c = true
  · simp [hs]
  · simp only [hs, List.filter_cons, Bool.not_false, if_true, Bool.false_eq_true, if_false]
    by_cases he : rest.filter (fun c => !is_fws c) = []
    · simp [he]
    · simp [he]

/-- The scan over the bytes of a value. -/
theorem scan_chars_value (env : Env) :
    ∀ (s : List Nat) (st : sig_scan), st.past_hname = true →
      st.hdr_where = PDKIM_HDR_VALUE → SEMICOLON ∉ s → 0 ∉ s →
      scan_chars env st s =
        some { st with cur_val := val_acc st.cur_val (s.filter (fun c => !is_fws c)),
                       q := if st.in_b_val = true then st.q else st.q ++ s }
  | [], st, _, _, _, _ => by
      obtain ⟨sig, q, tag, val, ph, inb, wh⟩ := st
      cases inb <;> simp [scan_chars, val_acc]
  | c :: s, st, hp, hw, hc, h0 => by
      have hc1 : c ≠ SEMICOLON := fun h => hc (by simp [h])
      have hc2 : SEMICOLON ∉ s := fun h => hc (List.mem_cons_of_mem _ h)
      have h01 : c ≠ 0 := fun h => h0 (by simp [h])
      have h02 : 0 ∉ s := fun h => h0 (List.mem_cons_of_mem _ h)
      rw [scan_chars_cons, scan_step_value env st c hp hw hc1 h01]
      simp only [Option.some_bind]
      rw [scan_chars_value env s
        { st with cur_val := if is_fws c = true then st.cur_val
                              else some (st.cur_val.getD [] ++ [c]),
                  q := if st.in_b_val = true then st.q else st.q ++ [c] } hp hw hc2 h02]
      simp only [val_acc_step]
      obtain ⟨sig, q, tag, val, ph, inb, wh⟩ := st
      cases inb <;> simp

/-! ## The scanning loop and the tags of the header -/

/-- A list split where a predicate first fails. -/
theorem split_while (p : Nat → Bool) :
    ∀ s : List Nat, ∃ a b, s = a ++ b ∧ s.takeWhile p = a ∧ s.dropWhile p = b ∧
      (∀ c ∈ a, p c = true) ∧ (∀ c r, b = c :: r → p c = false)
  | [] => ⟨[], [], rfl, rfl, rfl, fun c hc => by simp at hc, fun c r h => by simp at h⟩
  | x :: s => by
      by_cases hx : p x = true
      · obtain ⟨a, b, h1, h2, h3, h4, h5⟩ := split_while p s
        refine ⟨x :: a, b, by rw [h1]; rfl, ?_, ?_, ?_, h5⟩
        · rw [List.takeWhile_cons_of_pos hx, h2]
        · rw [List.dropWhile_cons_of_pos hx, h3]
        · intro c hc
          rcases List.mem_cons.1 hc with h | h
          · rw [h]
            exact hx
          · exact h4 c h
      · refine ⟨[], x :: s, rfl, ?_, ?_, fun c hc => by simp at hc, ?_⟩
        · rw [List.takeWhile_cons_of_neg hx]
        · rw [List.dropWhile_cons_of_neg hx]
        · intro c r h
          have : x = c := (List.cons.inj h).1
          rw [← this]
          simpa using hx

theorem cstr_of_no_nul (l : List Nat) (h : 0 ∉ l) : cstr l = l := by
  unfold cstr
  rw [List.takeWhile_eq_self_iff]
  intro x hx
  have : x ≠ 0 := fun e => h (e ▸ hx)
  simpa using this

/-- The value stage: from the state right behind the `=` of a tag to the end
of the header, given what the scan does from the limbo behind the value. -/
theorem scan_value_stage (env : Env) (n : Nat)
    (IH : ∀ (s5 : List Nat) (st5 : sig_scan), s5.length < n → 0 ∉ s5 → LimboState st5 →
      ScanGives env st5 s5 (st5.q ++ without_b_fuel n s5)
        ((lex_tags_fuel n s5).foldl (tag_apply env) st5.sig))
    (st : sig_scan) (name s3 : List Nat) (hlen : s3.length ≤ n) (h0 : 0 ∉ s3)
    (hp : st.past_hname = true) (hw : st.hdr_where = PDKIM_HDR_VALUE)
    (ht : st.cur_tag = some name) (hv : st.cur_val = none) :
    ScanGives env st s3
      ((if st.in_b_val = true then st.q
        else st.q ++ s3.takeWhile (fun c => c != SEMICOLON)) ++
        (match s3.dropWhile (fun c => c != SEMICOLON) with
         | [] => []
         | _ :: s5 => SEMICOLON :: without_b_fuel n s5))
      ((match s3.dropWhile (fun c => c != SEMICOLON) with
        | [] => []
        | _ :: s5 => lex_tags_fuel n s5).foldl (tag_apply env)
        (tag_apply env st.sig
          (name, (s3.takeWhile (fun c => c != SEMICOLON)).filter (fun c => !is_fws c)))) := by
  obtain ⟨vr, rem3, hs, htw, hdw, hvr, hrem⟩ := split_while (fun c => c != SEMICOLON) s3
  rw [htw, hdw]
  subst hs
  have hsemi : SEMICOLON ∉ vr := fun h => by
    have := hvr _ h
    simp at this
  have h0v : 0 ∉ vr := fun h => h0 (List.mem_append_left _ h)
  have hreg := scan_chars_value env vr st hp hw hsemi h0v
  -- the state behind the value region
  obtain ⟨stv, hstv⟩ : ∃ stv : sig_scan, stv =
      { st with cur_val := val_acc st.cur_val (vr.filter (fun c => !is_fws c)),
                q := if st.in_b_val = true then st.q else st.q ++ vr } := ⟨_, rfl⟩
  rw [← hstv] at hreg
  have hpv : stv.past_hname = true := by rw [hstv]; exact hp
  have hwv : stv.hdr_where = PDKIM_HDR_VALUE := by rw [hstv]; exact hw
  have hqv : stv.q = if st.in_b_val = true then st.q else st.q ++ vr := by rw [hstv]
  have hgv : stv.sig = st.sig := by rw [hstv]
  have hsig := value_sig_eq env stv name vr (by rw [hstv]; exact ht) (by rw [hstv, hv])
  rw [hgv] at hsig
  cases rem3 with
  | nil =>
    refine ⟨{ stv with sig := tag_apply env st.sig (name, vr.filter (fun c => !is_fws c)),
                       cur_tag := none, cur_val := none, in_b_val := false,
                       hdr_where := PDKIM_HDR_LIMBO }, ?_, ?_, ?_⟩
    · rw [List.append_nil, hreg, Option.some_bind, scan_char_nul_value env stv hpv hwv, hsig]
      rfl
    · show stv.q = _
      rw [hqv]
      simp
    · rfl
  | cons sc s5 =>
    have hsc : sc = SEMICOLON := by
      have := hrem sc s5 rfl
      simpa using this
    subst hsc
    have h05 : 0 ∉ s5 := fun h =>
      h0 (List.mem_append_right _ (List.mem_cons_of_mem _ h))
    have hl5 : s5.length < n := by
      simp only [List.length_append, List.length_cons] at hlen
      omega
    obtain ⟨st2, e2, q2, g2⟩ := IH s5
      { stv with sig := tag_apply env st.sig (name, vr.filter (fun c => !is_fws c)),
                 cur_tag := none, cur_val := none, in_b_val := false,
                 hdr_where := PDKIM_HDR_LIMBO,
                 q := stv.q ++ [SEMICOLON] }
      hl5 h05 ⟨hpv, rfl, rfl, rfl, rfl⟩
    refine ⟨st2, ?_, ?_, ?_⟩
    · rw [scan_chars_append, hreg, Option.some_bind, scan_chars_cons,
        scan_step_semicolon env stv hpv hwv, hsig]
      exact e2
    · rw [q2]
      show stv.q ++ [SEMICOLON] ++ _ = _
      rw [hqv]
      simp
    · rw [g2]

theorem takeWhile_cons_pos (p : Nat → Bool) (c : Nat) (s : List Nat) (h : p c = true) :
    (c :: s).takeWhile p = c :: s.takeWhile p := by
  simp [List.takeWhile_cons, h]

theorem dropWhile_cons_pos (p : Nat → Bool) (c : Nat) (s : List Nat) (h : p c = true) :
    (c :: s).dropWhile p = s.dropWhile p := by
  simp [List.dropWhile_cons, h]

theorem without_b_fuel_succ (n : Nat) (s : List Nat) :
    without_b_fuel (n + 1) s =
      s.takeWhile (fun c => !is_tag_start c) ++
        (match s.dropWhile (fun c => !is_tag_start c) with
         | [] => []
         | c1 :: s1 =>
           (c1 :: s1).takeWhile (fun c => c != EQUALS) ++
             (match (c1 :: s1).dropWhile (fun c => c != EQUALS) with
              | [] => []
              | _ :: s3 =>
                EQUALS ::
                  ((if ((c1 :: s1).takeWhile (fun c => c != EQUALS)).filter
                        (fun c => !isspace c) = US "b" then []
                    else s3.takeWhile (fun c => c != SEMICOLON)) ++
                    (match s3.dropWhile (fun c => c != SEMICOLON) with
                     | [] => []
                     | _ :: s5 => SEMICOLON :: without_b_fuel n s5)))) := rfl

theorem lex_tags_fuel_succ (n : Nat) (s : List Nat) :
    lex_tags_fuel (n + 1) s =
      match s.dropWhile (fun c => !is_tag_start c) with
      | [] => []
      | c1 :: s1 =>
        match (c1 :: s1).dropWhile (fun c => c != EQUALS) with
        | [] => []
        | _ :: s3 =>
          (((c1 :: s1).takeWhile (fun c => c != EQUALS)).filter (fun c => !isspace c),
            (s3.takeWhile (fun c => c != SEMICOLON)).filter (fun c => !is_fws c)) ::
            (match s3.dropWhile (fun c => c != SEMICOLON) with
             | [] => []
             | _ :: s5 => lex_tags_fuel n s5) := rfl

/-- The tag stage: from limbo at the first letter of a tag name to the end of
the header, given what the scan does from the limbo behind the tag. -/
theorem scan_tag_stage (env : Env) (n : Nat)
    (IH : ∀ (s5 : List Nat) (st5 : sig_scan), s5.length < n → 0 ∉ s5 → LimboState st5 →
      ScanGives env st5 s5 (st5.q ++ without_b_fuel n s5)
        ((lex_tags_fuel n s5).foldl (tag_apply env) st5.sig))
    (st : sig_scan) (c1 : Nat) (s1 : List Nat) (hlen : (c1 :: s1).length ≤ n)
    (h0 : 0 ∉ c1 :: s1) (hst : LimboState st) (hc1 : is_tag_start c1 = true) :
    ScanGives env st (c1 :: s1)
      (st.q ++
        ((c1 :: s1).takeWhile (fun c => c != EQUALS) ++
          (match (c1 :: s1).dropWhile (fun c => c != EQUALS) with
           | [] => []
           | _ :: s3 =>
             EQUALS ::
               ((if ((c1 :: s1).takeWhile (fun c => c != EQUALS)).filter
                     (fun c => !isspace c) = US "b" then []
                 else s3.takeWhile (fun c => c != SEMICOLON)) ++
                 (match s3.dropWhile (fun c => c != SEMICOLON) with
                  | [] => []
                  | _ :: s5 => SEMICOLON :: without_b_fuel n s5)))))
      ((match (c1 :: s1).dropWhile (fun c => c != EQUALS) with
        | [] => []
        | _ :: s3 =>
          (((c1 :: s1).takeWhile (fun c => c != EQUALS)).filter (fun c => !isspace c),
            (s3.takeWhile (fun c => c != SEMICOLON)).filter (fun c => !is_fws c)) ::
            (match s3.dropWhile (fun c => c != SEMICOLON) with
             | [] => []
             | _ :: s5 => lex_tags_fuel n s5)).foldl (tag_apply env) st.sig) := by
  obtain ⟨hp, hw, hb, htag, hval⟩ := hst
  have hc2 : 97 ≤ c1 ∧ c1 ≤ 122 := by simpa [is_tag_start] using hc1
  have hne : (c1 != EQUALS) = true := by
    simp only [bne_iff_ne, ne_eq]
    unfold EQUALS
    omega
  have hsp : isspace c1 = false := by
    simp only [isspace, Bool.or_eq_false_iff, decide_eq_false_iff_not]
    omega
  obtain ⟨nm, rem2, hs, htw, hdw, hnm, hrem⟩ := split_while (fun c => c != EQUALS) s1
  rw [takeWhile_cons_pos (fun c => c != EQUALS) c1 s1 hne,
    dropWhile_cons_pos (fun c => c != EQUALS) c1 s1 hne, htw, hdw]
  subst hs
  have heq : EQUALS ∉ nm := fun h => by
    have := hnm _ h
    simp at this
  have hname : (c1 :: nm).filter (fun c => !isspace c) =
      c1 :: nm.filter (fun c => !isspace c) := by
    simp [List.filter_cons, hsp]
  have h0name : 0 ∉ c1 :: nm.filter (fun c => !isspace c) := by
    intro h
    rcases List.mem_cons.1 h with h | h
    · exact h0 (by rw [h]; exact List.mem_cons_self _ _)
    · exact h0 (List.mem_cons_of_mem _ (List.mem_append_left _ (List.mem_filter.1 h).1))
  -- the state behind the first letter, then behind the name
  obtain ⟨sta, hsta⟩ : ∃ sta : sig_scan, sta =
      { st with hdr_where := PDKIM_HDR_TAG,
                cur_tag := some (st.cur_tag.getD [] ++ [c1]),
                q := st.q ++ [c1] } := ⟨_, rfl⟩
  have hstep := scan_step_tag_start env st c1 hp hw hb hc1
  rw [← hsta] at hstep
  have hreg := scan_chars_tag env nm sta [c1] (by rw [hsta]; exact hp) (by rw [hsta])
    (by rw [hsta]; exact hb) (by rw [hsta, htag]; rfl) heq
  obtain ⟨stt, hstt⟩ : ∃ stt : sig_scan, stt =
      { sta with cur_tag := some ([c1] ++ nm.filter (fun c => !isspace c)),
                 q := sta.q ++ nm } := ⟨_, rfl⟩
  rw [← hstt] at hreg
  have hpt : stt.past_hname = true := by rw [hstt, hsta]; exact hp
  have hwt : stt.hdr_where = PDKIM_HDR_TAG := by rw [hstt, hsta]
  have hbt : stt.in_b_val = false := by rw [hstt, hsta]; exact hb
  have hqt : stt.q = st.q ++ c1 :: nm := by
    rw [hstt, hsta]
    simp
  have hgt : stt.sig = st.sig := by rw [hstt, hsta]
  have htt : stt.cur_tag = some (c1 :: nm.filter (fun c => !isspace c)) := by rw [hstt]; rfl
  have hvt : stt.cur_val = none := by rw [hstt, hsta]; exact hval
  have hname_scan : scan_chars env st (c1 :: nm) = some stt := by
    rw [scan_chars_cons, hstep, Option.some_bind, hreg]
  cases rem2 with
  | nil =>
    obtain ⟨st2, e2, g2, q2⟩ := scan_char_nul_other env stt (Or.inr (Or.inr hwt))
    refine ⟨st2, ?_, ?_, ?_⟩
    · rw [List.append_nil, hname_scan, Option.some_bind]
      exact e2
    · rw [q2, hqt]
      simp
    · rw [g2, hgt]
      rfl
  | cons e s3 =>
    have he : e = EQUALS := by
      have := hrem e s3 rfl
      simpa using this
    subst he
    have h03 : 0 ∉ s3 := fun h =>
      h0 (List.mem_cons_of_mem _ (List.mem_append_right _ (List.mem_cons_of_mem _ h)))
    have hl3 : s3.length ≤ n := by
      simp only [List.length_append, List.length_cons] at hlen
      omega
    obtain ⟨stb, hstb⟩ : ∃ stb : sig_scan, stb =
        { stt with hdr_where := PDKIM_HDR_VALUE,
                   in_b_val := decide (cstr (stt.cur_tag.getD []) = US "b"),
                   q := stt.q ++ [EQUALS] } := ⟨_, rfl⟩
    have hstepb := scan_step_equals env stt hpt hwt hbt
    rw [← hstb] at hstepb
    have hbb : stb.in_b_val =
        decide (c1 :: nm.filter (fun c => !isspace c) = US "b") := by
      rw [hstb]
      show decide (cstr (stt.cur_tag.getD []) = US "b") = _
      rw [htt, Option.getD_some, cstr_of_no_nul _ h0name]
    obtain ⟨st2, e2, q2, g2⟩ := scan_value_stage env n IH stb
      (c1 :: nm.filter (fun c => !isspace c)) s3 hl3 h03 (by rw [hstb]; exact hpt)
      (by rw [hstb]) (by rw [hstb]; exact htt) (by rw [hstb]; exact hvt)
    have hqb : stb.q = st.q ++ c1 :: nm ++ [EQUALS] := by
      rw [hstb]
      show stt.q ++ [EQUALS] = _
      rw [hqt]
    have hgb : stb.sig = st.sig := by rw [hstb]; exact hgt
    refine ⟨st2, ?_, ?_, ?_⟩
    · have : c1 :: (nm ++ EQUALS :: s3) = (c1 :: nm) ++ (EQUALS :: s3) := rfl
      rw [this, scan_chars_append, hname_scan, Option.some_bind, scan_chars_cons, hstepb]
      exact e2
    · rw [q2, hbb, hqb, hname]
      by_cases hbn : c1 :: nm.filter (fun c => !isspace c) = US "b"
      · simp [hbn]
      · simp [hbn]
    · rw [g2, hgb, hname]
      rfl

/-- The scanning loop on a tag list, started in limbo: the copy is the tag
list without the values of `b`, and the signature is what the tags of the
list, taken in order, make of it. -/
theorem scan_tag_list (env : Env) :
    ∀ (n : Nat) (s : List Nat) (st : sig_scan), s.length < n → 0 ∉ s → LimboState st →
      ScanGives env st s (st.q ++ without_b_fuel n s)
        ((lex_tags_fuel n s).foldl (tag_apply env) st.sig)
  | 0, _, _, hl, _, _ => absurd hl (Nat.not_lt_zero _)
  | n + 1, s, st, hl, h0, hst => by
      obtain ⟨hp, hw, hb, htag, hval⟩ := hst
      rw [without_b_fuel_succ, lex_tags_fuel_succ]
      obtain ⟨junk, rem, hs, htw, hdw, hjunk, hrem⟩ :=
        split_while (fun c => !is_tag_start c) s
      rw [htw, hdw]
      subst hs
      have hj : ∀ c ∈ junk, is_tag_start c = false := fun c hc => by
        have := hjunk c hc
        simpa using this
      have hreg := scan_chars_limbo env junk st hp hw hb hj
      cases rem with
      | nil =>
        obtain ⟨st2, e2, g2, q2⟩ := scan_char_nul_other env { st with q := st.q ++ junk }
          (Or.inr (Or.inl hw))
        refine ⟨st2, ?_, ?_, ?_⟩
        · rw [List.append_nil, hreg, Option.some_bind]
          exact e2
        · rw [q2]
          simp
        · rw [g2]
          rfl
      | cons c1 s1 =>
        have hc1 : is_tag_start c1 = true := by
          have := hrem c1 s1 rfl
          simpa using this
        have hl1 : (c1 :: s1).length ≤ n := by
          simp only [List.length_append, List.length_cons] at hl ⊢
          omega
        have h01 : 0 ∉ c1 :: s1 := fun h => h0 (List.mem_append_right _ h)
        obtain ⟨st2, e2, q2, g2⟩ := scan_tag_stage env n (scan_tag_list env n)
          { st with q := st.q ++ junk } c1 s1 hl1 h01 ⟨hp, hw, hb, htag, hval⟩ hc1
        refine ⟨st2, ?_, ?_, ?_⟩
        · rw [scan_chars_append, hreg, Option.some_bind]
          exact e2
        · rw [q2]
          simp
        · rw [g2]

theorem cstr_no_nul (l : List Nat) : 0 ∉ cstr l := by
  unfold cstr
  intro h
  have := List.mem_takeWhile_imp h
  simp at this

/-- The scanning loop of `pdkim_parse_sig_header` always comes to its end; the
copy it has written is the header without the values of `b`, and the
signature is what the tags of the header, taken in order, make of the
initial signature. -/
theorem parse_sig_scan_spec (env : Env) (raw : List Nat) :
    ∃ st, parse_sig_scan env raw = some st ∧ st.q = without_b_value raw ∧
      st.sig = (lex_tags raw).foldl (tag_apply env) sig_init := by
  have h0 := cstr_no_nul raw
  unfold parse_sig_scan without_b_value lex_tags tag_list_of
  obtain ⟨hn, rem, hs, htw, hdw, hhn, hrem⟩ := split_while (fun c => c != COLON) (cstr raw)
  rw [htw, hdw, hs]
  rw [hs] at h0
  have hcolon : COLON ∉ hn := fun h => by
    have := hhn _ h
    simp at this
  have hreg := scan_chars_hname env hn scan_init rfl rfl hcolon
  cases rem with
  | nil =>
    obtain ⟨st2, e2, g2, q2⟩ := scan_char_nul_other env
      { scan_init with q := scan_init.q ++ hn } (Or.inl rfl)
    refine ⟨st2, ?_, ?_, ?_⟩
    · rw [List.append_nil, hreg, Option.some_bind]
      exact e2
    · rw [q2]
      simp [scan_init]
    · rw [g2]
      rfl
  | cons c rest =>
    have hc : c = COLON := by
      have := hrem c rest rfl
      simpa using this
    subst hc
    have hstep := scan_step_colon env { scan_init with q := scan_init.q ++ hn } rfl rfl
    obtain ⟨st2, e2, q2, g2⟩ := scan_tag_list env (rest.length + 1) rest
      { scan_init with past_hname := true, q := scan_init.q ++ hn ++ [COLON] }
      (Nat.lt_succ_self _)
      (fun h => h0 (List.mem_append_right _ (List.mem_cons_of_mem _ h)))
      ⟨rfl, rfl, rfl, rfl, rfl⟩
    refine ⟨st2, ?_, ?_, ?_⟩
    · rw [scan_chars_append, hreg, Option.some_bind, scan_chars_cons, hstep,
        Option.some_bind]
      exact e2
    · rw [q2]
      simp [scan_init]
    · rw [g2]
      rfl

theorem dropWhile_snoc_neg (p : Nat → Bool) (c : Nat) (hc : p c = false) :
    ∀ l : List Nat, (l ++ [c]).dropWhile p = l.dropWhile p ++ [c]
  | [] => by simp [List.dropWhile_cons, hc]
  | x :: l => by
      by_cases hx : p x = true
      · simp only [List.cons_append, List.dropWhile_cons, hx, if_true]
        exact dropWhile_snoc_neg p c hc l
      · simp [List.dropWhile_cons, hx]

/-- Chomping the copy removes its trailing CRs and LFs when its first byte is
neither. -/
theorem chomp_rawsig_eq (c : Nat) (rest : List Nat) (h1 : c ≠ CR) (h2 : c ≠ LF) :
    chomp_rawsig (c :: rest) = drop_trailing_crlf (c :: rest) := by
  unfold chomp_rawsig drop_trailing_crlf
  simp only [List.reverse_cons]
  rw [dropWhile_snoc_neg _ c (by simp [h1, h2])]
  simp

/-- A header that begins with `DKIM-Signature:`, in any case of the letters,
begins with the letter D. -/
theorem dkim_header_head (raw : List Nat)
    (h : strncasecmp_eq raw DKIM_SIGNATURE_HEADERNAME DKIM_SIGNATURE_HEADERNAME.length = true) :
    ∃ d r, raw = d :: r ∧ (d = 68 ∨ d = 100) := by
  cases raw with
  | nil => exact absurd h (by decide)
  | cons d r =>
    refine ⟨d, r, rfl, ?_⟩
    unfold strncasecmp_eq at h
    have h2 : (List.take DKIM_SIGNATURE_HEADERNAME.length (d :: r)).map tolower =
        (List.take DKIM_SIGNATURE_HEADERNAME.length DKIM_SIGNATURE_HEADERNAME).map tolower := by
      simpa using h
    have h3 : tolower d = 100 := by
      have e : DKIM_SIGNATURE_HEADERNAME.length = 14 + 1 := rfl
      have hr : (List.take (14 + 1) DKIM_SIGNATURE_HEADERNAME).map tolower =
          100 :: (List.take 14 DKIM_SIGNATURE_HEADERNAME.tail).map tolower := by decide
      rw [e, List.take_succ_cons, List.map_cons, hr] at h2
      exact (List.cons.inj h2).1
    unfold tolower at h3
    split at h3 <;> omega

/-- C16. For every `DKIM-Signature:` header for which `pdkim_parse_sig_header`
returns a signature (its algorithm parses and its Body Hash is set up), the
field `rawsig_no_b_val` is the raw header with every byte between the `=` of
a tag `b` and the `;` that ends the tag (or the end of the string) deleted,
all other bytes kept in order (the `=` of `b` and the value of `bh`
included), and with the trailing CRs and LFs removed.  The tags are those
the scan finds: a tag begins at the first lower-case letter behind the header
name or behind the `;` of the tag before it, its name runs to the next `=`
(white space not counted), its value to the next `;`. -/
theorem C16_rawsig_no_b_val (env : Env) (ctx ctx1 : pdkim_ctx) (raw : List Nat)
    (sig : pdkim_signature)
    (hdkim : strncasecmp_eq raw DKIM_SIGNATURE_HEADERNAME
      DKIM_SIGNATURE_HEADERNAME.length = true)
    (hsig : pdkim_parse_sig_header env ctx raw = (ctx1, some sig)) :
    sig.rawsig_no_b_val = drop_trailing_crlf (without_b_value raw) := by
  obtain ⟨st, e, hq, _⟩ := parse_sig_scan_spec env raw
  obtain ⟨d, r, hraw, hd⟩ := dkim_header_head raw hdkim
  -- the copy begins with the first byte of the header
  have hhead : ∃ rest, without_b_value raw = d :: rest := by
    have hd0 : (d != 0) = true := by
      rcases hd with h | h <;> subst h <;> decide
    have hdc : (d != COLON) = true := by
      rcases hd with h | h <;> subst h <;> decide
    unfold without_b_value
    rw [hraw]
    unfold cstr
    rw [takeWhile_cons_pos _ d r hd0, takeWhile_cons_pos _ d _ hdc]
    exact ⟨_, rfl⟩
  obtain ⟨rest, hrest⟩ := hhead
  have hd1 : d ≠ CR := by
    rcases hd with h | h <;> subst h <;> decide
  have hd2 : d ≠ LF := by
    rcases hd with h | h <;> subst h <;> decide
  rw [parse_sig_header_eq, e] at hsig
  dsimp only at hsig
  split at hsig
  · exact absurd (congrArg Prod.snd hsig) (by simp)
  · have h2 := congrArg Prod.snd hsig
    dsimp only at h2
    cases hb : (pdkim_set_bodyhash env ctx st.sig.hashtype st.sig.canon_body
        st.sig.bodylength).2 with
    | none =>
      rw [hb] at h2
      exact absurd h2 (by simp)
    | some b =>
      rw [hb] at h2
      simp only [Option.map_some', Option.some.injEq] at h2
      rw [← h2]
      show chomp_rawsig st.q = _
      rw [hq, hrest]
      exact chomp_rawsig_eq d rest hd1 hd2

/-- C16 at a concrete header, in which the value of `b` is folded: the copy
keeps `b=` and the value of `bh`, and has lost the value of `b` and the
line end at the end of the header. -/
theorem C16_rawsig_no_b_val_witness :
    strncasecmp_eq example_sig_header DKIM_SIGNATURE_HEADERNAME
        DKIM_SIGNATURE_HEADERNAME.length = true ∧
      pdkim_parse_sig_header example_env (pdkim_init_verify false 0) example_sig_header =
        ((pdkim_parse_sig_header example_env (pdkim_init_verify false 0)
            example_sig_header).1,
          some ((pdkim_parse_sig_header example_env (pdkim_init_verify false 0)
            example_sig_header).2.getD sig_init)) ∧
      ((pdkim_parse_sig_header example_env (pdkim_init_verify false 0)
          example_sig_header).2.getD sig_init).rawsig_no_b_val =
        drop_trailing_crlf (without_b_value example_sig_header) ∧
      drop_trailing_crlf (without_b_value example_sig_header) =
        US "DKIM-Signature: v=1; a=rsa-sha256; bh=aGFzaA==; b=; d=example.com" :=
  ⟨by decide, by decide,
    C16_rawsig_no_b_val example_env (pdkim_init_verify false 0)
      (pdkim_parse_sig_header example_env (pdkim_init_verify false 0) example_sig_header).1
      example_sig_header
      ((pdkim_parse_sig_header example_env (pdkim_init_verify false 0)
        example_sig_header).2.getD sig_init)
      (by decide) (by decide),
    by decide⟩

/-! ## The tag switch -/

/-- What the tag switch can do to a signature: a property that holds for the
signature as it is and after each of the assignments of the switch holds
after the switch. -/
theorem sig_set_tag_cases (env : Env) (sig : pdkim_signature) (tag val : List Nat)
    (P : pdkim_signature → Prop) (h_same : P sig)
    (h_sighash : ∀ x, P { sig with sighash := x })
    (h_bodyhash : tag = US "bh" → ∀ x, P { sig with bodyhash := x })
    (h_version : ∀ x, P { sig with version := x })
    (h_algo : tag.head? = some 97 → P (sig_set_algorithm env sig val))
    (h_canon : ∀ x y, P { sig with canon_headers := x, canon_body := y })
    (h_query : ∀ x, P { sig with querymethod := x })
    (h_selector : P { sig with selector := some val })
    (h_domain : P { sig with domain := some val })
    (h_identity : ∀ x, P { sig with identity := x })
    (h_created : ∀ x, P { sig with created := x })
    (h_expires : ∀ x, P { sig with expires := x })
    (h_bodylength : ∀ x, P { sig with bodylength := x })
    (h_headernames : P { sig with headernames := some val })
    (h_copied : ∀ x, P { sig with copiedheaders := x }) :
    P (sig_set_tag env sig tag val) := by
  unfold sig_set_tag
  cases tag with
  | nil => exact h_same
  | cons t0 trest =>
    dsimp only
    by_cases c98 : t0 = 98
    · rw [if_pos c98]
      cases trest with
      | nil => exact h_sighash _
      | cons t1 tr2 =>
        dsimp only
        by_cases c104 : t1 = 104
        · rw [if_pos c104]
          by_cases cl : (t0 :: t1 :: tr2).length ≠ 2
          · rw [if_pos cl]
            exact h_same
          · rw [if_neg cl]
            apply h_bodyhash
            have : tr2 = [] := by
              simp only [List.length_cons, ne_eq, not_not] at cl
              exact List.length_eq_zero.1 (by omega)
            rw [c98, c104, this]
            rfl
        · rw [if_neg c104]
          exact h_same
    · rw [if_neg c98]
      by_cases c118 : t0 = 118
      · rw [if_pos c118]
        exact h_version _
      · rw [if_neg c118]
        by_cases c97 : t0 = 97
        · rw [if_pos c97]
          exact h_algo (by rw [c97]; rfl)
        · rw [if_neg c97]
          by_cases c99 : t0 = 99
          · rw [if_pos c99]
            exact h_canon _ _
          · rw [if_neg c99]
            by_cases c113 : t0 = 113
            · rw [if_pos c113]
              split
              · exact h_query _
              · exact h_same
            · rw [if_neg c113]
              by_cases c115 : t0 = 115
              · rw [if_pos c115]
                exact h_selector
              · rw [if_neg c115]
                by_cases c100 : t0 = 100
                · rw [if_pos c100]
                  exact h_domain
                · rw [if_neg c100]
                  by_cases c105 : t0 = 105
                  · rw [if_pos c105]
                    exact h_identity _
                  · rw [if_neg c105]
                    by_cases c116 : t0 = 116
                    · rw [if_pos c116]
                      exact h_created _
                    · rw [if_neg c116]
                      by_cases c120 : t0 = 120
                      · rw [if_pos c120]
                        exact h_expires _
                      · rw [if_neg c120]
                        by_cases c108 : t0 = 108
                        · rw [if_pos c108]
                          exact h_bodylength _
                        · rw [if_neg c108]
                          by_cases c104 : t0 = 104
                          · rw [if_pos c104]
                            exact h_headernames
                          · rw [if_neg c104]
                            by_cases c122 : t0 = 122
                            · rw [if_pos c122]
                              exact h_copied _
                            · rw [if_neg c122]
                              exact h_same

/-- The case `'a'` of the tag switch changes the key type and the hash type
only. -/
theorem sig_set_algorithm_frame (env : Env) (sig : pdkim_signature) (val : List Nat) :
    ∃ k h, sig_set_algorithm env sig val = { sig with keytype := k, hashtype := h } := by
  unfold sig_set_algorithm
  dsimp only
  cases (env.string_nextinlist val DASH).1 with
  | none =>
    dsimp only
    cases (env.string_nextinlist (env.string_nextinlist val DASH).2 DASH).1 with
    | none => exact ⟨_, _, rfl⟩
    | some e2 =>
      dsimp only
      cases table_index pdkim_hashes e2 with
      | none => exact ⟨_, _, rfl⟩
      | some i => exact ⟨_, _, rfl⟩
  | some e1 =>
    dsimp only
    cases (env.string_nextinlist (env.string_nextinlist val DASH).2 DASH).1 with
    | none => exact ⟨_, _, rfl⟩
    | some e2 =>
      dsimp only
      cases table_index pdkim_hashes e2 with
      | none => exact ⟨_, _, rfl⟩
      | some i => exact ⟨_, _, rfl⟩

/-! ## When `pdkim_parse_sig_header` returns no signature -/

/-- A tag other than `a` changes neither the key type nor the hash type. -/
theorem sig_set_tag_algo (env : Env) (sig : pdkim_signature) (tag val : List Nat)
    (h : tag.head? ≠ some 97) :
    (sig_set_tag env sig tag val).keytype = sig.keytype ∧
      (sig_set_tag env sig tag val).hashtype = sig.hashtype := by
  apply sig_set_tag_cases env sig tag val
    (fun s => s.keytype = sig.keytype ∧ s.hashtype = sig.hashtype)
  all_goals first
    | exact ⟨rfl, rfl⟩
    | exact fun _ => ⟨rfl, rfl⟩
    | exact fun _ _ => ⟨rfl, rfl⟩
    | exact fun hh => absurd hh h

theorem tag_apply_algo (env : Env) (sig : pdkim_signature) (tv : List Nat × List Nat)
    (h : tv.1 ≠ US "a") :
    (tag_apply env sig tv).keytype = sig.keytype ∧
      (tag_apply env sig tv).hashtype = sig.hashtype := by
  unfold tag_apply
  split
  · rename_i hc
    apply sig_set_tag_algo
    intro hh
    rcases hc.2 with hl | hb
    · -- a name of one byte that begins with `a` is `a`
      apply h
      cases hn : tv.1 with
      | nil => rw [hn] at hl; simp at hl
      | cons x xs =>
        rw [hn] at hl hh
        simp only [List.length_cons, Nat.add_eq_right, List.length_eq_zero] at hl
        simp only [List.head?_cons, Option.some.injEq] at hh
        rw [hl, hh]
        rfl
    · rw [hh] at hb
      exact absurd hb (by decide)
  · exact ⟨rfl, rfl⟩

/-- Without a tag `a` the key type and the hash type stay what they are. -/
theorem foldl_tag_apply_algo (env : Env) :
    ∀ (tags : List (List Nat × List Nat)) (sig : pdkim_signature),
      (∀ tv ∈ tags, tv.1 ≠ US "a") →
      (tags.foldl (tag_apply env) sig).keytype = sig.keytype ∧
        (tags.foldl (tag_apply env) sig).hashtype = sig.hashtype
  | [], _, _ => ⟨rfl, rfl⟩
  | tv :: tags, sig, h => by
      obtain ⟨a1, a2⟩ := tag_apply_algo env sig tv (h tv (List.mem_cons_self _ _))
      obtain ⟨b1, b2⟩ := foldl_tag_apply_algo env tags (tag_apply env sig tv)
        (fun x hx => h x (List.mem_cons_of_mem _ hx))
      rw [List.foldl_cons]
      exact ⟨b1.trans a1, b2.trans a2⟩

/-! ## Folding white space in a `DKIM-Signature:` header -/

theorem tag_end_erase (st : sig_scan) : erase_q (tag_end (erase_q st)) = erase_q (tag_end st) := by
  unfold tag_end erase_q
  dsimp only
  split <;> rfl

theorem tag_char_erase (st : sig_scan) (c : Nat) :
    erase_q (tag_char (erase_q st) c) = erase_q (tag_char st c) := by
  unfold tag_char
  split
  · exact tag_end_erase st
  · split <;> rfl

theorem value_end_erase (env : Env) (st : sig_scan) :
    (value_end env (erase_q st)).map erase_q = (value_end env st).map erase_q := by
  unfold value_end
  have h : value_sig env (erase_q st) = value_sig env st := rfl
  rw [h]
  cases value_sig env st <;> rfl

theorem value_char_erase (env : Env) (st : sig_scan) (c : Nat) :
    (value_char env (erase_q st) c).map erase_q = (value_char env st c).map erase_q := by
  unfold value_char
  split
  · rfl
  · split
    · exact value_end_erase env st
    · rfl

/-- The body of the scanning loop does not read the copy of the header. -/
theorem scan_char_erase (env : Env) (st : sig_scan) (c : Nat) :
    (scan_char env (erase_q st) c).map erase_q = (scan_char env st c).map erase_q := by
  unfold scan_char
  have h1 : (erase_q st).past_hname = st.past_hname := rfl
  have h2 : (erase_q st).hdr_where = st.hdr_where := rfl
  rw [h1, h2]
  split
  · rfl
  · split
    · split <;> rfl
    · split
      · split
        · rfl
        · exact congrArg some (tag_char_erase { st with hdr_where := PDKIM_HDR_TAG } c)
      · split
        · exact congrArg some (tag_char_erase st c)
        · split
          · exact value_char_erase env st c
          · rfl

theorem scan_step_erase (env : Env) (st : sig_scan) (c : Nat) :
    (scan_step env st c).map erase_q = (scan_char env st c).map erase_q := by
  unfold scan_step
  cases scan_char env st c with
  | none => rfl
  | some s =>
    show some (erase_q (next_char s c)) = some (erase_q s)
    unfold next_char
    split <;> rfl

/-- Folding white space leaves every local of the scanning loop as it is. -/
theorem scan_char_fws (env : Env) (st : sig_scan) (c : Nat) (hc : is_fws c = true) :
    scan_char env st c = some st := by
  have hcases : c = CR ∨ c = LF ∨ c = SP ∨ c = TAB := by
    simp only [is_fws, Bool.or_eq_true, beq_iff_eq] at hc
    rcases hc with ((h | h) | h) | h
    · exact Or.inl h
    · exact Or.inr (Or.inl h)
    · exact Or.inr (Or.inr (Or.inl h))
    · exact Or.inr (Or.inr (Or.inr h))
  unfold scan_char
  by_cases h1 : c = CR ∨ c = LF
  · rw [if_pos h1]
  · rw [if_neg h1]
    have hsp : c = SP ∨ c = TAB := by
      rcases hcases with h | h | h | h
      · exact absurd (Or.inl h) h1
      · exact absurd (Or.inr h) h1
      · exact Or.inl h
      · exact Or.inr h
    have hcol : c ≠ COLON := by
      rcases hsp with h | h <;> subst h <;> decide
    have hlow : ¬(97 ≤ c ∧ c ≤ 122) := by
      rcases hsp with h | h <;> subst h <;> decide
    have heq : c ≠ EQUALS := by
      rcases hsp with h | h <;> subst h <;> decide
    have hspace : isspace c = true := by
      rcases hsp with h | h <;> subst h <;> decide
    split
    · rfl
    · split
      · rfl
      · split
        · unfold tag_char
          first | rfl | (rw [if_neg heq]; simp [hspace])
        · split
          · unfold value_char
            first | rfl | rw [if_pos hcases]
          · rfl

/-- Two runs of the scanning loop from states that differ in the copy only,
one on a string and one on the string with its folding white space removed,
end in states that differ in the copy only. -/
theorem scan_chars_fws (env : Env) :
    ∀ (s : List Nat) (st1 st2 : sig_scan), erase_q st1 = erase_q st2 →
      (scan_chars env st1 (s.filter (fun c => !is_fws c))).map erase_q =
        (scan_chars env st2 s).map erase_q
  | [], _, _, h => congrArg some h
  | c :: s, st1, st2, h => by
      by_cases hc : is_fws c = true
      · have hf : (c :: s).filter (fun c => !is_fws c) = s.filter (fun c => !is_fws c) := by
          simp [List.filter_cons, hc]
        have h2 := scan_step_erase env st2 c
        rw [scan_char_fws env st2 c hc] at h2
        rw [hf, scan_chars_cons]
        cases hs : scan_step env st2 c with
        | none =>
          rw [hs] at h2
          exact absurd h2 (by simp)
        | some s2 =>
          rw [hs] at h2
          simp only [Option.map_some', Option.some.injEq] at h2
          rw [Option.some_bind]
          exact scan_chars_fws env s st1 s2 (h.trans h2.symm)
      · have hf : (c :: s).filter (fun c => !is_fws c) =
            c :: s.filter (fun c => !is_fws c) := by
          simp [List.filter_cons, hc]
        have h1 := (scan_step_erase env st1 c).trans (scan_char_erase env st1 c).symm
        have h2 := (scan_step_erase env st2 c).trans (scan_char_erase env st2 c).symm
        rw [h] at h1
        rw [hf, scan_chars_cons, scan_chars_cons]
        cases hs1 : scan_step env st1 c with
        | none =>
          rw [hs1] at h1
          cases hs2 : scan_step env st2 c with
          | none => rfl
          | some s2 =>
            rw [hs2, ← h1] at h2
            exact absurd h2 (by simp)
        | some s1 =>
          rw [hs1] at h1
          cases hs2 : scan_step env st2 c with
          | none =>
            rw [hs2, ← h1] at h2
            exact absurd h2 (by simp)
          | some s2 =>
            rw [hs2, ← h1] at h2
            simp only [Option.map_some', Option.some.injEq] at h2
            rw [Option.some_bind, Option.some_bind]
            exact scan_chars_fws env s s1 s2 h2.symm

theorem cstr_filter_fws (raw : List Nat) :
    cstr (raw.filter (fun c => !is_fws c)) = (cstr raw).filter (fun c => !is_fws c) := by
  unfold cstr
  induction raw with
  | nil => rfl
  | cons c s ih =>
    by_cases h0 : c = 0
    · subst h0
      have hf : is_fws 0 = false := by decide
      simp [List.filter_cons, hf, List.takeWhile_cons]
    · by_cases hc : is_fws c = true
      · simp [List.filter_cons, hc, List.takeWhile_cons, h0, ih]
      · simp [List.filter_cons, hc, List.takeWhile_cons, h0, ih]

/-- The values of the tags of a header hold no folding white space. -/
theorem lex_tags_fuel_no_fws :
    ∀ (n : Nat) (s : List Nat), ∀ tv ∈ lex_tags_fuel n s, ∀ c ∈ tv.2, is_fws c = false
  | 0, _, tv, h, _, _ => by simp [lex_tags_fuel] at h
  | n + 1, s, tv, h, c, hc => by
      rw [lex_tags_fuel_succ] at h
      cases h1 : s.dropWhile (fun c => !is_tag_start c) with
      | nil =>
        rw [h1] at h
        simp at h
      | cons c1 s1 =>
        rw [h1] at h
        dsimp only at h
        cases h2 : (c1 :: s1).dropWhile (fun c => c != EQUALS) with
        | nil =>
          rw [h2] at h
          simp at h
        | cons e s3 =>
          rw [h2] at h
          dsimp only at h
          rcases List.mem_cons.1 h with h | h
          · rw [h] at hc
            have := (List.mem_filter.1 hc).2
            simpa using this
          · cases h3 : s3.dropWhile (fun c => c != SEMICOLON) with
            | nil =>
              rw [h3] at h
              simp at h
            | cons sc s5 =>
              rw [h3] at h
              exact lex_tags_fuel_no_fws n s5 tv h c hc

theorem tag_apply_no_fws (env : Env) (sig : pdkim_signature) (tv : List Nat × List Nat)
    (hs : NoFwsFields sig) (hv : ∀ c ∈ tv.2, is_fws c = false) :
    NoFwsFields (tag_apply env sig tv) := by
  unfold tag_apply
  split
  · apply sig_set_tag_cases env sig tv.1 tv.2 NoFwsFields hs
    · exact fun _ => hs
    · exact fun _ _ => hs
    · exact fun _ => hs
    · intro _
      obtain ⟨k, h, e⟩ := sig_set_algorithm_frame env sig tv.2
      rw [e]
      exact hs
    · exact fun _ _ => hs
    · exact fun _ => hs
    · intro v hvv
      rcases hvv with h | h | h
      · exact hs v (Or.inl h)
      · have : tv.2 = v := Option.some.inj h
        rw [← this]
        exact hv
      · exact hs v (Or.inr (Or.inr h))
    · intro v hvv
      rcases hvv with h | h | h
      · have : tv.2 = v := Option.some.inj h
        rw [← this]
        exact hv
      · exact hs v (Or.inr (Or.inl h))
      · exact hs v (Or.inr (Or.inr h))
    · exact fun _ => hs
    · exact fun _ => hs
    · exact fun _ => hs
    · exact fun _ => hs
    · intro v hvv
      rcases hvv with h | h | h
      · exact hs v (Or.inl h)
      · exact hs v (Or.inr (Or.inl h))
      · have : tv.2 = v := Option.some.inj h
        rw [← this]
        exact hv
    · exact fun _ => hs
  · exact hs

theorem foldl_tag_apply_no_fws (env : Env) :
    ∀ (tags : List (List Nat × List Nat)) (sig : pdkim_signature), NoFwsFields sig →
      (∀ tv ∈ tags, ∀ c ∈ tv.2, is_fws c = false) →
      NoFwsFields (tags.foldl (tag_apply env) sig)
  | [], _, hs, _ => hs
  | tv :: tags, sig, hs, h => by
      rw [List.foldl_cons]
      exact foldl_tag_apply_no_fws env tags _
        (tag_apply_no_fws env sig tv hs (h tv (List.mem_cons_self _ _)))
        (fun x hx => h x (List.mem_cons_of_mem _ hx))

/-- C18, as amended.  In `pdkim_parse_sig_header` folding white space (CR, LF,
space, tab) is dropped between tags and also inside a tag name and inside a
tag's value while that value is being accumulated: the scan of a header and
the scan of the header with all its folding white space removed end with the
same signature and the same locals, only the copy of the header differs; and
the values that are copied into the signature (domain, selector, header
names) hold no CR, LF, space or tab. -/
theorem C18_fws_dropped (env : Env) (raw : List Nat) :
    (parse_sig_scan env (raw.filter (fun c => !is_fws c))).map erase_q =
        (parse_sig_scan env raw).map erase_q ∧
      ∃ st, parse_sig_scan env raw = some st ∧ NoFwsFields st.sig := by
  constructor
  · unfold parse_sig_scan
    rw [cstr_filter_fws]
    have h := scan_chars_fws env (cstr raw) scan_init scan_init rfl
    cases h1 : scan_chars env scan_init ((cstr raw).filter (fun c => !is_fws c)) with
    | none =>
      rw [h1] at h
      cases h2 : scan_chars env scan_init (cstr raw) with
      | none => rfl
      | some s2 =>
        rw [h2] at h
        exact absurd h (by simp)
    | some s1 =>
      rw [h1] at h
      cases h2 : scan_chars env scan_init (cstr raw) with
      | none =>
        rw [h2] at h
        exact absurd h (by simp)
      | some s2 =>
        rw [h2] at h
        simp only [Option.map_some', Option.some.injEq] at h
        rw [Option.some_bind, Option.some_bind, ← scan_char_erase env s1,
          ← scan_char_erase env s2, h]
  · obtain ⟨st, e, _, hsig⟩ := parse_sig_scan_spec env raw
    refine ⟨st, e, ?_⟩
    rw [hsig]
    apply foldl_tag_apply_no_fws
    · intro v hv
      rcases hv with h | h | h <;> exact absurd h (by simp [sig_init])
    · exact lex_tags_fuel_no_fws _ _

/-- C18 fails as stated: the space inside the value of `d=exam ple.com` is not
kept; the domain parsed is `example.com`. -/
theorem C18_counterexample_space_in_value :
    (parse_sig_scan example_env example_spaced_header).map (fun st => st.sig.domain) =
        some (some (US "example.com")) ∧
      US "example.com" ≠ US "exam ple.com" := by
  decide

/-! ## A signature without a body hash at the end of the message -/

theorem set_bodyhash_subset (env : Env) (ctx : pdkim_ctx) (h c n : Int) :
    ∀ b ∈ ctx.bodyhash, b ∈ (pdkim_set_bodyhash env ctx h c n).1.bodyhash := by
  intro b hb
  unfold pdkim_set_bodyhash
  split
  · exact hb
  · split
    · exact hb
    · split
      · exact List.mem_cons_of_mem _ hb
      · exact hb

theorem parse_sig_header_linked (env : Env) (ctx : pdkim_ctx) (raw : List Nat)
    (hl : SigsLinked ctx) :
    ∀ sig ∈ (pdkim_parse_sig_header env ctx raw).1.sig ++
        (pdkim_parse_sig_header env ctx raw).2.toList,
      ∃ b ∈ (pdkim_parse_sig_header env ctx raw).1.bodyhash,
        sig.calc_body_hash = some b.key := by
  rw [parse_sig_header_eq]
  cases parse_sig_scan env raw with
  | none =>
    intro sig hs
    simp only [Option.toList, List.append_nil] at hs
    exact hl sig hs
  | some st =>
    dsimp only
    split
    · intro sig hs
      simp only [Option.toList, List.append_nil] at hs
      exact hl sig hs
    · intro sig hs
      have hshape := set_bodyhash_shape env ctx st.sig.hashtype st.sig.canon_body
        st.sig.bodylength
      have hsub := set_bodyhash_subset env ctx st.sig.hashtype st.sig.canon_body
        st.sig.bodylength
      rcases List.mem_append.1 hs with hs | hs
      · have hsig : (pdkim_set_bodyhash env ctx st.sig.hashtype st.sig.canon_body
            st.sig.bodylength).1.sig = ctx.sig := by
          rw [hshape]
        rw [hsig] at hs
        obtain ⟨b, hb, hk⟩ := hl sig hs
        exact ⟨b, hsub b hb, hk⟩
      · cases hr : (pdkim_set_bodyhash env ctx st.sig.hashtype st.sig.canon_body
            st.sig.bodylength).2 with
        | none =>
          rw [hr] at hs
          simp at hs
        | some b =>
          rw [hr] at hs
          simp only [Option.map_some', Option.toList, List.mem_singleton] at hs
          obtain ⟨hb, _⟩ := set_bodyhash_result env ctx _ _ _ b hr
          rw [hs]
          exact ⟨b, hb, rfl⟩

theorem parse_sig_header_mode (env : Env) (ctx : pdkim_ctx) (raw : List Nat) :
    (pdkim_parse_sig_header env ctx raw).1.mode_sign = ctx.mode_sign := by
  rw [parse_sig_header_shape]

theorem header_complete_sig_linked (env : Env) (ctx : pdkim_ctx) (s : List Nat)
    (hl : SigsLinked ctx) :
    SigsLinked (header_complete_sig env ctx s).1 ∧
      (header_complete_sig env ctx s).1.mode_sign = ctx.mode_sign := by
  have h := parse_sig_header_linked env ctx s hl
  have hm := parse_sig_header_mode env ctx s
  unfold header_complete_sig
  split
  · exact ⟨h, hm⟩
  · exact ⟨h, hm⟩

/-- In verify mode `pdkim_header_complete` keeps every signature linked to a
Body Hash. -/
theorem header_complete_linked (env : Env) (ctx : pdkim_ctx) (hv : ctx.mode_sign = false)
    (hl : SigsLinked ctx) :
    SigsLinked (pdkim_header_complete env ctx).1 ∧
      (pdkim_header_complete env ctx).1.mode_sign = false := by
  unfold pdkim_header_complete
  split
  · exact ⟨hl, hv⟩
  · split
    · rename_i h
      rw [hv] at h
      exact absurd h (by decide)
    · split
      · have h := header_complete_sig_linked env
          { ctx with num_headers := ctx.num_headers + 1 } (header_text env ctx) hl
        exact ⟨h.1, h.2.trans hv⟩
      · exact ⟨hl, hv⟩

theorem hash_lineending_all_keys (bs : List pdkim_bodyhash) :
    (hash_lineending_all bs none).map pdkim_bodyhash.key = bs.map pdkim_bodyhash.key := by
  rw [hash_lineending_all_map bs none (Or.inl rfl), List.map_map]
  apply List.map_congr_left
  intro b _
  exact update_key b lineending none

/-- Signatures that are linked stay so in a context with the same signatures
and the same tuples of Body Hashes. -/
theorem linked_of_same (c1 c2 : pdkim_ctx) (h : SameSigs c1 c2) (hl : SigsLinked c1) :
    SigsLinked c2 := by
  obtain ⟨_, hs, hk⟩ := h
  intro sig hsig
  rw [hs] at hsig
  obtain ⟨b, hb, e⟩ := hl sig hsig
  have hm : b.key ∈ c2.bodyhash.map pdkim_bodyhash.key := by
    rw [hk]
    exact List.mem_map.2 ⟨b, hb, rfl⟩
  obtain ⟨b2, hb2, e2⟩ := List.mem_map.1 hm
  exact ⟨b2, hb2, by rw [e2]; exact e⟩

/-- In verify mode the first part of `pdkim_feed_finish` keeps every
signature linked to a Body Hash. -/
theorem feed_finish_flush_linked (env : Env) (ctx : pdkim_ctx) (hv : ctx.mode_sign = false)
    (hl : SigsLinked ctx) :
    SigsLinked (pdkim_feed_finish_flush env ctx).1 ∧
      (pdkim_feed_finish_flush env ctx).1.mode_sign = false := by
  have h := header_complete_linked env ctx hv hl
  unfold pdkim_feed_finish_flush
  split
  · dsimp only
    split
    · exact h
    · exact ⟨linked_of_same (pdkim_header_complete env ctx).1 _
        ⟨rfl, rfl, hash_lineending_all_keys _⟩ h.1, h.2⟩
  · exact ⟨hl, hv⟩

theorem sig_body_hash_linked (ctx : pdkim_ctx) (sig : pdkim_signature)
    (h : ∃ b ∈ ctx.bodyhash, sig.calc_body_hash = some b.key) :
    ∃ b, sig_body_hash ctx sig = some b := by
  obtain ⟨b, hb, hk⟩ := h
  unfold sig_body_hash
  rw [hk, Option.some_bind]
  cases hf : ctx.bodyhash.find? (fun x => decide (x.key = b.key)) with
  | some b1 => exact ⟨b1, rfl⟩
  | none =>
    have := List.find?_eq_none.1 hf b hb
    simp at this

/-- In verify mode the loop body of `pdkim_finish_bodyhash` keeps the body
hash of the signature, and marks a signature without one FAIL with
FAIL_BODY. -/
theorem finish_bodyhash_sig_verify (fenv : FinishEnv) (ctx : pdkim_ctx)
    (sig s : pdkim_signature) (hv : ctx.mode_sign = false)
    (h : finish_bodyhash_sig fenv ctx sig = some s) : NoBhFails s := by
  unfold finish_bodyhash_sig at h
  rw [hv] at h
  simp only [Bool.false_eq_true, if_false] at h
  cases hb : sig.bodyhash with
  | none =>
    rw [hb] at h
    simp only [Option.some.injEq] at h
    rw [← h]
    exact fun _ => ⟨rfl, rfl⟩
  | some d =>
    rw [hb] at h
    dsimp only at h
    cases hx : sig_body_hash ctx sig with
    | none =>
      rw [hx] at h
      simp at h
    | some b =>
      rw [hx] at h
      simp only [Option.map_some', Option.some.injEq] at h
      intro hn
      rw [← h] at hn
      split at hn
      · rw [hb] at hn
        exact Option.noConfusion hn
      · exact Option.noConfusion hn

theorem finish_bodyhash_sig_total (fenv : FinishEnv) (ctx : pdkim_ctx)
    (sig : pdkim_signature)
    (h : ∃ b ∈ ctx.bodyhash, sig.calc_body_hash = some b.key) :
    ∃ s, finish_bodyhash_sig fenv ctx sig = some s := by
  obtain ⟨b, hb⟩ := sig_body_hash_linked ctx sig h
  unfold finish_bodyhash_sig
  rw [hb]
  split
  · exact ⟨_, rfl⟩
  · split
    · exact ⟨_, rfl⟩
    · exact ⟨_, rfl⟩

theorem finish_bodyhash_sigs_verify (fenv : FinishEnv) (ctx : pdkim_ctx)
    (hv : ctx.mode_sign = false) :
    ∀ (l : List pdkim_signature),
      (∀ sig ∈ l, ∃ b ∈ ctx.bodyhash, sig.calc_body_hash = some b.key) →
      ∃ r, finish_bodyhash_sigs fenv ctx l = some r ∧ ∀ s ∈ r, NoBhFails s
  | [], _ => ⟨[], rfl, fun s hs => absurd hs (List.not_mem_nil s)⟩
  | sig :: rest, h => by
      obtain ⟨s, hs⟩ := finish_bodyhash_sig_total fenv ctx sig (h sig (List.mem_cons_self _ _))
      obtain ⟨r, hr, hall⟩ := finish_bodyhash_sigs_verify fenv ctx hv rest
        (fun x hx => h x (List.mem_cons_of_mem _ hx))
      refine ⟨s :: r, ?_, ?_⟩
      · simp only [finish_bodyhash_sigs, hs, hr]
      · intro x hx
        rcases List.mem_cons.1 hx with e | hx
        · rw [e]
          exact finish_bodyhash_sig_verify fenv ctx sig s hv hs
        · exact hall x hx

theorem select_sigs_subset (type_of : pdkim_signature → Int) :
    ∀ (prefs : List Int) (l : List pdkim_signature), ∀ s ∈ select_sigs type_of prefs l, s ∈ l
  | [], _, s, h => by simp [select_sigs] at h
  | i :: prefs, l, s, h => by
      simp only [select_sigs] at h
      rcases List.mem_append.1 h with h | h
      · exact (List.mem_filter.1 h).1
      · exact (List.mem_filter.1 (select_sigs_subset type_of prefs _ s h)).1

/-- The function `sort_sig_methods` hands back signatures of the list it was
given, as they are. -/
theorem sort_sig_methods_subset (fenv : FinishEnv) (env : Env) (l : List pdkim_signature) :
    ∀ s ∈ sort_sig_methods fenv env l, s ∈ l := by
  intro s h
  unfold sort_sig_methods at h
  split at h
  · simp at h
  · exact select_sigs_subset _ _ _ s (select_sigs_subset _ _ _ s h)

theorem key_from_dns_import_bodyhash (fenv : FinishEnv) (sig : pdkim_signature)
    (p : pdkim_pubkey) : (key_from_dns_import fenv sig p).1.bodyhash = sig.bodyhash := by
  unfold key_from_dns_import
  split
  · rfl
  · split <;> rfl

theorem key_from_dns_bodyhash (fenv : FinishEnv) (env : Env) (sig : pdkim_signature) :
    (pdkim_key_from_dns fenv env sig).1.bodyhash = sig.bodyhash := by
  unfold pdkim_key_from_dns
  split
  · rfl
  · split
    · rfl
    · split
      · rfl
      · split
        · rfl
        · rw [key_from_dns_import_bodyhash]
          unfold key_from_dns_keytype
          split <;> rfl

theorem verify_keysize_bodyhash (fenv : FinishEnv) (sig1 : pdkim_signature)
    (p : pdkim_pubkey) : (verify_keysize fenv sig1 p).bodyhash = sig1.bodyhash := by
  unfold verify_keysize
  split <;> rfl

theorem verify_with_key_bodyhash (fenv : FinishEnv) (ctx : pdkim_ctx)
    (sig1 : pdkim_signature) (p : pdkim_pubkey) :
    (verify_with_key fenv ctx sig1 p).1.bodyhash = sig1.bodyhash := by
  unfold verify_with_key
  split
  · rfl
  · split
    · rfl
    · split
      · exact verify_keysize_bodyhash fenv sig1 p
      · exact verify_keysize_bodyhash fenv sig1 p

/-- The verification branch keeps the body hash of the signature. -/
theorem verify_signature_bodyhash (fenv : FinishEnv) (env : Env) (ctx : pdkim_ctx)
    (sig : pdkim_signature) :
    (verify_signature fenv env ctx sig).1.bodyhash = sig.bodyhash := by
  have hk := key_from_dns_bodyhash fenv env sig
  unfold verify_signature
  split
  · rfl
  · split
    · rfl
    · split
      · exact hk
      · rw [verify_with_key_bodyhash]
        exact hk

/-- In verify mode the loop over the signatures leaves a signature without a
body hash marked FAIL with FAIL_BODY: it passes over it. -/
theorem finish_loop_no_bh (fenv : FinishEnv) (env : Env) (ctx : pdkim_ctx)
    (hv : ctx.mode_sign = false) :
    ∀ (l : List pdkim_signature) (vp : Bool), (∀ s ∈ l, NoBhFails s) →
      (∀ s ∈ (finish_loop fenv env ctx l vp).1, NoBhFails s) ∧
        (finish_loop fenv env ctx l vp).2.2 = none
  | [], _, _ => ⟨fun s hs => absurd hs (List.not_mem_nil s), rfl⟩
  | sig :: rest, vp, h => by
      have hrest : ∀ s ∈ rest, NoBhFails s := fun x hx => h x (List.mem_cons_of_mem _ hx)
      have hsig : NoBhFails sig := h sig (List.mem_cons_self _ _)
      have hms : ¬(ctx.mode_sign = true) := by rw [hv]; decide
      unfold finish_loop
      by_cases h1 : ctx.mode_sign = false ∧
          sig.verify_status = pdkim_verify_status.PDKIM_VERIFY_FAIL
      · rw [if_pos h1]
        obtain ⟨ih1, ih2⟩ := finish_loop_no_bh fenv env ctx hv rest vp hrest
        refine ⟨?_, ih2⟩
        intro x hx
        rcases List.mem_cons.1 hx with e | hx
        · rw [e]
          exact hsig
        · exact ih1 x hx
      · rw [if_neg h1]
        have hnf : sig.verify_status ≠ pdkim_verify_status.PDKIM_VERIFY_FAIL :=
          fun e => h1 ⟨hv, e⟩
        have hv1 : NoBhFails (verify_signature fenv env ctx sig).1 := by
          intro hn
          rw [verify_signature_bodyhash] at hn
          exact absurd (hsig hn).1 hnf
        by_cases h2 : env.exim_sha_init sig.hashtype = false
        · rw [if_pos h2]
          exact ⟨h, rfl⟩
        · rw [if_neg h2, if_neg hms]
          split
          · refine ⟨?_, rfl⟩
            intro x hx
            rcases List.mem_cons.1 hx with e | hx
            · rw [e]
              exact hv1
            · exact hrest x hx
          · obtain ⟨ih1, ih2⟩ := finish_loop_no_bh fenv env ctx hv rest
              (vp || (verify_signature fenv env ctx sig).2) hrest
            refine ⟨?_, ih2⟩
            intro x hx
            rcases List.mem_cons.1 hx with e | hx
            · rw [e]
              exact hv1
            · exact ih1 x hx

/-- The tags of a header that has no tag `bh` leave the body hash of the
signature as it is. -/
theorem foldl_tag_apply_no_bh (env : Env) :
    ∀ (tags : List (List Nat × List Nat)) (sig : pdkim_signature),
      (∀ tv ∈ tags, tv.1 ≠ US "bh") →
      (tags.foldl (tag_apply env) sig).bodyhash = sig.bodyhash
  | [], _, _ => rfl
  | tv :: tags, sig, h => by
      rw [List.foldl_cons, foldl_tag_apply_no_bh env tags _
        (fun x hx => h x (List.mem_cons_of_mem _ hx))]
      have hne := h tv (List.mem_cons_self _ _)
      unfold tag_apply
      split
      · apply sig_set_tag_cases env sig tv.1 tv.2 (fun s => s.bodyhash = sig.bodyhash) rfl
        · exact fun _ => rfl
        · exact fun hh _ => absurd hh hne
        · exact fun _ => rfl
        · intro _
          obtain ⟨k, h, e⟩ := sig_set_algorithm_frame env sig tv.2
          rw [e]
        · exact fun _ _ => rfl
        · exact fun _ => rfl
        · rfl
        · rfl
        · exact fun _ => rfl
        · exact fun _ => rfl
        · exact fun _ => rfl
        · exact fun _ => rfl
        · rfl
        · exact fun _ => rfl
      · rfl

/-! ## The feeder keeps the signatures linked to their Body Hashes -/

theorem release_key :
    ∀ (n : Nat) (b : pdkim_bodyhash) (rnl : Option (List Nat)),
      (release_blanklines n b rnl).1.key = b.key
  | 0, _, _ => rfl
  | n + 1, b, rnl => by
      simp only [release_blanklines]
      rw [release_key n]
      exact update_key b lineending rnl

theorem bodyline_hashes_keys (line : List Nat) :
    ∀ (bs : List pdkim_bodyhash) (rnl rline : Option (List Nat)),
      (bodyline_hashes line bs rnl rline).map pdkim_bodyhash.key = bs.map pdkim_bodyhash.key
  | [], _, _ => rfl
  | b :: bs, rnl, rline => by
      unfold bodyline_hashes
      split
      · rw [List.map_cons, List.map_cons, bodyline_hashes_keys line bs]
        rfl
      · dsimp only
        rw [List.map_cons, List.map_cons, bodyline_hashes_keys line bs, update_key,
          release_key]

theorem body_complete_same (ctx : pdkim_ctx) : SameSigs ctx (pdkim_body_complete ctx) := by
  refine ⟨rfl, rfl, ?_⟩
  show (ctx.bodyhash.map _).map pdkim_bodyhash.key = ctx.bodyhash.map pdkim_bodyhash.key
  rw [List.map_map]
  apply List.map_congr_left
  intro b _
  dsimp only [Function.comp]
  split
  · exact update_key b lineending none
  · rfl

theorem bodyline_complete_same (ctx : pdkim_ctx) :
    SameSigs ctx (pdkim_bodyline_complete ctx) := by
  unfold pdkim_bodyline_complete
  split
  · exact ⟨rfl, rfl, rfl⟩
  · split
    · exact body_complete_same ctx
    · dsimp only
      split
      · refine ⟨rfl, rfl, ?_⟩
        show (ctx.bodyhash.map _).map pdkim_bodyhash.key = ctx.bodyhash.map pdkim_bodyhash.key
        rw [List.map_map]
        apply List.map_congr_left
        intro b _
        rfl
      · exact ⟨rfl, rfl, bodyline_hashes_keys _ _ _ _⟩

theorem same_sigs_trans (c1 c2 c3 : pdkim_ctx) (h1 : SameSigs c1 c2) (h2 : SameSigs c2 c3) :
    SameSigs c1 c3 :=
  ⟨h2.1.trans h1.1, h2.2.1.trans h1.2.1, h2.2.2.trans h1.2.2⟩

theorem body_emulate_cr_same (ctx : pdkim_ctx) (c : Nat) :
    SameSigs ctx (body_emulate_cr ctx c) := by
  unfold body_emulate_cr
  split <;> exact ⟨rfl, rfl, rfl⟩

theorem body_store_same (ctx : pdkim_ctx) (c : Nat) : SameSigs ctx (body_store ctx c) := by
  unfold body_store
  split
  · exact ⟨rfl, rfl, rfl⟩
  · split
    · exact bodyline_complete_same { ctx with linebuf := ctx.linebuf ++ [c], seen_cr := false }
    · exact ⟨rfl, rfl, rfl⟩

theorem feed_body_byte_same (ctx : pdkim_ctx) (c : Nat) :
    SameSigs ctx (feed_body_byte ctx c).1 := by
  have h1 := body_emulate_cr_same ctx c
  have h2 := same_sigs_trans _ _ _ h1 (body_store_same (body_emulate_cr ctx c) c)
  unfold feed_body_byte
  split
  · exact h1
  · split
    · exact h2
    · exact h2

theorem header_append_same (ctx : pdkim_ctx) (c : Nat) : SameSigs ctx (header_append ctx c) := by
  unfold header_append
  split
  · exact ⟨rfl, rfl, rfl⟩
  · split <;> exact ⟨rfl, rfl, rfl⟩

theorem header_emulate_cr_same (ctx : pdkim_ctx) : SameSigs ctx (header_emulate_cr ctx) := by
  unfold header_emulate_cr
  split <;> exact ⟨rfl, rfl, rfl⟩

theorem linked_same (c1 c2 : pdkim_ctx) (h : SameSigs c1 c2)
    (hl : c1.mode_sign = false ∧ SigsLinked c1) : c2.mode_sign = false ∧ SigsLinked c2 :=
  ⟨h.1.trans hl.1, linked_of_same c1 c2 h hl.2⟩

theorem header_complete_linked2 (env : Env) (ctx : pdkim_ctx)
    (hl : ctx.mode_sign = false ∧ SigsLinked ctx) :
    (pdkim_header_complete env ctx).1.mode_sign = false ∧
      SigsLinked (pdkim_header_complete env ctx).1 :=
  ⟨(header_complete_linked env ctx hl.1 hl.2).2, (header_complete_linked env ctx hl.1 hl.2).1⟩

theorem feed_header_byte_linked (env : Env) (ctx : pdkim_ctx) (c : Nat)
    (hl : ctx.mode_sign = false ∧ SigsLinked ctx) :
    (feed_header_byte env ctx c).1.mode_sign = false ∧
      SigsLinked (feed_header_byte env ctx c).1 := by
  unfold feed_header_byte
  split
  · exact linked_same _ _ (header_append_same _ c) (linked_same ctx _ ⟨rfl, rfl, rfl⟩ hl)
  · split
    · have he := linked_same _ _ (header_emulate_cr_same ctx) hl
      split
      · unfold header_end
        have hc := header_complete_linked2 env _ he
        split
        · exact hc
        · exact linked_same _ _ ⟨rfl, rfl, rfl⟩ hc
      · exact linked_same _ _ (header_append_same _ c)
          (linked_same (header_emulate_cr ctx) _ ⟨rfl, rfl, rfl⟩ he)
    · split
      · unfold header_after_lf
        have hc := header_complete_linked2 env _ hl
        split
        · split
          · exact hc
          · exact linked_same _ _ (header_append_same _ c)
              (linked_same (pdkim_header_complete env ctx).1 _ ⟨rfl, rfl, rfl⟩ hc)
        · exact linked_same _ _ (header_append_same _ c)
            (linked_same ctx _ ⟨rfl, rfl, rfl⟩ hl)
      · exact linked_same _ _ (header_append_same _ c) hl

theorem feed_byte_linked (env : Env) (ctx : pdkim_ctx) (c : Nat)
    (hl : ctx.mode_sign = false ∧ SigsLinked ctx) :
    (pdkim_feed_byte env ctx c).1.mode_sign = false ∧
      SigsLinked (pdkim_feed_byte env ctx c).1 := by
  unfold pdkim_feed_byte
  split
  · exact linked_same _ _ (feed_body_byte_same ctx c) hl
  · exact feed_header_byte_linked env ctx c hl

theorem feed_loop_linked (env : Env) :
    ∀ (data : List Nat) (ctx : pdkim_ctx), ctx.mode_sign = false ∧ SigsLinked ctx →
      (pdkim_feed_loop env ctx data).1.mode_sign = false ∧
        SigsLinked (pdkim_feed_loop env ctx data).1
  | [], _, hl => hl
  | c :: rest, ctx, hl => by
      rw [pdkim_feed_loop_cons]
      split
      · exact feed_loop_linked env rest _ (feed_byte_linked env ctx c hl)
      · exact feed_byte_linked env ctx c hl

/-- In verify mode every call of `pdkim_feed` keeps the signatures linked to
Body Hashes of the context. -/
theorem feed_linked (env : Env) (ctx : pdkim_ctx) (data : Option (List Nat))
    (hl : ctx.mode_sign = false ∧ SigsLinked ctx) :
    (pdkim_feed env ctx data).1.mode_sign = false ∧ SigsLinked (pdkim_feed env ctx data).1 := by
  cases data with
  | none => exact linked_same _ _ (body_complete_same ctx) hl
  | some d => exact feed_loop_linked env d ctx hl

/-- Whatever is fed to a new verify context, in any number of calls of
`pdkim_feed`: the signatures the context then has are linked to Body Hashes
of the context. -/
theorem feed_calls_linked (env : Env) :
    ∀ (calls : List (Option (List Nat))) (ctx : pdkim_ctx),
      ctx.mode_sign = false ∧ SigsLinked ctx →
      (feed_calls env ctx calls).mode_sign = false ∧ SigsLinked (feed_calls env ctx calls)
  | [], _, hl => hl
  | d :: calls, ctx, hl => by
      show (feed_calls env (pdkim_feed env ctx d).1 calls).mode_sign = false ∧
        SigsLinked (feed_calls env (pdkim_feed env ctx d).1 calls)
      exact feed_calls_linked env calls _ (feed_linked env ctx d hl)

theorem init_verify_linked (dot_stuffing : Bool) (collect : Nat) :
    (pdkim_init_verify dot_stuffing collect).mode_sign = false ∧
      SigsLinked (pdkim_init_verify dot_stuffing collect) :=
  ⟨rfl, fun sig hs => absurd hs (List.not_mem_nil sig)⟩

/-- What `pdkim_feed_finish` does in verify mode once the first part has
reported no error: it returns, with `PDKIM_OK` or `PDKIM_FAIL`, and every
signature it hands back that has no body hash is marked FAIL with
FAIL_BODY. -/
theorem feed_finish_no_bh (fenv : FinishEnv) (env : Env) (ctx : pdkim_ctx)
    (hv : ctx.mode_sign = false) (hl : SigsLinked ctx)
    (hf : (pdkim_feed_finish_flush env ctx).2 = PDKIM_OK) :
    ∃ r, pdkim_feed_finish fenv env ctx = some r ∧ (r.2 = PDKIM_OK ∨ r.2 = PDKIM_FAIL) ∧
      ∀ sig ∈ r.1.sig, NoBhFails sig := by
  obtain ⟨hfl, hfm⟩ := feed_finish_flush_linked env ctx hv hl
  obtain ⟨l, hr, hall⟩ := finish_bodyhash_sigs_verify fenv (pdkim_feed_finish_flush env ctx).1
    hfm (pdkim_feed_finish_flush env ctx).1.sig hfl
  have hfin : pdkim_finish_bodyhash fenv (pdkim_feed_finish_flush env ctx).1 =
      some { (pdkim_feed_finish_flush env ctx).1 with sig := l } := by
    unfold pdkim_finish_bodyhash
    rw [hr]
    rfl
  have hne : ¬((pdkim_feed_finish_flush env ctx).2 ≠ PDKIM_OK) := fun h => h hf
  obtain ⟨ctx1, hctx1⟩ : ∃ ctx1, ctx1 = { (pdkim_feed_finish_flush env ctx).1 with sig := l } :=
    ⟨_, rfl⟩
  rw [← hctx1] at hfin
  have hm1 : ctx1.mode_sign = false := by rw [hctx1]; exact hfm
  have hs1 : ctx1.sig = l := by rw [hctx1]
  unfold pdkim_feed_finish
  rw [if_neg hne, hfin, Option.some_bind]
  dsimp only
  have hnm : ¬(ctx1.mode_sign = true) := by rw [hm1]; decide
  rw [if_neg hnm, hs1]
  by_cases he : sort_sig_methods fenv env l = []
  · rw [if_pos he]
    exact ⟨_, rfl, Or.inl rfl, fun sig hs => absurd hs (List.not_mem_nil sig)⟩
  · rw [if_neg he]
    obtain ⟨h1, h2⟩ := finish_loop_no_bh fenv env ctx1 hm1 (sort_sig_methods fenv env l) false
      (fun s hs => hall s (sort_sig_methods_subset fenv env l s hs))
    rw [h2]
    dsimp only
    refine ⟨_, rfl, ?_, h1⟩
    dsimp only
    split
    · exact Or.inl rfl
    · exact Or.inr rfl

/-- A `DKIM-Signature:` header that has no tag `bh` and
parses gives a signature without a body hash.  In verify mode, whatever has
been fed to the context since `pdkim_init_verify`, `pdkim_feed_finish`
returns when its first part, the flush of a header that is still in the
buffer, reports no error, and every signature without a body hash that it
hands back (one that `sort_sig_methods` kept) has the final verdict FAIL
with the extended status FAIL_BODY: `pdkim_finish_bodyhash` sets it and the
loop over the signatures then passes the signature over.  The verdict is not
PASS, not INVALID, and the extended status is not SIGNATURE_ERROR. -/
theorem missing_bh_verdict (fenv : FinishEnv) (env : Env) (dot_stuffing : Bool) (collect : Nat)
    (calls : List (Option (List Nat)))
    (hf : (pdkim_feed_finish_flush env
      (feed_calls env (pdkim_init_verify dot_stuffing collect) calls)).2 = PDKIM_OK) :
    (∀ (raw : List Nat) (c0 c1 : pdkim_ctx) (sig : pdkim_signature),
        (∀ tv ∈ lex_tags raw, tv.1 ≠ US "bh") →
        pdkim_parse_sig_header env c0 raw = (c1, some sig) → sig.bodyhash = none) ∧
      ∃ r, pdkim_feed_finish fenv env
          (feed_calls env (pdkim_init_verify dot_stuffing collect) calls) = some r ∧
        (r.2 = PDKIM_OK ∨ r.2 = PDKIM_FAIL) ∧
        ∀ sig ∈ r.1.sig, sig.bodyhash = none →
          sig.verify_status = pdkim_verify_status.PDKIM_VERIFY_FAIL ∧
            sig.verify_ext_status = pdkim_verify_ext_status.PDKIM_VERIFY_FAIL_BODY ∧
            sig.verify_status ≠ pdkim_verify_status.PDKIM_VERIFY_PASS ∧
            sig.verify_status ≠ pdkim_verify_status.PDKIM_VERIFY_INVALID ∧
            sig.verify_ext_status ≠
              pdkim_verify_ext_status.PDKIM_VERIFY_INVALID_SIGNATURE_ERROR := by
  constructor
  · intro raw c0 c1 sig hno hp
    obtain ⟨st, hst, _, hsig⟩ := parse_sig_scan_spec env raw
    rw [parse_sig_header_eq, hst] at hp
    dsimp only at hp
    split at hp
    · simp at hp
    · have h2 := congrArg Prod.snd hp
      dsimp only at h2
      cases hb : (pdkim_set_bodyhash env c0 st.sig.hashtype st.sig.canon_body
          st.sig.bodylength).2 with
      | none =>
        rw [hb] at h2
        simp at h2
      | some b =>
        rw [hb] at h2
        simp only [Option.map_some', Option.some.injEq] at h2
        rw [← h2]
        show st.sig.bodyhash = none
        rw [hsig, foldl_tag_apply_no_bh env _ _ hno]
        rfl
  · have hl := feed_calls_linked env calls _ (init_verify_linked dot_stuffing collect)
    obtain ⟨r, hr, hrc, hall⟩ := feed_finish_no_bh fenv env _ hl.1 hl.2 hf
    refine ⟨r, hr, hrc, ?_⟩
    intro sig hs hn
    obtain ⟨h1, h2⟩ := hall sig hs hn
    refine ⟨h1, h2, ?_, ?_, ?_⟩
    · rw [h1]
      decide
    · rw [h1]
      decide
    · rw [h2]
      decide

set_option maxRecDepth 100000

/-- C20: the code does not give a signature without `bh=` the verdict that
the claim, and the code's own test of the required tags, name for it.
(1) A `DKIM-Signature:` header that has no tag `bh` and parses gives a
signature without a body hash.
(2) The test of the required tags in the verification branch of
`pdkim_feed_finish` gives a signature without a body hash the verdict INVALID
with SIGNATURE_ERROR, as the claim has it.
(3) That test is never reached for such a signature: in verify mode, whatever
has been fed since `pdkim_init_verify`, when the flush of a pending header
reports no error `pdkim_feed_finish` returns, and every signature without a
body hash that it hands back has the verdict FAIL with FAIL_BODY, set by
`pdkim_finish_bodyhash` before the loop, which passes over a signature marked
FAIL.
(4) The failing input: the message `example_no_bh_message`, whose signature
header has every required tag but `bh`, fed to a new verify context, ends
with the return code `PDKIM_FAIL` and the verdict FAIL with FAIL_BODY. -/
theorem C20_missing_bh_is_fail_body :
    (∀ (env : Env) (raw : List Nat) (c0 c1 : pdkim_ctx) (sig : pdkim_signature),
        (∀ tv ∈ lex_tags raw, tv.1 ≠ US "bh") →
        pdkim_parse_sig_header env c0 raw = (c1, some sig) → sig.bodyhash = none) ∧
    (∀ (fenv : FinishEnv) (env : Env) (ctx : pdkim_ctx) (sig : pdkim_signature),
        sig.bodyhash = none →
        (verify_signature fenv env ctx sig).1.verify_status =
            pdkim_verify_status.PDKIM_VERIFY_INVALID ∧
          (verify_signature fenv env ctx sig).1.verify_ext_status =
            pdkim_verify_ext_status.PDKIM_VERIFY_INVALID_SIGNATURE_ERROR) ∧
    (∀ (fenv : FinishEnv) (env : Env) (dot_stuffing : Bool) (collect : Nat)
        (calls : List (Option (List Nat))),
        (pdkim_feed_finish_flush env
          (feed_calls env (pdkim_init_verify dot_stuffing collect) calls)).2 = PDKIM_OK →
        ∃ r, pdkim_feed_finish fenv env
            (feed_calls env (pdkim_init_verify dot_stuffing collect) calls) = some r ∧
          (r.2 = PDKIM_OK ∨ r.2 = PDKIM_FAIL) ∧
          ∀ sig ∈ r.1.sig, sig.bodyhash = none →
            sig.verify_status = pdkim_verify_status.PDKIM_VERIFY_FAIL ∧
              sig.verify_ext_status = pdkim_verify_ext_status.PDKIM_VERIFY_FAIL_BODY ∧
              sig.verify_status ≠ pdkim_verify_status.PDKIM_VERIFY_PASS ∧
              sig.verify_status ≠ pdkim_verify_status.PDKIM_VERIFY_INVALID ∧
              sig.verify_ext_status ≠
                pdkim_verify_ext_status.PDKIM_VERIFY_INVALID_SIGNATURE_ERROR) ∧
    ((∀ tv ∈ lex_tags (US "DKIM-Signature: v=1; a=rsa-sha256; d=example.com; s=sel; h=from; b=c2ln"),
        tv.1 ≠ US "bh") ∧
      example_no_bh_ctx =
        (pdkim_feed example_env (pdkim_init_verify false 0) (some example_no_bh_message)).1 ∧
      example_no_bh_ctx.sig.map (fun s => (s.bodyhash, s.verify_status)) =
        [(none, pdkim_verify_status.PDKIM_VERIFY_NONE)] ∧
      (pdkim_feed_finish example_fenv example_env example_no_bh_ctx).map
          (fun r => (r.2, r.1.sig.map (fun s => (s.verify_status, s.verify_ext_status)))) =
        some (PDKIM_FAIL, [(pdkim_verify_status.PDKIM_VERIFY_FAIL,
          pdkim_verify_ext_status.PDKIM_VERIFY_FAIL_BODY)])) := by
  refine ⟨?_, ?_, ?_, ?_⟩
  · intro env raw c0 c1 sig hno hp
    exact (missing_bh_verdict example_fenv env false 0 [] rfl).1 raw c0 c1 sig hno hp
  · intro fenv env ctx sig hn
    have hreq : has_required_tags sig = false := by
      unfold has_required_tags
      rw [hn]
      simp
    unfold verify_signature
    rw [if_pos hreq]
    exact ⟨rfl, rfl⟩
  · intro fenv env dot_stuffing collect calls hf
    exact (missing_bh_verdict fenv env dot_stuffing collect calls hf).2
  · exact ⟨by decide, rfl, by decide, by decide⟩

/-! ## The public key record (`pdkim_parse_pubkey_record`) -/

/-- A property of the record that every case of the tag switch but the one
for the tag byte `x` keeps is kept by the rounds of the loop for elements
none of which has the tag `x`. -/
theorem pubkey_rounds_keep (env : Env) (x : Nat) (P : pdkim_pubkey → Prop)
    (hP : ∀ pub t val, t ≠ x → P pub → P (pubkey_set_tag env pub t val)) :
    ∀ (elems : List (List Nat)) (pub r : pdkim_pubkey),
      (∀ e ∈ elems, pubkey_tag e ≠ some x) → P pub →
      pubkey_rounds env elems pub = some r → P r
  | [], pub, r, _, hp, h => by
      simp only [pubkey_rounds, Option.some.injEq] at h
      rw [← h]
      exact hp
  | e :: elems, pub, r, hx, hp, h => by
      have he := hx e (List.mem_cons_self _ _)
      simp only [pubkey_rounds] at h
      cases h1 : pubkey_element env pub e with
      | none =>
        rw [h1] at h
        simp at h
      | some pub1 =>
        rw [h1] at h
        dsimp only at h
        refine pubkey_rounds_keep env x P hP elems pub1 r
          (fun y hy => hx y (List.mem_cons_of_mem _ hy)) ?_ h
        unfold pubkey_element at h1
        split at h1
        · cases hv : pubkey_value env e with
          | none =>
            rw [hv] at h1
            simp at h1
          | some val =>
            rw [hv] at h1
            dsimp only at h1
            cases ht : pubkey_tag e with
            | none =>
              rw [ht] at h1
              simp only [Option.some.injEq] at h1
              rw [← h1]
              exact hp
            | some t =>
              rw [ht] at h1
              simp only [Option.some.injEq] at h1
              rw [← h1]
              exact hP pub t val (fun e2 => he (by rw [ht, e2])) hp
        · simp only [Option.some.injEq] at h1
          rw [← h1]
          exact hp

theorem pubkey_set_tag_key (env : Env) (pub : pdkim_pubkey) (t : Nat) (val : List Nat)
    (ht : t ≠ 112) (h : pub.key = none) : (pubkey_set_tag env pub t val).key = none := by
  unfold pubkey_set_tag
  split_ifs <;> exact h

theorem pubkey_set_tag_keytype (env : Env) (pub : pdkim_pubkey) (t : Nat) (val : List Nat)
    (ht : t ≠ 107) (h : pub.keytype = none) : (pubkey_set_tag env pub t val).keytype = none := by
  unfold pubkey_set_tag
  split_ifs <;> exact h

theorem pubkey_set_tag_granularity (env : Env) (pub : pdkim_pubkey) (t : Nat) (val : List Nat)
    (ht : t ≠ 103) (h : pub.granularity = none) :
    (pubkey_set_tag env pub t val).granularity = none := by
  unfold pubkey_set_tag
  split_ifs <;> exact h

theorem pubkey_set_tag_srvtype (env : Env) (pub : pdkim_pubkey) (t : Nat) (val : List Nat)
    (ht : t ≠ 115) (h : pub.srvtype = none) : (pubkey_set_tag env pub t val).srvtype = none := by
  unfold pubkey_set_tag
  split_ifs <;> exact h

theorem pubkey_set_tag_version (env : Env) (pub : pdkim_pubkey) (t : Nat) (val : List Nat)
    (ht : t ≠ 118) (h : pub.version = none) : (pubkey_set_tag env pub t val).version = none := by
  unfold pubkey_set_tag
  rw [if_neg ht]
  split_ifs <;> exact h

/-- What `pdkim_parse_pubkey_record` hands back, in terms of the record the
loop has built. -/
theorem pubkey_finish_some (pub0 pub : pdkim_pubkey) (h : pubkey_finish pub0 = some pub) :
    pub0.key.isSome = true ∧
      (∀ v, pub0.version = some v → cstr v = PDKIM_PUB_RECORD_VERSION) ∧
      pub = { pub0 with
        version := some (pub0.version.getD PDKIM_PUB_RECORD_VERSION),
        granularity := some (pub0.granularity.getD (US "*")),
        keytype := some (pub0.keytype.getD (US "rsa")),
        srvtype := some (pub0.srvtype.getD (US "*")) } := by
  unfold pubkey_finish at h
  split at h
  · simp at h
  · rename_i hv
    split at h
    · rename_i hk
      refine ⟨hk, ?_, ?_⟩
      · intro v e
        rw [e] at hv
        simpa using hv
      · simp only [Option.some.injEq] at h
        exact h.symm
    · simp at h

/-- C24. The function `pdkim_parse_pubkey_record` returns NULL for every TXT
value none of whose elements has the tag `p`.  A record it returns has key
material, its version reads "DKIM1" (a version tag with another value has
made the function return NULL), and the key type, the granularity and the
service type are "rsa", "*" and "*" when the TXT value has no element with
the tag `k`, `g`, `s`.  The elements are the pieces between the semicolons;
an element has a tag when it has a `=` and one byte, white space apart,
before it.  Two records as instances. -/
theorem C24_parse_pubkey_record (env : Env) (raw : List Nat) :
    ((∀ e ∈ pubkey_elements raw, pubkey_tag e ≠ some 112) →
        pdkim_parse_pubkey_record env raw = none) ∧
      (∀ pub, pdkim_parse_pubkey_record env raw = some pub →
        pub.key.isSome = true ∧
        (∃ v, pub.version = some v ∧ cstr v = US "DKIM1") ∧
        ((∀ e ∈ pubkey_elements raw, pubkey_tag e ≠ some 118) →
          pub.version = some (US "DKIM1")) ∧
        ((∀ e ∈ pubkey_elements raw, pubkey_tag e ≠ some 107) →
          pub.keytype = some (US "rsa")) ∧
        ((∀ e ∈ pubkey_elements raw, pubkey_tag e ≠ some 103) →
          pub.granularity = some (US "*")) ∧
        ((∀ e ∈ pubkey_elements raw, pubkey_tag e ≠ some 115) →
          pub.srvtype = some (US "*"))) ∧
      (∀ pub0 v, pubkey_rounds env (pubkey_elements raw) pubkey_init = some pub0 →
        pub0.version = some v → cstr v ≠ US "DKIM1" →
        pdkim_parse_pubkey_record env raw = none) ∧
      pdkim_parse_pubkey_record example_env (US "v=DKIM2; p=a2V5") = none ∧
      pdkim_parse_pubkey_record example_env (US "v=DKIM1; h=sha256; p=a2V5 ; t=y") =
        some { version := some (US "DKIM1"), granularity := some (US "*"),
               hashes := some (US "sha256"), keytype := some (US "rsa"),
               srvtype := some (US "*"), notes := none, key := some (US "a2V5"),
               testing := 1, no_subdomaining := 0 } := by
  refine ⟨?_, ?_, ?_, by decide, by decide⟩
  · intro hp
    unfold pdkim_parse_pubkey_record
    cases hr : pubkey_rounds env (pubkey_elements raw) pubkey_init with
    | none => rfl
    | some pub0 =>
      dsimp only
      have hk : pub0.key = none :=
        pubkey_rounds_keep env 112 (fun p => p.key = none) (pubkey_set_tag_key env)
          _ _ _ hp rfl hr
      unfold pubkey_finish
      split
      · rfl
      · rw [hk]
        rfl
  · intro pub h
    unfold pdkim_parse_pubkey_record at h
    cases hr : pubkey_rounds env (pubkey_elements raw) pubkey_init with
    | none =>
      rw [hr] at h
      simp at h
    | some pub0 =>
      rw [hr] at h
      dsimp only at h
      obtain ⟨h1, h2, h3⟩ := pubkey_finish_some pub0 pub h
      rw [h3]
      refine ⟨h1, ?_, ?_, ?_, ?_, ?_⟩
      · cases hv : pub0.version with
        | none => exact ⟨_, rfl, rfl⟩
        | some v => exact ⟨v, rfl, h2 v hv⟩
      · intro hx
        have hk : pub0.version = none :=
          pubkey_rounds_keep env 118 (fun p => p.version = none) (pubkey_set_tag_version env)
            _ _ _ hx rfl hr
        show some (pub0.version.getD PDKIM_PUB_RECORD_VERSION) = some (US "DKIM1")
        rw [hk]
        rfl
      · intro hx
        have hk : pub0.keytype = none :=
          pubkey_rounds_keep env 107 (fun p => p.keytype = none) (pubkey_set_tag_keytype env)
            _ _ _ hx rfl hr
        show some (pub0.keytype.getD (US "rsa")) = some (US "rsa")
        rw [hk]
        rfl
      · intro hx
        have hk : pub0.granularity = none :=
          pubkey_rounds_keep env 103 (fun p => p.granularity = none)
            (pubkey_set_tag_granularity env) _ _ _ hx rfl hr
        show some (pub0.granularity.getD (US "*")) = some (US "*")
        rw [hk]
        rfl
      · intro hx
        have hk : pub0.srvtype = none :=
          pubkey_rounds_keep env 115 (fun p => p.srvtype = none) (pubkey_set_tag_srvtype env)
            _ _ _ hx rfl hr
        show some (pub0.srvtype.getD (US "*")) = some (US "*")
        rw [hk]
        rfl
  · intro pub0 v hr hv hne
    unfold pdkim_parse_pubkey_record
    rw [hr]
    dsimp only
    unfold pubkey_finish
    rw [hv]
    have : decide (cstr v ≠ PDKIM_PUB_RECORD_VERSION) = true := by
      simpa [PDKIM_PUB_RECORD_VERSION] using hne
    simp only [this, if_true]

/-! ## Where the signatures of a verify context come from -/

theorem sigs_from_refl (env : Env) (c : pdkim_ctx) : SigsFrom env c c :=
  ⟨rfl, fun _ h => Or.inl h⟩

theorem sigs_from_trans (env : Env) (c1 c2 c3 : pdkim_ctx) (h1 : SigsFrom env c1 c2)
    (h2 : SigsFrom env c2 c3) : SigsFrom env c1 c3 := by
  refine ⟨h2.1.trans h1.1, ?_⟩
  intro sig hs
  rcases h2.2 sig hs with h | h
  · exact h1.2 sig h
  · exact Or.inr h

theorem sigs_from_same (env : Env) (c1 c2 : pdkim_ctx) (h : SameSigs c1 c2) :
    SigsFrom env c1 c2 :=
  ⟨h.1, fun _ hs => Or.inl (h.2.1 ▸ hs)⟩

theorem header_complete_sig_from (env : Env) (ctx : pdkim_ctx) (s : List Nat) :
    SigsFrom env ctx (header_complete_sig env ctx s).1 := by
  have hm := parse_sig_header_mode env ctx s
  have hsig : (pdkim_parse_sig_header env ctx s).1.sig = ctx.sig := by
    rw [parse_sig_header_shape]
  have hall : ∀ sig ∈ (pdkim_parse_sig_header env ctx s).1.sig ++
      (pdkim_parse_sig_header env ctx s).2.toList, sig ∈ ctx.sig ∨
        ∃ c0 raw c, pdkim_parse_sig_header env c0 raw = (c, some sig) := by
    intro sig hs
    rcases List.mem_append.1 hs with h | h
    · exact Or.inl (hsig ▸ h)
    · right
      refine ⟨ctx, s, (pdkim_parse_sig_header env ctx s).1, ?_⟩
      cases h2 : (pdkim_parse_sig_header env ctx s).2 with
      | none =>
        rw [h2] at h
        simp at h
      | some x =>
        rw [h2] at h
        simp only [Option.toList, List.mem_singleton] at h
        rw [h, ← h2]
  unfold header_complete_sig
  split
  · exact ⟨hm, hall⟩
  · exact ⟨hm, hall⟩

/-- In verify mode `pdkim_header_complete` leaves the signatures alone and
adds at most one that `pdkim_parse_sig_header` has returned. -/
theorem header_complete_from (env : Env) (ctx : pdkim_ctx) (hv : ctx.mode_sign = false) :
    SigsFrom env ctx (pdkim_header_complete env ctx).1 := by
  unfold pdkim_header_complete
  split
  · exact sigs_from_refl env ctx
  · split
    · rename_i h
      rw [hv] at h
      exact absurd h (by decide)
    · split
      · exact header_complete_sig_from env
          { ctx with num_headers := ctx.num_headers + 1 } (header_text env ctx)
      · exact sigs_from_refl env ctx

theorem feed_header_byte_from (env : Env) (ctx : pdkim_ctx) (c : Nat)
    (hv : ctx.mode_sign = false) : SigsFrom env ctx (feed_header_byte env ctx c).1 := by
  unfold feed_header_byte
  split
  · exact sigs_from_same env _ _ (header_append_same { ctx with seen_cr := true } c)
  · split
    · have he := sigs_from_same env _ _ (header_emulate_cr_same ctx)
      have hve : (header_emulate_cr ctx).mode_sign = false := he.1.trans hv
      split
      · unfold header_end
        have hc := sigs_from_trans env _ _ _ he
          (header_complete_from env (header_emulate_cr ctx) hve)
        split
        · exact hc
        · exact hc
      · exact sigs_from_trans env _ _ _ he (sigs_from_same env _ _
          (header_append_same
            { header_emulate_cr ctx with seen_cr := false, seen_lf := true } c))
    · split
      · unfold header_after_lf
        have hc := header_complete_from env ctx hv
        split
        · split
          · exact hc
          · exact sigs_from_trans env _ _ _ hc (sigs_from_same env _ _
              (header_append_same
                { (pdkim_header_complete env ctx).1 with seen_lf := false } c))
        · exact sigs_from_same env _ _ (header_append_same { ctx with seen_lf := false } c)
      · exact sigs_from_same env _ _ (header_append_same ctx c)

theorem feed_byte_from (env : Env) (ctx : pdkim_ctx) (c : Nat) (hv : ctx.mode_sign = false) :
    SigsFrom env ctx (pdkim_feed_byte env ctx c).1 := by
  unfold pdkim_feed_byte
  split
  · exact sigs_from_same env _ _ (feed_body_byte_same ctx c)
  · exact feed_header_byte_from env ctx c hv

theorem feed_loop_from (env : Env) :
    ∀ (data : List Nat) (ctx : pdkim_ctx), ctx.mode_sign = false →
      SigsFrom env ctx (pdkim_feed_loop env ctx data).1
  | [], ctx, _ => sigs_from_refl env ctx
  | c :: rest, ctx, hv => by
      have h1 := feed_byte_from env ctx c hv
      rw [pdkim_feed_loop_cons]
      split
      · exact sigs_from_trans env _ _ _ h1 (feed_loop_from env rest _ (h1.1.trans hv))
      · exact h1

theorem feed_from (env : Env) (ctx : pdkim_ctx) (data : Option (List Nat))
    (hv : ctx.mode_sign = false) : SigsFrom env ctx (pdkim_feed env ctx data).1 := by
  cases data with
  | none => exact sigs_from_same env _ _ (body_complete_same ctx)
  | some d => exact feed_loop_from env d ctx hv

/-- In verify mode the calls of `pdkim_feed` leave the signatures alone and
add signatures that `pdkim_parse_sig_header` has returned. -/
theorem feed_calls_from (env : Env) :
    ∀ (calls : List (Option (List Nat))) (ctx : pdkim_ctx), ctx.mode_sign = false →
      SigsFrom env ctx (feed_calls env ctx calls)
  | [], ctx, _ => sigs_from_refl env ctx
  | d :: calls, ctx, hv => by
      have h1 := feed_from env ctx d hv
      show SigsFrom env ctx (feed_calls env (pdkim_feed env ctx d).1 calls)
      exact sigs_from_trans env _ _ _ h1 (feed_calls_from env calls _ (h1.1.trans hv))

theorem feed_finish_flush_from (env : Env) (ctx : pdkim_ctx) (hv : ctx.mode_sign = false) :
    SigsFrom env ctx (pdkim_feed_finish_flush env ctx).1 := by
  have h := header_complete_from env ctx hv
  unfold pdkim_feed_finish_flush
  split
  · dsimp only
    split
    · exact h
    · exact ⟨h.1, h.2⟩
  · exact sigs_from_refl env ctx

/-- The tags of a header leave the verdict of the signature as it is. -/
theorem foldl_tag_apply_status (env : Env) :
    ∀ (tags : List (List Nat × List Nat)) (sig : pdkim_signature),
      (tags.foldl (tag_apply env) sig).verify_status = sig.verify_status
  | [], _ => rfl
  | tv :: tags, sig => by
      rw [List.foldl_cons, foldl_tag_apply_status env tags _]
      unfold tag_apply
      split
      · apply sig_set_tag_cases env sig tv.1 tv.2
          (fun s => s.verify_status = sig.verify_status) rfl
        · exact fun _ => rfl
        · exact fun _ _ => rfl
        · exact fun _ => rfl
        · intro _
          obtain ⟨k, h, e⟩ := sig_set_algorithm_frame env sig tv.2
          rw [e]
        · exact fun _ _ => rfl
        · exact fun _ => rfl
        · rfl
        · rfl
        · exact fun _ => rfl
        · exact fun _ => rfl
        · exact fun _ => rfl
        · exact fun _ => rfl
        · rfl
        · exact fun _ => rfl
      · rfl

/-- A signature that `pdkim_parse_sig_header` returns has no verdict yet. -/
theorem parse_sig_header_status (env : Env) (c0 c : pdkim_ctx) (raw : List Nat)
    (sig : pdkim_signature) (hp : pdkim_parse_sig_header env c0 raw = (c, some sig)) :
    sig.verify_status = pdkim_verify_status.PDKIM_VERIFY_NONE := by
  obtain ⟨st, hst, _, hsig⟩ := parse_sig_scan_spec env raw
  rw [parse_sig_header_eq, hst] at hp
  dsimp only at hp
  split at hp
  · simp at hp
  · have h2 := congrArg Prod.snd hp
    dsimp only at h2
    cases hb : (pdkim_set_bodyhash env c0 st.sig.hashtype st.sig.canon_body
        st.sig.bodylength).2 with
    | none =>
      rw [hb] at h2
      simp at h2
    | some b =>
      rw [hb] at h2
      simp only [Option.map_some', Option.some.injEq] at h2
      rw [← h2]
      show st.sig.verify_status = pdkim_verify_status.PDKIM_VERIFY_NONE
      rw [hsig, foldl_tag_apply_status]
      rfl

/-- Whatever has been fed to a new verify context: its signatures have no
verdict yet. -/
theorem fed_sigs_status (env : Env) (dot_stuffing : Bool) (collect : Nat)
    (calls : List (Option (List Nat))) :
    ∀ sig ∈ (pdkim_feed_finish_flush env
        (feed_calls env (pdkim_init_verify dot_stuffing collect) calls)).1.sig,
      sig.verify_status = pdkim_verify_status.PDKIM_VERIFY_NONE := by
  intro sig hs
  have h1 := feed_calls_from env calls (pdkim_init_verify dot_stuffing collect) rfl
  have h2 := feed_finish_flush_from env _ (h1.1.trans rfl)
  rcases (sigs_from_trans env _ _ _ h1 h2).2 sig hs with h | ⟨c0, raw, c, h⟩
  · exact absurd h (List.not_mem_nil sig)
  · exact parse_sig_header_status env c0 c raw sig h

/-! ## The key lookup (`pdkim_key_from_dns`) -/

theorem key_from_dns_import_none (fenv : FinishEnv) (sig : pdkim_signature)
    (p : pdkim_pubkey) (h : (key_from_dns_import fenv sig p).2 = none) :
    (key_from_dns_import fenv sig p).1.verify_status =
      pdkim_verify_status.PDKIM_VERIFY_INVALID := by
  unfold key_from_dns_import at h ⊢
  split
  · rfl
  · split
    · rfl
    · rename_i bits hb
      rw [if_neg ‹_›, hb] at h
      simp at h

theorem key_from_dns_import_some (fenv : FinishEnv) (sig : pdkim_signature)
    (p p1 : pdkim_pubkey) (h : (key_from_dns_import fenv sig p).2 = some p1) :
    0 ≤ sig.keytype ∧
      ∃ bits, key_from_dns_import fenv sig p = ({ sig with keybits := bits }, some p1) := by
  unfold key_from_dns_import at h ⊢
  by_cases hk : sig.keytype < 0
  · rw [if_pos hk] at h
    simp at h
  · rw [if_neg hk] at h ⊢
    refine ⟨by omega, ?_⟩
    cases hi : fenv.exim_dkim_verify_init
        ((if sig.keytype = KEYTYPE_ED25519 then check_bare_ed25519_pubkey p else p).key.getD [])
        (decide (sig.keytype = KEYTYPE_ED25519)) with
    | none =>
      rw [hi] at h
      simp at h
    | some bits =>
      rw [hi] at h
      dsimp only at h ⊢
      simp only [Option.some.injEq] at h
      exact ⟨bits, by rw [h]⟩

/-- When `pdkim_key_from_dns` returns no key it has made the signature
INVALID. -/
theorem key_from_dns_none (fenv : FinishEnv) (env : Env) (sig : pdkim_signature)
    (h : (pdkim_key_from_dns fenv env sig).2 = none) :
    (pdkim_key_from_dns fenv env sig).1.verify_status =
      pdkim_verify_status.PDKIM_VERIFY_INVALID := by
  unfold pdkim_key_from_dns at h ⊢
  cases hd : fenv.dns_txt_callback
      (cstr (sig.selector.getD []) ++ US "._domainkey." ++ cstr (sig.domain.getD []) ++
        US ".") with
  | none => rfl
  | some d =>
    rw [hd] at h
    dsimp only at h ⊢
    by_cases hne : cstr d = []
    · rw [if_pos hne]
    · rw [if_neg hne] at h ⊢
      cases hp : pdkim_parse_pubkey_record env d with
      | none => rfl
      | some p0 =>
        rw [hp] at h
        dsimp only at h ⊢
        by_cases hsrv : cstr (p0.srvtype.getD []) ≠ US "*" ∧
            cstr (p0.srvtype.getD []) ≠ US "email"
        · rw [if_pos hsrv]
        · rw [if_neg hsrv] at h ⊢
          exact key_from_dns_import_none fenv _ p0 h

/-- When `pdkim_key_from_dns` returns a key for a signature that has a key
type, it has stored the number of bits of the key in the signature and
changed nothing else. -/
theorem key_from_dns_some (fenv : FinishEnv) (env : Env) (sig : pdkim_signature)
    (p : pdkim_pubkey) (hk : 0 ≤ sig.keytype)
    (h : (pdkim_key_from_dns fenv env sig).2 = some p) :
    ∃ bits, pdkim_key_from_dns fenv env sig = ({ sig with keybits := bits }, some p) := by
  have hkt : ∀ p0, key_from_dns_keytype env sig p0 = sig := by
    intro p0
    unfold key_from_dns_keytype
    rw [if_neg (by omega)]
  unfold pdkim_key_from_dns at h ⊢
  split
  · rename_i hd
    rw [hd] at h
    simp at h
  · rename_i d hd
    rw [hd] at h
    dsimp only at h
    by_cases hne : cstr d = []
    · rw [if_pos hne] at h
      simp at h
    · rw [if_neg hne] at h ⊢
      cases hp : pdkim_parse_pubkey_record env d with
      | none =>
        rw [hp] at h
        simp at h
      | some p0 =>
        rw [hp] at h
        dsimp only at h ⊢
        by_cases hsrv : cstr (p0.srvtype.getD []) ≠ US "*" ∧
            cstr (p0.srvtype.getD []) ≠ US "email"
        · rw [if_pos hsrv] at h
          simp at h
        · rw [if_neg hsrv] at h ⊢
          rw [hkt] at h ⊢
          exact (key_from_dns_import_some fenv sig p0 p h).2

/-- A key that `pdkim_key_from_dns` returns leaves the verdict as it is. -/
theorem key_from_dns_status (fenv : FinishEnv) (env : Env) (sig : pdkim_signature)
    (h : (pdkim_key_from_dns fenv env sig).2 ≠ none) :
    (pdkim_key_from_dns fenv env sig).1.verify_status = sig.verify_status := by
  unfold pdkim_key_from_dns at h ⊢
  split
  · rename_i hd
    rw [hd] at h
    exact absurd rfl h
  · rename_i d hd
    rw [hd] at h
    dsimp only at h
    by_cases hne : cstr d = []
    · rw [if_pos hne] at h
      exact absurd rfl h
    · rw [if_neg hne] at h ⊢
      cases hp : pdkim_parse_pubkey_record env d with
      | none =>
        rw [hp] at h
        exact absurd rfl h
      | some p0 =>
        rw [hp] at h
        dsimp only at h ⊢
        by_cases hsrv : cstr (p0.srvtype.getD []) ≠ US "*" ∧
            cstr (p0.srvtype.getD []) ≠ US "email"
        · rw [if_pos hsrv] at h
          exact absurd rfl h
        · rw [if_neg hsrv] at h ⊢
          cases hi : (key_from_dns_import fenv (key_from_dns_keytype env sig p0) p0).2 with
          | none => exact absurd hi h
          | some p1 =>
            obtain ⟨_, bits, e⟩ := key_from_dns_import_some fenv _ p0 p1 hi
            rw [e]
            show (key_from_dns_keytype env sig p0).verify_status = sig.verify_status
            unfold key_from_dns_keytype
            split <;> rfl

/-! ## The verification branch, step by step -/

theorem sig_body_hash_some (ctx : pdkim_ctx) (sig : pdkim_signature) (b : pdkim_bodyhash)
    (h : sig_body_hash ctx sig = some b) :
    b ∈ ctx.bodyhash ∧ sig.calc_body_hash = some b.key := by
  unfold sig_body_hash at h
  cases hk : sig.calc_body_hash with
  | none =>
    rw [hk] at h
    simp at h
  | some k =>
    rw [hk, Option.some_bind] at h
    have hm := List.mem_of_find?_eq_some h
    have hp := List.find?_some h
    simp only [decide_eq_true_eq] at hp
    exact ⟨hm, by rw [hp]⟩

/-- In verify mode the loop body of `pdkim_finish_bodyhash` leaves a
signature as it is when its body hash is the digest of its Body Hash, and
marks it FAIL with FAIL_BODY otherwise. -/
theorem finish_bodyhash_sig_step (fenv : FinishEnv) (ctx : pdkim_ctx)
    (x s : pdkim_signature) (hv : ctx.mode_sign = false)
    (h : finish_bodyhash_sig fenv ctx x = some s) : BodyhashStep fenv ctx x s := by
  unfold finish_bodyhash_sig at h
  rw [hv] at h
  simp only [Bool.false_eq_true, if_false] at h
  split at h
  · simp only [Option.some.injEq] at h
    exact Or.inr h.symm
  · rename_i d hb
    cases hx : sig_body_hash ctx x with
    | none =>
      rw [hx] at h
      simp at h
    | some b =>
      rw [hx] at h
      simp only [Option.map_some', Option.some.injEq] at h
      obtain ⟨hm, hk⟩ := sig_body_hash_some ctx x b hx
      by_cases hd : d = fenv.exim_sha_finish b.hashtype b.hashed
      · rw [if_pos hd] at h
        exact Or.inl ⟨h.symm, b, hm, hk, by rw [hb, hd]⟩
      · rw [if_neg hd] at h
        exact Or.inr h.symm

theorem finish_bodyhash_sigs_step (fenv : FinishEnv) (ctx : pdkim_ctx)
    (hv : ctx.mode_sign = false) :
    ∀ (l r : List pdkim_signature), finish_bodyhash_sigs fenv ctx l = some r →
      List.Forall₂ (BodyhashStep fenv ctx) l r
  | [], r, h => by
      simp only [finish_bodyhash_sigs, Option.some.injEq] at h
      rw [← h]
      exact List.Forall₂.nil
  | x :: l, r, h => by
      simp only [finish_bodyhash_sigs] at h
      cases h1 : finish_bodyhash_sig fenv ctx x with
      | none =>
        rw [h1] at h
        simp at h
      | some s =>
        cases h2 : finish_bodyhash_sigs fenv ctx l with
        | none =>
          rw [h1, h2] at h
          simp at h
        | some r2 =>
          rw [h1, h2] at h
          simp only [Option.some.injEq] at h
          rw [← h]
          exact List.Forall₂.cons (finish_bodyhash_sig_step fenv ctx x s hv h1)
            (finish_bodyhash_sigs_step fenv ctx hv l r2 h2)

theorem verify_keysize_status (fenv : FinishEnv) (sig1 : pdkim_signature) (p : pdkim_pubkey) :
    (keysize_ok fenv sig1.keytype sig1.keybits ∧
        verify_keysize fenv sig1 p = { sig1 with pubkey := some p }) ∨
      (verify_keysize fenv sig1 p).verify_status = pdkim_verify_status.PDKIM_VERIFY_FAIL := by
  unfold verify_keysize
  split
  · exact Or.inr rfl
  · rename_i h
    refine Or.inl ⟨?_, rfl⟩
    intro m hm
    rw [hm] at h
    simpa using h

/-- What the verdict PASS behind the key lookup stands for: the hash
allow-list of the key admits the hash type, the signature checks over the
hash of the headers, and the key is not too small. -/
theorem verify_with_key_pass (fenv : FinishEnv) (ctx : pdkim_ctx) (sig1 : pdkim_signature)
    (p : pdkim_pubkey)
    (h : (verify_with_key fenv ctx sig1 p).1.verify_status =
      pdkim_verify_status.PDKIM_VERIFY_PASS) :
    key_allows_hash fenv p sig1.hashtype ∧
      fenv.exim_dkim_verify (p.key.getD []) sig1.keytype sig1.hashtype
        (fenv.exim_sha_finish sig1.hashtype (verify_hash_data ctx sig1))
        (sig1.sighash.getD []) = true ∧
      keysize_ok fenv sig1.keytype sig1.keybits ∧
      (verify_with_key fenv ctx sig1 p).1 =
        { sig1 with pubkey := some p,
                    verify_status := pdkim_verify_status.PDKIM_VERIFY_PASS } := by
  unfold verify_with_key at h ⊢
  by_cases h1 : hash_not_allowed fenv sig1 p = true
  · rw [if_pos h1] at h
    exact pdkim_verify_status.noConfusion h
  · rw [if_neg h1] at h ⊢
    by_cases h2 : fenv.exim_dkim_verify (p.key.getD []) sig1.keytype sig1.hashtype
        (fenv.exim_sha_finish sig1.hashtype (verify_hash_data ctx sig1))
        (sig1.sighash.getD []) = false
    · rw [if_pos h2] at h
      exact pdkim_verify_status.noConfusion h
    · rw [if_neg h2] at h ⊢
      have hallow : key_allows_hash fenv p sig1.hashtype := by
        intro list hl
        unfold hash_not_allowed at h1
        rw [hl] at h1
        simp only [Bool.not_eq_true', Bool.not_eq_false, List.any_eq_true,
          decide_eq_true_eq] at h1
        exact h1
      have hver := Bool.eq_true_of_not_eq_false h2
      rcases verify_keysize_status fenv sig1 p with ⟨hk, e⟩ | hf
      · rw [e] at h ⊢
        by_cases h3 : ({ sig1 with pubkey := some p } : pdkim_signature).verify_status =
            pdkim_verify_status.PDKIM_VERIFY_NONE
        · rw [if_pos h3]
          exact ⟨hallow, hver, hk, rfl⟩
        · rw [if_neg h3] at h ⊢
          refine ⟨hallow, hver, hk, ?_⟩
          have h4 : sig1.verify_status = pdkim_verify_status.PDKIM_VERIFY_PASS := h
          show ({ sig1 with pubkey := some p } : pdkim_signature) =
            { sig1 with pubkey := some p,
                        verify_status := pdkim_verify_status.PDKIM_VERIFY_PASS }
          rw [← h4]
      · have h3 : ¬((verify_keysize fenv sig1 p).verify_status =
            pdkim_verify_status.PDKIM_VERIFY_NONE) := by
          rw [hf]
          exact fun e => pdkim_verify_status.noConfusion e
        rw [if_neg h3] at h
        rw [hf] at h
        exact pdkim_verify_status.noConfusion h

theorem verify_with_key_flag (fenv : FinishEnv) (ctx : pdkim_ctx) (sig1 : pdkim_signature)
    (p : pdkim_pubkey) :
    ((verify_with_key fenv ctx sig1 p).2 = true →
        (verify_with_key fenv ctx sig1 p).1.verify_status =
          pdkim_verify_status.PDKIM_VERIFY_PASS) ∧
      (sig1.verify_status = pdkim_verify_status.PDKIM_VERIFY_NONE →
        (verify_with_key fenv ctx sig1 p).1.verify_status =
          pdkim_verify_status.PDKIM_VERIFY_PASS →
        (verify_with_key fenv ctx sig1 p).2 = true) := by
  unfold verify_with_key
  split
  · exact ⟨fun h => Bool.noConfusion h, fun _ h => pdkim_verify_status.noConfusion h⟩
  · split
    · exact ⟨fun h => Bool.noConfusion h, fun _ h => pdkim_verify_status.noConfusion h⟩
    · split
      · exact ⟨fun _ => rfl, fun _ _ => rfl⟩
      · rename_i h3
        refine ⟨fun h => Bool.noConfusion h, fun hn h => ?_⟩
        exfalso
        rcases verify_keysize_status fenv sig1 p with ⟨_, e⟩ | hf
        · rw [e] at h3
          exact h3 hn
        · have h5 : (verify_keysize fenv sig1 p).verify_status =
              pdkim_verify_status.PDKIM_VERIFY_PASS := h
          rw [hf] at h5
          exact pdkim_verify_status.noConfusion h5

/-- The verification branch and the flag `verify_pass`: the branch reports a
pass only with the verdict PASS, and a signature that had no verdict has the
verdict PASS only when the branch reports a pass. -/
theorem verify_signature_flag (fenv : FinishEnv) (env : Env) (ctx : pdkim_ctx)
    (sig : pdkim_signature) :
    ((verify_signature fenv env ctx sig).2 = true →
        (verify_signature fenv env ctx sig).1.verify_status =
          pdkim_verify_status.PDKIM_VERIFY_PASS) ∧
      (sig.verify_status = pdkim_verify_status.PDKIM_VERIFY_NONE →
        (verify_signature fenv env ctx sig).1.verify_status =
          pdkim_verify_status.PDKIM_VERIFY_PASS →
        (verify_signature fenv env ctx sig).2 = true) := by
  unfold verify_signature
  split
  · exact ⟨fun h => Bool.noConfusion h, fun _ h => pdkim_verify_status.noConfusion h⟩
  · split
    · exact ⟨fun h => Bool.noConfusion h, fun _ h => pdkim_verify_status.noConfusion h⟩
    · split
      · rename_i he
        refine ⟨fun h => Bool.noConfusion h, fun _ h => ?_⟩
        exfalso
        have h2 : (pdkim_key_from_dns fenv env sig).1.verify_status =
            pdkim_verify_status.PDKIM_VERIFY_PASS := h
        rw [key_from_dns_none fenv env sig he] at h2
        exact pdkim_verify_status.noConfusion h2
      · rename_i p he
        have hs := key_from_dns_status fenv env sig (by rw [he]; simp)
        obtain ⟨f1, f2⟩ := verify_with_key_flag fenv ctx (pdkim_key_from_dns fenv env sig).1 p
        exact ⟨f1, fun hn => f2 (hs.trans hn)⟩

/-- What the verdict PASS of the verification branch stands for: the
signature has every required tag and version 1, the key lookup has given a
key and has stored the number of its bits, the hash allow-list of the key
admits the hash type, the signature checks over the hash of the headers, and
the key is not too small. -/
theorem verify_signature_pass (fenv : FinishEnv) (env : Env) (ctx : pdkim_ctx)
    (sig : pdkim_signature)
    (h : (verify_signature fenv env ctx sig).1.verify_status =
      pdkim_verify_status.PDKIM_VERIFY_PASS) :
    has_required_tags sig = true ∧ sig.version = 1 ∧
      ∃ p bits, pdkim_key_from_dns fenv env sig = ({ sig with keybits := bits }, some p) ∧
        key_allows_hash fenv p sig.hashtype ∧
        fenv.exim_dkim_verify (p.key.getD []) sig.keytype sig.hashtype
          (fenv.exim_sha_finish sig.hashtype (verify_hash_data ctx sig))
          (sig.sighash.getD []) = true ∧
        keysize_ok fenv sig.keytype bits ∧
        (verify_signature fenv env ctx sig).1 =
          { sig with keybits := bits, pubkey := some p,
                     verify_status := pdkim_verify_status.PDKIM_VERIFY_PASS } := by
  unfold verify_signature at h ⊢
  by_cases h1 : has_required_tags sig = false
  · rw [if_pos h1] at h
    exact pdkim_verify_status.noConfusion h
  · rw [if_neg h1] at h ⊢
    have hreq := Bool.eq_true_of_not_eq_false h1
    by_cases h2 : sig.version ≠ 1
    · rw [if_pos h2] at h
      exact pdkim_verify_status.noConfusion h
    · rw [if_neg h2] at h ⊢
      refine ⟨hreq, not_not.1 h2, ?_⟩
      have hkt : 0 ≤ sig.keytype := by
        unfold has_required_tags at hreq
        simp only [Bool.and_eq_true, decide_eq_true_eq] at hreq
        exact hreq.1.1.2
      cases he : (pdkim_key_from_dns fenv env sig).2 with
      | none =>
        rw [he] at h
        have h2 : (pdkim_key_from_dns fenv env sig).1.verify_status =
            pdkim_verify_status.PDKIM_VERIFY_PASS := h
        rw [key_from_dns_none fenv env sig he] at h2
        exact pdkim_verify_status.noConfusion h2
      | some p =>
        rw [he] at h
        dsimp only at h ⊢
        obtain ⟨bits, hb⟩ := key_from_dns_some fenv env sig p hkt he
        rw [hb] at h ⊢
        dsimp only at h ⊢
        obtain ⟨c1, c2, c3, c4⟩ := verify_with_key_pass fenv ctx _ p h
        exact ⟨p, bits, rfl, c1, c2, c3, c4⟩

/-- The verification branch for a signature that lacks a required tag or
has another version than 1 takes nothing from outside: the verdict is the
same in every setting. -/
theorem verify_signature_early (fenv fenv2 : FinishEnv) (env : Env) (ctx : pdkim_ctx)
    (sig : pdkim_signature) (h : has_required_tags sig = false ∨ sig.version ≠ 1) :
    verify_signature fenv2 env ctx sig = verify_signature fenv env ctx sig := by
  unfold verify_signature
  by_cases h1 : has_required_tags sig = false
  · rw [if_pos h1, if_pos h1]
  · rw [if_neg h1, if_neg h1]
    rcases h with h | h
    · exact absurd h h1
    · rw [if_pos h, if_pos h]

/-! ## The loop over the signatures in verify mode -/

theorem forall₂_mem_right {α β : Type} (R : α → β → Prop) :
    ∀ (l : List α) (r : List β), List.Forall₂ R l r → ∀ s ∈ r, ∃ x ∈ l, R x s
  | _, _, List.Forall₂.nil, s, hs => absurd hs (List.not_mem_nil s)
  | _, _, List.Forall₂.cons h t, s, hs => by
      rcases List.mem_cons.1 hs with e | hs
      · exact ⟨_, List.mem_cons_self _ _, e ▸ h⟩
      · obtain ⟨x, hx, hr⟩ := forall₂_mem_right R _ _ t s hs
        exact ⟨x, List.mem_cons_of_mem _ hx, hr⟩

theorem forall₂_same {α : Type} (R : α → α → Prop) (hR : ∀ x, R x x) :
    ∀ l : List α, List.Forall₂ R l l
  | [] => List.Forall₂.nil
  | x :: l => List.Forall₂.cons (hR x) (forall₂_same R hR l)

theorem loop_step_same (fenv : FinishEnv) (env : Env) (ctx : pdkim_ctx)
    (x : pdkim_signature) : LoopStep fenv env ctx x x := by
  by_cases h : x.verify_status = pdkim_verify_status.PDKIM_VERIFY_FAIL
  · exact Or.inl ⟨h, rfl⟩
  · exact Or.inr ⟨h, Or.inl rfl⟩

/-- In verify mode the loop over the signatures never returns early, and
every signature is left as `LoopStep` says. -/
theorem finish_loop_step (fenv : FinishEnv) (env : Env) (ctx : pdkim_ctx)
    (hv : ctx.mode_sign = false) :
    ∀ (l : List pdkim_signature) (vp : Bool),
      List.Forall₂ (LoopStep fenv env ctx) l (finish_loop fenv env ctx l vp).1
  | [], _ => List.Forall₂.nil
  | sig :: rest, vp => by
      have hms : ¬(ctx.mode_sign = true) := by rw [hv]; decide
      unfold finish_loop
      by_cases h1 : ctx.mode_sign = false ∧
          sig.verify_status = pdkim_verify_status.PDKIM_VERIFY_FAIL
      · rw [if_pos h1]
        exact List.Forall₂.cons (Or.inl ⟨h1.2, rfl⟩) (finish_loop_step fenv env ctx hv rest vp)
      · rw [if_neg h1]
        have hnf : sig.verify_status ≠ pdkim_verify_status.PDKIM_VERIFY_FAIL :=
          fun e => h1 ⟨hv, e⟩
        by_cases h2 : env.exim_sha_init sig.hashtype = false
        · rw [if_pos h2]
          exact forall₂_same _ (loop_step_same fenv env ctx) _
        · rw [if_neg h2, if_neg hms]
          split
          · exact List.Forall₂.cons (Or.inr ⟨hnf, Or.inr rfl⟩)
              (forall₂_same _ (loop_step_same fenv env ctx) _)
          · exact List.Forall₂.cons (Or.inr ⟨hnf, Or.inr rfl⟩)
              (finish_loop_step fenv env ctx hv rest _)

theorem finish_loop_no_return (fenv : FinishEnv) (env : Env) (ctx : pdkim_ctx)
    (hv : ctx.mode_sign = false) :
    ∀ (l : List pdkim_signature) (vp : Bool), (finish_loop fenv env ctx l vp).2.2 = none
  | [], _ => rfl
  | sig :: rest, vp => by
      have hms : ¬(ctx.mode_sign = true) := by rw [hv]; decide
      unfold finish_loop
      split
      · exact finish_loop_no_return fenv env ctx hv rest vp
      · split
        · rfl
        · split
          · rfl
          · exact finish_loop_no_return fenv env ctx hv rest _

/-- In verify mode, for signatures none of which has the verdict PASS when
the loop begins: the flag `verify_pass` is set at the end exactly when it
was set at the start or a signature has the verdict PASS. -/
theorem finish_loop_flag (fenv : FinishEnv) (env : Env) (ctx : pdkim_ctx)
    (hv : ctx.mode_sign = false) :
    ∀ (l : List pdkim_signature) (vp : Bool),
      (∀ x ∈ l, x.verify_status = pdkim_verify_status.PDKIM_VERIFY_NONE ∨
        x.verify_status = pdkim_verify_status.PDKIM_VERIFY_FAIL) →
      ((finish_loop fenv env ctx l vp).2.1 = true ↔
        vp = true ∨ ∃ s ∈ (finish_loop fenv env ctx l vp).1,
          s.verify_status = pdkim_verify_status.PDKIM_VERIFY_PASS)
  | [], vp, _ => by
      simp [finish_loop]
  | sig :: rest, vp, h => by
      have hms : ¬(ctx.mode_sign = true) := by rw [hv]; decide
      have hrest : ∀ x ∈ rest, x.verify_status = pdkim_verify_status.PDKIM_VERIFY_NONE ∨
          x.verify_status = pdkim_verify_status.PDKIM_VERIFY_FAIL :=
        fun x hx => h x (List.mem_cons_of_mem _ hx)
      have hsig := h sig (List.mem_cons_self _ _)
      have hnp : ∀ x ∈ sig :: rest,
          x.verify_status ≠ pdkim_verify_status.PDKIM_VERIFY_PASS := by
        intro x hx e
        rcases h x hx with h1 | h1 <;> rw [h1] at e <;> exact pdkim_verify_status.noConfusion e
      unfold finish_loop
      by_cases h1 : ctx.mode_sign = false ∧
          sig.verify_status = pdkim_verify_status.PDKIM_VERIFY_FAIL
      · rw [if_pos h1]
        have ih := finish_loop_flag fenv env ctx hv rest vp hrest
        show (finish_loop fenv env ctx rest vp).2.1 = true ↔ _
        rw [ih]
        constructor
        · rintro (e | ⟨s, hs, e⟩)
          · exact Or.inl e
          · exact Or.inr ⟨s, List.mem_cons_of_mem _ hs, e⟩
        · rintro (e | ⟨s, hs, e⟩)
          · exact Or.inl e
          · rcases List.mem_cons.1 hs with e2 | hs
            · rw [e2] at e
              exact absurd e (hnp sig (List.mem_cons_self _ _))
            · exact Or.inr ⟨s, hs, e⟩
      · rw [if_neg h1]
        have hnone : sig.verify_status = pdkim_verify_status.PDKIM_VERIFY_NONE := by
          rcases hsig with e | e
          · exact e
          · exact absurd ⟨hv, e⟩ h1
        obtain ⟨f1, f2⟩ := verify_signature_flag fenv env ctx sig
        by_cases h2 : env.exim_sha_init sig.hashtype = false
        · rw [if_pos h2]
          show vp = true ↔ _
          constructor
          · exact fun e => Or.inl e
          · rintro (e | ⟨s, hs, e⟩)
            · exact e
            · exact absurd e (hnp s hs)
        · rw [if_neg h2, if_neg hms]
          split
          · show (vp || (verify_signature fenv env ctx sig).2) = true ↔ _
            rw [Bool.or_eq_true]
            constructor
            · rintro (e | e)
              · exact Or.inl e
              · exact Or.inr ⟨_, List.mem_cons_self _ _, f1 e⟩
            · rintro (e | ⟨s, hs, e⟩)
              · exact Or.inl e
              · rcases List.mem_cons.1 hs with e2 | hs
                · rw [e2] at e
                  exact Or.inr (f2 hnone e)
                · exact absurd e (hnp s (List.mem_cons_of_mem _ hs))
          · have ih := finish_loop_flag fenv env ctx hv rest
              (vp || (verify_signature fenv env ctx sig).2) hrest
            show (finish_loop fenv env ctx rest
              (vp || (verify_signature fenv env ctx sig).2)).2.1 = true ↔ _
            rw [ih, Bool.or_eq_true]
            constructor
            · rintro ((e | e) | ⟨s, hs, e⟩)
              · exact Or.inl e
              · exact Or.inr ⟨_, List.mem_cons_self _ _, f1 e⟩
              · exact Or.inr ⟨s, List.mem_cons_of_mem _ hs, e⟩
            · rintro (e | ⟨s, hs, e⟩)
              · exact Or.inl (Or.inl e)
              · rcases List.mem_cons.1 hs with e2 | hs
                · rw [e2] at e
                  exact Or.inl (Or.inr (f2 hnone e))
                · exact Or.inr ⟨s, hs, e⟩

/-- In verify mode, when `dkim_verify_minimal` does not end the loop and the
hash of the headers can be set up for every signature, the loop gives every
signature that is not marked FAIL to the verification branch. -/
theorem finish_loop_map (fenv : FinishEnv) (env : Env) (ctx : pdkim_ctx)
    (hv : ctx.mode_sign = false)
    (hmin : fenv.dkim_verify_minimal = false ∨ fenv.acl_signers = true) :
    ∀ (l : List pdkim_signature) (vp : Bool),
      (∀ x ∈ l, env.exim_sha_init x.hashtype = true) →
      (finish_loop fenv env ctx l vp).1 =
        l.map (fun x =>
          if x.verify_status = pdkim_verify_status.PDKIM_VERIFY_FAIL then x
          else (verify_signature fenv env ctx x).1)
  | [], _, _ => rfl
  | sig :: rest, vp, h => by
      have hms : ¬(ctx.mode_sign = true) := by rw [hv]; decide
      have hrest : ∀ x ∈ rest, env.exim_sha_init x.hashtype = true :=
        fun x hx => h x (List.mem_cons_of_mem _ hx)
      have hsha : ¬(env.exim_sha_init sig.hashtype = false) := by
        rw [h sig (List.mem_cons_self _ _)]
        decide
      unfold finish_loop
      rw [List.map_cons]
      by_cases h1 : ctx.mode_sign = false ∧
          sig.verify_status = pdkim_verify_status.PDKIM_VERIFY_FAIL
      · rw [if_pos h1, if_pos h1.2]
        show sig :: (finish_loop fenv env ctx rest vp).1 = _
        rw [finish_loop_map fenv env ctx hv hmin rest vp hrest]
      · rw [if_neg h1, if_neg hsha, if_neg hms, if_neg (fun e => h1 ⟨hv, e⟩)]
        have hb : ¬(((vp || (verify_signature fenv env ctx sig).2) &&
            fenv.dkim_verify_minimal && !fenv.acl_signers) = true) := by
          rcases hmin with e | e <;> rw [e] <;> simp
        rw [if_neg hb]
        show (verify_signature fenv env ctx sig).1 :: (finish_loop fenv env ctx rest _).1 = _
        rw [finish_loop_map fenv env ctx hv hmin rest _ hrest]

theorem verify_hash_data_ctx (ctx : pdkim_ctx) (l : List pdkim_signature)
    (sig : pdkim_signature) :
    verify_hash_data { ctx with sig := l } sig = verify_hash_data ctx sig := rfl

/-- What `pdkim_feed_finish` does in verify mode once its first part has
reported no error: the loop of `pdkim_finish_bodyhash` gives a list of
signatures, `sort_sig_methods` selects from it, the loop over the signatures
goes through the selection, and the return code is `PDKIM_OK` when nothing
was selected or the flag `verify_pass` is set, `PDKIM_FAIL` otherwise. -/
theorem feed_finish_verify (fenv : FinishEnv) (env : Env) (ctx : pdkim_ctx)
    (hv : ctx.mode_sign = false) (hl : SigsLinked ctx)
    (hf : (pdkim_feed_finish_flush env ctx).2 = PDKIM_OK) :
    ∃ l, finish_bodyhash_sigs fenv (pdkim_feed_finish_flush env ctx).1
          (pdkim_feed_finish_flush env ctx).1.sig = some l ∧
      pdkim_feed_finish fenv env ctx =
        some ({ (pdkim_feed_finish_flush env ctx).1 with
            sig := (finish_loop fenv env
              { (pdkim_feed_finish_flush env ctx).1 with sig := l }
              (sort_sig_methods fenv env l) false).1 },
          if sort_sig_methods fenv env l = [] ∨
              (finish_loop fenv env { (pdkim_feed_finish_flush env ctx).1 with sig := l }
                (sort_sig_methods fenv env l) false).2.1 = true then PDKIM_OK
          else PDKIM_FAIL) := by
  obtain ⟨hfl, hfm⟩ := feed_finish_flush_linked env ctx hv hl
  obtain ⟨l, hr, _⟩ := finish_bodyhash_sigs_verify fenv (pdkim_feed_finish_flush env ctx).1
    hfm (pdkim_feed_finish_flush env ctx).1.sig hfl
  refine ⟨l, hr, ?_⟩
  have hfin : pdkim_finish_bodyhash fenv (pdkim_feed_finish_flush env ctx).1 =
      some { (pdkim_feed_finish_flush env ctx).1 with sig := l } := by
    unfold pdkim_finish_bodyhash
    rw [hr]
    rfl
  have hne : ¬((pdkim_feed_finish_flush env ctx).2 ≠ PDKIM_OK) := fun h => h hf
  obtain ⟨ctx1, hctx1⟩ : ∃ ctx1, ctx1 = { (pdkim_feed_finish_flush env ctx).1 with sig := l } :=
    ⟨_, rfl⟩
  rw [← hctx1] at hfin ⊢
  have hm1 : ctx1.mode_sign = false := by rw [hctx1]; exact hfm
  have hs1 : ctx1.sig = l := by rw [hctx1]
  have hnm : ¬(ctx1.mode_sign = true) := by rw [hm1]; decide
  have hshape : ∀ x, ({ ctx1 with sig := x } : pdkim_ctx) =
      { (pdkim_feed_finish_flush env ctx).1 with sig := x } := by
    intro x
    rw [hctx1]
  unfold pdkim_feed_finish
  rw [if_neg hne, hfin, Option.some_bind]
  dsimp only
  rw [if_neg hnm, hs1]
  by_cases he : sort_sig_methods fenv env l = []
  · rw [if_pos he, if_pos (Or.inl he), he, hshape]
    rfl
  · rw [if_neg he]
    rw [finish_loop_no_return fenv env ctx1 hm1 (sort_sig_methods fenv env l) false]
    dsimp only
    rw [hshape]
    by_cases hflag : (finish_loop fenv env ctx1 (sort_sig_methods fenv env l) false).2.1 = true
    · rw [if_pos (Or.inr hflag), if_pos (Or.inr hflag)]
    · rw [if_neg (fun h => h.elim hnm hflag), if_neg (fun h => h.elim he hflag)]

/-! ## The version of a signature -/

theorem sig_set_tag_version (env : Env) (sig : pdkim_signature) (tag val : List Nat)
    (h : tag.head? ≠ some 118) : (sig_set_tag env sig tag val).version = sig.version := by
  unfold sig_set_tag
  cases tag with
  | nil => rfl
  | cons t0 trest =>
    have h118 : t0 ≠ 118 := fun e => h (by rw [e]; rfl)
    dsimp only
    by_cases c98 : t0 = 98
    · rw [if_pos c98]
      cases trest with
      | nil => rfl
      | cons t1 tr2 =>
        dsimp only
        split
        · split <;> rfl
        · rfl
    · rw [if_neg c98, if_neg h118]
      by_cases c97 : t0 = 97
      · rw [if_pos c97]
        obtain ⟨k, hh, e⟩ := sig_set_algorithm_frame env sig val
        rw [e]
      · rw [if_neg c97]
        by_cases c99 : t0 = 99
        · rw [if_pos c99]
        · rw [if_neg c99]
          by_cases c113 : t0 = 113
          · rw [if_pos c113]
            cases table_index pdkim_querymethods val <;> rfl
          · rw [if_neg c113]
            by_cases c115 : t0 = 115
            · rw [if_pos c115]
            · rw [if_neg c115]
              by_cases c100 : t0 = 100
              · rw [if_pos c100]
              · rw [if_neg c100]
                by_cases c105 : t0 = 105
                · rw [if_pos c105]
                · rw [if_neg c105]
                  by_cases c116 : t0 = 116
                  · rw [if_pos c116]
                  · rw [if_neg c116]
                    by_cases c120 : t0 = 120
                    · rw [if_pos c120]
                    · rw [if_neg c120]
                      by_cases c108 : t0 = 108
                      · rw [if_pos c108]
                      · rw [if_neg c108]
                        by_cases c104 : t0 = 104
                        · rw [if_pos c104]
                        · rw [if_neg c104]
                          by_cases c122 : t0 = 122
                          · rw [if_pos c122]
                          · rw [if_neg c122]

theorem tag_apply_version (env : Env) (sig : pdkim_signature) (tv : List Nat × List Nat)
    (h : tv.1 ≠ US "v") : (tag_apply env sig tv).version = sig.version := by
  unfold tag_apply
  split
  · rename_i hc
    apply sig_set_tag_version
    intro hh
    rcases hc.2 with h1 | h1
    · apply h
      cases htag : tv.1 with
      | nil =>
        rw [htag] at h1
        simp at h1
      | cons a r =>
        rw [htag] at hh h1
        simp only [List.head?_cons, Option.some.injEq] at hh
        simp only [List.length_cons, add_left_eq_self, List.length_eq_zero] at h1
        rw [hh, h1]
        rfl
    · rw [hh] at h1
      simp at h1
  · rfl

theorem foldl_tag_apply_version (env : Env) :
    ∀ (tags : List (List Nat × List Nat)) (sig : pdkim_signature),
      (∀ tv ∈ tags, tv.1 ≠ US "v") →
      (tags.foldl (tag_apply env) sig).version = sig.version
  | [], _, _ => rfl
  | tv :: tags, sig, h => by
      rw [List.foldl_cons, foldl_tag_apply_version env tags _
        (fun x hx => h x (List.mem_cons_of_mem _ hx))]
      exact tag_apply_version env sig tv (h tv (List.mem_cons_self _ _))

theorem tag_apply_v (env : Env) (sig : pdkim_signature) (val : List Nat) (hv : val ≠ []) :
    (tag_apply env sig (US "v", val)).version = if cstr val = US "1" then 1 else -1 := by
  unfold tag_apply
  have hc : (US "v", val).2 ≠ [] ∧
      ((US "v", val).1.length = 1 ∨ (US "v", val).1.head? = some 98) := ⟨hv, Or.inl rfl⟩
  rw [if_pos hc]
  rfl

/-- The version of a signature that `pdkim_parse_sig_header` returns: 0
when the header has no tag `v`; when it has one, 1 or -1 as the value of the
last of them is "1" or not. -/
theorem parse_sig_header_version (env : Env) (c0 c : pdkim_ctx) (raw : List Nat)
    (sig : pdkim_signature) (hp : pdkim_parse_sig_header env c0 raw = (c, some sig)) :
    ((∀ tv ∈ lex_tags raw, tv.1 ≠ US "v") → sig.version = 0) ∧
      (∀ pre val post, lex_tags raw = pre ++ (US "v", val) :: post → val ≠ [] →
        (∀ tv ∈ post, tv.1 ≠ US "v") →
        sig.version = if cstr val = US "1" then 1 else -1) := by
  obtain ⟨st, hst, _, hsig⟩ := parse_sig_scan_spec env raw
  rw [parse_sig_header_eq, hst] at hp
  dsimp only at hp
  split at hp
  · simp at hp
  · have h2 := congrArg Prod.snd hp
    dsimp only at h2
    cases hb : (pdkim_set_bodyhash env c0 st.sig.hashtype st.sig.canon_body
        st.sig.bodylength).2 with
    | none =>
      rw [hb] at h2
      simp at h2
    | some b =>
      rw [hb] at h2
      simp only [Option.map_some', Option.some.injEq] at h2
      have hver : sig.version = st.sig.version := by rw [← h2]
      rw [hver, hsig]
      constructor
      · intro hno
        rw [foldl_tag_apply_version env _ _ hno]
        rfl
      · intro pre val post hl hval hpost
        rw [hl, List.foldl_append, List.foldl_cons,
          foldl_tag_apply_version env post _ hpost]
        exact tag_apply_v env _ val hval

set_option maxRecDepth 100000

/-- C21. The verification branch makes a signature that has every required
tag and a version other than 1 (its header has a tag `v` whose value is not
"1") INVALID with DKIM_VERSION, and a signature whose version is 0 (its
header has no tag `v`) INVALID with SIGNATURE_ERROR; in both cases the key
lookup is not reached, so that the DNS callback is not called and the
outcome is the same in every setting.  The loop of `pdkim_feed_finish` gives
every signature that `pdkim_finish_bodyhash` has not marked FAIL (its body
hash matched) to the branch, unless `dkim_verify_minimal` ends the loop or
the hash of the headers cannot be set up.  Two messages as instances. -/
theorem C21_dkim_version (fenv : FinishEnv) (env : Env) (ctx : pdkim_ctx)
    (sig : pdkim_signature) :
    (has_required_tags sig = true → sig.version ≠ 1 →
        (verify_signature fenv env ctx sig).1.verify_status =
          pdkim_verify_status.PDKIM_VERIFY_INVALID ∧
        (verify_signature fenv env ctx sig).1.verify_ext_status =
          pdkim_verify_ext_status.PDKIM_VERIFY_INVALID_DKIM_VERSION ∧
        verify_signature_queries sig = [] ∧
        ∀ fenv2, verify_signature fenv2 env ctx sig = verify_signature fenv env ctx sig) ∧
      (sig.version = 0 →
        (verify_signature fenv env ctx sig).1.verify_status =
          pdkim_verify_status.PDKIM_VERIFY_INVALID ∧
        (verify_signature fenv env ctx sig).1.verify_ext_status =
          pdkim_verify_ext_status.PDKIM_VERIFY_INVALID_SIGNATURE_ERROR ∧
        verify_signature_queries sig = [] ∧
        ∀ fenv2, verify_signature fenv2 env ctx sig = verify_signature fenv env ctx sig) ∧
      (ctx.mode_sign = false →
        (fenv.dkim_verify_minimal = false ∨ fenv.acl_signers = true) →
        ∀ (l : List pdkim_signature) (vp : Bool),
          (∀ x ∈ l, env.exim_sha_init x.hashtype = true) →
          (finish_loop fenv env ctx l vp).1 =
            l.map (fun x =>
              if x.verify_status = pdkim_verify_status.PDKIM_VERIFY_FAIL then x
              else (verify_signature fenv env ctx x).1)) ∧
      (∀ (raw : List Nat) (c0 c : pdkim_ctx),
        pdkim_parse_sig_header env c0 raw = (c, some sig) →
        ((∀ tv ∈ lex_tags raw, tv.1 ≠ US "v") → sig.version = 0) ∧
          (∀ pre val post, lex_tags raw = pre ++ (US "v", val) :: post → val ≠ [] →
            (∀ tv ∈ post, tv.1 ≠ US "v") →
            sig.version = if cstr val = US "1" then 1 else -1)) ∧
      (pdkim_feed_finish example_pass_fenv example_env
          (fed_verify_ctx example_env example_v2_message)).map
            (fun r => r.1.sig.map (fun s => (s.verify_status, s.verify_ext_status))) =
        some [(pdkim_verify_status.PDKIM_VERIFY_INVALID,
          pdkim_verify_ext_status.PDKIM_VERIFY_INVALID_DKIM_VERSION)] ∧
      (pdkim_feed_finish example_pass_fenv example_env
          (fed_verify_ctx example_env example_no_v_message)).map
            (fun r => r.1.sig.map (fun s => (s.verify_status, s.verify_ext_status))) =
        some [(pdkim_verify_status.PDKIM_VERIFY_INVALID,
          pdkim_verify_ext_status.PDKIM_VERIFY_INVALID_SIGNATURE_ERROR)] := by
  refine ⟨?_, ?_, ?_, ?_, by decide, by decide⟩
  · intro hreq hver
    have h1 : ¬(has_required_tags sig = false) := by rw [hreq]; decide
    refine ⟨?_, ?_, ?_, fun fenv2 => verify_signature_early fenv fenv2 env ctx sig (Or.inr hver)⟩
    · unfold verify_signature
      rw [if_neg h1, if_pos hver]
    · unfold verify_signature
      rw [if_neg h1, if_pos hver]
    · unfold verify_signature_queries
      rw [if_neg h1, if_pos hver]
  · intro h0
    have h1 : has_required_tags sig = false := by
      unfold has_required_tags
      rw [h0]
      simp
    refine ⟨?_, ?_, ?_, fun fenv2 => verify_signature_early fenv fenv2 env ctx sig (Or.inl h1)⟩
    · unfold verify_signature
      rw [if_pos h1]
    · unfold verify_signature
      rw [if_pos h1]
    · unfold verify_signature_queries
      rw [if_pos h1]
  · intro hv hmin l vp hsha
    exact finish_loop_map fenv env ctx hv hmin l vp hsha
  · intro raw c0 c hp
    exact parse_sig_header_version env c0 c raw sig hp

/-- The signatures with the verdict PASS behind the loop over the
signatures, for a context whose signatures had no verdict before
`pdkim_finish_bodyhash`. -/
theorem pass_only_if_core (fenv : FinishEnv) (env : Env) (F : pdkim_ctx)
    (l : List pdkim_signature) (hfm : F.mode_sign = false)
    (hnone : ∀ sig ∈ F.sig, sig.verify_status = pdkim_verify_status.PDKIM_VERIFY_NONE)
    (hstep : List.Forall₂ (BodyhashStep fenv F) F.sig l) :
    ∀ s ∈ (finish_loop fenv env { F with sig := l } (sort_sig_methods fenv env l) false).1,
      s.verify_status = pdkim_verify_status.PDKIM_VERIFY_PASS →
      ∃ x ∈ F.sig, ∃ b ∈ F.bodyhash, ∃ p bits,
        x.calc_body_hash = some b.key ∧
        x.bodyhash = some (fenv.exim_sha_finish b.hashtype b.hashed) ∧
        has_required_tags x = true ∧ x.version = 1 ∧
        pdkim_key_from_dns fenv env x = ({ x with keybits := bits }, some p) ∧
        key_allows_hash fenv p x.hashtype ∧
        fenv.exim_dkim_verify (p.key.getD []) x.keytype x.hashtype
          (fenv.exim_sha_finish x.hashtype (verify_hash_data { F with sig := l } x))
          (x.sighash.getD []) = true ∧
        keysize_ok fenv x.keytype bits ∧
        s = { x with keybits := bits, pubkey := some p,
                     verify_status := pdkim_verify_status.PDKIM_VERIFY_PASS } := by
  intro s hs hpass
  have hloop := finish_loop_step fenv env { F with sig := l } hfm
    (sort_sig_methods fenv env l) false
  obtain ⟨x, hx, hxs⟩ := forall₂_mem_right _ _ _ hloop s hs
  have hxl := sort_sig_methods_subset fenv env l x hx
  obtain ⟨x0, hx0, hb⟩ := forall₂_mem_right _ _ _ hstep x hxl
  have hx0none := hnone x0 hx0
  have hcase : x = x0 ∧ s = (verify_signature fenv env { F with sig := l } x).1 ∧
      ∃ b ∈ F.bodyhash, x0.calc_body_hash = some b.key ∧
        x0.bodyhash = some (fenv.exim_sha_finish b.hashtype b.hashed) := by
    rcases hxs with ⟨hxf, e⟩ | ⟨hxnf, e | e⟩
    · rw [e, hxf] at hpass
      exact pdkim_verify_status.noConfusion hpass
    · rcases hb with ⟨e2, _⟩ | e2
      · rw [e, e2, hx0none] at hpass
        exact pdkim_verify_status.noConfusion hpass
      · rw [e2] at hxnf
        exact absurd rfl hxnf
    · rcases hb with ⟨e2, hbh⟩ | e2
      · exact ⟨e2, e, hbh⟩
      · rw [e2] at hxnf
        exact absurd rfl hxnf
  obtain ⟨e1, e2, b, hbm, hbk, hbd⟩ := hcase
  rw [e2] at hpass
  obtain ⟨c1, c2, p, bits, c3, c4, c5, c6, c7⟩ :=
    verify_signature_pass fenv env { F with sig := l } x hpass
  rw [e1] at c1 c2 c3 c4 c5 c6 c7 e2
  exact ⟨x0, hx0, b, hbm, p, bits, hbk, hbd, c1, c2, c3, c4, c5, c6, e2.trans c7⟩

/-- C22. In verify mode, whatever has been fed to the context since
`pdkim_init_verify`, a signature that `pdkim_feed_finish` hands back with
the verdict PASS is a signature `x` of the message with these properties:
its body hash is the digest of its Body Hash, it has every required tag and
version 1, the key lookup has given a public key, the hash allow-list of the
key (if it has one) holds the hash of the signature, the check of the
signature over the hash of the headers has succeeded, and the key has at
least the number of bits asked for.  A signature that is marked FAIL when
the loop over the signatures begins (as by `pdkim_finish_bodyhash`, with
FAIL_BODY) is handed back as it is. -/
theorem C22_pass_only_if (fenv : FinishEnv) (env : Env) (dot_stuffing : Bool) (collect : Nat)
    (calls : List (Option (List Nat)))
    (hf : (pdkim_feed_finish_flush env
      (feed_calls env (pdkim_init_verify dot_stuffing collect) calls)).2 = PDKIM_OK) :
    ∃ r ctx1, pdkim_feed_finish fenv env
          (feed_calls env (pdkim_init_verify dot_stuffing collect) calls) = some r ∧
      pdkim_finish_bodyhash fenv (pdkim_feed_finish_flush env
          (feed_calls env (pdkim_init_verify dot_stuffing collect) calls)).1 = some ctx1 ∧
      (∀ s ∈ r.1.sig, s.verify_status = pdkim_verify_status.PDKIM_VERIFY_PASS →
        ∃ x ∈ (pdkim_feed_finish_flush env
            (feed_calls env (pdkim_init_verify dot_stuffing collect) calls)).1.sig,
          ∃ b ∈ (pdkim_feed_finish_flush env
              (feed_calls env (pdkim_init_verify dot_stuffing collect) calls)).1.bodyhash,
            ∃ p bits,
              x.calc_body_hash = some b.key ∧
              x.bodyhash = some (fenv.exim_sha_finish b.hashtype b.hashed) ∧
              has_required_tags x = true ∧ x.version = 1 ∧
              pdkim_key_from_dns fenv env x = ({ x with keybits := bits }, some p) ∧
              key_allows_hash fenv p x.hashtype ∧
              fenv.exim_dkim_verify (p.key.getD []) x.keytype x.hashtype
                (fenv.exim_sha_finish x.hashtype (verify_hash_data ctx1 x))
                (x.sighash.getD []) = true ∧
              keysize_ok fenv x.keytype bits ∧
              s = { x with keybits := bits, pubkey := some p,
                           verify_status := pdkim_verify_status.PDKIM_VERIFY_PASS }) ∧
      List.Forall₂ (fun x s => x.verify_status = pdkim_verify_status.PDKIM_VERIFY_FAIL → s = x)
        (sort_sig_methods fenv env ctx1.sig) r.1.sig := by
  have hl := feed_calls_linked env calls _ (init_verify_linked dot_stuffing collect)
  have hnone := fed_sigs_status env dot_stuffing collect calls
  obtain ⟨hfl, hfm⟩ := feed_finish_flush_linked env _ hl.1 hl.2
  obtain ⟨l, hr, hfin⟩ := feed_finish_verify fenv env _ hl.1 hl.2 hf
  have hstep := finish_bodyhash_sigs_step fenv _ hfm _ l hr
  refine ⟨_, { (pdkim_feed_finish_flush env
      (feed_calls env (pdkim_init_verify dot_stuffing collect) calls)).1 with sig := l },
    hfin, ?_, ?_, ?_⟩
  · unfold pdkim_finish_bodyhash
    rw [hr]
    rfl
  · intro s hs hpass
    exact pass_only_if_core fenv env _ l hfm hnone hstep s hs hpass
  · have hloop := finish_loop_step fenv env
      { (pdkim_feed_finish_flush env
          (feed_calls env (pdkim_init_verify dot_stuffing collect) calls)).1 with sig := l }
      hfm (sort_sig_methods fenv env l) false
    refine List.Forall₂.imp ?_ hloop
    intro x s hxs hxf
    rcases hxs with ⟨_, e⟩ | ⟨hxnf, _⟩
    · exact e
    · exact absurd hxf hxnf

/-- C22 at a concrete input: the message `example_good_message`, fed in one
call to a new verify context, in the setting `example_pass_fenv`. -/
theorem C22_pass_only_if_witness :
    (pdkim_feed_finish_flush example_env
        (feed_calls example_env (pdkim_init_verify false 0)
          [some example_good_message])).2 = PDKIM_OK ∧
      ∃ r ctx1, pdkim_feed_finish example_pass_fenv example_env
          (feed_calls example_env (pdkim_init_verify false 0)
            [some example_good_message]) = some r ∧
        pdkim_finish_bodyhash example_pass_fenv (pdkim_feed_finish_flush example_env
          (feed_calls example_env (pdkim_init_verify false 0)
            [some example_good_message])).1 = some ctx1 ∧
        (∀ s ∈ r.1.sig, s.verify_status = pdkim_verify_status.PDKIM_VERIFY_PASS →
          ∃ x ∈ (pdkim_feed_finish_flush example_env
              (feed_calls example_env (pdkim_init_verify false 0)
                [some example_good_message])).1.sig,
            ∃ b ∈ (pdkim_feed_finish_flush example_env
                (feed_calls example_env (pdkim_init_verify false 0)
                  [some example_good_message])).1.bodyhash,
              ∃ p bits,
                x.calc_body_hash = some b.key ∧
                x.bodyhash = some (example_pass_fenv.exim_sha_finish b.hashtype b.hashed) ∧
                has_required_tags x = true ∧ x.version = 1 ∧
                pdkim_key_from_dns example_pass_fenv example_env x =
                  ({ x with keybits := bits }, some p) ∧
                key_allows_hash example_pass_fenv p x.hashtype ∧
                example_pass_fenv.exim_dkim_verify (p.key.getD []) x.keytype x.hashtype
                  (example_pass_fenv.exim_sha_finish x.hashtype (verify_hash_data ctx1 x))
                  (x.sighash.getD []) = true ∧
                keysize_ok example_pass_fenv x.keytype bits ∧
                s = { x with keybits := bits, pubkey := some p,
                             verify_status := pdkim_verify_status.PDKIM_VERIFY_PASS }) ∧
        List.Forall₂
          (fun x s => x.verify_status = pdkim_verify_status.PDKIM_VERIFY_FAIL → s = x)
          (sort_sig_methods example_pass_fenv example_env ctx1.sig) r.1.sig :=
  ⟨by decide,
    C22_pass_only_if example_pass_fenv example_env false 0 [some example_good_message]
      (by decide)⟩

/-- C23, as amended.  In verify mode, whatever has been fed to the context
since `pdkim_init_verify`, `pdkim_feed_finish` (once its first part, the
flush of a header that is still in the buffer, has reported no error)
returns `PDKIM_OK` if and only if a signature it hands back has the verdict
PASS or it hands back no signature at all: the message has none, or
`sort_sig_methods` has kept none. -/
theorem C23_ok_iff_pass (fenv : FinishEnv) (env : Env) (dot_stuffing : Bool) (collect : Nat)
    (calls : List (Option (List Nat)))
    (hf : (pdkim_feed_finish_flush env
      (feed_calls env (pdkim_init_verify dot_stuffing collect) calls)).2 = PDKIM_OK) :
    ∃ r, pdkim_feed_finish fenv env
          (feed_calls env (pdkim_init_verify dot_stuffing collect) calls) = some r ∧
      (r.2 = PDKIM_OK ∨ r.2 = PDKIM_FAIL) ∧
      (r.2 = PDKIM_OK ↔
        (∃ s ∈ r.1.sig, s.verify_status = pdkim_verify_status.PDKIM_VERIFY_PASS) ∨
          r.1.sig = []) := by
  have hl := feed_calls_linked env calls _ (init_verify_linked dot_stuffing collect)
  have hnone := fed_sigs_status env dot_stuffing collect calls
  obtain ⟨_, hfm⟩ := feed_finish_flush_linked env _ hl.1 hl.2
  obtain ⟨l, hr, hfin⟩ := feed_finish_verify fenv env _ hl.1 hl.2 hf
  have hstep := finish_bodyhash_sigs_step fenv _ hfm _ l hr
  refine ⟨_, hfin, ?_, ?_⟩
  · dsimp only
    split
    · exact Or.inl rfl
    · exact Or.inr rfl
  · -- the signatures the loop gets have no verdict or are marked FAIL
    have hin : ∀ x ∈ sort_sig_methods fenv env l,
        x.verify_status = pdkim_verify_status.PDKIM_VERIFY_NONE ∨
          x.verify_status = pdkim_verify_status.PDKIM_VERIFY_FAIL := by
      intro x hx
      obtain ⟨x0, hx0, hb⟩ := forall₂_mem_right _ _ _ hstep x
        (sort_sig_methods_subset fenv env l x hx)
      rcases hb with ⟨e, _⟩ | e
      · rw [e]
        exact Or.inl (hnone x0 hx0)
      · rw [e]
        exact Or.inr rfl
    have hflag := finish_loop_flag fenv env
      { (pdkim_feed_finish_flush env
          (feed_calls env (pdkim_init_verify dot_stuffing collect) calls)).1 with sig := l }
      hfm (sort_sig_methods fenv env l) false hin
    have hlen := (finish_loop_step fenv env
      { (pdkim_feed_finish_flush env
          (feed_calls env (pdkim_init_verify dot_stuffing collect) calls)).1 with sig := l }
      hfm (sort_sig_methods fenv env l) false).length_eq
    have hnil : (finish_loop fenv env
        { (pdkim_feed_finish_flush env
            (feed_calls env (pdkim_init_verify dot_stuffing collect) calls)).1 with sig := l }
        (sort_sig_methods fenv env l) false).1 = [] ↔ sort_sig_methods fenv env l = [] := by
      rw [← List.length_eq_zero, ← hlen, List.length_eq_zero]
    dsimp only
    rw [hnil]
    constructor
    · intro h
      by_cases he : sort_sig_methods fenv env l = []
      · exact Or.inr he
      · by_cases hfl : (finish_loop fenv env
            { (pdkim_feed_finish_flush env
                (feed_calls env (pdkim_init_verify dot_stuffing collect) calls)).1 with
              sig := l }
            (sort_sig_methods fenv env l) false).2.1 = true
        · rcases hflag.1 hfl with e | e
          · exact Bool.noConfusion e
          · exact Or.inl e
        · rw [if_neg (fun hh => hh.elim he hfl)] at h
          exact pdkim_rc.noConfusion h
    · rintro (h | h)
      · rw [if_pos (Or.inr (hflag.2 (Or.inr h)))]
      · rw [if_pos (Or.inl h)]

/-- C23 at a concrete input: the message `example_good_message`. -/
theorem C23_ok_iff_pass_witness :
    (pdkim_feed_finish_flush example_env
        (feed_calls example_env (pdkim_init_verify false 0)
          [some example_good_message])).2 = PDKIM_OK ∧
      ∃ r, pdkim_feed_finish example_pass_fenv example_env
          (feed_calls example_env (pdkim_init_verify false 0)
            [some example_good_message]) = some r ∧
        (r.2 = PDKIM_OK ∨ r.2 = PDKIM_FAIL) ∧
        (r.2 = PDKIM_OK ↔
          (∃ s ∈ r.1.sig, s.verify_status = pdkim_verify_status.PDKIM_VERIFY_PASS) ∨
            r.1.sig = []) :=
  ⟨by decide,
    C23_ok_iff_pass example_pass_fenv example_env false 0 [some example_good_message]
      (by decide)⟩

/-- C23 fails as stated: for the message `example_unsigned_message`, which
has no signature, `pdkim_feed_finish` returns `PDKIM_OK` and hands back no
signature, so that none has reached the verdict PASS. -/
theorem C23_counterexample_no_signature :
    (pdkim_feed_finish example_pass_fenv example_env
        (fed_verify_ctx example_env example_unsigned_message)).map
          (fun r => (r.2, r.1.sig.map (fun s => s.verify_status))) =
      some (PDKIM_OK, []) := by
  decide

/-! ## The headers that `h=` selects: one header for one position -/

theorem select_header_eq (name : List Nat) :
    ∀ hdrs : List (List Nat × Bool),
      select_header name hdrs =
        ((select_header_idx name hdrs).map (fun i => (hdrs.getD i ([], false)).1),
          tag_selected hdrs (select_header_idx name hdrs))
  | [] => rfl
  | (value, tag) :: hdrs => by
      unfold select_header select_header_idx
      split
      · rfl
      · rw [select_header_eq name hdrs]
        cases select_header_idx name hdrs with
        | none => rfl
        | some i => rfl

/-- What the inner loop selects: a header that was not tagged and passes
the test. -/
theorem select_header_idx_some (name : List Nat) :
    ∀ (hdrs : List (List Nat × Bool)) (i : Nat), select_header_idx name hdrs = some i →
      ∃ v, hdrs.get? i = some (v, false) ∧ hdr_matches name v = true
  | [], i, h => by simp [select_header_idx] at h
  | (value, tag) :: hdrs, i, h => by
      unfold select_header_idx at h
      split at h
      · rename_i hc
        simp only [Option.some.injEq] at h
        rw [← h]
        refine ⟨value, ?_, ?_⟩
        · rw [List.get?_cons_zero, hc.1]
        · unfold hdr_matches
          rw [hc.2.1, hc.2.2]
          simp
      · cases hi : select_header_idx name hdrs with
        | none =>
          rw [hi] at h
          simp at h
        | some j =>
          rw [hi] at h
          simp only [Option.map_some', Option.some.injEq] at h
          obtain ⟨v, h1, h2⟩ := select_header_idx_some name hdrs j hi
          rw [← h]
          exact ⟨v, by rw [List.get?_cons_succ]; exact h1, h2⟩

/-- When the inner loop selects nothing, no stored header is unused and
passes the test. -/
theorem select_header_idx_none (name : List Nat) :
    ∀ (hdrs : List (List Nat × Bool)), select_header_idx name hdrs = none →
      unused_matching name hdrs = 0
  | [], _ => rfl
  | (value, tag) :: hdrs, h => by
      unfold select_header_idx at h
      split at h
      · simp at h
      · rename_i hc
        have hn : select_header_idx name hdrs = none := by
          cases hi : select_header_idx name hdrs with
          | none => rfl
          | some j =>
            rw [hi] at h
            simp at h
        have ih := select_header_idx_none name hdrs hn
        unfold unused_matching at ih ⊢
        rw [List.countP_cons, ih]
        have : (!tag && hdr_matches name value) = false := by
          cases tag with
          | true => rfl
          | false =>
            by_cases hm : hdr_matches name value = true
            · exfalso
              apply hc
              unfold hdr_matches at hm
              simp only [Bool.and_eq_true, decide_eq_true_eq] at hm
              exact ⟨rfl, hm.1, hm.2⟩
            · simp [hm]
        simp [this]

theorem countP_set_tag (P : List Nat → Bool) :
    ∀ (hdrs : List (List Nat × Bool)) (i : Nat) (v : List Nat),
      hdrs.get? i = some (v, false) →
      (hdrs.set i (v, true)).countP (fun h => !h.2 && P h.1) + (if P v then 1 else 0) =
        hdrs.countP (fun h => !h.2 && P h.1)
  | [], i, v, h => by simp at h
  | hd :: hdrs, 0, v, h => by
      simp only [List.get?_cons_zero, Option.some.injEq] at h
      rw [h, List.set_cons_zero, List.countP_cons, List.countP_cons]
      by_cases hp : P v = true
      · simp [hp]
      · simp [hp]
  | hd :: hdrs, i + 1, v, h => by
      rw [List.get?_cons_succ] at h
      rw [List.set_cons_succ, List.countP_cons, List.countP_cons, Nat.add_right_comm,
        countP_set_tag P hdrs i v h]

theorem tag_selected_some (hdrs : List (List Nat × Bool)) (i : Nat) (v : List Nat)
    (h : hdrs.get? i = some (v, false)) : tag_selected hdrs (some i) = hdrs.set i (v, true) := by
  unfold tag_selected
  dsimp only
  rw [List.getD_eq_getElem?_getD, ← List.get?_eq_getElem?, h]
  rfl

/-! ## Header names and the test of the inner loop -/

theorem tolower_colon (c : Nat) (h : tolower c = COLON) : c = COLON := by
  unfold tolower at h
  unfold COLON at h ⊢
  split at h <;> omega

theorem hdr_matches_iff (name value : List Nat) :
    hdr_matches name value = true ↔
      (value.take name.length).map tolower = name.map tolower ∧
        value.get? name.length = some COLON := by
  unfold hdr_matches strncasecmp_eq
  rw [List.take_length]
  simp

/-- Names that differ in letter case at most pass the test for the same
headers. -/
theorem hdr_matches_same (a n value : List Nat) (h : same_name a n = true) :
    hdr_matches a value = hdr_matches n value := by
  unfold same_name at h
  have hm : a.map tolower = n.map tolower := by simpa using h
  have hlen : a.length = n.length := by
    have := congrArg List.length hm
    simpa using this
  have : (hdr_matches a value = true) ↔ (hdr_matches n value = true) := by
    rw [hdr_matches_iff, hdr_matches_iff, hlen, hm]
  cases h1 : hdr_matches a value <;> cases h2 : hdr_matches n value <;> simp_all

theorem matches_length_le (a n value : List Nat) (hn : COLON ∉ n)
    (ha : hdr_matches a value = true) (hb : hdr_matches n value = true) :
    n.length ≤ a.length := by
  rw [hdr_matches_iff] at ha hb
  by_contra hlt
  have hlt : a.length < n.length := by omega
  have h1 : (value.take n.length).get? a.length = some COLON := by
    rw [List.get?_eq_getElem?, List.getElem?_take_of_lt hlt, ← List.get?_eq_getElem?]
    exact ha.2
  have h2 : COLON ∈ value.take n.length := List.get?_mem h1
  have h3 : tolower COLON ∈ n.map tolower := by
    rw [← hb.1]
    exact List.mem_map_of_mem _ h2
  obtain ⟨c, hc, e⟩ := List.mem_map.1 h3
  have e2 : tolower c = COLON := by
    rw [e]
    rfl
  exact hn (tolower_colon c e2 ▸ hc)

/-- Two names without a colon that pass the test for one header differ in
letter case at most. -/
theorem hdr_matches_disjoint (a n value : List Nat) (hac : COLON ∉ a) (hn : COLON ∉ n)
    (ha : hdr_matches a value = true) (hb : hdr_matches n value = true) :
    same_name a n = true := by
  have hlen : a.length = n.length :=
    Nat.le_antisymm (matches_length_le n a value hac hb ha)
      (matches_length_le a n value hn ha hb)
  rw [hdr_matches_iff] at ha hb
  unfold same_name
  rw [← ha.1, ← hb.1, hlen]
  simp

/-! ## The headers that `h=` selects: the count -/

theorem selected_indices_unused :
    ∀ (names : List (List Nat)) (hdrs : List (List Nat × Bool)),
      (∀ i, some i ∈ selected_indices names hdrs → ∃ v, hdrs.get? i = some (v, false)) ∧
        ((selected_indices names hdrs).filterMap id).Nodup
  | [], _ => ⟨fun i h => by simp [selected_indices] at h, by simp [selected_indices]⟩
  | name :: names, hdrs => by
      unfold selected_indices
      cases hi : select_header_idx name hdrs with
      | none =>
        have ih := selected_indices_unused names hdrs
        have ht : tag_selected hdrs none = hdrs := rfl
        rw [ht]
        refine ⟨?_, ?_⟩
        · intro i h
          rcases List.mem_cons.1 h with e | h
          · exact absurd e (by simp)
          · exact ih.1 i h
        · exact ih.2
      | some j =>
        obtain ⟨v, hv, _⟩ := select_header_idx_some name hdrs j hi
        rw [tag_selected_some hdrs j v hv]
        have ih := selected_indices_unused names (hdrs.set j (v, true))
        have hne : ∀ i, some i ∈ selected_indices names (hdrs.set j (v, true)) → i ≠ j := by
          intro i h e
          obtain ⟨w, hw⟩ := ih.1 i h
          rw [e, List.get?_eq_getElem?, List.getElem?_set_self
            (by
              have := List.get?_eq_some.1 hv
              exact this.1)] at hw
          simp at hw
        refine ⟨?_, ?_⟩
        · intro i h
          rcases List.mem_cons.1 h with e | h
          · simp only [Option.some.injEq] at e
            rw [e]
            exact ⟨v, hv⟩
          · obtain ⟨w, hw⟩ := ih.1 i h
            have hij := hne i h
            rw [List.get?_eq_getElem?, List.getElem?_set_ne (fun e => hij e.symm),
              ← List.get?_eq_getElem?] at hw
            exact ⟨w, hw⟩
        · have e : List.filterMap id (some j :: selected_indices names (hdrs.set j (v, true))) =
              j :: List.filterMap id (selected_indices names (hdrs.set j (v, true))) := rfl
          rw [e, List.nodup_cons]
          refine ⟨?_, ih.2⟩
          intro hm
          rw [List.mem_filterMap] at hm
          obtain ⟨o, ho, e⟩ := hm
          simp only [id_eq] at e
          rw [e] at ho
          exact hne j ho rfl

/-- For names without a colon: of the positions with a name like `n`, as
many get a header as there are such positions, or as there are unused
headers that pass the test for `n`, whichever is less. -/
theorem selected_count_min (n : List Nat) (hn : COLON ∉ n) :
    ∀ (names : List (List Nat)) (hdrs : List (List Nat × Bool)),
      (∀ a ∈ names, COLON ∉ a) →
      selected_count n names (selected_indices names hdrs) =
        min (names.countP (fun a => same_name a n)) (unused_matching n hdrs)
  | [], _, _ => by simp [selected_count, selected_indices]
  | name :: names, hdrs, hc => by
      have hname := hc name (List.mem_cons_self _ _)
      have hrest : ∀ a ∈ names, COLON ∉ a := fun a ha => hc a (List.mem_cons_of_mem _ ha)
      unfold selected_indices
      unfold selected_count
      rw [List.countP_cons]
      cases hi : select_header_idx name hdrs with
      | none =>
        have ht : tag_selected hdrs none = hdrs := rfl
        rw [ht, selected_count_min n hn names hdrs hrest]
        have h0 := select_header_idx_none name hdrs hi
        by_cases hs : same_name name n = true
        · have hu : unused_matching n hdrs = 0 := by
            unfold unused_matching at h0 ⊢
            rw [← h0]
            congr 1
            funext h
            rw [hdr_matches_same name n h.1 hs]
          rw [hu]
          simp
        · simp [hs]
      | some j =>
        obtain ⟨v, hv, hm⟩ := select_header_idx_some name hdrs j hi
        rw [tag_selected_some hdrs j v hv,
          selected_count_min n hn names (hdrs.set j (v, true)) hrest]
        have hcount := countP_set_tag (hdr_matches n) hdrs j v hv
        unfold unused_matching
        by_cases hs : same_name name n = true
        · have hmn : hdr_matches n v = true := by
            rw [← hdr_matches_same name n v hs]
            exact hm
          rw [hmn] at hcount
          simp only [if_true] at hcount
          rw [← hcount]
          simp only [hs, Option.isSome_some, and_self, if_true]
          omega
        · have hmn : ¬(hdr_matches n v = true) := fun e =>
            hs (hdr_matches_disjoint name n v hname hn hm e)
          rw [if_neg hmn] at hcount
          rw [← hcount]
          simp [hs]

theorem set_tag_get (hdrs : List (List Nat × Bool)) (j i : Nat) (v w : List Nat)
    (h : (hdrs.set j (v, true)).get? i = some (w, false)) : hdrs.get? i = some (w, false) := by
  by_cases e : j = i
  · rw [e, List.get?_eq_getElem?] at h
    by_cases hi : i < hdrs.length
    · rw [List.getElem?_set_self hi] at h
      simp at h
    · rw [List.getElem?_eq_none (by simpa using hi)] at h
      simp at h
  · rw [List.get?_eq_getElem?, List.getElem?_set_ne e, ← List.get?_eq_getElem?] at h
    exact h

/-- A header selected for a position of `h=` is untagged at the start and
passes the test for the name at that position. -/
theorem selected_indices_match :
    ∀ (names : List (List Nat)) (hdrs : List (List Nat × Bool)) (pos i : Nat),
      (selected_indices names hdrs).get? pos = some (some i) →
      ∃ name v, names.get? pos = some name ∧ hdrs.get? i = some (v, false) ∧
        hdr_matches name v = true
  | [], _, pos, i, h => by simp [selected_indices] at h
  | name :: names, hdrs, 0, i, h => by
      unfold selected_indices at h
      simp only [List.get?_cons_zero, Option.some.injEq] at h
      obtain ⟨v, hv, hm⟩ := select_header_idx_some name hdrs i h
      exact ⟨name, v, rfl, hv, hm⟩
  | name :: names, hdrs, pos + 1, i, h => by
      unfold selected_indices at h
      simp only [List.get?_cons_succ] at h
      obtain ⟨n, w, hn, hw, hm⟩ :=
        selected_indices_match names (tag_selected hdrs (select_header_idx name hdrs)) pos i h
      refine ⟨n, w, hn, ?_, hm⟩
      cases hj : select_header_idx name hdrs with
      | none =>
        rw [hj] at hw
        exact hw
      | some j =>
        rw [hj] at hw
        obtain ⟨v, hv, _⟩ := select_header_idx_some name hdrs j hj
        rw [tag_selected_some hdrs j v hv] at hw
        exact set_tag_get hdrs j i v w hw

theorem selected_indices_length :
    ∀ (names : List (List Nat)) (hdrs : List (List Nat × Bool)),
      (selected_indices names hdrs).length = names.length
  | [], _ => rfl
  | name :: names, hdrs => by
      unfold selected_indices
      rw [List.length_cons, List.length_cons, selected_indices_length]

theorem tag_selected_values (hdrs : List (List Nat × Bool)) (o : Option Nat) :
    (tag_selected hdrs o).map Prod.fst = hdrs.map Prod.fst := by
  cases o with
  | none => rfl
  | some i =>
    unfold tag_selected
    dsimp only
    apply List.ext_getElem?
    intro k
    rw [List.getElem?_map, List.getElem?_map]
    by_cases e : i = k
    · rw [e]
      by_cases hk : k < hdrs.length
      · rw [List.getElem?_set_self hk, List.getD_eq_getElem?_getD, List.getElem?_eq_getElem hk]
        rfl
      · rw [List.getElem?_eq_none (by simpa using hk), List.getElem?_eq_none (by simpa using hk)]
    · rw [List.getElem?_set_ne e]

theorem position_data_values (canon : Int) (a b : List (List Nat × Bool))
    (h : a.map Prod.fst = b.map Prod.fst) (o : Option Nat) :
    position_data canon a o = position_data canon b o := by
  cases o with
  | none => rfl
  | some i =>
    have e : (a.getD i ([], false)).1 = (b.getD i ([], false)).1 := by
      have h1 : ∀ l : List (List Nat × Bool), (l.getD i ([], false)).1 =
          (l.map Prod.fst).getD i [] := by
        intro l
        rw [List.getD_eq_getElem?_getD, List.getD_eq_getElem?_getD, List.getElem?_map]
        cases l[i]? <;> rfl
      rw [h1 a, h1 b, h]
    unfold position_data
    dsimp only
    rw [e]

/-- The bytes that the loop over `h=` gives to the header hash are, position
by position, the bytes of the selected headers. -/
theorem verify_headers_data_positions (canon : Int) :
    ∀ (names : List (List Nat)) (hdrs stored : List (List Nat × Bool)),
      stored.map Prod.fst = hdrs.map Prod.fst →
      verify_headers_data canon names hdrs =
        ((selected_indices names hdrs).map (position_data canon stored)).flatten
  | [], _, _, _ => rfl
  | name :: names, hdrs, stored, h => by
      unfold verify_headers_data selected_indices
      rw [List.map_cons, List.flatten_cons, select_header_eq]
      dsimp only
      rw [verify_headers_data_positions canon names
        (tag_selected hdrs (select_header_idx name hdrs)) stored
        (by rw [tag_selected_values]; exact h)]
      congr 1
      rw [position_data_values canon stored hdrs h]
      cases select_header_idx name hdrs <;> rfl

theorem splitOnP_free (P : Nat → Bool) :
    ∀ (l : List Nat), ∀ a ∈ List.splitOnP P l, ∀ x ∈ a, P x = false
  | [], a, ha, x, hx => by
      rw [List.splitOnP_nil, List.mem_singleton] at ha
      rw [ha] at hx
      simp at hx
  | y :: ys, a, ha, x, hx => by
      rw [List.splitOnP_cons] at ha
      by_cases hy : P y = true
      · rw [if_pos hy] at ha
        rcases List.mem_cons.1 ha with e | h
        · rw [e] at hx
          simp at hx
        · exact splitOnP_free P ys a h x hx
      · rw [if_neg hy] at ha
        cases hs : List.splitOnP P ys with
        | nil => exact absurd hs (List.splitOnP_ne_nil P ys)
        | cons hd tl =>
          rw [hs] at ha
          have ih := splitOnP_free P ys
          rw [hs] at ih
          rcases List.mem_cons.1 ha with e | h
          · rw [e] at hx
            rcases List.mem_cons.1 hx with e2 | h2
            · rw [e2]
              simpa using hy
            · exact ih hd (List.mem_cons_self _ _) x h2
          · exact ih a (List.mem_cons_of_mem _ h) x hx

theorem splitOn_colon_free (l : List Nat) : ∀ a ∈ List.splitOn COLON l, COLON ∉ a := by
  intro a ha hc
  have := splitOnP_free (fun x => x == COLON) l a ha COLON hc
  simp at this

theorem same_name_colon (a n : List Nat) (ha : COLON ∉ a) (hn : COLON ∈ n) :
    same_name a n = false := by
  cases h : same_name a n with
  | false => rfl
  | true =>
    exfalso
    unfold same_name at h
    have hm : a.map tolower = n.map tolower := by simpa using h
    have h1 : tolower COLON ∈ a.map tolower := by
      rw [hm]
      exact List.mem_map_of_mem _ hn
    obtain ⟨c, hc, e⟩ := List.mem_map.1 h1
    have e2 : tolower c = COLON := by
      rw [e]
      rfl
    exact ha (tolower_colon c e2 ▸ hc)

theorem selected_count_none (n : List Nat) :
    ∀ (names : List (List Nat)) (os : List (Option Nat)),
      (∀ a ∈ names, same_name a n = false) → selected_count n names os = 0
  | [], _, _ => by simp [selected_count]
  | _ :: _, [], _ => by simp [selected_count]
  | name :: names, o :: os, h => by
      unfold selected_count
      rw [selected_count_none n names os (fun a ha => h a (List.mem_cons_of_mem _ ha)),
        h name (List.mem_cons_self _ _)]
      simp

/-- C28. In verify mode, for every `h=` list `p` and every list of stored
headers: the bytes given to the header hash are, position of `h=` by
position, the bytes of the selected header (relaxed with CR LF when the
header canonicalisation is relaxed), before the signature header; no stored
header is selected for two positions; a selected header begins with the name
of its position, letter case apart, with a colon directly after it; of the
positions with a name like `n`, as many get a header as there are such
positions or as there are stored headers of that name, whichever is less; a
position without a header gives no bytes, and the loop has a result for every
input. -/
theorem C28_verify_header_selection (ctx : pdkim_ctx) (sig : pdkim_signature) (p : List Nat) :
    verify_hash_data ctx { sig with headernames := some p } =
        ((selected_indices (List.splitOn COLON (cstr p))
            (ctx.headers.map (fun value => (cstr value, false)))).map
          (position_data sig.canon_headers
            (ctx.headers.map (fun value => (cstr value, false))))).flatten ++
          cstr (if sig.canon_headers = PDKIM_CANON_RELAXED then
              pdkim_relax_header (cstr sig.rawsig_no_b_val) false
            else sig.rawsig_no_b_val) ∧
      (selected_indices (List.splitOn COLON (cstr p))
          (ctx.headers.map (fun value => (cstr value, false)))).length =
        (List.splitOn COLON (cstr p)).length ∧
      ((selected_indices (List.splitOn COLON (cstr p))
          (ctx.headers.map (fun value => (cstr value, false)))).filterMap id).Nodup ∧
      (∀ pos i, (selected_indices (List.splitOn COLON (cstr p))
          (ctx.headers.map (fun value => (cstr value, false)))).get? pos = some (some i) →
        ∃ name value, (List.splitOn COLON (cstr p)).get? pos = some name ∧
          ctx.headers.get? i = some value ∧ hdr_matches name (cstr value) = true) ∧
      (∀ n : List Nat,
        selected_count n (List.splitOn COLON (cstr p))
            (selected_indices (List.splitOn COLON (cstr p))
              (ctx.headers.map (fun value => (cstr value, false)))) =
          min ((List.splitOn COLON (cstr p)).countP (fun a => same_name a n))
            (ctx.headers.countP (fun value => hdr_matches n (cstr value)))) ∧
      position_data sig.canon_headers (ctx.headers.map (fun value => (cstr value, false)))
        none = [] := by
  refine ⟨?_, selected_indices_length _ _, (selected_indices_unused _ _).2, ?_, ?_, rfl⟩
  · unfold verify_hash_data
    dsimp only
    rw [verify_headers_data_positions sig.canon_headers _ _ _ rfl]
  · intro pos i h
    obtain ⟨name, v, hn, hv, hm⟩ := selected_indices_match _ _ pos i h
    rw [List.get?_eq_getElem?, List.getElem?_map] at hv
    cases hg : ctx.headers[i]? with
    | none =>
      rw [hg] at hv
      simp at hv
    | some value =>
      rw [hg] at hv
      simp only [Option.map_some', Option.some.injEq, Prod.mk.injEq, and_true] at hv
      refine ⟨name, value, hn, ?_, ?_⟩
      · rw [List.get?_eq_getElem?]
        exact hg
      · rw [hv]
        exact hm
  · intro n
    have hu : ctx.headers.countP (fun value => hdr_matches n (cstr value)) =
        unused_matching n (ctx.headers.map (fun value => (cstr value, false))) := by
      unfold unused_matching
      rw [List.countP_map]
      congr 1
    rw [hu]
    by_cases hn : COLON ∈ n
    · have hz : ∀ a ∈ List.splitOn COLON (cstr p), same_name a n = false :=
        fun a ha => same_name_colon a n (splitOn_colon_free _ a ha) hn
      rw [selected_count_none n _ _ hz]
      have : (List.splitOn COLON (cstr p)).countP (fun a => same_name a n) = 0 := by
        rw [List.countP_eq_zero]
        intro a ha
        rw [hz a ha]
        simp
      rw [this]
      simp
    · exact selected_count_min n hn _ _ (splitOn_colon_free _)

/-- An instance of C28: `h=` names `To` twice and `From` once, the message
has one `To` header and two `From` headers; the first `To` position gets the
`To` header, the position of `from` the newest `From` header, and the second
`To` position nothing. -/
theorem over_signing_example :
    selected_indices (List.splitOn COLON (US "To:from:To"))
        [(US "From: a", false), (US "To: b", false), (US "From: c", false)] =
      [some 1, some 0, none] := by
  decide
/-! ## Ticking header names off the sign list -/

theorem join_list_cons (e : List Nat) (es : List (List Nat)) :
    join_list (e :: es) = if es = [] then e else e ++ COLON :: join_list es := by
  cases es with
  | nil => rfl
  | cons a as => rfl

theorem tick_entry_length (hname : List Nat) :
    ∀ es : List (List Nat), (tick_entry hname es).2.length = es.length
  | [] => rfl
  | e :: es => by
      unfold tick_entry
      split
      · rfl
      · simp [tick_entry_length hname es]

theorem plain_entries_tail (e : List Nat) (es : List (List Nat))
    (h : plain_entries (e :: es)) : plain_entries es :=
  fun x hx => h x (List.mem_cons_of_mem _ hx)

theorem join_list_length (es : List (List Nat)) (h : plain_entries es) :
    es.length ≤ (join_list es).length := by
  induction es with
  | nil => simp [join_list]
  | cons e es ih =>
    have he : e ≠ [] := (h e (List.mem_cons_self _ _)).1
    have hl : 0 < e.length := List.length_pos.2 he
    have := ih (plain_entries_tail e es h)
    rw [join_list_cons]
    split
    · rename_i hes
      rw [hes]
      simp
      omega
    · simp
      omega

theorem cstr_join_list (es : List (List Nat)) (h : plain_entries es) :
    cstr (join_list es) = join_list es := by
  unfold cstr
  rw [List.takeWhile_eq_self_iff]
  intro c hc
  have : c ≠ 0 := by
    induction es with
    | nil => simp [join_list] at hc
    | cons e es ih =>
      rw [join_list_cons] at hc
      split at hc
      · exact ((h e (List.mem_cons_self _ _)).2 c hc).2.1
      · rcases List.mem_append.1 hc with h1 | h1
        · exact ((h e (List.mem_cons_self _ _)).2 c h1).2.1
        · rcases List.mem_cons.1 h1 with h2 | h2
          · rw [h2]
            decide
          · exact ih (plain_entries_tail e es h) h2
  simpa using this

/-- On a list of plain entries the tick loop does to the bytes what
`tick_entry` does to the entries. -/
theorem header_name_match_loop_entries (env : Env) (hs : SplitsLists env) (hname : List Nat) :
    ∀ (es : List (List Nat)) (fuel : Nat) (done : List Nat),
      plain_entries es → es.length < fuel →
      header_name_match_loop env hname fuel done (join_list es) =
        ((tick_entry hname es).1, done ++ join_list (tick_entry hname es).2)
  | [], fuel, done, _, hf => by
      obtain ⟨f, rfl⟩ : ∃ f, fuel = f + 1 := ⟨fuel - 1, by omega⟩
      unfold header_name_match_loop
      have : join_list [] = [] := rfl
      rw [this, hs.1]
      rfl
  | e :: es, fuel, done, hp, hf => by
      obtain ⟨f, rfl⟩ : ∃ f, fuel = f + 1 := ⟨fuel - 1, by simp at hf; omega⟩
      have he : e ≠ [] := (hp e (List.mem_cons_self _ _)).1
      unfold header_name_match_loop
      rw [hs.2 e es hp]
      dsimp only
      unfold tick_entry
      by_cases hm : strcmpic_eq (tick_name e) hname = true
      · rw [if_pos hm, if_pos hm]
        by_cases hmu : tick_multisign e = true
        · rw [if_pos hmu, if_pos hmu]
        · rw [if_neg hmu, if_neg hmu]
          obtain ⟨c, t, rfl⟩ := List.exists_cons_of_ne_nil he
          congr 2
          rw [join_list_cons, join_list_cons]
          split <;> rfl
      · rw [if_neg hm, if_neg hm]
        rw [header_name_match_loop_entries env hs hname es f _ (plain_entries_tail e es hp)
          (by simp at hf; omega)]
        congr 1
        rw [List.append_assoc]
        congr 1
        rw [join_list_cons, join_list_cons]
        cases es with
        | nil =>
          have : join_list [] = [] := rfl
          simp [tick_entry, this]
        | cons a as =>
          have h2 : (tick_entry hname (a :: as)).2 ≠ [] := by
            intro h0
            have := tick_entry_length hname (a :: as)
            rw [h0] at this
            simp at this
          rw [if_neg (by simp), if_neg h2]
          have hlen : (e ++ COLON :: join_list (a :: as)).length -
              (join_list (a :: as)).length = (e ++ [COLON]).length := by
            simp
            omega
          have happ : e ++ COLON :: join_list (a :: as) =
              (e ++ [COLON]) ++ join_list (a :: as) := by simp
          rw [hlen, happ, List.take_left']
          · simp
          · rfl

theorem tick_entry_fail (hname : List Nat) :
    ∀ es : List (List Nat), (tick_entry hname es).1 ≠ PDKIM_OK → (tick_entry hname es).2 = es
  | [], _ => rfl
  | e :: es, h => by
      unfold tick_entry at h ⊢
      split
      · rename_i hm
        rw [if_pos hm] at h
        exact absurd rfl h
      · rename_i hm
        rw [if_neg hm] at h
        dsimp only at h ⊢
        rw [tick_entry_fail hname es h]

theorem tick_entry_rc (hname : List Nat) :
    ∀ es : List (List Nat), (tick_entry hname es).1 ≠ PDKIM_OK →
      (tick_entry hname es).1 = PDKIM_FAIL
  | [], _ => rfl
  | e :: es, h => by
      unfold tick_entry at h ⊢
      split
      · rename_i hm
        rw [if_pos hm] at h
        exact absurd rfl h
      · rename_i hm
        rw [if_neg hm] at h
        exact tick_entry_rc hname es h

/-- The function `header_name_match` on a header with a colon and a list of
plain entries. -/
theorem header_name_match_entries (env : Env) (hs : SplitsLists env) (header : List Nat)
    (es : List (List Nat)) (hp : plain_entries es) (hc : COLON ∈ cstr header) :
    header_name_match env header (join_list es) =
      ((tick_entry (header_name header) es).1,
        join_list (tick_entry (header_name header) es).2) := by
  have hloop : header_name_match_loop env ((cstr header).takeWhile (fun c => c != COLON))
      ((cstr (join_list es)).length + 1) [] (cstr (join_list es)) =
      ((tick_entry (header_name header) es).1,
        join_list (tick_entry (header_name header) es).2) := by
    rw [cstr_join_list es hp,
      header_name_match_loop_entries env hs _ es _ [] hp
        (by have := join_list_length es hp; omega)]
    rfl
  unfold header_name_match
  rw [hloop]
  by_cases hok : (tick_entry (header_name header) es).1 = PDKIM_OK
  · rw [if_pos ⟨hc, hok⟩]
  · rw [if_neg (fun h => hok h.2), tick_entry_rc _ es hok, tick_entry_fail _ es hok,
      cstr_join_list es hp]

theorem tick_entry_ok_iff (hname : List Nat) :
    ∀ es : List (List Nat),
      (tick_entry hname es).1 = PDKIM_OK ↔ ∃ e ∈ es, strcmpic_eq (tick_name e) hname = true
  | [] => by
      simp only [tick_entry, List.not_mem_nil, false_and, exists_false, iff_false]
      intro h
      exact pdkim_rc.noConfusion h
  | e :: es => by
      unfold tick_entry
      by_cases hm : strcmpic_eq (tick_name e) hname = true
      · rw [if_pos hm]
        exact ⟨fun _ => ⟨e, List.mem_cons_self _ _, hm⟩, fun _ => rfl⟩
      · rw [if_neg hm]
        dsimp only
        rw [tick_entry_ok_iff hname es]
        constructor
        · rintro ⟨x, hx, h⟩
          exact ⟨x, List.mem_cons_of_mem _ hx, h⟩
        · rintro ⟨x, hx, h⟩
          rcases List.mem_cons.1 hx with e1 | h1
          · rw [e1] at h
            exact absurd h hm
          · exact ⟨x, h1, h⟩

theorem tick_entry_none (hname : List Nat) (es : List (List Nat))
    (h : ∀ e ∈ es, strcmpic_eq (tick_name e) hname = false) :
    tick_entry hname es = (PDKIM_FAIL, es) := by
  induction es with
  | nil => rfl
  | cons e es ih =>
    unfold tick_entry
    rw [if_neg (by rw [h e (List.mem_cons_self _ _)]; simp),
      ih (fun x hx => h x (List.mem_cons_of_mem _ hx))]

/-- The first entry that is the name ends the search. -/
theorem tick_entry_first (hname : List Nat) (pre : List (List Nat)) (e : List Nat)
    (rest : List (List Nat)) (hpre : ∀ x ∈ pre, strcmpic_eq (tick_name x) hname = false)
    (hm : strcmpic_eq (tick_name e) hname = true) :
    tick_entry hname (pre ++ e :: rest) =
      (PDKIM_OK, pre ++ (if tick_multisign e = true then e else UNDERSCORE :: e.tail) :: rest) := by
  induction pre with
  | nil =>
    rw [List.nil_append]
    unfold tick_entry
    rw [if_pos hm]
    rfl
  | cons a as ih =>
    rw [List.cons_append]
    unfold tick_entry
    rw [if_neg (by rw [hpre a (List.mem_cons_self _ _)]; simp),
      ih (fun x hx => hpre x (List.mem_cons_of_mem _ hx))]
    rfl

theorem tolower_underscore (c : Nat) (h : tolower c = UNDERSCORE) : c = UNDERSCORE := by
  unfold tolower at h
  unfold UNDERSCORE at h ⊢
  split at h <;> omega

/-- A ticked-off entry is the name only when the name begins with `_`. -/
theorem ticked_no_match (hname t : List Nat) (h : hname.head? ≠ some UNDERSCORE) :
    strcmpic_eq (tick_name (UNDERSCORE :: t)) hname = false := by
  have hn : tick_name (UNDERSCORE :: t) = UNDERSCORE :: t := by
    unfold tick_name tick_multisign
    rw [if_neg]
    simp [UNDERSCORE, EQUALS, PLUS]
  rw [hn]
  cases hname with
  | nil => simp [strcmpic_eq]
  | cons c cs =>
    cases hm : strcmpic_eq (UNDERSCORE :: t) (c :: cs) with
    | false => rfl
    | true =>
      exfalso
      unfold strcmpic_eq at hm
      simp only [List.map_cons, beq_iff_eq, List.cons.injEq] at hm
      have : tolower c = UNDERSCORE := by
        rw [← hm.1]
        rfl
      have := tolower_underscore c this
      rw [this] at h
      exact h rfl

theorem strcmpic_eq_trans (a b c : List Nat) (h : strcmpic_eq b c = true) :
    strcmpic_eq a b = strcmpic_eq a c := by
  unfold strcmpic_eq at h ⊢
  have : b.map tolower = c.map tolower := by simpa using h
  rw [this]

theorem plain_entries_ticked (pre : List (List Nat)) (e : List Nat) (rest : List (List Nat))
    (h : plain_entries (pre ++ e :: rest)) :
    plain_entries (pre ++ (UNDERSCORE :: e.tail) :: rest) := by
  intro x hx
  rcases List.mem_append.1 hx with h1 | h1
  · exact h x (List.mem_append_left _ h1)
  · rcases List.mem_cons.1 h1 with h2 | h2
    · have he := h e (List.mem_append_right _ (List.mem_cons_self _ _))
      rw [h2]
      refine ⟨by simp, ?_⟩
      intro c hc
      rcases List.mem_cons.1 hc with h3 | h3
      · rw [h3]
        decide
      · exact he.2 c (List.mem_of_mem_tail h3)
    · exact h x (List.mem_append_right _ (List.mem_cons_of_mem _ h2))
theorem takeWhile_append_sep (e rest : List Nat) (sep : Nat) (h : ∀ c ∈ e, c ≠ sep) :
    (e ++ sep :: rest).takeWhile (fun c => c != sep) = e ∧
      (e ++ sep :: rest).dropWhile (fun c => c != sep) = sep :: rest := by
  induction e with
  | nil => simp
  | cons c cs ih =>
    have hc : c ≠ sep := h c (List.mem_cons_self _ _)
    have := ih (fun x hx => h x (List.mem_cons_of_mem _ hx))
    simp [List.takeWhile_cons, List.dropWhile_cons, hc, this.1, this.2]

theorem takeWhile_no_sep (e : List Nat) (sep : Nat) (h : ∀ c ∈ e, c ≠ sep) :
    e.takeWhile (fun c => c != sep) = e ∧ e.dropWhile (fun c => c != sep) = [] := by
  induction e with
  | nil => simp
  | cons c cs ih =>
    have hc : c ≠ sep := h c (List.mem_cons_self _ _)
    have := ih (fun x hx => h x (List.mem_cons_of_mem _ hx))
    simp [List.takeWhile_cons, List.dropWhile_cons, hc, this.1, this.2]

/-- The environment of the concrete instances splits lists of plain entries
at their colons. -/
theorem example_env_splits : SplitsLists example_env := by
  refine ⟨rfl, ?_⟩
  intro e es hp
  have he := hp e (List.mem_cons_self _ _)
  have hne : join_list (e :: es) ≠ [] := by
    rw [join_list_cons]
    split
    · exact he.1
    · simp
  show (if join_list (e :: es) = [] then (none, [])
    else (some ((join_list (e :: es)).takeWhile (fun c => c != COLON)),
      ((join_list (e :: es)).dropWhile (fun c => c != COLON)).tail)) = _
  rw [if_neg hne, join_list_cons]
  split
  · rename_i h0
    rw [h0, (takeWhile_no_sep e COLON (fun c hc => (he.2 c hc).1)).1,
      (takeWhile_no_sep e COLON (fun c hc => (he.2 c hc).1)).2]
    rfl
  · rw [(takeWhile_append_sep e _ COLON (fun c hc => (he.2 c hc).1)).1,
      (takeWhile_append_sep e _ COLON (fun c hc => (he.2 c hc).1)).2]
    rfl

/-- C25, as it holds.  For an environment whose `string_nextinlist` splits
lists of plain entries at their colons, a header, and a tick list of plain
entries: `header_name_match` returns PDKIM_OK exactly when the header has a
colon and some entry of the list as it reads at the call is, a leading `+` or
`=` apart, the name of the header case-insensitively.  When the first such
entry has no prefix, its first byte is overwritten with `_`, and a second call
for a header of the same name returns PDKIM_FAIL provided that no later entry
is the name and that the name does not begin with `_`.  When the first such
entry has a prefix, the list is left unchanged, and a call for a header of
the same name on the unchanged list returns PDKIM_OK and leaves it unchanged
again, so that every later call does. -/
theorem C25_header_name_match (env : Env) (hs : SplitsLists env) (header header2 : List Nat)
    (es : List (List Nat)) (hp : plain_entries es) :
    ((header_name_match env header (join_list es)).1 = PDKIM_OK ↔
        COLON ∈ cstr header ∧
          ∃ e ∈ es, strcmpic_eq (tick_name e) (header_name header) = true) ∧
      (∀ pre e rest, es = pre ++ e :: rest →
        COLON ∈ cstr header → COLON ∈ cstr header2 →
        strcmpic_eq (header_name header2) (header_name header) = true →
        (∀ x ∈ pre, strcmpic_eq (tick_name x) (header_name header) = false) →
        strcmpic_eq (tick_name e) (header_name header) = true →
        (tick_multisign e = false →
          (header_name_match env header (join_list es)).2 =
              join_list (pre ++ (UNDERSCORE :: e.tail) :: rest) ∧
            ((∀ x ∈ rest, strcmpic_eq (tick_name x) (header_name header) = false) →
              (header_name header).head? ≠ some UNDERSCORE →
              (header_name_match env header2
                (header_name_match env header (join_list es)).2).1 = PDKIM_FAIL)) ∧
        (tick_multisign e = true →
          (header_name_match env header (join_list es)).2 = join_list es ∧
            header_name_match env header2 (join_list es) = (PDKIM_OK, join_list es))) := by
  refine ⟨?_, ?_⟩
  · by_cases hc : COLON ∈ cstr header
    · rw [header_name_match_entries env hs header es hp hc]
      dsimp only
      rw [tick_entry_ok_iff]
      exact ⟨fun h => ⟨hc, h⟩, fun h => h.2⟩
    · unfold header_name_match
      rw [if_neg (fun h => hc h.1)]
      exact ⟨fun h => pdkim_rc.noConfusion h, fun h => absurd h.1 hc⟩
  · intro pre e rest hes hc hc2 hsame hpre hm
    have hsame2 : ∀ x, strcmpic_eq (tick_name x) (header_name header2) =
        strcmpic_eq (tick_name x) (header_name header) :=
      fun x => strcmpic_eq_trans _ _ _ hsame
    rw [header_name_match_entries env hs header es hp hc, hes,
      tick_entry_first _ pre e rest hpre hm]
    dsimp only
    refine ⟨?_, ?_⟩
    · intro hmu
      rw [if_neg (by rw [hmu]; simp)]
      refine ⟨rfl, ?_⟩
      intro hrest hu
      rw [header_name_match_entries env hs header2 _
        (plain_entries_ticked pre e rest (hes ▸ hp)) hc2]
      dsimp only
      rw [tick_entry_none]
      intro x hx
      rw [hsame2]
      rcases List.mem_append.1 hx with h1 | h1
      · exact hpre x h1
      · rcases List.mem_cons.1 h1 with h2 | h2
        · rw [h2]
          exact ticked_no_match _ _ hu
        · exact hrest x h2
    · intro hmu
      rw [if_pos hmu]
      refine ⟨rfl, ?_⟩
      rw [header_name_match_entries env hs header2 _ (hes ▸ hp) hc2,
        tick_entry_first _ pre e rest (fun x hx => by rw [hsame2]; exact hpre x hx)
          (by rw [hsame2]; exact hm), if_pos hmu]

/-- C25 at a concrete input: the list `To:From` and the headers `From: a` and
`from: b`. -/
theorem C25_header_name_match_witness :
    SplitsLists example_env ∧ plain_entries [US "To", US "From"] ∧
      ((header_name_match example_env (US "From: a") (join_list [US "To", US "From"])).1 =
          PDKIM_OK ↔
        COLON ∈ cstr (US "From: a") ∧
          ∃ e ∈ [US "To", US "From"],
            strcmpic_eq (tick_name e) (header_name (US "From: a")) = true) :=
  ⟨example_env_splits, by unfold plain_entries; decide,
    (C25_header_name_match example_env example_env_splits (US "From: a") (US "from: b")
      [US "To", US "From"] (by unfold plain_entries; decide)).1⟩

/-- The claim C25 fails for a name that begins with `_`: the list `_a` holds
the name of the header `_a: 1` once and without a prefix; the first call
returns PDKIM_OK and writes `_` over `_`, so the list reads as before, and
the second call returns PDKIM_OK as well. -/
theorem C25_counterexample_underscore_name :
    header_name_match example_env (US "_a: 1") (US "_a") = (PDKIM_OK, US "_a") ∧
      (header_name_match example_env (US "_a: 1")
        (header_name_match example_env (US "_a: 1") (US "_a")).2).1 = PDKIM_OK := by
  decide
/-! ## Folding the signature header -/

theorem fold_step_none (l : List Nat) : l.foldl fold_step none = none := by
  induction l with
  | nil => rfl
  | cons c cs ih => exact ih

theorem appends_refl (col : Int) (str : List Nat) (h : col ≤ 78) : Appends col str (col, str) :=
  ⟨[], by simp, rfl, h⟩

theorem appends_trans (col : Int) (str : List Nat) (r r2 : Int × List Nat)
    (h1 : Appends col str r) (h2 : Appends r.1 r.2 r2) : Appends col str r2 := by
  obtain ⟨o1, e1, f1, _⟩ := h1
  obtain ⟨o2, e2, f2, b2⟩ := h2
  refine ⟨o1 ++ o2, ?_, ?_, b2⟩
  · rw [e2, e1, List.append_assoc]
  · rw [List.foldl_append, f1, f2]

theorem appends_cont (col : Int) (str : List Nat) : Appends col str (pdkim_hdr_cont str) :=
  ⟨[CR, LF, TAB], rfl, by simp [fold_step, CR, LF, TAB, pdkim_hdr_cont],
    by simp [pdkim_hdr_cont]⟩

theorem fold_bytes :
    ∀ (bytes : List Nat) (col : Int), CR ∉ bytes → LF ∉ bytes → col + bytes.length ≤ 78 →
      bytes.foldl fold_step (some (col, 0)) = some (col + bytes.length, 0)
  | [], col, _, _, _ => by simp
  | c :: cs, col, h1, h2, h3 => by
      have c1 : c ≠ CR := fun e => h1 (e ▸ List.mem_cons_self _ _)
      have c2 : c ≠ LF := fun e => h2 (e ▸ List.mem_cons_self _ _)
      have hl : ((c :: cs).length : Int) = cs.length + 1 := by simp
      rw [hl] at h3
      have hc : col + 1 ≤ 78 := by omega
      rw [List.foldl_cons]
      have hs : fold_step (some (col, 0)) c = some (col + 1, 0) := by
        unfold fold_step
        simp [c1, c2, hc]
      rw [hs, fold_bytes cs (col + 1) (fun h => h1 (List.mem_cons_of_mem _ h))
        (fun h => h2 (List.mem_cons_of_mem _ h)) (by omega), hl]
      congr 2
      omega

theorem appends_bytes (col : Int) (str bytes : List Nat) (h1 : CR ∉ bytes) (h2 : LF ∉ bytes)
    (h3 : col + bytes.length ≤ 78) : Appends col str (col + bytes.length, str ++ bytes) :=
  ⟨bytes, rfl, fold_bytes bytes col h1 h2 h3, h3⟩

theorem appends_payload_line (col : Int) (str : List Nat) (h : col ≤ 78) :
    Appends col str (payload_line col str) ∧ (payload_line col str).1 < 78 := by
  unfold payload_line
  split
  · exact ⟨appends_cont col str, by simp [pdkim_hdr_cont]⟩
  · exact ⟨appends_refl col str h, by dsimp only; omega⟩

theorem payload_chomp_range (col : Int) (len : Nat) (h : col < 78) (hl : 0 < len) :
    1 ≤ payload_chomp col len ∧ payload_chomp col len ≤ len ∧
      col + payload_chomp col len ≤ 78 := by
  unfold payload_chomp
  split <;> omega

/-- The loop over the payload appends a text that is folded. -/
theorem appends_payload :
    ∀ (fuel : Nat) (payload : List Nat) (col : Int) (str : List Nat),
      col ≤ 78 → CR ∉ payload → LF ∉ payload → payload.length ≤ fuel →
      Appends col str (headcat_payload fuel col str payload)
  | 0, payload, col, str, h, _, _, hf => by
      unfold headcat_payload
      exact appends_refl col str h
  | fuel + 1, payload, col, str, h, h1, h2, hf => by
      unfold headcat_payload
      by_cases hp : payload = []
      · rw [if_pos hp]
        exact appends_refl col str h
      · rw [if_neg hp]
        have hlen : 0 < payload.length := List.length_pos.2 hp
        obtain ⟨hline, hlt⟩ := appends_payload_line col str h
        obtain ⟨c1, c2, c3⟩ := payload_chomp_range (payload_line col str).1 payload.length hlt hlen
        generalize hk : payload_chomp (payload_line col str).1 payload.length = k at c1 c2 c3 ⊢
        have hkn : (k.toNat : Int) = k := Int.toNat_of_nonneg (by omega)
        have htl : (payload.take k.toNat).length = k.toNat := by
          rw [List.length_take]
          omega
        have hstep : Appends (payload_line col str).1 (payload_line col str).2
            ((payload_line col str).1 + k, (payload_line col str).2 ++ payload.take k.toNat) := by
          have := appends_bytes (payload_line col str).1 (payload_line col str).2
            (payload.take k.toNat) (fun hm => h1 (List.mem_of_mem_take hm))
            (fun hm => h2 (List.mem_of_mem_take hm)) (by rw [htl, hkn]; exact c3)
          rw [htl, hkn] at this
          exact this
        refine appends_trans col str _ _ (appends_trans col str _ _ hline hstep) ?_
        exact appends_payload fuel (payload.drop k.toNat) _ _ c3
          (fun hm => h1 (List.mem_of_mem_drop hm)) (fun hm => h2 (List.mem_of_mem_drop hm))
          (by rw [List.length_drop]; omega)

theorem appends_fit (len col : Int) (str : List Nat) (padded : Bool) (h : col ≤ 78) :
    Appends col str ((headcat_fit len col str padded).1, (headcat_fit len col str padded).2.1) := by
  unfold headcat_fit
  split
  · exact appends_cont col str
  · exact appends_refl col str h

theorem appends_simple (col : Int) (str payload : List Nat) (h : col ≤ 78)
    (h1 : CR ∉ payload) (h2 : LF ∉ payload) :
    Appends col str (headcat_simple col str payload) := by
  unfold headcat_simple
  have hf := appends_fit payload.length col str false h
  exact appends_trans col str _ _ hf
    (appends_payload _ payload _ _ hf.choose_spec.2.2 h1 h2 (Nat.le_refl _))

theorem headD_break_free (p : List Nat) (h : break_free p) :
    (cstr p).headD 0 ≠ CR ∧ (cstr p).headD 0 ≠ LF := by
  cases hp : cstr p with
  | nil => exact ⟨by decide, by decide⟩
  | cons c cs =>
    unfold break_free at h
    rw [hp] at h
    exact ⟨fun e => h.1 (e ▸ List.mem_cons_self _ _), fun e => h.2 (e ▸ List.mem_cons_self _ _)⟩

theorem appends_pad (col : Int) (str : List Nat) (pad : Option (List Nat)) (h : col ≤ 78)
    (hp : ∀ p, pad = some p → break_free p) :
    Appends col str ((headcat_pad col str pad).1, (headcat_pad col str pad).2.1) ∧
      ((headcat_pad col str pad).2.2.1 = true → (headcat_pad col str pad).1 = 1) := by
  unfold headcat_pad
  cases pad with
  | none => exact ⟨appends_refl col str h, fun e => Bool.noConfusion e⟩
  | some p =>
    dsimp only
    obtain ⟨b1, b2⟩ := headD_break_free p (hp p rfl)
    split
    · refine ⟨?_, fun e => Bool.noConfusion e⟩
      have := appends_bytes col str [(cstr p).headD 0] (by simpa using b1.symm)
        (by simpa using b2.symm) (by simpa using ‹col + 1 ≤ 78›)
      simpa using this
    · exact ⟨appends_cont col str, fun _ => rfl⟩

theorem appends_space (col : Int) (str : List Nat) (pad0 : Nat) (padset padded : Bool)
    (h : col ≤ 78) (hc : padset = true → col ≤ 76) (b1 : pad0 ≠ CR) (b2 : pad0 ≠ LF) :
    Appends col str (headcat_space col str pad0 padset padded) := by
  unfold headcat_space
  split
  · rename_i hps
    have := appends_bytes col str [pad0, SP]
      (by simp [b1.symm]; decide) (by simp [b2.symm]; decide)
      (by have := hc hps; simp; omega)
    simpa using this
  · split
    · rename_i hx
      have := appends_bytes col str [SP] (by decide) (by decide) (by simp; omega)
      simpa using this
    · exact appends_refl col str h

theorem appends_head (col : Int) (str : List Nat) (pad intro payload : Option (List Nat))
    (h : col ≤ 78) (hp : ∀ p, pad = some p → break_free p) :
    Appends col str (headcat_head col str pad intro payload) := by
  obtain ⟨hpad, hset⟩ := appends_pad col str pad h hp
  unfold headcat_head
  generalize hlen : ((if (headcat_pad col str pad).2.2.1 = true then (2 : Int)
        else if (headcat_pad col str pad).2.2.2 = true then 1 else 0) +
          opt_strlen intro + opt_strlen payload) = len
  have hfit := appends_fit len (headcat_pad col str pad).1 (headcat_pad col str pad).2.1
    (headcat_pad col str pad).2.2.2 hpad.choose_spec.2.2
  have hb : (cstr (pad.getD [])).headD 0 ≠ CR ∧ (cstr (pad.getD [])).headD 0 ≠ LF := by
    cases pad with
    | none => exact ⟨by decide, by decide⟩
    | some p => exact headD_break_free p (hp p rfl)
  refine appends_trans col str _ _ (appends_trans col str _ _ hpad hfit) ?_
  refine appends_space _ _ _ _ _ hfit.choose_spec.2.2 ?_ hb.1 hb.2
  intro hps
  have h1 := hset hps
  unfold headcat_fit
  split
  · simp [pdkim_hdr_cont]
  · dsimp only
    omega

theorem appends_intro (c : Int × List Nat) (intro : Option (List Nat)) (h : c.1 ≤ 78)
    (hi : ∀ i, intro = some i → break_free i) :
    Appends c.1 c.2 (headcat_intro c intro) := by
  unfold headcat_intro
  cases intro with
  | none => exact appends_refl c.1 c.2 h
  | some i => exact appends_simple c.1 c.2 (cstr i) h (hi i rfl).1 (hi i rfl).2

/-- The function `pdkim_headcat` appends a text that is folded. -/
theorem appends_headcat (col : Int) (str : List Nat) (pad intro payload : Option (List Nat))
    (h : col ≤ 78) (hp : ∀ p, pad = some p → break_free p)
    (hi : ∀ i, intro = some i → break_free i) (hy : ∀ y, payload = some y → break_free y) :
    Appends col str (pdkim_headcat col str pad intro payload) := by
  have hhead := appends_head col str pad intro payload h hp
  have hint := appends_intro (headcat_head col str pad intro payload) intro
    hhead.choose_spec.2.2 hi
  have h2 := appends_trans col str _ _ hhead hint
  unfold pdkim_headcat
  cases payload with
  | none => exact h2
  | some y =>
    dsimp only
    exact appends_trans col str _ _ h2
      (appends_payload _ (cstr y) _ _ hint.choose_spec.2.2 (hy y rfl).1 (hy y rfl).2
        (Nat.le_refl _))

theorem headcat_fit_unpadded (len col : Int) (str : List Nat) :
    (headcat_fit len col str false).2.2 = false := by
  unfold headcat_fit
  split <;> rfl

/-- The call `pdkim_headcat` makes for its `intro` is the function itself
with neither pad nor intro. -/
theorem headcat_simple_eq (col : Int) (str payload : List Nat) :
    pdkim_headcat col str none none (some payload) = headcat_simple col str (cstr payload) := by
  have hh : headcat_head col str none none (some payload) =
      ((headcat_fit (cstr payload).length col str false).1,
        (headcat_fit (cstr payload).length col str false).2.1) := by
    unfold headcat_head headcat_pad headcat_space opt_strlen
    have hz : ((0 : Int) + 0 + ((cstr payload).length : Int)) = (cstr payload).length := by
      simp
    simp only [Bool.false_eq_true, if_false, hz, headcat_fit_unpadded, false_and]
  unfold pdkim_headcat headcat_intro
  dsimp only
  rw [hh]
  rfl

/-- C30. For every starting column `col` up to 78, every string `str`, and
every `pad`, `intro` and `payload` (each NULL or a C string) without CR and
LF: the string `pdkim_headcat` returns is `str` with a text appended; read
from the starting column on, every line of that text has at most 78 bytes
without its CR LF, every CR and LF in it belongs to a line break CR LF TAB,
and the column at its end is the one the function leaves in `*col`, which is
at most 78. -/
theorem C30_headcat_folds (col : Int) (str : List Nat) (pad intro payload : Option (List Nat))
    (hcol : col ≤ 78) (hp : ∀ p, pad = some p → break_free p)
    (hi : ∀ i, intro = some i → break_free i) (hy : ∀ y, payload = some y → break_free y) :
    ∃ out, (pdkim_headcat col str pad intro payload).2 = str ++ out ∧
      folded_col col out = some (pdkim_headcat col str pad intro payload).1 ∧
      (pdkim_headcat col str pad intro payload).1 ≤ 78 := by
  obtain ⟨out, e, f, b⟩ := appends_headcat col str pad intro payload hcol hp hi hy
  refine ⟨out, e, ?_, b⟩
  unfold folded_col
  rw [f]

/-- C30 at a concrete input: at column 77 after the string `x`, the pad `;`,
the intro `d=` and the payload `example.com`. -/
theorem C30_headcat_folds_witness :
    (77 : Int) ≤ 78 ∧ break_free (US ";") ∧ break_free (US "d=") ∧
      break_free (US "example.com") ∧
      ∃ out, (pdkim_headcat 77 (US "x") (some (US ";")) (some (US "d="))
          (some (US "example.com"))).2 = US "x" ++ out ∧
        folded_col 77 out = some (pdkim_headcat 77 (US "x") (some (US ";")) (some (US "d="))
          (some (US "example.com"))).1 ∧
        (pdkim_headcat 77 (US "x") (some (US ";")) (some (US "d="))
          (some (US "example.com"))).1 ≤ 78 :=
  ⟨by decide, by unfold break_free; decide, by unfold break_free; decide,
    by unfold break_free; decide,
    C30_headcat_folds 77 (US "x") (some (US ";")) (some (US "d=")) (some (US "example.com"))
      (by decide) (fun p h => by cases h; unfold break_free; decide)
      (fun p h => by cases h; unfold break_free; decide)
      (fun p h => by cases h; unfold break_free; decide)⟩

/-- An instance of the folding: the pad still fits on the line, the tag and
its value go to a new line. -/
theorem headcat_example :
    pdkim_headcat 77 (US "x") (some (US ";")) (some (US "d=")) (some (US "example.com")) =
      (14, US "x;\r\n\td=example.com") := by
  decide
/-! ## The first loop of the signing branch -/

/-- The first loop of the signing branch in terms of the headers it
selects. -/
theorem sign_walk_eq (fenv : FinishEnv) (env : Env) (canon : Int) :
    ∀ (hdrs : List (List Nat)) (tick : List Nat) (g : Option (List Nat)) (data : List Nat),
      sign_walk fenv env canon hdrs tick g data =
        (sign_ticked env hdrs tick,
          append_names fenv g ((sign_matched env hdrs tick).map header_name),
          data ++ ((sign_matched env hdrs tick).map (canon_header canon)).flatten)
  | [], tick, g, data => by simp [sign_walk, sign_ticked, sign_matched, append_names]
  | rh :: rest, tick, g, data => by
      unfold sign_walk sign_ticked sign_matched
      by_cases h : (header_name_match env rh tick).1 = PDKIM_OK
      · rw [if_pos h, if_pos h, if_pos h, sign_walk_eq fenv env canon rest]
        simp [append_names, canon_header, List.append_assoc]
      · rw [if_neg h, if_neg h, if_neg h, sign_walk_eq fenv env canon rest]

/-- The selected headers are headers of the signature, in the order of its
list. -/
theorem sign_matched_sublist (env : Env) :
    ∀ (hdrs : List (List Nat)) (tick : List Nat), (sign_matched env hdrs tick).Sublist hdrs
  | [], _ => List.Sublist.slnil
  | rh :: rest, tick => by
      unfold sign_matched
      split
      · exact List.Sublist.cons₂ _ (sign_matched_sublist env rest _)
      · exact List.Sublist.cons _ (sign_matched_sublist env rest _)

theorem sign_leftover_eq (fenv : FinishEnv) :
    ∀ (l : List (List Nat)) (g : Option (List Nat)),
      sign_leftover fenv l g =
        append_names fenv g ((l.filter leftover_kept).map leftover_name)
  | [], g => rfl
  | s :: rest, g => by
      unfold sign_leftover
      by_cases h : (leftover_name s).head? ≠ some UNDERSCORE ∧
          (leftover_name s).head? ≠ some EQUALS
      · have hk : leftover_kept s = true := by
          unfold leftover_kept
          exact decide_eq_true h
        rw [if_pos h, sign_leftover_eq fenv rest, List.filter_cons_of_pos hk]
        rfl
      · have hk : ¬(leftover_kept s = true) := by
          unfold leftover_kept
          simpa using h
        rw [if_neg h, sign_leftover_eq fenv rest, List.filter_cons_of_neg hk]

theorem plain_entries_tick (hname : List Nat) :
    ∀ es : List (List Nat), plain_entries es → plain_entries (tick_entry hname es).2
  | [], h => h
  | e :: es, h => by
      unfold tick_entry
      split
      · split
        · exact h
        · exact plain_entries_ticked [] e es h
      · intro x hx
        rcases List.mem_cons.1 hx with h1 | h1
        · rw [h1]
          exact h e (List.mem_cons_self _ _)
        · exact plain_entries_tick hname es (plain_entries_tail e es h) x h1

/-- On a list of plain entries the first loop of the signing branch selects
the headers and leaves the list that `tick_walk` gives. -/
theorem sign_walk_entries (env : Env) (hs : SplitsLists env) :
    ∀ (hdrs : List (List Nat)) (es : List (List Nat)), plain_entries es →
      sign_matched env hdrs (join_list es) = (tick_walk hdrs es).1 ∧
        sign_ticked env hdrs (join_list es) = join_list (tick_walk hdrs es).2 ∧
        plain_entries (tick_walk hdrs es).2
  | [], es, hp => ⟨rfl, rfl, hp⟩
  | rh :: rest, es, hp => by
      unfold sign_matched sign_ticked tick_walk
      by_cases hc : COLON ∈ cstr rh
      · rw [header_name_match_entries env hs rh es hp hc]
        dsimp only
        by_cases hok : (tick_entry (header_name rh) es).1 = PDKIM_OK
        · rw [if_pos hok, if_pos hok, if_pos ⟨hc, hok⟩]
          obtain ⟨h1, h2, h3⟩ := sign_walk_entries env hs rest _
            (plain_entries_tick (header_name rh) es hp)
          exact ⟨by rw [h1], h2, h3⟩
        · rw [if_neg hok, if_neg hok, if_neg (fun h => hok h.2)]
          exact sign_walk_entries env hs rest es hp
      · have hf : (header_name_match env rh (join_list es)).1 ≠ PDKIM_OK := by
          unfold header_name_match
          rw [if_neg (fun h => hc h.1)]
          exact fun h => pdkim_rc.noConfusion h
        rw [if_neg hf, if_neg hf, if_neg (fun h => hc h.1)]
        exact sign_walk_entries env hs rest es hp

/-- One call of `header_name_match`, entry by entry: an entry stays as it is,
or it is the name, has no prefix, and gets `_` as its first byte. -/
theorem tick_entry_get (hname : List Nat) :
    ∀ (es : List (List Nat)) (i : Nat) (e : List Nat), es.get? i = some e →
      ((tick_entry hname es).2.get? i = some e ∨
        ((tick_entry hname es).2.get? i = some (UNDERSCORE :: e.tail) ∧
          tick_multisign e = false ∧ (tick_entry hname es).1 = PDKIM_OK ∧
          strcmpic_eq (tick_name e) hname = true)) ∧
      (strcmpic_eq (tick_name e) hname = false → (tick_entry hname es).2.get? i = some e)
  | [], i, e, h => by simp at h
  | a :: es, i, e, h => by
      unfold tick_entry
      by_cases hm : strcmpic_eq (tick_name a) hname = true
      · rw [if_pos hm]
        cases i with
        | zero =>
          simp only [List.get?_cons_zero, Option.some.injEq] at h
          subst h
          dsimp only
          refine ⟨?_, fun hn => by rw [hn] at hm; exact Bool.noConfusion hm⟩
          by_cases hmu : tick_multisign a = true
          · rw [if_pos hmu]
            exact Or.inl rfl
          · rw [if_neg hmu]
            exact Or.inr ⟨rfl, by simpa using hmu, rfl, hm⟩
        | succ j =>
          simp only [List.get?_cons_succ] at h ⊢
          exact ⟨Or.inl h, fun _ => h⟩
      · rw [if_neg hm]
        cases i with
        | zero =>
          simp only [List.get?_cons_zero, Option.some.injEq] at h ⊢
          exact ⟨Or.inl h, fun _ => h⟩
        | succ j =>
          simp only [List.get?_cons_succ] at h ⊢
          obtain ⟨h1, h2⟩ := tick_entry_get hname es j e h
          refine ⟨?_, h2⟩
          rcases h1 with h1 | ⟨h1, h3, h4, h5⟩
          · exact Or.inl h1
          · exact Or.inr ⟨h1, h3, h4, h5⟩

theorem tick_multisign_ticked (t : List Nat) : tick_multisign (UNDERSCORE :: t) = false := by
  simp [tick_multisign, UNDERSCORE, EQUALS, PLUS]

/-- The first loop of the signing branch, entry by entry: an entry stays as
it is, or it has no prefix, is the name of a selected header, and has `_` as
its first byte at the end; an entry that is the name of no header stays as it
is. -/
theorem tick_walk_get :
    ∀ (hdrs : List (List Nat)) (es : List (List Nat)) (i : Nat) (e : List Nat),
      es.get? i = some e →
      ((tick_walk hdrs es).2.get? i = some e ∨
        ((tick_walk hdrs es).2.get? i = some (UNDERSCORE :: e.tail) ∧
          tick_multisign e = false ∧
          ∃ h ∈ (tick_walk hdrs es).1, strcmpic_eq (tick_name e) (header_name h) = true)) ∧
      ((∀ h ∈ hdrs, strcmpic_eq (tick_name e) (header_name h) = false) →
        (tick_walk hdrs es).2.get? i = some e)
  | [], es, i, e, h => ⟨Or.inl h, fun _ => h⟩
  | rh :: rest, es, i, e, h => by
      unfold tick_walk
      by_cases hc : COLON ∈ cstr rh ∧ (tick_entry (header_name rh) es).1 = PDKIM_OK
      · rw [if_pos hc]
        dsimp only
        obtain ⟨h1, h2⟩ := tick_entry_get (header_name rh) es i e h
        refine ⟨?_, ?_⟩
        · rcases h1 with h1 | ⟨h1, h3, _, h5⟩
          · obtain ⟨k1, _⟩ := tick_walk_get rest _ i e h1
            rcases k1 with k1 | ⟨k1, k3, x, hx, k5⟩
            · exact Or.inl k1
            · exact Or.inr ⟨k1, k3, x, List.mem_cons_of_mem _ hx, k5⟩
          · obtain ⟨k1, _⟩ := tick_walk_get rest _ i (UNDERSCORE :: e.tail) h1
            have hk : (tick_walk rest (tick_entry (header_name rh) es).2).2.get? i =
                some (UNDERSCORE :: e.tail) := by
              rcases k1 with k1 | ⟨k1, _, _⟩
              · exact k1
              · exact k1
            exact Or.inr ⟨hk, h3, rh, List.mem_cons_self _ _, h5⟩
        · intro hall
          have h3 := h2 (hall rh (List.mem_cons_self _ _))
          exact (tick_walk_get rest _ i e h3).2 (fun x hx => hall x (List.mem_cons_of_mem _ hx))
      · rw [if_neg hc]
        obtain ⟨k1, k2⟩ := tick_walk_get rest es i e h
        refine ⟨?_, fun hall => k2 (fun x hx => hall x (List.mem_cons_of_mem _ hx))⟩
        rcases k1 with k1 | ⟨k1, k3, x, hx, k5⟩
        · exact Or.inl k1
        · exact Or.inr ⟨k1, k3, x, hx, k5⟩

theorem tick_walk_length :
    ∀ (hdrs : List (List Nat)) (es : List (List Nat)), (tick_walk hdrs es).2.length = es.length
  | [], _ => rfl
  | rh :: rest, es => by
      unfold tick_walk
      split
      · dsimp only
        rw [tick_walk_length rest, tick_entry_length]
      · exact tick_walk_length rest es

theorem tick_walk_sublist :
    ∀ (hdrs : List (List Nat)) (es : List (List Nat)), (tick_walk hdrs es).1.Sublist hdrs
  | [], _ => List.Sublist.slnil
  | rh :: rest, es => by
      unfold tick_walk
      split
      · exact List.Sublist.cons₂ _ (tick_walk_sublist rest _)
      · exact List.Sublist.cons _ (tick_walk_sublist rest _)
theorem join_list_head (e : List Nat) (es : List (List Nat)) (he : e ≠ []) :
    (join_list (e :: es)).head? = e.head? := by
  obtain ⟨c, t, rfl⟩ := List.exists_cons_of_ne_nil he
  rw [join_list_cons]
  split <;> rfl

theorem tick_walk_head (hdrs : List (List Nat)) (es : List (List Nat)) (hp : plain_entries es)
    (hp2 : plain_entries (tick_walk hdrs es).2) (h : (join_list es).head? ≠ some LESS) :
    (join_list (tick_walk hdrs es).2).head? ≠ some LESS := by
  cases es with
  | nil =>
    have hl := tick_walk_length hdrs []
    have : (tick_walk hdrs []).2 = [] := List.length_eq_zero.1 hl
    rw [this]
    exact h
  | cons e es =>
    have he : e ≠ [] := (hp e (List.mem_cons_self _ _)).1
    rw [join_list_head e es he] at h
    obtain ⟨k1, _⟩ := tick_walk_get hdrs (e :: es) 0 e rfl
    cases hw : (tick_walk hdrs (e :: es)).2 with
    | nil =>
      rw [hw] at k1
      simp at k1
    | cons a as =>
      rw [hw] at k1 hp2
      have ha : a ≠ [] := (hp2 a (List.mem_cons_self _ _)).1
      rw [join_list_head a as ha]
      simp only [List.get?_cons_zero, Option.some.injEq] at k1
      rcases k1 with k1 | ⟨k1, _, _⟩
      · rw [k1]
        exact h
      · rw [k1]
        simp [UNDERSCORE, LESS]

/-- The two loops of the signing branch on a sign list of plain entries. -/
theorem sign_collect_entries (fenv : FinishEnv) (env : Env) (hs : SplitsLists env)
    (hd : SplitsDefault fenv) (sig : pdkim_signature) (es : List (List Nat))
    (hp : plain_entries es) (hlt : (join_list es).head? ≠ some LESS)
    (hsh : sig.sign_headers = some (join_list es)) :
    (sign_collect fenv env sig).1.headernames =
        append_names fenv none
          ((tick_walk sig.headers es).1.map header_name ++
            ((tick_walk sig.headers es).2.filter leftover_kept).map leftover_name) ∧
      (sign_collect fenv env sig).1.sign_headers = some (join_list (tick_walk sig.headers es).2) ∧
      (sign_collect fenv env sig).2 =
        ((tick_walk sig.headers es).1.map (canon_header sig.canon_headers)).flatten := by
  obtain ⟨h1, h2, h3⟩ := sign_walk_entries env hs sig.headers es hp
  unfold sign_collect
  dsimp only
  rw [hsh]
  simp only [Option.getD_some, Option.map_some', cstr_join_list es hp, sign_walk_eq, h1, h2,
    List.nil_append]
  refine ⟨?_, trivial, trivial⟩
  rw [hd _ h3 (tick_walk_head sig.headers es hp h3 hlt), sign_leftover_eq]
  unfold append_names
  rw [List.foldl_append]

theorem leftover_kept_ticked (t : List Nat) : leftover_kept (UNDERSCORE :: t) = false := by
  simp [leftover_kept, leftover_name, UNDERSCORE, PLUS]

theorem leftover_kept_plain (e : List Nat) (h1 : tick_multisign e = false)
    (h2 : e.head? ≠ some UNDERSCORE) : leftover_kept e = true ∧ leftover_name e = e := by
  have hp : e.head? ≠ some PLUS ∧ e.head? ≠ some EQUALS := by
    unfold tick_multisign at h1
    simp only [Bool.or_eq_false_iff, beq_eq_false_iff_ne, ne_eq] at h1
    exact ⟨h1.2, h1.1⟩
  have hn : leftover_name e = e := by
    unfold leftover_name
    rw [if_neg hp.1]
  refine ⟨?_, hn⟩
  unfold leftover_kept
  rw [hn]
  exact decide_eq_true ⟨h2, hp.2⟩

/-- C26, as it holds.  In sign mode `pdkim_header_complete` puts a header
that is within the limit at the head of the list of every signature, so that
the list is in the reverse of the order of arrival, and the first loop of the
signing branch walks the list from its head: the headers it selects are a
sublist of that list, in its order, the bytes given to the header hash are
those of the selected headers in this order, each in relaxed form with CR LF
when the header canonicalisation is relaxed, and the names that `h=` gets
are those of the selected headers in this order, before what the second
loop appends. -/
theorem C26_sign_walk_order (fenv : FinishEnv) (env : Env) (ctx : pdkim_ctx)
    (sig : pdkim_signature) :
    (pdkim_header_complete env { ctx with mode_sign := true }).1.sig =
        (if PDKIM_MAX_HEADERS < ctx.num_headers + 1 then ctx.sig
         else ctx.sig.map (fun s => { s with headers := header_text env ctx :: s.headers })) ∧
      (sign_matched env sig.headers (cstr (sig.sign_headers.getD []))).Sublist sig.headers ∧
      (sign_collect fenv env sig).2 =
        ((sign_matched env sig.headers (cstr (sig.sign_headers.getD []))).map
          (canon_header sig.canon_headers)).flatten ∧
      (sign_collect fenv env sig).1.headernames =
        sign_leftover fenv
          (fenv.list_elements
            (sign_ticked env sig.headers (cstr (sig.sign_headers.getD []))) 0)
          (append_names fenv none
            ((sign_matched env sig.headers (cstr (sig.sign_headers.getD []))).map
              header_name)) := by
  refine ⟨?_, sign_matched_sublist env _ _, ?_, ?_⟩
  · unfold pdkim_header_complete
    dsimp only
    split
    · rfl
    · rfl
  · unfold sign_collect
    dsimp only
    rw [sign_walk_eq]
    simp
  · unfold sign_collect
    dsimp only
    rw [sign_walk_eq]

/-- C27, as it holds.  For an environment whose `string_nextinlist` splits
lists of plain entries at their colons, and a sign list of plain entries
that does not begin with `<`: the `h=` list that the signing branch builds
is made of the names of the selected headers in the order of the walk,
followed by every entry of the sign list as the first loop leaves it that,
taken without a leading `+`, begins neither with `_` nor with `=`.  Entry
by entry, the first loop leaves an entry as it is or, when it has no prefix
and is the name of a selected header, with `_` as its first byte; an entry
that is the name of no header of the message is left as it is.  An entry
with `_` as its first byte is not appended, and an entry without a prefix
that does not begin with `_` is appended as it is. -/
theorem C27_sign_headernames (fenv : FinishEnv) (env : Env) (hs : SplitsLists env)
    (hd : SplitsDefault fenv) (sig : pdkim_signature) (es : List (List Nat))
    (hp : plain_entries es) (hlt : (join_list es).head? ≠ some LESS)
    (hsh : sig.sign_headers = some (join_list es)) :
    (sign_collect fenv env sig).1.headernames =
        append_names fenv none
          ((tick_walk sig.headers es).1.map header_name ++
            ((tick_walk sig.headers es).2.filter leftover_kept).map leftover_name) ∧
      (tick_walk sig.headers es).1.Sublist sig.headers ∧
      (sign_collect fenv env sig).1.sign_headers =
        some (join_list (tick_walk sig.headers es).2) ∧
      (tick_walk sig.headers es).2.length = es.length ∧
      (∀ i e, es.get? i = some e →
        ((tick_walk sig.headers es).2.get? i = some e ∨
          ((tick_walk sig.headers es).2.get? i = some (UNDERSCORE :: e.tail) ∧
            tick_multisign e = false ∧
            ∃ h ∈ (tick_walk sig.headers es).1,
              strcmpic_eq (tick_name e) (header_name h) = true)) ∧
        ((∀ h ∈ sig.headers, strcmpic_eq (tick_name e) (header_name h) = false) →
          (tick_walk sig.headers es).2.get? i = some e)) ∧
      (∀ t, leftover_kept (UNDERSCORE :: t) = false) ∧
      (∀ e, tick_multisign e = false → e.head? ≠ some UNDERSCORE →
        leftover_kept e = true ∧ leftover_name e = e) := by
  obtain ⟨h1, h2, _⟩ := sign_collect_entries fenv env hs hd sig es hp hlt hsh
  exact ⟨h1, tick_walk_sublist _ _, h2, tick_walk_length _ _,
    fun i e h => tick_walk_get sig.headers es i e h, leftover_kept_ticked, leftover_kept_plain⟩
/-! ## The signature header that is built when signing -/

theorem grows_refl (l : List Nat) : l <+: l := ⟨[], List.append_nil l⟩

theorem grows_append (l m : List Nat) : l <+: l ++ m := ⟨m, rfl⟩

theorem grows_payload_line (col : Int) (str : List Nat) : str <+: (payload_line col str).2 := by
  unfold payload_line pdkim_hdr_cont
  split
  · exact grows_append _ _
  · exact grows_refl _

theorem grows_headcat_payload :
    ∀ (fuel : Nat) (col : Int) (str payload : List Nat),
      str <+: (headcat_payload fuel col str payload).2
  | 0, _, str, _ => grows_refl str
  | fuel + 1, col, str, payload => by
      unfold headcat_payload
      split
      · exact grows_refl str
      · exact ((grows_payload_line col str).trans (grows_append _ _)).trans
          (grows_headcat_payload fuel _ _ _)

theorem grows_headcat_fit (len col : Int) (str : List Nat) (padded : Bool) :
    str <+: (headcat_fit len col str padded).2.1 := by
  unfold headcat_fit pdkim_hdr_cont
  split
  · exact grows_append _ _
  · exact grows_refl _

theorem grows_headcat_simple (col : Int) (str payload : List Nat) :
    str <+: (headcat_simple col str payload).2 := by
  unfold headcat_simple
  exact (grows_headcat_fit _ col str false).trans (grows_headcat_payload _ _ _ _)

theorem grows_headcat_pad (col : Int) (str : List Nat) (pad : Option (List Nat)) :
    str <+: (headcat_pad col str pad).2.1 := by
  unfold headcat_pad pdkim_hdr_cont
  cases pad with
  | none => exact grows_refl _
  | some p =>
    dsimp only
    split
    · exact grows_append _ _
    · exact grows_append _ _

theorem grows_headcat_space (col : Int) (str : List Nat) (pad0 : Nat) (padset padded : Bool) :
    str <+: (headcat_space col str pad0 padset padded).2 := by
  unfold headcat_space
  split
  · exact grows_append _ _
  · split
    · exact grows_append _ _
    · exact grows_refl _

theorem grows_headcat_head (col : Int) (str : List Nat) (pad intro payload : Option (List Nat)) :
    str <+: (headcat_head col str pad intro payload).2 := by
  unfold headcat_head
  exact ((grows_headcat_pad col str pad).trans (grows_headcat_fit _ _ _ _)).trans
    (grows_headcat_space _ _ _ _ _)

theorem grows_headcat_intro (c : Int × List Nat) (intro : Option (List Nat)) :
    c.2 <+: (headcat_intro c intro).2 := by
  unfold headcat_intro
  cases intro with
  | none => exact grows_refl _
  | some i => exact grows_headcat_simple _ _ _

/-- The function `pdkim_headcat` keeps the string it is given and appends to
it. -/
theorem grows_headcat (col : Int) (str : List Nat) (pad intro payload : Option (List Nat)) :
    str <+: (pdkim_headcat col str pad intro payload).2 := by
  have h := (grows_headcat_head col str pad intro payload).trans
    (grows_headcat_intro (headcat_head col str pad intro payload) intro)
  unfold pdkim_headcat
  cases payload with
  | none => exact h
  | some p => exact h.trans (grows_headcat_payload _ _ _ _)

theorem grows_headcat_at (c : Int × List Nat) (pad intro payload : Option (List Nat)) :
    c.2 <+: (headcat_at c pad intro payload).2 :=
  grows_headcat c.1 c.2 pad intro payload

theorem grows_create_header_start (a_tag : List Nat) (q : Option (List Nat))
    (canon_all : List Nat) (sig : pdkim_signature) :
    US "DKIM-Signature: v=" ++ PDKIM_SIGNATURE_VERSION <+:
      (create_header_start a_tag q canon_all sig).2 := by
  unfold create_header_start
  refine List.IsPrefix.trans ?_ (grows_headcat_at _ _ _ _)
  refine List.IsPrefix.trans ?_ (grows_headcat_at _ _ _ _)
  refine List.IsPrefix.trans ?_ (grows_headcat_at _ _ _ _)
  refine List.IsPrefix.trans ?_ (grows_headcat_at _ _ _ _)
  exact grows_headcat_at
    (((US "DKIM-Signature: v=" ++ PDKIM_SIGNATURE_VERSION).length : Int),
      US "DKIM-Signature: v=" ++ PDKIM_SIGNATURE_VERSION) _ _ _

theorem grows_create_header_name (first : Bool) (c : Int × List Nat) (name : List Nat) :
    c.2 <+: (create_header_name first c name).2 := by
  unfold create_header_name
  split
  · exact grows_headcat_at _ _ _ _
  · exact (grows_headcat_at _ _ _ _).trans (grows_headcat_at _ _ _ _)

theorem grows_create_header_names :
    ∀ (fuel : Nat) (first : Bool) (c : Int × List Nat) (n : List Nat),
      c.2 <+: (create_header_names fuel first c n).2
  | 0, _, c, _ => grows_refl _
  | fuel + 1, first, c, n => by
      unfold create_header_names
      split
      · exact grows_refl _
      · split
        · exact (grows_create_header_name first c _).trans
            (grows_create_header_names fuel false _ _)
        · exact grows_create_header_name first c n

theorem grows_create_header_optional (sig : pdkim_signature) (c : Int × List Nat) :
    c.2 <+: (create_header_optional sig c).2 := by
  have hi : c.2 <+: (create_header_i sig c).2 := by
    unfold create_header_i
    split
    · exact grows_headcat_at _ _ _ _
    · exact grows_refl _
  have ht : ∀ c : Int × List Nat, c.2 <+: (create_header_t sig c).2 := by
    intro c
    unfold create_header_t
    split
    · exact grows_headcat_at _ _ _ _
    · exact grows_refl _
  have hx : ∀ c : Int × List Nat, c.2 <+: (create_header_x sig c).2 := by
    intro c
    unfold create_header_x
    split
    · exact grows_headcat_at _ _ _ _
    · exact grows_refl _
  have hl : ∀ c : Int × List Nat, c.2 <+: (create_header_l sig c).2 := by
    intro c
    unfold create_header_l
    split
    · exact grows_headcat_at _ _ _ _
    · exact grows_refl _
  unfold create_header_optional
  exact ((hi.trans (ht _)).trans (hx _)).trans (hl _)

theorem grows_create_header_end (b64encode : List Nat → List Nat) (sig : pdkim_signature)
    (final : Bool) (c : Int × List Nat) :
    c.2 <+: (create_header_end b64encode sig final c).2 := by
  unfold create_header_end
  split
  · exact (grows_headcat_at _ _ _ _).trans (grows_headcat_at _ _ _ _)
  · exact grows_headcat_at _ _ _ _

/-- A payload that fits on the line is appended in one piece. -/
theorem headcat_payload_fits (fuel : Nat) (col : Int) (str payload : List Nat)
    (hf : 0 < fuel) (hfit : col + payload.length ≤ 78) :
    (headcat_payload fuel col str payload).2 = str ++ payload := by
  obtain ⟨f, rfl⟩ : ∃ f, fuel = f + 1 := ⟨fuel - 1, by omega⟩
  unfold headcat_payload
  by_cases hp : payload = []
  · rw [if_pos hp, hp]
    simp
  · rw [if_neg hp]
    have hlen : 0 < payload.length := List.length_pos.2 hp
    have hline : payload_line col str = (col, str) := by
      unfold payload_line
      rw [if_neg (by omega)]
    have hchomp : payload_chomp col payload.length = payload.length := by
      unfold payload_chomp
      rw [if_neg (by omega)]
    rw [hline]
    dsimp only
    rw [hchomp]
    simp only [Int.toNat_ofNat, List.take_length, List.drop_length]
    cases f with
    | zero => rfl
    | succ k =>
      unfold headcat_payload
      rw [if_pos rfl]

/-- An intro of at most 77 bytes is appended in one piece. -/
theorem headcat_simple_suffix (col : Int) (str payload : List Nat) (hp : payload ≠ [])
    (hl : payload.length ≤ 77) : payload <:+ (headcat_simple col str payload).2 := by
  have hlen : 0 < payload.length := List.length_pos.2 hp
  unfold headcat_simple
  rw [headcat_payload_fits _ _ _ _ hlen]
  · exact List.suffix_append _ _
  · unfold headcat_fit pdkim_hdr_cont
    split
    · dsimp only
      omega
    · rename_i h
      dsimp only
      have : ¬(col + (payload.length : Int) > 78) := fun h2 => h ⟨by omega, h2⟩
      omega

/-- The preliminary signature header ends with `b=;`. -/
theorem create_header_end_suffix (b64encode : List Nat → List Nat) (sig : pdkim_signature)
    (c : Int × List Nat) : US "b=;" <:+ (create_header_end b64encode sig false c).2 := by
  unfold create_header_end
  rw [if_neg (by decide)]
  unfold headcat_at pdkim_headcat
  dsimp only
  have h0 : cstr ([] : List Nat) = [] := rfl
  rw [h0]
  unfold headcat_payload
  unfold headcat_intro
  dsimp only
  have h1 : cstr (US "b=;") = US "b=;" := by decide
  rw [h1]
  exact headcat_simple_suffix _ _ (US "b=;") (by decide) (by decide)

/-- What `pdkim_create_header` returns begins with the name of the header
and the version, and its preliminary form ends with `b=;`. -/
theorem create_header_shape (b64encode : List Nat → List Nat) (env : Env)
    (sig : pdkim_signature) (bh h : List Nat)
    (hh : create_header_with b64encode env sig bh false = some h) :
    US "DKIM-Signature: v=1" <+: h ∧ US "b=;" <:+ h := by
  unfold create_header_with at hh
  split at hh
  · simp only [Option.some.injEq] at hh
    rw [← hh]
    refine ⟨?_, create_header_end_suffix _ _ _⟩
    have hs : US "DKIM-Signature: v=1" = US "DKIM-Signature: v=" ++ PDKIM_SIGNATURE_VERSION := by
      decide
    rw [hs]
    exact ((((grows_create_header_start _ _ _ sig).trans
      (grows_create_header_names _ _ _ _)).trans (grows_headcat_at _ _ _ _)).trans
      (grows_create_header_optional sig _)).trans (grows_create_header_end _ _ _ _)
  · exact Option.noConfusion hh

theorem relax_header_no_break (x : List Nat) :
    CR ∉ pdkim_relax_header x false ∧ LF ∉ pdkim_relax_header x false := by
  have h := relaxHeader_shape (relaxHeaderInv_loop (x.take x.length))
    (pdkim_relax_header x false) (by simp [pdkim_relax_header, pdkim_relax_header_n])
  exact ⟨h.1.1, h.1.2.1⟩

/-- C29, as it holds.  In verify mode the bytes given to the header hash of a
signature that has an `h=` tag are those of the headers selected for the
positions of `h=`, followed by the signature header without the value of
`b=`; for a signature without `h=` nothing is given to the header hash.  In
sign mode, when `pdkim_create_header` has a result, the bytes are those of
the headers the sign list selects, in the order of the walk, followed by the
signature header that `pdkim_create_header` builds in its preliminary form,
which begins with `DKIM-Signature: v=1` and ends with `b=;`; when it has no
result there are none.  In both modes the signature header is given in
relaxed form when the header canonicalisation is relaxed, and as it is
otherwise; the relaxed form has neither CR nor LF. -/
theorem C29_header_hash_data (fenv : FinishEnv) (env : Env) (ctx : pdkim_ctx)
    (sig : pdkim_signature) (p : List Nat) :
    verify_hash_data ctx { sig with headernames := some p } =
        ((selected_indices (List.splitOn COLON (cstr p))
            (ctx.headers.map (fun value => (cstr value, false)))).map
          (position_data sig.canon_headers
            (ctx.headers.map (fun value => (cstr value, false))))).flatten ++
          cstr (if sig.canon_headers = PDKIM_CANON_RELAXED then
              pdkim_relax_header (cstr sig.rawsig_no_b_val) false
            else sig.rawsig_no_b_val) ∧
      verify_hash_data ctx { sig with headernames := none } = [] ∧
      (∀ h, pdkim_create_header fenv env ctx (sign_collect fenv env sig).1 false = some h →
        sign_hash_data fenv env ctx sig =
            some (((sign_matched env sig.headers (cstr (sig.sign_headers.getD []))).map
                (canon_header sig.canon_headers)).flatten ++
              cstr (if sig.canon_headers = PDKIM_CANON_RELAXED then
                  pdkim_relax_header (cstr h) false
                else h)) ∧
          US "DKIM-Signature: v=1" <+: h ∧ US "b=;" <:+ h) ∧
      (pdkim_create_header fenv env ctx (sign_collect fenv env sig).1 false = none →
        sign_hash_data fenv env ctx sig = none) ∧
      (∀ x, CR ∉ pdkim_relax_header x false ∧ LF ∉ pdkim_relax_header x false) := by
  refine ⟨?_, rfl, ?_, ?_, relax_header_no_break⟩
  · unfold verify_hash_data
    dsimp only
    rw [verify_headers_data_positions sig.canon_headers _ _ _ rfl]
  · intro h hh
    refine ⟨?_, ?_⟩
    · unfold sign_hash_data
      rw [hh]
      have hd : (sign_collect fenv env sig).2 =
          ((sign_matched env sig.headers (cstr (sig.sign_headers.getD []))).map
            (canon_header sig.canon_headers)).flatten := by
        unfold sign_collect
        dsimp only
        rw [sign_walk_eq]
        simp
      rw [hd]
      rfl
    · unfold pdkim_create_header at hh
      cases hb : sig_body_hash ctx (sign_collect fenv env sig).1 with
      | none =>
        rw [hb] at hh
        exact Option.noConfusion hh
      | some b =>
        rw [hb] at hh
        exact create_header_shape _ env _ _ h hh
  · intro hn
    unfold sign_hash_data
    rw [hn]
    rfl
theorem splitOn_join_list :
    ∀ es : List (List Nat), plain_entries es → es ≠ [] →
      List.splitOn COLON (join_list es) = es
  | [], _, h => absurd rfl h
  | e :: es, hp, _ => by
      have he := hp e (List.mem_cons_self _ _)
      have hfree : ∀ x ∈ e, ¬((fun c => c == COLON) x = true) := by
        intro x hx
        simpa using (he.2 x hx).1
      rw [join_list_cons]
      split
      · rename_i h0
        rw [h0]
        exact List.splitOnP_eq_single _ e hfree
      · rename_i h0
        have := List.splitOnP_first (fun c => c == COLON) e hfree COLON (beq_self_eq_true _) (join_list es)
        show List.splitOnP (fun c => c == COLON) (e ++ COLON :: join_list es) = _
        rw [this]
        congr 1
        exact splitOn_join_list es (plain_entries_tail e es hp) h0

/-- The setting of the concrete instances splits lists of plain entries at
their colons. -/
theorem example_pass_fenv_splits : SplitsDefault example_pass_fenv := by
  intro es hp _
  show (if join_list es = [] then [] else List.splitOn COLON (join_list es)) = es
  cases es with
  | nil => rfl
  | cons e es =>
    have hne : join_list (e :: es) ≠ [] := by
      have he := (hp e (List.mem_cons_self _ _)).1
      rw [join_list_cons]
      split
      · exact he
      · simp
    rw [if_neg hne]
    exact splitOn_join_list (e :: es) hp (by simp)

/-- C27 at a concrete input: the sign list `From:Subject` and a signature
with the headers `To: b` and `From: a`. -/
theorem C27_sign_headernames_witness :
    SplitsLists example_env ∧ SplitsDefault example_pass_fenv ∧
      plain_entries [US "From", US "Subject"] ∧
      (sign_collect example_pass_fenv example_env
        { sig_init with
          headers := [US "To: b\r\n", US "From: a\r\n"],
          sign_headers := some (join_list [US "From", US "Subject"]) }).1.headernames =
        append_names example_pass_fenv none
          ((tick_walk [US "To: b\r\n", US "From: a\r\n"] [US "From", US "Subject"]).1.map
              header_name ++
            ((tick_walk [US "To: b\r\n", US "From: a\r\n"]
              [US "From", US "Subject"]).2.filter leftover_kept).map leftover_name) :=
  ⟨example_env_splits, example_pass_fenv_splits, by unfold plain_entries; decide,
    (C27_sign_headernames example_pass_fenv example_env example_env_splits
      example_pass_fenv_splits
      { sig_init with
        headers := [US "To: b\r\n", US "From: a\r\n"],
        sign_headers := some (join_list [US "From", US "Subject"]) }
      [US "From", US "Subject"] (by unfold plain_entries; decide) (by decide) rfl).1⟩

set_option maxRecDepth 100000

/-- The claim C26 fails: a sign-mode context whose signature has the sign
list `From:To` is fed a `From:` header and then a `To:` header.  The list of
the signature holds the `To:` header first, `h=` reads `To:From`, and the
bytes given to the header hash, which the signature of the setting repeats,
begin with the `To:` header. -/
theorem C26_counterexample_reverse_order :
    (pdkim_feed_finish example_pass_fenv example_env
        (feed_calls example_env (example_signing_ctx (US "From:To") 0)
          [some example_two_headers])).map
      (fun r => r.1.sig.map (fun s => (s.headers, s.headernames, s.sighash))) =
      some [([US "To: b@example.com\r\n", US "From: a@example.com\r\n"], some (US "To:From"),
        some (US "To: b@example.com\r\nFrom: a@example.com\r\nDKIM-Signature: v=1; a=rsa-sha256; q=dns/txt; c=simple/simple; d=example.com;\r\n\ts=sel; h=To:From; bh=h; b=;"))] := by
  decide

/-- The claim C27 fails: with the sign list `=X:Subject` and a message that
has neither header, no entry is ticked off, the sign list reads as before,
and `h=` holds `Subject` only. -/
theorem C27_counterexample_equals_entry :
    (pdkim_feed_finish example_pass_fenv example_env
        (feed_calls example_env (example_signing_ctx (US "=X:Subject") 0)
          [some example_to_message])).map
      (fun r => r.1.sig.map (fun s => (s.sign_headers, s.headernames))) =
      some [(some (US "=X:Subject"), some (US "Subject"))] := by
  decide

/-- The claim C29 fails in verify mode for a signature without `h=`: the
signature of `example_no_h_message` comes out of `pdkim_finish_bodyhash`
without a verdict, so the loop of `pdkim_feed_finish` works on it; the
signature header without the value of `b=` is not empty, and nothing is
given to the header hash.  The verdict is INVALID with SIGNATURE_ERROR. -/
theorem C29_counterexample_no_h :
    (pdkim_finish_bodyhash example_pass_fenv
        (pdkim_feed_finish_flush example_env
          (fed_verify_ctx example_env example_no_h_message)).1).map
      (fun c => c.sig.map (fun s => (s.verify_status, s.headernames))) =
      some [(pdkim_verify_status.PDKIM_VERIFY_NONE, none)] ∧
    (pdkim_finish_bodyhash example_pass_fenv
        (pdkim_feed_finish_flush example_env
          (fed_verify_ctx example_env example_no_h_message)).1).map
      (fun c => c.sig.map (fun s => (s.rawsig_no_b_val, verify_hash_data c s))) =
      some [(US "DKIM-Signature: v=1; a=rsa-sha256; d=example.com; s=sel; bh=h; b=", [])] ∧
    (pdkim_feed_finish example_pass_fenv example_env
        (fed_verify_ctx example_env example_no_h_message)).map
      (fun r => r.1.sig.map (fun s => (s.verify_status, s.verify_ext_status))) =
      some [(pdkim_verify_status.PDKIM_VERIFY_INVALID,
        pdkim_verify_ext_status.PDKIM_VERIFY_INVALID_SIGNATURE_ERROR)] := by
  decide

/-! ## Small functions: `pdkim_strtrim`, hash names, the `a=` tag -/

theorem ustrncmp_is_prefix (s t : List Nat) (ht : 0 ∉ t) :
    Ustrncmp_eq s t (cstr s).length = decide (cstr s <+: t) := by
  have e1 : (cstr s ++ [0]).take (cstr s).length = cstr s := List.take_left' rfl
  unfold Ustrncmp_eq
  rw [e1, cstr_of_no_nul t ht]
  by_cases hp : cstr s <+: t
  · obtain ⟨r, hr⟩ := hp
    have e2 : (t ++ [0]).take (cstr s).length = cstr s := by
      rw [← hr, List.append_assoc, List.take_left' rfl]
    rw [e2, decide_eq_true ⟨r, hr⟩]
    simp
  · rw [decide_eq_false hp]
    cases hb : (cstr s == (t ++ [0]).take (cstr s).length) with
    | false => rfl
    | true =>
      exfalso
      have he : cstr s = (t ++ [0]).take (cstr s).length := by simpa using hb
      by_cases hl : (cstr s).length ≤ t.length
      · apply hp
        rw [he, List.take_append_of_le_length hl]
        exact List.take_prefix _ _
      · have hfull : (t ++ [0]).take (cstr s).length = t ++ [0] :=
          List.take_of_length_le (by simp; omega)
        have : (0 : Nat) ∈ cstr s := by
          rw [he, hfull]
          simp
        exact cstr_no_nul s this

/-- C35. The function `pdkim_hashname_to_hashtype` with a length of 0
compares only as many bytes as the string has: for a string shorter than
`2 ^ 32` bytes it returns the index of the first hash name that the string
is a beginning of, and -1 when there is none.  So it returns 0 for `sha`
and for the empty string, 1 for `sha2`, and 2 for `sha5`; for the three hash
names it returns their indices, and for `md5` it returns -1. -/
theorem C35_hashname_is_prefix_match :
    (∀ s, (cstr s).length < UINT_RANGE →
      pdkim_hashname_to_hashtype s 0 =
        match pdkim_hashes.findIdx? (fun t => decide (cstr s <+: t)) with
        | some i => (i : Int)
        | none => -1) ∧
      pdkim_hashname_to_hashtype (US "sha") 0 = 0 ∧
      pdkim_hashname_to_hashtype [] 0 = 0 ∧
      pdkim_hashname_to_hashtype (US "sha2") 0 = 1 ∧
      pdkim_hashname_to_hashtype (US "sha5") 0 = 2 ∧
      pdkim_hashname_to_hashtype (US "sha1") 0 = 0 ∧
      pdkim_hashname_to_hashtype (US "sha256") 0 = 1 ∧
      pdkim_hashname_to_hashtype (US "sha512") 0 = 2 ∧
      pdkim_hashname_to_hashtype (US "md5") 0 = -1 := by
  refine ⟨?_, by decide, by decide, by decide, by decide, by decide, by decide, by decide,
    by decide⟩
  intro s hs
  unfold pdkim_hashname_to_hashtype
  rw [if_pos rfl, Nat.mod_eq_of_lt hs]
  have e1 := ustrncmp_is_prefix s (US "sha1") (by decide)
  have e2 := ustrncmp_is_prefix s (US "sha256") (by decide)
  have e3 := ustrncmp_is_prefix s (US "sha512") (by decide)
  unfold pdkim_hashes
  simp only [List.findIdx?_cons, e1, e2, e3]
  rfl

/-- C36. The function `dkim_sig_to_a_tag` tests the key type and the hash
type with `>` against the number of entries of their tables, so a type that
equals that number passes the test and the table is read at an index behind
its last entry: for every signature whose key type is inside its table and
whose hash type is 3, the number of hash names, the function does not return
`err` and the entry of `pdkim_hashes` it reads does not exist; the same
holds for a hash type inside its table and a key type that equals the number
of key types.  Where both types are inside their tables the function
returns the two names with a dash between them, and where one of them is
below 0 or above the number of entries it returns `err`. -/
theorem C36_a_tag_reads_past_table (env : Env) (sig : pdkim_signature) :
    (0 ≤ sig.keytype → sig.keytype < (pdkim_keytypes env).length →
      dkim_sig_to_a_tag env { sig with hashtype := 3 } = none ∧
        dkim_sig_to_a_tag env { sig with hashtype := 3 } ≠ some (US "err") ∧
        pdkim_hashes.get? (3 : Int).toNat = none) ∧
      (0 ≤ sig.hashtype → sig.hashtype < (pdkim_hashes.length : Int) →
        dkim_sig_to_a_tag env { sig with keytype := (pdkim_keytypes env).length } = none ∧
          (pdkim_keytypes env).get? ((pdkim_keytypes env).length : Int).toNat = none) ∧
      (0 ≤ sig.keytype → sig.keytype < (pdkim_keytypes env).length →
        0 ≤ sig.hashtype → sig.hashtype < (pdkim_hashes.length : Int) →
        ∃ k h, (pdkim_keytypes env).get? sig.keytype.toNat = some k ∧
          pdkim_hashes.get? sig.hashtype.toNat = some h ∧
          dkim_sig_to_a_tag env sig = some (k ++ US "-" ++ h)) ∧
      (sig.keytype < 0 ∨ ((pdkim_keytypes env).length : Int) < sig.keytype ∨
          sig.hashtype < 0 ∨ (pdkim_hashes.length : Int) < sig.hashtype →
        dkim_sig_to_a_tag env sig = some (US "err")) ∧
      dkim_sig_to_a_tag example_env { sig_init with keytype := 0, hashtype := 3 } = none := by
  have hlen : (pdkim_hashes.length : Int) = 3 := rfl
  refine ⟨?_, ?_, ?_, ?_, by decide⟩
  · intro h0 h1
    have hn : dkim_sig_to_a_tag env { sig with hashtype := 3 } = none := by
      unfold dkim_sig_to_a_tag
      dsimp only
      rw [if_neg (by rw [hlen]; omega)]
      have : pdkim_hashes.get? (3 : Int).toNat = none := rfl
      rw [this]
      cases (pdkim_keytypes env).get? sig.keytype.toNat <;> rfl
    exact ⟨hn, by rw [hn]; exact fun h => Option.noConfusion h, rfl⟩
  · intro h0 h1
    have hg : (pdkim_keytypes env).get? ((pdkim_keytypes env).length : Int).toNat = none := by
      rw [Int.toNat_ofNat, List.get?_eq_none]
    refine ⟨?_, hg⟩
    unfold dkim_sig_to_a_tag
    dsimp only
    rw [if_neg (by omega), hg]
  · intro h0 h1 h2 h3
    have hk : sig.keytype.toNat < (pdkim_keytypes env).length := by omega
    have hh : sig.hashtype.toNat < pdkim_hashes.length := by
      have : (pdkim_hashes.length : Int) = 3 := rfl
      omega
    refine ⟨(pdkim_keytypes env).get ⟨_, hk⟩, pdkim_hashes.get ⟨_, hh⟩,
      List.get?_eq_get hk, List.get?_eq_get hh, ?_⟩
    unfold dkim_sig_to_a_tag
    rw [if_neg (by omega), List.get?_eq_get hk, List.get?_eq_get hh]
  · intro h
    unfold dkim_sig_to_a_tag
    rw [if_pos h]

theorem get?_last_of_append_nul (l : List Nat) (h : l ≠ []) :
    (l ++ [0]).get? (l.length - 1) = some (l.getLast?.getD 0) := by
  have hl : 0 < l.length := List.length_pos.2 h
  rw [List.get?_eq_getElem?, List.getElem?_append_left (by omega),
    List.getLast?_eq_getElem?]
  cases hg : l[l.length - 1]? with
  | none =>
    rw [List.getElem?_eq_none_iff] at hg
    omega
  | some x => rfl

/-- C37. In a round of `pdkim_parse_pubkey_record` for an element with a `=`
the white space test reads `val` at the index `Ustrlen(val)-1`, which is the
last byte of the element.  For an element with an empty value the index is
-1, the byte before the start of the value: the `=` for the elements `p=`
and `n=`, and the space for the element `p= `, where the test then holds and
the value goes through the trimming.  For an element with a value that is
not empty the index is inside the value. -/
theorem C37_value_test_index :
    (∀ env tspec, EQUALS ∈ tspec →
      pubkey_val_at tspec (pubkey_test_index tspec) = some (tspec.getLast?.getD 0) ∧
        pubkey_value env tspec =
          if isspace ((pubkey_val_at tspec (pubkey_test_index tspec)).getD 0) = true then
            env.trim_trailing_space (pubkey_val tspec)
          else some (pubkey_val tspec)) ∧
      (∀ tspec, pubkey_val tspec = [] → pubkey_test_index tspec = -1) ∧
      (∀ tspec, pubkey_val tspec ≠ [] →
        0 ≤ pubkey_test_index tspec ∧
          pubkey_test_index tspec < ((pubkey_val tspec).length : Int)) ∧
      pubkey_elements (US "p=") = [US "p="] ∧
      pubkey_val (US "p=") = [] ∧ pubkey_test_index (US "p=") = -1 ∧
      pubkey_val_at (US "p=") (-1) = some EQUALS ∧
      pubkey_elements (US "n=;") = [US "n=", []] ∧
      pubkey_test_index (US "n=") = -1 ∧ pubkey_val_at (US "n=") (-1) = some EQUALS ∧
      pubkey_val (US "p= ") = [] ∧ pubkey_test_index (US "p= ") = -1 ∧
      pubkey_val_at (US "p= ") (-1) = some SP ∧
      pubkey_value example_env (US "p= ") = example_env.trim_trailing_space [] := by
  refine ⟨?_, ?_, ?_, by decide, by decide, by decide, by decide, by decide, by decide,
    by decide, by decide, by decide, by decide, by decide⟩
  · intro env tspec he
    have hne : tspec ≠ [] := List.ne_nil_of_mem he
    have hl : 0 < tspec.length := List.length_pos.2 hne
    have hat : pubkey_val_at tspec (pubkey_test_index tspec) =
        some (tspec.getLast?.getD 0) := by
      unfold pubkey_val_at pubkey_test_index
      have : ((tspec.length : Int) - (pubkey_val tspec).length +
          (((pubkey_val tspec).length : Int) - 1)).toNat = tspec.length - 1 := by
        omega
      rw [this]
      exact get?_last_of_append_nul tspec hne
    refine ⟨hat, ?_⟩
    rw [hat]
    rfl
  · intro tspec h
    unfold pubkey_test_index
    rw [h]
    rfl
  · intro tspec h
    have hl : 0 < (pubkey_val tspec).length := List.length_pos.2 h
    unfold pubkey_test_index
    omega

/-! ## What `pdkim_headcat` appends -/

theorem strip_breaks_cons (c : Nat) (x : List Nat) (h : c ≠ CR) :
    strip_breaks (c :: x) = c :: strip_breaks x := by
  cases x with
  | nil => rfl
  | cons d x =>
    cases x with
    | nil => rfl
    | cons e x =>
      rw [strip_breaks, if_neg (fun hc => h hc.1)]

theorem strip_breaks_piece (p rest : List Nat) (h : CR ∉ p) :
    strip_breaks (p ++ rest) = p ++ strip_breaks rest := by
  induction p with
  | nil => rfl
  | cons c p ih =>
    have hc : c ≠ CR := fun e => h (e ▸ List.mem_cons_self _ _)
    rw [List.cons_append, strip_breaks_cons c _ hc, ih (fun hm => h (List.mem_cons_of_mem _ hm))]
    rfl

theorem strip_breaks_break (rest : List Nat) :
    strip_breaks ([CR, LF, TAB] ++ rest) = strip_breaks rest := by
  show strip_breaks (CR :: LF :: TAB :: rest) = _
  rw [strip_breaks, if_pos ⟨rfl, rfl, rfl⟩]

theorem strip_breaks_pieces :
    ∀ pieces : List (List Nat), (∀ p ∈ pieces, p = [CR, LF, TAB] ∨ CR ∉ p) →
      strip_breaks pieces.flatten = (pieces.filter (fun p => p != [CR, LF, TAB])).flatten
  | [], _ => rfl
  | p :: ps, h => by
      have ih := strip_breaks_pieces ps (fun q hq => h q (List.mem_cons_of_mem _ hq))
      rw [List.flatten_cons]
      by_cases hb : p = [CR, LF, TAB]
      · rw [hb, strip_breaks_break, ih, List.filter_cons_of_neg (by simp)]
      · have hp : CR ∉ p := (h p (List.mem_cons_self _ _)).resolve_left hb
        rw [strip_breaks_piece p _ hp, ih, List.filter_cons_of_pos (by simpa using hb),
          List.flatten_cons]

theorem text_refl (str : List Nat) (col : Int) : AppendsText str (col, str) [] :=
  ⟨[], by simp, by simp, rfl⟩

theorem text_trans (str : List Nat) (r r2 : Int × List Nat) (a b : List Nat)
    (h1 : AppendsText str r a) (h2 : AppendsText r.2 r2 b) : AppendsText str r2 (a ++ b) := by
  obtain ⟨p1, e1, c1, f1⟩ := h1
  obtain ⟨p2, e2, c2, f2⟩ := h2
  refine ⟨p1 ++ p2, ?_, ?_, ?_⟩
  · rw [e2, e1, List.flatten_append, List.append_assoc]
  · intro p hp
    rcases List.mem_append.1 hp with h | h
    · exact c1 p h
    · exact c2 p h
  · rw [List.filter_append, List.flatten_append, f1, f2]

theorem text_cont (str : List Nat) : AppendsText str (pdkim_hdr_cont str) [] :=
  ⟨[[CR, LF, TAB]], by simp [pdkim_hdr_cont], by simp, by simp⟩

theorem text_bytes (str bytes : List Nat) (col : Int) (h : CR ∉ bytes) :
    AppendsText str (col, str ++ bytes) bytes := by
  by_cases hb : bytes = [CR, LF, TAB]
  · exact absurd (hb ▸ List.mem_cons_self _ _ : CR ∈ bytes) h
  · exact ⟨[bytes], by simp, by simp [h], by simp [hb]⟩

theorem text_payload_line (col : Int) (str : List Nat) :
    AppendsText str (payload_line col str) [] := by
  unfold payload_line
  split
  · exact text_cont str
  · exact text_refl str col

/-- The loop over the payload appends the payload, and nothing else but line
breaks. -/
theorem text_payload :
    ∀ (fuel : Nat) (payload : List Nat) (col : Int) (str : List Nat),
      CR ∉ payload → payload.length ≤ fuel →
      AppendsText str (headcat_payload fuel col str payload) payload
  | 0, payload, col, str, _, hf => by
      have : payload = [] := List.length_eq_zero.1 (by omega)
      rw [this]
      unfold headcat_payload
      exact text_refl str col
  | fuel + 1, payload, col, str, h1, hf => by
      unfold headcat_payload
      by_cases hp : payload = []
      · rw [if_pos hp, hp]
        exact text_refl str col
      · rw [if_neg hp]
        have hlen : 0 < payload.length := List.length_pos.2 hp
        have hlt : (payload_line col str).1 < 78 := by
          unfold payload_line pdkim_hdr_cont
          split
          · dsimp only
            omega
          · dsimp only
            omega
        obtain ⟨c1, c2, _⟩ := payload_chomp_range (payload_line col str).1 payload.length hlt hlen
        generalize hk : payload_chomp (payload_line col str).1 payload.length = k at c1 c2 ⊢
        have hstep : AppendsText (payload_line col str).2
            ((payload_line col str).1 + k, (payload_line col str).2 ++ payload.take k.toNat)
            (payload.take k.toNat) :=
          text_bytes _ _ _ (fun hm => h1 (List.mem_of_mem_take hm))
        have hrest := text_payload fuel (payload.drop k.toNat) ((payload_line col str).1 + k)
          ((payload_line col str).2 ++ payload.take k.toNat)
          (fun hm => h1 (List.mem_of_mem_drop hm)) (by rw [List.length_drop]; omega)
        have h := text_trans str _ _ _ _
          (text_trans str _ _ _ _ (text_payload_line col str) hstep) hrest
        rw [List.nil_append, List.take_append_drop] at h
        exact h

theorem text_fit (len col : Int) (str : List Nat) (padded : Bool) :
    AppendsText str
      ((headcat_fit len col str padded).1, (headcat_fit len col str padded).2.1) [] := by
  unfold headcat_fit
  split
  · exact text_cont str
  · exact text_refl str col

theorem text_simple (col : Int) (str payload : List Nat) (h : CR ∉ payload) :
    AppendsText str (headcat_simple col str payload) payload := by
  unfold headcat_simple
  have := text_trans str _ _ _ _ (text_fit payload.length col str false)
    (text_payload payload.length payload
      (headcat_fit (↑payload.length) col str false).1
      (headcat_fit (↑payload.length) col str false).2.1 h (Nat.le_refl _))
  rw [List.nil_append] at this
  exact this

/-- The first three statements of `pdkim_headcat` append the first byte of
the pad, if there is a pad, and at most one space after it. -/
theorem text_head (col : Int) (str : List Nat) (pad intro payload : Option (List Nat))
    (hp : ∀ p, pad = some p → break_free p) :
    ∃ sp, (sp = [] ∨ (sp = [SP] ∧ pad.isSome = true)) ∧
      AppendsText str (headcat_head col str pad intro payload)
        ((pad.map (fun p => (cstr p).headD 0)).toList ++ sp) := by
  unfold headcat_head
  generalize ((if (headcat_pad col str pad).2.2.1 = true then (2 : Int)
        else if (headcat_pad col str pad).2.2.2 = true then 1 else 0) +
          opt_strlen intro + opt_strlen payload) = len
  cases pad with
  | none =>
    refine ⟨[], Or.inl rfl, ?_⟩
    have hpad : headcat_pad col str none = (col, str, false, false) := rfl
    rw [hpad]
    dsimp only
    have hs : ∀ c s, headcat_space c s ((cstr ((none : Option (List Nat)).getD [])).headD 0) false
        (headcat_fit len col str false).2.2 = (c, s) := by
      intro c s
      unfold headcat_space
      rw [if_neg (by decide), headcat_fit_unpadded, if_neg (by simp)]
    rw [hs]
    exact text_fit len col str false
  | some p =>
    have hb := headD_break_free p (hp p rfl)
    have hcr : CR ∉ [(cstr p).headD 0] := by simpa using hb.1.symm
    by_cases hc : col + 1 ≤ 78
    · have hpad : headcat_pad col str (some p) =
          (col + 1, str ++ [(cstr p).headD 0], false, true) := by
        unfold headcat_pad
        dsimp only
        rw [if_pos hc]
      rw [hpad]
      dsimp only
      have h1 : AppendsText str (col + 1, str ++ [(cstr p).headD 0]) [(cstr p).headD 0] :=
        text_bytes str _ _ hcr
      have h2 := text_fit len (col + 1) (str ++ [(cstr p).headD 0]) true
      have h12 := text_trans str _ _ _ _ h1 h2
      rw [List.append_nil] at h12
      unfold headcat_space
      rw [if_neg (by decide)]
      split
      · refine ⟨[SP], Or.inr ⟨rfl, rfl⟩, ?_⟩
        exact text_trans str _ _ _ _ h12 (text_bytes _ [SP] _ (by decide))
      · refine ⟨[], Or.inl rfl, ?_⟩
        simpa using h12
    · have hpad : headcat_pad col str (some p) =
          ((pdkim_hdr_cont str).1, (pdkim_hdr_cont str).2, true, false) := by
        unfold headcat_pad
        dsimp only
        rw [if_neg hc]
      rw [hpad]
      dsimp only
      have h1 : AppendsText str (pdkim_hdr_cont str) [] := text_cont str
      have h2 := text_fit len (pdkim_hdr_cont str).1 (pdkim_hdr_cont str).2 false
      have h12 := text_trans str _ _ _ _ h1 h2
      unfold headcat_space
      rw [if_pos rfl]
      refine ⟨[SP], Or.inr ⟨rfl, rfl⟩, ?_⟩
      have h3 := text_bytes (headcat_fit len (pdkim_hdr_cont str).1 (pdkim_hdr_cont str).2
          false).2.1 [(cstr p).headD 0, SP]
        ((headcat_fit len (pdkim_hdr_cont str).1 (pdkim_hdr_cont str).2 false).1 + 2)
        (by
          intro hm
          rcases List.mem_cons.1 hm with e | e
          · exact hb.1 e.symm
          · simp [CR, SP] at e)
      have := text_trans str _ _ _ _ h12 h3
      simpa using this

theorem text_intro (c : Int × List Nat) (intro : Option (List Nat))
    (hi : ∀ i, intro = some i → break_free i) :
    AppendsText c.2 (headcat_intro c intro) (cstr (intro.getD [])) := by
  unfold headcat_intro
  cases intro with
  | none => exact text_refl c.2 c.1
  | some i => exact text_simple c.1 c.2 (cstr i) (hi i rfl).1

/-- C40. For every starting column, every string `str`, and every `pad`,
`intro` and `payload` (each NULL or a C string) without CR and LF,
`pdkim_headcat` has a result, and the string it returns is `str` with a text
appended that, with every sequence CR LF TAB taken out, is the first byte of
the pad (if a pad is given), then at most one space, which appears only
with a pad, then the intro, then the payload. -/
theorem C40_headcat_content (col : Int) (str : List Nat) (pad intro payload : Option (List Nat))
    (hp : ∀ p, pad = some p → break_free p) (hi : ∀ i, intro = some i → break_free i)
    (hy : ∀ y, payload = some y → break_free y) :
    ∃ out sp, (pdkim_headcat col str pad intro payload).2 = str ++ out ∧
      (sp = [] ∨ (sp = [SP] ∧ pad.isSome = true)) ∧
      strip_breaks out =
        (pad.map (fun p => (cstr p).headD 0)).toList ++ sp ++ cstr (intro.getD []) ++
          cstr (payload.getD []) := by
  obtain ⟨sp, hsp, hhead⟩ := text_head col str pad intro payload hp
  have hint := text_intro (headcat_head col str pad intro payload) intro hi
  have h2 := text_trans str _ _ _ _ hhead hint
  have h3 : AppendsText str (pdkim_headcat col str pad intro payload)
      ((pad.map (fun p => (cstr p).headD 0)).toList ++ sp ++ cstr (intro.getD []) ++
        cstr (payload.getD [])) := by
    unfold pdkim_headcat
    cases payload with
    | none =>
      have : cstr ((none : Option (List Nat)).getD []) = [] := rfl
      rw [this, List.append_nil]
      exact h2
    | some y =>
      dsimp only
      exact text_trans str _ _ _ _ h2
        (text_payload _ (cstr y) _ _ (hy y rfl).1 (Nat.le_refl _))
  obtain ⟨pieces, e, c, f⟩ := h3
  exact ⟨pieces.flatten, sp, e, hsp, by rw [strip_breaks_pieces pieces c, f]⟩

/-- C40 at a concrete input: at column 77 after the string `x`, the pad `;`,
the intro `d=` and the payload `example.com`. -/
theorem C40_headcat_content_witness :
    break_free (US ";") ∧ break_free (US "d=") ∧ break_free (US "example.com") ∧
      ∃ out sp, (pdkim_headcat 77 (US "x") (some (US ";")) (some (US "d="))
          (some (US "example.com"))).2 = US "x" ++ out ∧
        (sp = [] ∨ (sp = [SP] ∧ (some (US ";")).isSome = true)) ∧
        strip_breaks out =
          ((some (US ";")).map (fun p => (cstr p).headD 0)).toList ++ sp ++
            cstr ((some (US "d=")).getD []) ++ cstr ((some (US "example.com")).getD []) :=
  ⟨by unfold break_free; decide, by unfold break_free; decide,
    by unfold break_free; decide,
    C40_headcat_content 77 (US "x") (some (US ";")) (some (US "d=")) (some (US "example.com"))
      (fun p h => by cases h; unfold break_free; decide)
      (fun p h => by cases h; unfold break_free; decide)
      (fun p h => by cases h; unfold break_free; decide)⟩

/-! ## Relaxed header canonicalisation run on its own output -/

theorem tolower_tolower (c : Nat) : tolower (tolower c) = tolower c := by
  unfold tolower
  split_ifs <;> omega

theorem tolower_not_special (c : Nat) (h1 : ¬(c = CR ∨ c = LF)) (h2 : ¬(c = TAB ∨ c = SP)) :
    ¬(tolower c = CR ∨ tolower c = LF) ∧ ¬(tolower c = TAB ∨ tolower c = SP) := by
  unfold tolower
  unfold CR LF TAB SP at *
  split_ifs
  all_goals omega

/-- One iteration of the loop stores at most one byte. -/
theorem relax_header_step_length (s : RelaxHeaderState) (c : Nat) :
    (relax_header_step s c).relaxed.length ≤ s.relaxed.length + 1 := by
  unfold relax_header_step
  split_ifs <;> simp

/-- The loop stores at most as many bytes as it reads. -/
theorem relax_header_loop_length (bytes : List Nat) :
    (relax_header_loop bytes).relaxed.length ≤ bytes.length := by
  unfold relax_header_loop
  induction bytes using List.reverseRecOn with
  | nil => simp
  | append_singleton l a ih =>
    rw [List.foldl_append]
    have := relax_header_step_length
      (List.foldl relax_header_step
        { past_field_name := false, seen_wsp := false, relaxed := [] } l) a
    simp only [List.foldl_cons, List.foldl_nil, List.length_append, List.length_singleton]
    omega

theorem relax_header_loop_snoc (l : List Nat) (c : Nat) :
    relax_header_loop (l ++ [c]) = relax_header_step (relax_header_loop l) c := by
  unfold relax_header_loop
  rw [List.foldl_append]
  rfl

/-- When the loop run on `d` followed by a space has stored exactly that,
the loop run on `d` has stored `d` and has not just seen white space. -/
theorem relax_loop_before_space (d : List Nat) (s : RelaxHeaderState)
    (h : relax_header_loop (d ++ [SP]) = s) (hs : s.relaxed = d ++ [SP]) :
    (relax_header_loop d).relaxed = d ∧ (relax_header_loop d).seen_wsp = false ∧
      (relax_header_loop d).past_field_name = s.past_field_name := by
  rw [relax_header_loop_snoc] at h
  have hlen := relax_header_loop_length d
  generalize relax_header_loop d = t at h hlen
  unfold relax_header_step at h
  have e1 : ¬(SP = CR ∨ SP = LF) := by decide
  have e2 : SP = TAB ∨ SP = SP := Or.inr rfl
  rw [if_neg e1, if_pos e2] at h
  by_cases hw : t.seen_wsp = true
  · rw [if_pos hw] at h
    subst h
    rw [hs] at hlen
    simp at hlen
  · have hw' : t.seen_wsp = false := by simpa using hw
    rw [if_neg hw] at h
    have hlow : (if t.past_field_name = true then SP else tolower SP) = SP := by
      split <;> rfl
    subst h
    simp only [hlow] at hs
    exact ⟨List.append_cancel_right hs, hw', rfl⟩

/-- The loop run on what it has stored ends in the state it is in. -/
theorem relax_header_loop_fixed (bytes : List Nat) :
    relax_header_loop (relax_header_loop bytes).relaxed = relax_header_loop bytes := by
  induction bytes using List.reverseRecOn with
  | nil => rfl
  | append_singleton l a ih =>
    have inv := relaxHeaderInv_loop l
    rw [relax_header_loop_snoc]
    generalize relax_header_loop l = s at ih inv
    by_cases h1 : a = CR ∨ a = LF
    · have e : relax_header_step s a = s := by
        unfold relax_header_step
        rw [if_pos h1]
      rw [e, ih]
    by_cases h2 : a = TAB ∨ a = SP
    · by_cases hw : s.seen_wsp = true
      · have e : relax_header_step s a = s := by
          unfold relax_header_step
          rw [if_neg h1, if_pos h2, if_pos hw]
        rw [e, ih]
      · have hlow : (if s.past_field_name = true then SP else tolower SP) = SP := by
          split <;> rfl
        have e : relax_header_step s a =
            { s with seen_wsp := true, relaxed := s.relaxed ++ [SP] } := by
          unfold relax_header_step
          rw [if_neg h1, if_pos h2, if_neg hw]
          simp only [hlow]
        rw [e]
        show relax_header_loop (s.relaxed ++ [SP]) = _
        rw [relax_header_loop_snoc, ih]
        unfold relax_header_step
        rw [if_neg (by decide), if_pos (Or.inr rfl), if_neg hw]
        simp only [hlow]
    by_cases h3 : s.past_field_name = false ∧ a = COLON
    · obtain ⟨hp, ha⟩ := h3
      subst ha
      by_cases hw : s.seen_wsp = true
      · have hlast := inv.wspT hp hw
        have hsplit := getLast?_snoc_split hlast
        have e : relax_header_step s COLON =
            { past_field_name := true, seen_wsp := true,
              relaxed := s.relaxed.dropLast ++ [COLON] } := by
          unfold relax_header_step
          rw [if_neg h1, if_neg h2, if_pos ⟨hp, rfl⟩]
          simp only [hw, if_true]
        rw [e]
        show relax_header_loop (s.relaxed.dropLast ++ [COLON]) = _
        have ih' : relax_header_loop (s.relaxed.dropLast ++ [SP]) = s := by
          rw [← hsplit]
          exact ih
        obtain ⟨r1, r2, r3⟩ := relax_loop_before_space s.relaxed.dropLast s ih' hsplit
        rw [relax_header_loop_snoc]
        generalize relax_header_loop s.relaxed.dropLast = t at r1 r2 r3
        unfold relax_header_step
        rw [if_neg h1, if_neg h2, if_pos ⟨r3.trans hp, rfl⟩]
        simp only [r2, Bool.false_eq_true, if_false, r1]
      · have hw' : s.seen_wsp = false := by simpa using hw
        have e : relax_header_step s COLON =
            { past_field_name := true, seen_wsp := true,
              relaxed := s.relaxed ++ [COLON] } := by
          unfold relax_header_step
          rw [if_neg h1, if_neg h2, if_pos ⟨hp, rfl⟩]
          simp only [hw', Bool.false_eq_true, if_false]
        rw [e]
        show relax_header_loop (s.relaxed ++ [COLON]) = _
        rw [relax_header_loop_snoc, ih]
        exact e
    · have e : relax_header_step s a =
          { s with seen_wsp := false,
                   relaxed := s.relaxed ++ [if s.past_field_name = true then a else tolower a] } := by
        unfold relax_header_step
        rw [if_neg h1, if_neg h2, if_neg h3]
      rw [e]
      show relax_header_loop (s.relaxed ++ [_]) = _
      rw [relax_header_loop_snoc, ih]
      by_cases hp : s.past_field_name = true
      · simp only [hp, if_true]
        unfold relax_header_step
        rw [if_neg h1, if_neg h2, if_neg h3]
        simp only [hp, if_true]
      · have hp' : s.past_field_name = false := by simpa using hp
        simp only [hp', Bool.false_eq_true, if_false]
        have hns := tolower_not_special a h1 h2
        have hnc : ¬(s.past_field_name = false ∧ tolower a = COLON) := by
          rintro ⟨_, hc⟩
          exact h3 ⟨hp', tolower_colon a hc⟩
        unfold relax_header_step
        rw [if_neg hns.1, if_neg hns.2, if_neg hnc]
        simp only [hp', Bool.false_eq_true, if_false, tolower_tolower]

/-- The buffer left by the loop, with one trailing space squashed, is what
the loop stores when it reads that buffer, and it does not end with a
space. -/
theorem relax_header_squashed_fixed (bytes : List Nat) (q : List Nat)
    (hq : q = if (relax_header_loop bytes).relaxed.getLast? = some SP
      then (relax_header_loop bytes).relaxed.dropLast else (relax_header_loop bytes).relaxed) :
    (relax_header_loop q).relaxed = q ∧ q.getLast? ≠ some SP := by
  have inv := relaxHeaderInv_loop bytes
  have fx := relax_header_loop_fixed bytes
  generalize relax_header_loop bytes = s at hq inv fx
  by_cases hl : s.relaxed.getLast? = some SP
  · rw [if_pos hl] at hq
    have hsplit := getLast?_snoc_split hl
    have fx' : relax_header_loop (s.relaxed.dropLast ++ [SP]) = s := by
      rw [← hsplit]
      exact fx
    obtain ⟨r1, _, _⟩ := relax_loop_before_space s.relaxed.dropLast s fx' hsplit
    subst hq
    exact ⟨r1, getLast?_dropLast_ne_SP inv.chain hl⟩
  · rw [if_neg hl] at hq
    subst hq
    rw [fx]
    exact ⟨rfl, hl⟩

/-- C39: `pdkim_relax_header` is idempotent.  For every header `h`, relaxing
the result of `pdkim_relax_header(h, FALSE)` again with `FALSE` returns that
same result, and relaxing the result of `pdkim_relax_header(h, TRUE)` again
with `TRUE` returns that same result. -/
theorem C39_relax_header_idempotent (h : List Nat) :
    pdkim_relax_header (pdkim_relax_header h false) false = pdkim_relax_header h false ∧
    pdkim_relax_header (pdkim_relax_header h true) true = pdkim_relax_header h true := by
  have key : ∀ q : List Nat,
      q = (if (relax_header_loop h).relaxed.getLast? = some SP
        then (relax_header_loop h).relaxed.dropLast else (relax_header_loop h).relaxed) →
      pdkim_relax_header q false = q ∧ pdkim_relax_header (q ++ [CR, LF]) true = q ++ [CR, LF] := by
    intro q hq
    obtain ⟨f1, f2⟩ := relax_header_squashed_fixed h q hq
    have e2 : relax_header_loop (q ++ [CR, LF]) = relax_header_loop q := by
      have : q ++ [CR, LF] = (q ++ [CR]) ++ [LF] := by simp
      rw [this, relax_header_loop_snoc, relax_header_loop_snoc]
      unfold relax_header_step
      rw [if_pos (Or.inl rfl), if_pos (Or.inr rfl)]
    constructor
    · unfold pdkim_relax_header pdkim_relax_header_n
      simp only [List.take_length, f1, if_neg f2, Bool.false_eq_true, if_false]
    · unfold pdkim_relax_header pdkim_relax_header_n
      simp only [List.take_length, e2, f1, if_neg f2, if_true]
  have hf : pdkim_relax_header h false =
      (if (relax_header_loop h).relaxed.getLast? = some SP
        then (relax_header_loop h).relaxed.dropLast else (relax_header_loop h).relaxed) := by
    unfold pdkim_relax_header pdkim_relax_header_n
    simp only [List.take_length, Bool.false_eq_true, if_false]
  have ht : pdkim_relax_header h true =
      (if (relax_header_loop h).relaxed.getLast? = some SP
        then (relax_header_loop h).relaxed.dropLast else (relax_header_loop h).relaxed)
        ++ [CR, LF] := by
    unfold pdkim_relax_header pdkim_relax_header_n
    simp only [List.take_length, if_true]
  rw [hf, ht]
  exact key _ rfl

/-! ## Which lines a relaxed Body Hash buffers as blank -/

/-- The scan of a relaxed Body Hash over a line made of spaces and tabs up to
a NUL, to CR LF or to the end of the buffer finds the line blank. -/
theorem relaxed_blank_scan_blank :
    ∀ (ws rest : List Nat), (∀ x ∈ ws, x = SP ∨ x = TAB) →
      (rest = [] ∨ rest.head? = some 0 ∨ [CR, LF] <+: rest) →
      relaxed_blank_scan (ws ++ rest) = true
  | [], [], _, _ => rfl
  | [], c :: rest, _, h => by
      rcases h with h | h | h
      · cases h
      · simp only [List.head?_cons, Option.some.injEq] at h
        subst h
        simp [relaxed_blank_scan]
      · obtain ⟨t, ht⟩ := h
        simp only [List.cons_append, List.nil_append, List.cons.injEq] at ht
        obtain ⟨h1, h2⟩ := ht
        subst h1
        subst h2
        simp [relaxed_blank_scan, CR]
  | w :: ws, rest, hw, h => by
      have h1 : w = SP ∨ w = TAB := hw w (List.mem_cons_self _ _)
      have ih := relaxed_blank_scan_blank ws rest
        (fun x hx => hw x (List.mem_cons_of_mem _ hx)) h
      have e0 : w ≠ 0 := by rcases h1 with h1 | h1 <;> subst h1 <;> decide
      have e1 : w ≠ CR := by rcases h1 with h1 | h1 <;> subst h1 <;> decide
      have e2 : ¬(w ≠ SP ∧ w ≠ TAB) := by
        rintro ⟨a, b⟩
        rcases h1 with h1 | h1
        · exact a h1
        · exact b h1
      simp only [List.cons_append, relaxed_blank_scan, if_neg e0, e1, false_and, if_false,
        if_neg e2]
      exact ih

/-- A line the scan of a relaxed Body Hash finds blank is made of spaces and
tabs up to a NUL, to CR LF or to the end of the buffer. -/
theorem relaxed_blank_scan_true :
    ∀ (line : List Nat), relaxed_blank_scan line = true →
      ∃ ws rest, line = ws ++ rest ∧ (∀ x ∈ ws, x = SP ∨ x = TAB) ∧
        (rest = [] ∨ rest.head? = some 0 ∨ [CR, LF] <+: rest)
  | [], _ => ⟨[], [], rfl, by simp, Or.inl rfl⟩
  | c :: rest, h => by
      unfold relaxed_blank_scan at h
      by_cases h0 : c = 0
      · exact ⟨[], c :: rest, rfl, by simp, Or.inr (Or.inl (by simp [h0]))⟩
      rw [if_neg h0] at h
      by_cases h1 : c = CR ∧ rest.head? = some LF
      · refine ⟨[], c :: rest, rfl, by simp, Or.inr (Or.inr ?_)⟩
        obtain ⟨a, b⟩ := h1
        subst a
        cases rest with
        | nil => simp at b
        | cons d t =>
          simp only [List.head?_cons, Option.some.injEq] at b
          subst b
          exact ⟨t, rfl⟩
      rw [if_neg h1] at h
      by_cases h2 : c ≠ SP ∧ c ≠ TAB
      · rw [if_pos h2] at h
        cases h
      rw [if_neg h2] at h
      obtain ⟨ws, r, e, hw, hr⟩ := relaxed_blank_scan_true rest h
      refine ⟨c :: ws, r, by rw [e]; rfl, ?_, hr⟩
      intro x hx
      rcases List.mem_cons.1 hx with hx | hx
      · subst hx
        by_contra hne
        exact h2 ⟨fun a => hne (Or.inl a), fun a => hne (Or.inr a)⟩
      · exact hw x hx

/-- C33: what `pdkim_bodyline_complete` buffers as a blank line for a relaxed
Body Hash.  A line of spaces and tabs followed by CR LF is buffered and
nothing of it is hashed, and a line without NUL that is buffered is made of
spaces and tabs up to CR LF or to the end of the buffer.  The scan however
stops at a NUL byte: a line whose first byte other than space and tab is a
NUL is buffered as blank by every relaxed Body Hash and nothing of it is
hashed, whatever follows the NUL; so the line SP NUL `a` CR LF is counted as
blank, while SP `a` CR LF is hashed. -/
theorem C33_relaxed_blank_line :
    (∀ (ctx : pdkim_ctx) (ws rest : List Nat), ctx.seen_eod = false → ctx.dot_term = false →
      (∀ x ∈ ws, x = SP ∨ x = TAB) → ws ≠ [] →
      (rest.head? = some 0 ∨ rest = [CR, LF]) → ctx.linebuf = ws ++ rest →
      (pdkim_bodyline_complete ctx).bodyhash = ctx.bodyhash.map (fun b =>
        if b.canon_method = PDKIM_CANON_RELAXED then
          { b with num_buffered_blanklines := b.num_buffered_blanklines + 1 }
        else bodyline_hash_one ctx.linebuf b)) ∧
    (∀ (ws rest : List Nat), (∀ x ∈ ws, x = SP ∨ x = TAB) →
      relaxed_blank_scan (ws ++ 0 :: rest) = true) ∧
    (∀ line : List Nat, 0 ∉ line → relaxed_blank_scan line = true →
      ∃ ws rest, line = ws ++ rest ∧ (∀ x ∈ ws, x = SP ∨ x = TAB) ∧
        (rest = [] ∨ [CR, LF] <+: rest)) ∧
    (pdkim_bodyline_complete { example_body_ctx with linebuf := [SP, 0, 97, CR, LF] }).bodyhash
        = example_body_ctx.bodyhash.map (fun b =>
          if b.canon_method = PDKIM_CANON_RELAXED then
            { b with num_buffered_blanklines := b.num_buffered_blanklines + 1 }
          else { b with hashed := b.hashed ++ [SP, 0, 97, CR, LF], signed_body_bytes := 5 }) ∧
    (pdkim_bodyline_complete { example_body_ctx with linebuf := [SP, 97, CR, LF] }).bodyhash
        = example_body_ctx.bodyhash.map (fun b =>
          if b.canon_method = PDKIM_CANON_RELAXED then
            { b with hashed := b.hashed ++ [SP, 97, CR, LF], signed_body_bytes := 4 }
          else { b with hashed := b.hashed ++ [SP, 97, CR, LF], signed_body_bytes := 4 }) ∧
    example_body_ctx.bodyhash.map (fun b => (b.canon_method, b.hashed, b.signed_body_bytes,
      b.num_buffered_blanklines)) = [(PDKIM_CANON_SIMPLE, [], 0, 0), (PDKIM_CANON_RELAXED, [], 0, 0)] := by
  refine ⟨?_, ?_, ?_, ?_, ?_, ?_⟩
  · intro ctx ws rest he hd hw hne hr hl
    have hscan : relaxed_blank_scan ctx.linebuf = true := by
      rw [hl]
      refine relaxed_blank_scan_blank ws rest hw ?_
      rcases hr with hr | hr
      · exact Or.inr (Or.inl hr)
      · exact Or.inr (Or.inr ⟨[], by rw [hr]; rfl⟩)
    have hm : memcmp_eq ctx.linebuf [CR, LF] = false := by
      rw [hl]
      cases ws with
      | nil => exact absurd rfl hne
      | cons w t =>
        have h1 : w = SP ∨ w = TAB := hw w (List.mem_cons_self _ _)
        unfold memcmp_eq
        rcases h1 with h1 | h1 <;> subst h1 <;> simp [CR, SP, TAB]
    unfold pdkim_bodyline_complete unstuff_line
    simp only [he, hd, Bool.false_eq_true, false_and, if_false, hm]
    rw [bodyline_hashes_map ctx.linebuf ctx.bodyhash none none (Or.inl rfl) (Or.inl rfl)]
    apply List.map_congr_left
    intro b _
    by_cases hb : b.canon_method = PDKIM_CANON_RELAXED
    · simp only [bodyline_hash_one, hb, hscan, and_self, if_true]
    · simp only [hb, if_false]
  · intro ws rest hw
    exact relaxed_blank_scan_blank ws (0 :: rest) hw (Or.inr (Or.inl rfl))
  · intro line h0 hs
    obtain ⟨ws, rest, e, hw, hr⟩ := relaxed_blank_scan_true line hs
    refine ⟨ws, rest, e, hw, ?_⟩
    rcases hr with hr | hr | hr
    · exact Or.inl hr
    · exfalso
      apply h0
      rw [e]
      cases rest with
      | nil => simp at hr
      | cons d t =>
        simp only [List.head?_cons, Option.some.injEq] at hr
        subst hr
        simp
    · exact Or.inr hr
  · decide
  · decide
  · decide

/-! ## One Body Hash among the others -/

theorem update_with_hashtype (b : pdkim_bodyhash) (h : Int) (d : List Nat)
    (rd : Option (List Nat)) :
    pdkim_update_ctx_bodyhash (with_hashtype h b) d rd =
      (with_hashtype h (pdkim_update_ctx_bodyhash b d rd).1,
        (pdkim_update_ctx_bodyhash b d rd).2) := by
  have e1 : canon_data (with_hashtype h b) d rd = canon_data b d rd := rfl
  have e2 : ∀ c, bytes_to_hash (with_hashtype h b) c = bytes_to_hash b c := fun _ => rfl
  have e3 : (with_hashtype h b).canon_method = b.canon_method := rfl
  unfold pdkim_update_ctx_bodyhash
  simp only [e1, e2, e3]
  by_cases hl : 0 < bytes_to_hash b (canon_data b d rd)
  · simp only [hl, if_true]
    rfl
  · simp only [hl, if_false]

theorem release_with_hashtype (h : Int) :
    ∀ (n : Nat) (b : pdkim_bodyhash) (rnl : Option (List Nat)),
      release_blanklines n (with_hashtype h b) rnl =
        (with_hashtype h (release_blanklines n b rnl).1, (release_blanklines n b rnl).2)
  | 0, _, _ => rfl
  | n + 1, b, rnl => by
      simp only [release_blanklines]
      rw [update_with_hashtype]
      exact release_with_hashtype h n
        { (pdkim_update_ctx_bodyhash b lineending rnl).1 with
          num_buffered_blanklines :=
            (pdkim_update_ctx_bodyhash b lineending rnl).1.num_buffered_blanklines - 1 }
        (pdkim_update_ctx_bodyhash b lineending rnl).2

theorem bodyline_hash_one_with_hashtype (line : List Nat) (b : pdkim_bodyhash) (h : Int) :
    bodyline_hash_one line (with_hashtype h b) = with_hashtype h (bodyline_hash_one line b) := by
  unfold bodyline_hash_one
  have e1 : (with_hashtype h b).canon_method = b.canon_method := rfl
  have e2 : (with_hashtype h b).num_buffered_blanklines = b.num_buffered_blanklines := rfl
  rw [e1, e2, release_with_hashtype, update_with_hashtype]
  split <;> rfl

theorem body_complete_one_with_hashtype (b : pdkim_bodyhash) (h : Int) :
    body_complete_one (with_hashtype h b) = with_hashtype h (body_complete_one b) := by
  unfold body_complete_one
  have e1 : (with_hashtype h b).canon_method = b.canon_method := rfl
  have e2 : (with_hashtype h b).num_buffered_blanklines = b.num_buffered_blanklines := rfl
  have e3 : (with_hashtype h b).signed_body_bytes = b.signed_body_bytes := rfl
  rw [e1, e2, e3, update_with_hashtype]
  split <;> rfl

theorem bodyline_complete_one_with_hashtype (e d : Bool) (l : List Nat) (b : pdkim_bodyhash)
    (h : Int) :
    bodyline_complete_one e d l (with_hashtype h b) =
      with_hashtype h (bodyline_complete_one e d l b) := by
  unfold bodyline_complete_one
  rw [body_complete_one_with_hashtype, bodyline_hash_one_with_hashtype]
  split_ifs <;> rfl

theorem feed_byte_one_with_hashtype (ctx : pdkim_ctx) (c : Nat) (b : pdkim_bodyhash) (h : Int) :
    feed_byte_one ctx c (with_hashtype h b) = with_hashtype h (feed_byte_one ctx c b) := by
  unfold feed_byte_one
  rw [bodyline_complete_one_with_hashtype]
  split_ifs <;> rfl

/-- A function of one Body Hash that carries the hash type along treats two
Body Hashes that agree in all but the hash type alike. -/
theorem view_of_with_hashtype (f : pdkim_bodyhash → pdkim_bodyhash)
    (hf : ∀ b h, f (with_hashtype h b) = with_hashtype h (f b))
    (b b2 : pdkim_bodyhash) (hv : bodyhash_view b = bodyhash_view b2) :
    bodyhash_view (f b) = bodyhash_view (f b2) ∧ (f b).hashtype = b.hashtype := by
  have e : b2 = with_hashtype b2.hashtype b := by
    cases b
    cases b2
    simp only [bodyhash_view, Prod.mk.injEq] at hv
    simp only [with_hashtype, pdkim_bodyhash.mk.injEq]
    exact ⟨trivial, hv.1.symm, hv.2.1.symm, hv.2.2.1.symm, hv.2.2.2.1.symm, hv.2.2.2.2.symm⟩
  have e0 : b = with_hashtype b.hashtype b := rfl
  constructor
  · rw [e, hf]
    rfl
  · have := hf b b.hashtype
    rw [← e0] at this
    rw [this]
    rfl

theorem bodyline_complete_bodyhash (ctx : pdkim_ctx) :
    (pdkim_bodyline_complete ctx).bodyhash =
      ctx.bodyhash.map (bodyline_complete_one ctx.seen_eod ctx.dot_term ctx.linebuf) := by
  unfold pdkim_bodyline_complete
  by_cases h1 : ctx.seen_eod = true
  · have e : bodyline_complete_one true ctx.dot_term ctx.linebuf = id := by
      funext b
      simp [bodyline_complete_one]
    simp [h1, e]
  have h1' : ctx.seen_eod = false := by simpa using h1
  by_cases h2 : ctx.dot_term = true ∧ memcmp_eq ctx.linebuf [DOT, CR, LF] = true
  · rw [if_neg h1, if_pos h2, body_complete_map]
    apply List.map_congr_left
    intro b _
    simp only [bodyline_complete_one, h1', Bool.false_eq_true, if_false, if_pos h2]
  rw [if_neg h1, if_neg h2]
  by_cases h3 : memcmp_eq (unstuff_line ctx.dot_term ctx.linebuf) [CR, LF] = true
  · simp only [h3, if_true]
    apply List.map_congr_left
    intro b _
    simp only [bodyline_complete_one, h1', Bool.false_eq_true, if_false, if_neg h2, h3, if_true]
  · simp only [h3, if_false]
    rw [bodyline_hashes_map _ _ none none (Or.inl rfl) (Or.inl rfl)]
    apply List.map_congr_left
    intro b _
    simp only [bodyline_complete_one, h1', Bool.false_eq_true, if_false, if_neg h2, h3]

theorem bodyline_complete_seen_eod (ctx : pdkim_ctx) :
    (pdkim_bodyline_complete ctx).seen_eod =
      (ctx.seen_eod || (ctx.dot_term && memcmp_eq ctx.linebuf [DOT, CR, LF])) := by
  unfold pdkim_bodyline_complete
  by_cases h1 : ctx.seen_eod = true
  · simp [h1]
  have h1' : ctx.seen_eod = false := by simpa using h1
  by_cases h2 : ctx.dot_term = true ∧ memcmp_eq ctx.linebuf [DOT, CR, LF] = true
  · rw [if_neg h1, if_pos h2, body_complete_map]
    simp [h2.1, h2.2]
  rw [if_neg h1, if_neg h2]
  have : (ctx.dot_term && memcmp_eq ctx.linebuf [DOT, CR, LF]) = false := by
    cases hd : ctx.dot_term <;> cases hm : memcmp_eq ctx.linebuf [DOT, CR, LF] <;> simp_all
  rw [this, h1']
  simp only
  split <;> simp [h1']

/-- The fields of the context `pdkim_bodyline_complete` leaves alone. -/
theorem bodyline_complete_frame (ctx : pdkim_ctx) :
    (pdkim_bodyline_complete ctx).dot_term = ctx.dot_term ∧
      (pdkim_bodyline_complete ctx).seen_cr = ctx.seen_cr ∧
      (pdkim_bodyline_complete ctx).seen_lf = ctx.seen_lf ∧
      (pdkim_bodyline_complete ctx).cur_header = ctx.cur_header ∧
      (pdkim_bodyline_complete ctx).num_headers = ctx.num_headers ∧
      (pdkim_bodyline_complete ctx).mode_sign = ctx.mode_sign := by
  rw [bodyline_complete_shape]
  exact ⟨rfl, rfl, rfl, rfl, rfl, rfl⟩

/-- In body mode one round of the loop of `pdkim_feed` gives every Body Hash
what `feed_byte_one` says. -/
theorem feed_body_byte_bodyhash (ctx : pdkim_ctx) (c : Nat) (hp : ctx.past_hdrs = true) :
    (feed_body_byte ctx c).1.bodyhash = ctx.bodyhash.map (feed_byte_one ctx c) := by
  have hid : ∀ l : List pdkim_bodyhash, l = l.map (fun b => b) := fun l => by simp
  have he : (body_emulate_cr ctx c).bodyhash = ctx.bodyhash ∧
      (body_emulate_cr ctx c).seen_eod = ctx.seen_eod ∧
      (body_emulate_cr ctx c).dot_term = ctx.dot_term := by
    unfold body_emulate_cr
    split <;> exact ⟨rfl, rfl, rfl⟩
  by_cases hlf : c = LF
  · by_cases hov : ctx.seen_cr = false ∧
        (body_emulate_cr ctx c).linebuf_offset = PDKIM_MAX_BODY_LINE_LEN - 1
    · have e : feed_byte_one ctx c = fun b => b := by
        funext b
        unfold feed_byte_one
        rw [if_neg (fun h => h.2.2 hov)]
      unfold feed_body_byte
      rw [if_pos ⟨hlf, hov⟩, e, he.1]
      exact hid _
    · have e : feed_byte_one ctx c = bodyline_complete_one ctx.seen_eod ctx.dot_term
          ((body_emulate_cr ctx c).linebuf ++ [c]) := by
        funext b
        unfold feed_byte_one
        rw [if_pos ⟨hp, hlf, hov⟩]
      have hs : (body_store (body_emulate_cr ctx c) c).bodyhash =
          ctx.bodyhash.map (feed_byte_one ctx c) := by
        unfold body_store
        have hcr : c ≠ CR := by rw [hlf]; decide
        rw [if_neg hcr, if_pos hlf, bodyline_complete_bodyhash, e]
        simp only [he.1, he.2.1, he.2.2]
      unfold feed_body_byte
      rw [if_neg (fun h => hov h.2)]
      split <;> exact hs
  · have e : feed_byte_one ctx c = fun b => b := by
      funext b
      unfold feed_byte_one
      rw [if_neg (fun h => hlf h.2.1)]
    have hs : (body_store (body_emulate_cr ctx c) c).bodyhash = ctx.bodyhash := by
      unfold body_store
      rw [if_neg hlf]
      split <;> exact he.1
    unfold feed_body_byte
    rw [if_neg (fun h => hlf h.1), e, ← hid]
    split <;> exact hs

/-- In body mode the result code and the feeder state after one round of the
loop of `pdkim_feed` are those of any context with the same feeder state. -/
theorem feed_body_byte_feeder (c1 c2 : pdkim_ctx) (c : Nat) (h1 : c1.dot_term = c2.dot_term)
    (h2 : c1.seen_cr = c2.seen_cr) (h3 : c1.seen_eod = c2.seen_eod)
    (h4 : c1.linebuf = c2.linebuf) :
    (feed_body_byte c1 c).2 = (feed_body_byte c2 c).2 ∧
      (feed_body_byte c1 c).1.dot_term = (feed_body_byte c2 c).1.dot_term ∧
      (feed_body_byte c1 c).1.seen_cr = (feed_body_byte c2 c).1.seen_cr ∧
      (feed_body_byte c1 c).1.seen_eod = (feed_body_byte c2 c).1.seen_eod ∧
      (feed_body_byte c1 c).1.linebuf = (feed_body_byte c2 c).1.linebuf := by
  have he : ∀ x : pdkim_ctx, (body_emulate_cr x c).dot_term = x.dot_term ∧
      (body_emulate_cr x c).seen_cr = x.seen_cr ∧ (body_emulate_cr x c).seen_eod = x.seen_eod ∧
      (body_emulate_cr x c).linebuf =
        if c = LF ∧ x.seen_cr = false then x.linebuf ++ [CR] else x.linebuf := by
    intro x
    unfold body_emulate_cr
    split <;> exact ⟨rfl, rfl, rfl, rfl⟩
  have hs : ∀ x : pdkim_ctx, (body_store x c).dot_term = x.dot_term ∧
      (body_store x c).seen_cr = (if c = CR then true else if c = LF then false else x.seen_cr) ∧
      (body_store x c).seen_eod = (if c = LF then
        (x.seen_eod || (x.dot_term && memcmp_eq (x.linebuf ++ [c]) [DOT, CR, LF]))
        else x.seen_eod) ∧
      (body_store x c).linebuf = (if c = LF then [] else x.linebuf ++ [c]) := by
    intro x
    unfold body_store
    by_cases hcr : c = CR
    · have hlf : c ≠ LF := by rw [hcr]; decide
      rw [if_pos hcr]
      simp only [if_pos hcr, if_neg hlf]
      exact ⟨trivial, trivial, trivial, trivial⟩
    by_cases hlf : c = LF
    · rw [if_neg hcr, if_pos hlf, bodyline_complete_seen_eod, bodyline_complete_linebuf]
      obtain ⟨f1, f2, _⟩ := bodyline_complete_frame
        { x with linebuf := x.linebuf ++ [c], seen_cr := false }
      rw [f1, f2]
      simp only [if_neg hcr, if_pos hlf]
      exact ⟨trivial, trivial, trivial, trivial⟩
    · rw [if_neg hcr, if_neg hlf]
      simp only [if_neg hcr, if_neg hlf]
      exact ⟨trivial, trivial, trivial, trivial⟩
  have e1 := he c1
  have e2 := he c2
  have s1 := hs (body_emulate_cr c1 c)
  have s2 := hs (body_emulate_cr c2 c)
  have el : (body_emulate_cr c1 c).linebuf = (body_emulate_cr c2 c).linebuf := by
    rw [e1.2.2.2, e2.2.2.2, h2, h4]
  have sl : (body_store (body_emulate_cr c1 c) c).linebuf =
      (body_store (body_emulate_cr c2 c) c).linebuf := by
    rw [s1.2.2.2, s2.2.2.2, el]
  have sd : (body_store (body_emulate_cr c1 c) c).dot_term =
      (body_store (body_emulate_cr c2 c) c).dot_term := by
    rw [s1.1, s2.1, e1.1, e2.1, h1]
  have sc : (body_store (body_emulate_cr c1 c) c).seen_cr =
      (body_store (body_emulate_cr c2 c) c).seen_cr := by
    rw [s1.2.1, s2.2.1, e1.2.1, e2.2.1, h2]
  have se : (body_store (body_emulate_cr c1 c) c).seen_eod =
      (body_store (body_emulate_cr c2 c) c).seen_eod := by
    rw [s1.2.2.1, s2.2.2.1, e1.2.2.1, e2.2.2.1, e1.1, e2.1, el, h1, h3]
  unfold feed_body_byte pdkim_ctx.linebuf_offset
  rw [h2, el, sl]
  by_cases g1 : c = LF ∧ c2.seen_cr = false ∧
      (body_emulate_cr c2 c).linebuf.length = PDKIM_MAX_BODY_LINE_LEN - 1
  · rw [if_pos g1, if_pos g1]
    exact ⟨rfl, by rw [e1.1, e2.1, h1], by rw [e1.2.1, e2.2.1, h2],
      by rw [e1.2.2.1, e2.2.2.1, h3], el⟩
  rw [if_neg g1, if_neg g1]
  by_cases g2 : (body_store (body_emulate_cr c2 c) c).linebuf.length =
      PDKIM_MAX_BODY_LINE_LEN - 1
  · rw [if_pos g2, if_pos g2]
    exact ⟨rfl, sd, sc, se, sl⟩
  · rw [if_neg g2, if_neg g2]
    exact ⟨rfl, sd, sc, se, sl⟩

/-- The fields of the context one round of the loop of `pdkim_feed` in body
mode leaves alone. -/
theorem feed_body_byte_frame (ctx : pdkim_ctx) (c : Nat) :
    (feed_body_byte ctx c).1.past_hdrs = ctx.past_hdrs ∧
      (feed_body_byte ctx c).1.seen_lf = ctx.seen_lf ∧
      (feed_body_byte ctx c).1.cur_header = ctx.cur_header ∧
      (feed_body_byte ctx c).1.num_headers = ctx.num_headers ∧
      (feed_body_byte ctx c).1.mode_sign = ctx.mode_sign := by
  have he : (body_emulate_cr ctx c).past_hdrs = ctx.past_hdrs ∧
      (body_emulate_cr ctx c).seen_lf = ctx.seen_lf ∧
      (body_emulate_cr ctx c).cur_header = ctx.cur_header ∧
      (body_emulate_cr ctx c).num_headers = ctx.num_headers ∧
      (body_emulate_cr ctx c).mode_sign = ctx.mode_sign := by
    unfold body_emulate_cr
    split <;> exact ⟨rfl, rfl, rfl, rfl, rfl⟩
  have hs : ∀ x : pdkim_ctx, (body_store x c).past_hdrs = x.past_hdrs ∧
      (body_store x c).seen_lf = x.seen_lf ∧
      (body_store x c).cur_header = x.cur_header ∧
      (body_store x c).num_headers = x.num_headers ∧
      (body_store x c).mode_sign = x.mode_sign := by
    intro x
    unfold body_store
    split
    · exact ⟨rfl, rfl, rfl, rfl, rfl⟩
    · split
      · obtain ⟨_, _, f3, f4, f5, f6⟩ := bodyline_complete_frame
          { x with linebuf := x.linebuf ++ [c], seen_cr := false }
        rw [bodyline_complete_past_hdrs, f3, f4, f5, f6]
        exact ⟨rfl, rfl, rfl, rfl, rfl⟩
      · exact ⟨rfl, rfl, rfl, rfl, rfl⟩
  have s := hs (body_emulate_cr ctx c)
  rw [he.1, he.2.1, he.2.2.1, he.2.2.2.1, he.2.2.2.2] at s
  unfold feed_body_byte
  split
  · exact he
  · split <;> exact s

/-- In sign mode `pdkim_header_complete` counts the header, empties the
header buffer and touches the signatures only. -/
theorem header_complete_sign (env : Env) (ctx : pdkim_ctx) (hm : ctx.mode_sign = true) :
    pdkim_header_complete env ctx =
      ({ ctx with num_headers := ctx.num_headers + 1, cur_header := some [],
                  sig := (pdkim_header_complete env ctx).1.sig }, PDKIM_OK) := by
  unfold pdkim_header_complete
  by_cases h : PDKIM_MAX_HEADERS < ctx.num_headers + 1
  · simp only [if_pos h]
  · simp only [if_neg h, if_pos hm]

theorem feeder_eq_refl (c : pdkim_ctx) : FeederEq c c :=
  ⟨rfl, rfl, rfl, rfl, rfl, rfl, rfl, rfl⟩

theorem header_complete_pair (env1 env2 : Env) (x1 x2 : pdkim_ctx) (h : FeederEq x1 x2)
    (hm1 : x1.mode_sign = true) (hm2 : x2.mode_sign = true) :
    FeederEq (pdkim_header_complete env1 x1).1 (pdkim_header_complete env2 x2).1 ∧
      (pdkim_header_complete env1 x1).1.mode_sign = true ∧
      (pdkim_header_complete env2 x2).1.mode_sign = true ∧
      (pdkim_header_complete env1 x1).2 = PDKIM_OK ∧
      (pdkim_header_complete env2 x2).2 = PDKIM_OK ∧
      (pdkim_header_complete env1 x1).1.bodyhash = x1.bodyhash := by
  have e1 := header_complete_sign env1 x1 hm1
  have e2 := header_complete_sign env2 x2 hm2
  generalize pdkim_header_complete env1 x1 = r1 at e1 ⊢
  generalize pdkim_header_complete env2 x2 = r2 at e2 ⊢
  rw [e1, e2]
  obtain ⟨a1, a2, a3, a4, a5, a6, a7, a8⟩ := h
  refine ⟨⟨a1, a2, a3, a4, a5, a6, rfl, ?_⟩, hm1, hm2, rfl, rfl, rfl⟩
  show x1.num_headers + 1 = x2.num_headers + 1
  rw [a8]

theorem header_append_pair (x1 x2 : pdkim_ctx) (c : Nat) (h : FeederEq x1 x2) :
    FeederEq (header_append x1 c) (header_append x2 c) ∧
      (header_append x1 c).mode_sign = x1.mode_sign ∧
      (header_append x2 c).mode_sign = x2.mode_sign ∧
      (header_append x1 c).bodyhash = x1.bodyhash := by
  obtain ⟨a1, a2, a3, a4, a5, a6, a7, a8⟩ := h
  have k : ∀ x : pdkim_ctx, header_append x c =
      { x with cur_header := (header_append x c).cur_header } := by
    intro x
    unfold header_append
    split
    · rfl
    · split <;> rfl
  have kc : (header_append x1 c).cur_header = (header_append x2 c).cur_header := by
    unfold header_append
    rw [a7]
    split
    · rfl
    · split <;> first | rfl | exact a7
  rw [k x1, k x2]
  exact ⟨⟨a1, a2, a3, a4, a5, a6, kc, a8⟩, rfl, rfl, rfl⟩

theorem header_emulate_cr_pair (x1 x2 : pdkim_ctx) (h : FeederEq x1 x2) :
    FeederEq (header_emulate_cr x1) (header_emulate_cr x2) ∧
      (header_emulate_cr x1).mode_sign = x1.mode_sign ∧
      (header_emulate_cr x2).mode_sign = x2.mode_sign ∧
      (header_emulate_cr x1).bodyhash = x1.bodyhash := by
  obtain ⟨a1, a2, a3, a4, a5, a6, a7, a8⟩ := h
  have k : ∀ x : pdkim_ctx, header_emulate_cr x =
      { x with cur_header := (header_emulate_cr x).cur_header } := by
    intro x
    unfold header_emulate_cr
    split <;> rfl
  have kc : (header_emulate_cr x1).cur_header = (header_emulate_cr x2).cur_header := by
    unfold header_emulate_cr
    rw [a3, a7]
    split
    · rfl
    · exact a7
  rw [k x1, k x2]
  exact ⟨⟨a1, a2, a3, a4, a5, a6, kc, a8⟩, rfl, rfl, rfl⟩

/-- In sign mode one round of the header branch of the loop of `pdkim_feed`
returns `PDKIM_OK`, leaves the Body Hashes alone, and moves the feeder as it
moves the feeder of any sign-mode context in the same feeder state. -/
theorem feed_header_byte_sign (env1 env2 : Env) (c1 c2 : pdkim_ctx) (c : Nat)
    (hm1 : c1.mode_sign = true) (hm2 : c2.mode_sign = true) (h : FeederEq c1 c2) :
    FeederEq (feed_header_byte env1 c1 c).1 (feed_header_byte env2 c2 c).1 ∧
      (feed_header_byte env1 c1 c).1.mode_sign = true ∧
      (feed_header_byte env2 c2 c).1.mode_sign = true ∧
      (feed_header_byte env1 c1 c).2 = PDKIM_OK ∧
      (feed_header_byte env2 c2 c).2 = PDKIM_OK ∧
      (feed_header_byte env1 c1 c).1.bodyhash = c1.bodyhash := by
  have hset : ∀ (x1 x2 : pdkim_ctx) (v w : Bool), FeederEq x1 x2 →
      FeederEq { x1 with seen_cr := v, seen_lf := w } { x2 with seen_cr := v, seen_lf := w } := by
    intro x1 x2 v w ⟨a1, a2, a3, a4, a5, a6, a7, a8⟩
    exact ⟨a1, a2, rfl, rfl, a5, a6, a7, a8⟩
  obtain ⟨a1, a2, a3, a4, a5, a6, a7, a8⟩ := h
  unfold feed_header_byte
  by_cases g1 : c = CR
  · rw [if_pos g1, if_pos g1]
    obtain ⟨q1, q2, q3, q4⟩ := header_append_pair { c1 with seen_cr := true }
      { c2 with seen_cr := true } c ⟨a1, a2, rfl, a4, a5, a6, a7, a8⟩
    exact ⟨q1, q2.trans hm1, q3.trans hm2, rfl, rfl, q4⟩
  rw [if_neg g1, if_neg g1]
  by_cases g2 : c = LF
  · rw [if_pos g2, if_pos g2]
    obtain ⟨e1, e2, e3, e4⟩ := header_emulate_cr_pair c1 c2 ⟨a1, a2, a3, a4, a5, a6, a7, a8⟩
    rw [e1.2.2.2.1]
    by_cases g3 : (header_emulate_cr c2).seen_lf = true
    · rw [if_pos g3, if_pos g3]
      obtain ⟨k1, k2, k3, k4, k5, k6⟩ := header_complete_pair env1 env2 _ _ e1
        (e2.trans hm1) (e3.trans hm2)
      have hne : ∀ r : pdkim_rc, r = PDKIM_OK → ¬(r ≠ PDKIM_OK) := fun r hr hn => hn hr
      unfold header_end
      rw [if_neg (hne _ k4), if_neg (hne _ k5)]
      obtain ⟨b1, b2, b3, b4, b5, b6, b7, b8⟩ := k1
      exact ⟨⟨b1, rfl, rfl, rfl, b5, b6, b7, b8⟩, k2, k3, rfl, rfl, k6.trans e4⟩
    · rw [if_neg g3, if_neg g3]
      obtain ⟨q1, q2, q3, q4⟩ := header_append_pair
        { header_emulate_cr c1 with seen_cr := false, seen_lf := true }
        { header_emulate_cr c2 with seen_cr := false, seen_lf := true } c
        (hset _ _ false true e1)
      exact ⟨q1, q2.trans (e2.trans hm1), q3.trans (e3.trans hm2), rfl, rfl, q4.trans e4⟩
  rw [if_neg g2, if_neg g2, a4]
  by_cases g3 : c2.seen_lf = true
  · rw [if_pos g3, if_pos g3]
    unfold header_after_lf
    by_cases g4 : ¬(c = TAB ∨ c = SP)
    · rw [if_pos g4, if_pos g4]
      obtain ⟨k1, k2, k3, k4, k5, k6⟩ := header_complete_pair env1 env2 c1 c2
        ⟨a1, a2, a3, a4, a5, a6, a7, a8⟩ hm1 hm2
      have hne : ∀ r : pdkim_rc, r = PDKIM_OK → ¬(r ≠ PDKIM_OK) := fun r hr hn => hn hr
      rw [if_neg (hne _ k4), if_neg (hne _ k5)]
      obtain ⟨b1, b2, b3, b4, b5, b6, b7, b8⟩ := k1
      obtain ⟨q1, q2, q3, q4⟩ := header_append_pair
        { (pdkim_header_complete env1 c1).1 with seen_lf := false }
        { (pdkim_header_complete env2 c2).1 with seen_lf := false } c
        ⟨b1, b2, b3, rfl, b5, b6, b7, b8⟩
      exact ⟨q1, q2.trans k2, q3.trans k3, rfl, rfl, q4.trans k6⟩
    · rw [if_neg g4, if_neg g4]
      obtain ⟨q1, q2, q3, q4⟩ := header_append_pair { c1 with seen_lf := false }
        { c2 with seen_lf := false } c ⟨a1, a2, a3, rfl, a5, a6, a7, a8⟩
      exact ⟨q1, q2.trans hm1, q3.trans hm2, rfl, rfl, q4⟩
  · rw [if_neg g3, if_neg g3]
    obtain ⟨q1, q2, q3, q4⟩ := header_append_pair c1 c2 c ⟨a1, a2, a3, a4, a5, a6, a7, a8⟩
    exact ⟨q1, q2.trans hm1, q3.trans hm2, rfl, rfl, q4⟩

theorem feed_byte_one_congr (c1 c2 : pdkim_ctx) (c : Nat) (h : FeederEq c1 c2) :
    feed_byte_one c1 c = feed_byte_one c2 c := by
  obtain ⟨a1, a2, a3, a4, a5, a6, a7, a8⟩ := h
  have el : (body_emulate_cr c1 c).linebuf = (body_emulate_cr c2 c).linebuf := by
    unfold body_emulate_cr
    rw [a3]
    split
    · show c1.linebuf ++ [CR] = c2.linebuf ++ [CR]
      rw [a6]
    · exact a6
  funext b
  unfold feed_byte_one pdkim_ctx.linebuf_offset
  rw [a1, a2, a3, a5, el]

theorem feed_byte_one_header (ctx : pdkim_ctx) (c : Nat) (hp : ctx.past_hdrs = false) :
    feed_byte_one ctx c = fun b => b := by
  funext b
  unfold feed_byte_one
  rw [if_neg]
  rw [hp]
  simp

/-- One round of the loop of `pdkim_feed`, run on two contexts whose feeders
are in the same state: the result code is the same, the feeders are again in
the same state, and every Body Hash of either context is changed by
`feed_byte_one`. -/
theorem feed_byte_pair (env1 env2 : Env) (c1 c2 : pdkim_ctx) (c : Nat)
    (hf : SameFeeder c1 c2) :
    (pdkim_feed_byte env1 c1 c).2 = (pdkim_feed_byte env2 c2 c).2 ∧
      SameFeeder (pdkim_feed_byte env1 c1 c).1 (pdkim_feed_byte env2 c2 c).1 ∧
      (pdkim_feed_byte env1 c1 c).1.bodyhash = c1.bodyhash.map (feed_byte_one c1 c) ∧
      (pdkim_feed_byte env2 c2 c).1.bodyhash = c2.bodyhash.map (feed_byte_one c1 c) := by
  obtain ⟨he, hm⟩ := hf
  have heq := he
  obtain ⟨a1, a2, a3, a4, a5, a6, a7, a8⟩ := he
  have hsym : FeederEq c2 c1 :=
    ⟨a1.symm, a2.symm, a3.symm, a4.symm, a5.symm, a6.symm, a7.symm, a8.symm⟩
  by_cases hp : c1.past_hdrs = true
  · have hp2 : c2.past_hdrs = true := a2 ▸ hp
    rw [feed_byte_body env1 c1 c hp, feed_byte_body env2 c2 c hp2]
    obtain ⟨r, f1, f2, f3, f4⟩ := feed_body_byte_feeder c1 c2 c a1 a3 a5 a6
    obtain ⟨g1, g2, g3, g4, g5⟩ := feed_body_byte_frame c1 c
    obtain ⟨k1, k2, k3, k4, k5⟩ := feed_body_byte_frame c2 c
    refine ⟨r, ⟨⟨f1, g1.trans (a2.trans k1.symm), f2, g2.trans (a4.trans k2.symm), f3, f4,
      g3.trans (a7.trans k3.symm), g4.trans (a8.trans k4.symm)⟩, Or.inl (g1.trans hp)⟩,
      feed_body_byte_bodyhash c1 c hp, ?_⟩
    rw [feed_body_byte_bodyhash c2 c hp2, feed_byte_one_congr c1 c2 c heq]
  · have hp1 : c1.past_hdrs = false := by simpa using hp
    have hp2 : c2.past_hdrs = false := a2 ▸ hp1
    have hm12 : c1.mode_sign = true ∧ c2.mode_sign = true := by
      rcases hm with hm | hm
      · exact absurd hm hp
      · exact hm
    have e1 : pdkim_feed_byte env1 c1 c = feed_header_byte env1 c1 c := by
      unfold pdkim_feed_byte
      rw [hp1]
      rfl
    have e2 : pdkim_feed_byte env2 c2 c = feed_header_byte env2 c2 c := by
      unfold pdkim_feed_byte
      rw [hp2]
      rfl
    rw [e1, e2]
    obtain ⟨q1, q2, q3, q4, q5, q6⟩ := feed_header_byte_sign env1 env2 c1 c2 c hm12.1 hm12.2 heq
    obtain ⟨_, _, _, _, _, q7⟩ := feed_header_byte_sign env2 env1 c2 c1 c hm12.2 hm12.1 hsym
    rw [feed_byte_one_header c1 c hp1]
    refine ⟨q4.trans q5.symm, ⟨q1, Or.inr ⟨q2, q3⟩⟩, ?_, ?_⟩
    · rw [q6]
      simp
    · rw [q7]
      simp

/-- The loop of `pdkim_feed`, run on two contexts whose feeders are in the
same state: the result code is the same, the feeders are again in the same
state, and one function of a single Body Hash, which carries the hash type
along, gives the Body Hashes of both contexts. -/
theorem feed_loop_pair (env1 env2 : Env) :
    ∀ (data : List Nat) (c1 c2 : pdkim_ctx), SameFeeder c1 c2 →
      (pdkim_feed_loop env1 c1 data).2 = (pdkim_feed_loop env2 c2 data).2 ∧
      SameFeeder (pdkim_feed_loop env1 c1 data).1 (pdkim_feed_loop env2 c2 data).1 ∧
      ∃ f : pdkim_bodyhash → pdkim_bodyhash,
        (pdkim_feed_loop env1 c1 data).1.bodyhash = c1.bodyhash.map f ∧
        (pdkim_feed_loop env2 c2 data).1.bodyhash = c2.bodyhash.map f ∧
        ∀ b h, f (with_hashtype h b) = with_hashtype h (f b)
  | [], c1, c2, hf => ⟨rfl, hf, fun b => b, by simp [pdkim_feed_loop],
      by simp [pdkim_feed_loop], fun _ _ => rfl⟩
  | c :: rest, c1, c2, hf => by
      obtain ⟨s1, s2, s3, s4⟩ := feed_byte_pair env1 env2 c1 c2 c hf
      simp only [pdkim_feed_loop]
      rw [← s1]
      by_cases hok : (pdkim_feed_byte env1 c1 c).2 = PDKIM_OK
      · rw [if_pos hok, if_pos hok]
        obtain ⟨t1, t2, f, t3, t4, t5⟩ := feed_loop_pair env1 env2 rest _ _ s2
        refine ⟨t1, t2, fun b => f (feed_byte_one c1 c b), ?_, ?_, ?_⟩
        · rw [t3, s3, List.map_map]
          rfl
        · rw [t4, s4, List.map_map]
          rfl
        · intro b h
          simp only
          rw [feed_byte_one_with_hashtype, t5]
      · rw [if_neg hok, if_neg hok]
        exact ⟨s1, s2, feed_byte_one c1 c, s3, s4,
          fun b h => feed_byte_one_with_hashtype c1 c b h⟩

/-- C38: the bytes a Body Hash receives do not depend on the other Body
Hashes.  Let two contexts have their line feeders in the same state (same
dot-stuffing flag, same flags and buffers; past the headers, or both in sign
mode) and be fed the same bytes, or both the end-of-data signal.  Then the
result code is the same, the feeders are again in the same state, and one
function of a single Body Hash gives the Body Hashes of both contexts, each
in its place.  So two Body Hashes, one in each context at any positions,
that agree in canonicalisation, length limit and state hold the same hashed
bytes afterwards, whatever their hash types and whichever other Body Hashes
exist in which order. -/
theorem C38_bodyhash_independent (env1 env2 : Env) (ctx1 ctx2 : pdkim_ctx)
    (data : Option (List Nat)) (hf : SameFeeder ctx1 ctx2) :
    (pdkim_feed env1 ctx1 data).2 = (pdkim_feed env2 ctx2 data).2 ∧
    SameFeeder (pdkim_feed env1 ctx1 data).1 (pdkim_feed env2 ctx2 data).1 ∧
    (∃ f : pdkim_bodyhash → pdkim_bodyhash,
      (pdkim_feed env1 ctx1 data).1.bodyhash = ctx1.bodyhash.map f ∧
      (pdkim_feed env2 ctx2 data).1.bodyhash = ctx2.bodyhash.map f ∧
      ∀ b h, f (with_hashtype h b) = with_hashtype h (f b)) ∧
    ∀ (i j : Nat) (b1 b2 : pdkim_bodyhash), ctx1.bodyhash.get? i = some b1 →
      ctx2.bodyhash.get? j = some b2 → bodyhash_view b1 = bodyhash_view b2 →
      ∃ r1 r2, (pdkim_feed env1 ctx1 data).1.bodyhash.get? i = some r1 ∧
        (pdkim_feed env2 ctx2 data).1.bodyhash.get? j = some r2 ∧
        bodyhash_view r1 = bodyhash_view r2 ∧ r1.hashed = r2.hashed ∧
        r1.hashtype = b1.hashtype ∧ r2.hashtype = b2.hashtype := by
  have main : (pdkim_feed env1 ctx1 data).2 = (pdkim_feed env2 ctx2 data).2 ∧
      SameFeeder (pdkim_feed env1 ctx1 data).1 (pdkim_feed env2 ctx2 data).1 ∧
      ∃ f : pdkim_bodyhash → pdkim_bodyhash,
        (pdkim_feed env1 ctx1 data).1.bodyhash = ctx1.bodyhash.map f ∧
        (pdkim_feed env2 ctx2 data).1.bodyhash = ctx2.bodyhash.map f ∧
        ∀ b h, f (with_hashtype h b) = with_hashtype h (f b) := by
    cases data with
    | some d => exact feed_loop_pair env1 env2 d ctx1 ctx2 hf
    | none =>
      obtain ⟨⟨a1, a2, a3, a4, a5, a6, a7, a8⟩, hm⟩ := hf
      simp only [pdkim_feed, body_complete_map]
      exact ⟨trivial, ⟨⟨a1, a2, a3, a4, rfl, rfl, a7, a8⟩, hm⟩, body_complete_one, rfl, rfl,
        fun b h => body_complete_one_with_hashtype b h⟩
  obtain ⟨m1, m2, f, m3, m4, m5⟩ := main
  refine ⟨m1, m2, ⟨f, m3, m4, m5⟩, ?_⟩
  intro i j b1 b2 h1 h2 hv
  obtain ⟨v1, v2⟩ := view_of_with_hashtype f m5 b1 b2 hv
  obtain ⟨_, v3⟩ := view_of_with_hashtype f m5 b2 b2 rfl
  refine ⟨f b1, f b2, ?_, ?_, v1, ?_, v2, v3⟩
  · rw [m3, List.get?_eq_getElem?, List.getElem?_map, ← List.get?_eq_getElem?, h1]
    rfl
  · rw [m4, List.get?_eq_getElem?, List.getElem?_map, ← List.get?_eq_getElem?, h2]
    rfl
  · simp only [bodyhash_view, Prod.mk.injEq] at v1
    exact v1.2.2.1

theorem C38_bodyhash_independent_witness :
    SameFeeder example_body_ctx example_body_ctx2 ∧
    ((pdkim_feed example_env example_body_ctx (some [SP, 97, SP, LF])).2 =
        (pdkim_feed example_env example_body_ctx2 (some [SP, 97, SP, LF])).2 ∧
    SameFeeder (pdkim_feed example_env example_body_ctx (some [SP, 97, SP, LF])).1
      (pdkim_feed example_env example_body_ctx2 (some [SP, 97, SP, LF])).1 ∧
    (∃ f : pdkim_bodyhash → pdkim_bodyhash,
      (pdkim_feed example_env example_body_ctx (some [SP, 97, SP, LF])).1.bodyhash =
        example_body_ctx.bodyhash.map f ∧
      (pdkim_feed example_env example_body_ctx2 (some [SP, 97, SP, LF])).1.bodyhash =
        example_body_ctx2.bodyhash.map f ∧
      ∀ b h, f (with_hashtype h b) = with_hashtype h (f b)) ∧
    ∀ (i j : Nat) (b1 b2 : pdkim_bodyhash), example_body_ctx.bodyhash.get? i = some b1 →
      example_body_ctx2.bodyhash.get? j = some b2 → bodyhash_view b1 = bodyhash_view b2 →
      ∃ r1 r2,
        (pdkim_feed example_env example_body_ctx (some [SP, 97, SP, LF])).1.bodyhash.get? i =
          some r1 ∧
        (pdkim_feed example_env example_body_ctx2 (some [SP, 97, SP, LF])).1.bodyhash.get? j =
          some r2 ∧
        bodyhash_view r1 = bodyhash_view r2 ∧ r1.hashed = r2.hashed ∧
        r1.hashtype = b1.hashtype ∧ r2.hashtype = b2.hashtype) :=
  ⟨by unfold SameFeeder FeederEq; decide,
    C38_bodyhash_independent example_env example_env example_body_ctx example_body_ctx2
      (some [SP, 97, SP, LF]) (by unfold SameFeeder FeederEq; decide)⟩

/-! ## Signing with several signatures -/

/-- In sign mode the loop of `pdkim_feed_finish` signs the signatures in
turn as long as the hash of the headers can be set up and the signing
branches do not leave the loop. -/
theorem finish_loop_sign_append (fenv : FinishEnv) (env : Env) (ctx : pdkim_ctx)
    (hm : ctx.mode_sign = true) (l : List pdkim_signature) (vp : Bool) :
    ∀ pre : List pdkim_signature,
      (∀ s ∈ pre, env.exim_sha_init s.hashtype = true ∧
        (sign_signature fenv env ctx s).2 = none) →
      finish_loop fenv env ctx (pre ++ l) vp =
        (pre.map (fun s => (sign_signature fenv env ctx s).1) ++
          (finish_loop fenv env ctx l vp).1, (finish_loop fenv env ctx l vp).2)
  | [], _ => rfl
  | s :: pre, h => by
      have hs := h s (List.mem_cons_self _ _)
      have ih := finish_loop_sign_append fenv env ctx hm l vp pre
        (fun x hx => h x (List.mem_cons_of_mem _ hx))
      have c1 : ¬(ctx.mode_sign = false ∧
          s.verify_status = pdkim_verify_status.PDKIM_VERIFY_FAIL) := by
        rw [hm]
        simp
      have c2 : ¬(env.exim_sha_init s.hashtype = false) := by
        rw [hs.1]
        simp
      rw [List.cons_append, finish_loop, if_neg c1, if_neg c2, if_pos hm, if_pos hs.2, ih]
      rfl

/-- In sign mode the loop of `pdkim_feed_finish` is left at the first
signature whose signing branch returns: the signatures behind it are not
looked at. -/
theorem finish_loop_sign_exit (fenv : FinishEnv) (env : Env) (ctx : pdkim_ctx)
    (hm : ctx.mode_sign = true) (sig : pdkim_signature) (rest : List pdkim_signature)
    (vp : Bool) (hi : env.exim_sha_init sig.hashtype = true)
    (e : Option pdkim_rc) (he : (sign_signature fenv env ctx sig).2 = some e) :
    finish_loop fenv env ctx (sig :: rest) vp =
      ((sign_signature fenv env ctx sig).1 :: rest, vp, some e) := by
  have c1 : ¬(ctx.mode_sign = false ∧
      sig.verify_status = pdkim_verify_status.PDKIM_VERIFY_FAIL) := by
    rw [hm]
    simp
  have c2 : ¬(env.exim_sha_init sig.hashtype = false) := by
    rw [hi]
    simp
  have c3 : ¬((sign_signature fenv env ctx sig).2 = none) := by
    rw [he]
    simp
  rw [finish_loop, if_neg c1, if_neg c2, if_pos hm, if_neg c3, he]

/-- The signing branches for a signature whose private key cannot
be imported, or for which `exim_dkim_sign` fails: the function returns
PDKIM_ERR_RSA_PRIVKEY or PDKIM_ERR_RSA_SIGNING, and the signature gets no
signature header. -/
theorem sign_signature_failure (fenv : FinishEnv) (env : Env) (ctx : pdkim_ctx)
    (sig : pdkim_signature) :
    (fenv.exim_dkim_signing_init (sig.privkey.getD []) = none →
      (sign_signature fenv env ctx sig).2 = some (some PDKIM_ERR_RSA_PRIVKEY) ∧
        (sign_signature fenv env ctx sig).1 = sig) ∧
    (∀ (k : Int) (data : List Nat),
      fenv.exim_dkim_signing_init (sig.privkey.getD []) = some k →
      sign_hash_data fenv env ctx { sig with keytype := k } = some data →
      fenv.exim_dkim_sign (sig.privkey.getD []) k sig.hashtype
        (if env.sign_have_ed25519 = true ∧ k = KEYTYPE_ED25519 then
          fenv.exim_sha_finish sig.hashtype data
        else data) = none →
      (sign_signature fenv env ctx sig).2 = some (some PDKIM_ERR_RSA_SIGNING) ∧
        (sign_signature fenv env ctx sig).1.signature_header = sig.signature_header) := by
  constructor
  · intro h
    unfold sign_signature
    rw [h]
    exact ⟨rfl, rfl⟩
  · intro k data h1 h2 h3
    unfold sign_signature
    rw [h1]
    simp only
    unfold sign_with_key
    rw [h2]
    simp only
    rw [h3]
    exact ⟨rfl, rfl⟩

/-- C31 (amended): in sign mode a failure to import the private key of a
signature, or to produce its signature value, makes `pdkim_feed_finish`
return at once, with PDKIM_ERR_RSA_PRIVKEY or PDKIM_ERR_RSA_SIGNING.  When
the signatures before the failing one were signed, the context holds their
signature headers; the failing signature gets no signature header and the
signatures after it are left as they were, so none of them gets one. -/
theorem C31_sign_failure_returns (fenv : FinishEnv) (env : Env) (ctx ctx1 : pdkim_ctx)
    (pre : List pdkim_signature) (sig : pdkim_signature) (rest : List pdkim_signature)
    (rc : pdkim_rc)
    (hflush : (pdkim_feed_finish_flush env ctx).2 = PDKIM_OK)
    (hbh : pdkim_finish_bodyhash fenv (pdkim_feed_finish_flush env ctx).1 = some ctx1)
    (hm : ctx1.mode_sign = true) (hs : ctx1.sig = pre ++ sig :: rest)
    (hpre : ∀ s ∈ pre, env.exim_sha_init s.hashtype = true ∧
      (sign_signature fenv env ctx1 s).2 = none)
    (hi : env.exim_sha_init sig.hashtype = true)
    (hfail : (fenv.exim_dkim_signing_init (sig.privkey.getD []) = none ∧
        rc = PDKIM_ERR_RSA_PRIVKEY) ∨
      (∃ (k : Int) (data : List Nat),
        fenv.exim_dkim_signing_init (sig.privkey.getD []) = some k ∧
        sign_hash_data fenv env ctx1 { sig with keytype := k } = some data ∧
        fenv.exim_dkim_sign (sig.privkey.getD []) k sig.hashtype
          (if env.sign_have_ed25519 = true ∧ k = KEYTYPE_ED25519 then
            fenv.exim_sha_finish sig.hashtype data
          else data) = none ∧
        rc = PDKIM_ERR_RSA_SIGNING)) :
    pdkim_feed_finish fenv env ctx =
      some ({ ctx1 with
          sig := pre.map (fun s => (sign_signature fenv env ctx1 s).1) ++
            (sign_signature fenv env ctx1 sig).1 :: rest }, rc) ∧
      (sign_signature fenv env ctx1 sig).1.signature_header = sig.signature_header := by
  have hx : (sign_signature fenv env ctx1 sig).2 = some (some rc) ∧
      (sign_signature fenv env ctx1 sig).1.signature_header = sig.signature_header := by
    rcases hfail with ⟨h1, h2⟩ | ⟨k, data, h1, h2, h3, h4⟩
    · obtain ⟨r1, r2⟩ := (sign_signature_failure fenv env ctx1 sig).1 h1
      rw [h2, r2]
      exact ⟨r1, rfl⟩
    · obtain ⟨r1, r2⟩ := (sign_signature_failure fenv env ctx1 sig).2 k data h1 h2 h3
      rw [h4]
      exact ⟨r1, r2⟩
  refine ⟨?_, hx.2⟩
  have hloop : finish_loop fenv env ctx1 (pre ++ sig :: rest) false =
      (pre.map (fun s => (sign_signature fenv env ctx1 s).1) ++
        (sign_signature fenv env ctx1 sig).1 :: rest, false, some (some rc)) := by
    rw [finish_loop_sign_append fenv env ctx1 hm (sig :: rest) false pre hpre,
      finish_loop_sign_exit fenv env ctx1 hm sig rest false hi (some rc) hx.1]
  have hne : ¬(pre ++ sig :: rest = []) := by simp
  unfold pdkim_feed_finish
  rw [if_neg (by rw [hflush]; simp), hbh, Option.some_bind]
  simp only [hm, if_true, hs, if_neg hne, hloop]
  rfl

theorem C31_sign_failure_returns_witness :
    (example_keys_hashed [US "key", US "bad", US "k2"]).sig.map
        (fun s => (s.privkey, s.signature_header.isSome)) =
      [(some (US "key"), false), (some (US "bad"), false), (some (US "k2"), false)] ∧
    finish_summary (pdkim_feed_finish example_key_fenv example_env
        (example_keys_fed [US "key", US "bad", US "k2"])) =
      some (PDKIM_ERR_RSA_PRIVKEY,
        [(some (US "key"), true), (some (US "bad"), false), (some (US "k2"), false)]) := by
  refine ⟨by decide, ?_⟩
  rw [(C31_sign_failure_returns example_key_fenv example_env
    (example_keys_fed [US "key", US "bad", US "k2"])
    (example_keys_hashed [US "key", US "bad", US "k2"])
    ((example_keys_hashed [US "key", US "bad", US "k2"]).sig.take 1)
    (((example_keys_hashed [US "key", US "bad", US "k2"]).sig.drop 1).headD sig_init)
    ((example_keys_hashed [US "key", US "bad", US "k2"]).sig.drop 2)
    PDKIM_ERR_RSA_PRIVKEY (by decide) (by decide) (by decide) (by decide) (by decide)
    (by decide) (Or.inl ⟨by decide, rfl⟩)).1]
  decide

/-- C31, counterexample: with the private keys `bad` (which cannot
be imported) and `key` configured in this order, `pdkim_feed_finish` returns
PDKIM_ERR_RSA_PRIVKEY and neither signature has a signature header; with
`nosign` (for which signing fails) in the place of `bad` it returns
PDKIM_ERR_RSA_SIGNING and again neither has one.  The key `key` alone, and
the keys `key` and `k2` together, are signed. -/
theorem C31_counterexample_later_signature_unsigned :
    finish_summary (pdkim_feed_finish example_key_fenv example_env
        (example_keys_fed [US "bad", US "key"])) =
      some (PDKIM_ERR_RSA_PRIVKEY, [(some (US "bad"), false), (some (US "key"), false)]) ∧
    finish_summary (pdkim_feed_finish example_key_fenv example_env
        (example_keys_fed [US "nosign", US "key"])) =
      some (PDKIM_ERR_RSA_SIGNING, [(some (US "nosign"), false), (some (US "key"), false)]) ∧
    finish_summary (pdkim_feed_finish example_key_fenv example_env
        (example_keys_fed [US "key"])) =
      some (PDKIM_OK, [(some (US "key"), true)]) ∧
    finish_summary (pdkim_feed_finish example_key_fenv example_env
        (example_keys_fed [US "key", US "k2"])) =
      some (PDKIM_OK, [(some (US "key"), true), (some (US "k2"), true)]) := by
  refine ⟨?_, ?_, ?_, ?_⟩ <;> decide

/-! ## Signing a message and verifying the result -/

set_option maxRecDepth 100000

theorem round_sign_header :
    signed_header example_round_fenv example_env (example_round_ctx 0 0)
        example_round_message = some example_round_header := by
  decide!

theorem round_sign_hashed :
    signed_hash_data example_round_fenv example_env (example_round_ctx 0 0)
        example_round_message = some (example_round_hashed ++ US ";\r\n\tb=;") := by
  decide!

theorem round_sign_sighash :
    signed_sighash example_round_fenv example_env (example_round_ctx 0 0)
        example_round_message =
      some (example_signature (example_digest (example_round_hashed ++ US ";\r\n\tb=;"))) := by
  decide!

theorem round_verify_simple :
    verify_hashed (verify_signed example_round_fenv example_env example_round_header
        example_round_message) =
      some [(example_round_hashed ++ US "; \r\n\tb=;",
        some (example_signature (example_digest (example_round_hashed ++ US ";\r\n\tb=;"))))] ∧
    verify_verdicts (verify_signed example_round_fenv example_env example_round_header
        example_round_message) =
      some [(pdkim_verify_status.PDKIM_VERIFY_FAIL,
        pdkim_verify_ext_status.PDKIM_VERIFY_FAIL_MESSAGE)] := by
  decide!

theorem round_trip_relaxed :
    round_trip example_round_fenv example_env (example_round_ctx 1 0) example_round_message =
      some [(pdkim_verify_status.PDKIM_VERIFY_PASS,
        pdkim_verify_ext_status.PDKIM_VERIFY_EXT_NONE)] := by
  decide!

theorem round_digests_differ :
    example_digest (example_round_hashed ++ US "; \r\n\tb=;") ≠
      example_digest (example_round_hashed ++ US ";\r\n\tb=;") := by
  decide!

/-- The primitives of `example_round_fenv` fit each other: a signature
checks against the digest of some data exactly when it is the signature that
signing produces for these data. -/
theorem round_primitives_fit (key : List Nat) (keytype hashtype : Int)
    (data sighash : List Nat) :
    example_round_fenv.exim_dkim_verify key keytype hashtype
        (example_round_fenv.exim_sha_finish hashtype data) sighash = true ↔
      example_round_fenv.exim_dkim_sign key keytype hashtype
        (if keytype = KEYTYPE_ED25519 then example_round_fenv.exim_sha_finish hashtype data
         else data) = some sighash := by
  have e1 : example_round_fenv.exim_dkim_verify key keytype hashtype
      (example_round_fenv.exim_sha_finish hashtype data) sighash =
        (sighash == example_signature (example_digest data)) := rfl
  have e2 : example_round_fenv.exim_dkim_sign key keytype hashtype
      (if keytype = KEYTYPE_ED25519 then example_round_fenv.exim_sha_finish hashtype data
       else data) = some (example_signature (example_digest data)) := by
    simp only [example_round_fenv]
    split <;> rfl
  rw [e1, e2, beq_iff_eq, Option.some.injEq]
  exact eq_comm

/-- C32: a round trip that does not pass.  The primitives of
`example_round_fenv` fit each other: a signature checks against the digest
of some data exactly when it is what signing produces for these data.  The
message `example_round_message` is signed for `example.com`, selector `sel`,
sha256, the sign list `From:To:Subject:Date`, both time stamps, simple header
and body canonicalisation.  The header hash is fed the signature header with
`;` CR LF TAB `b=;` at its end, for `b=;` does not fit the line behind the
`;` at column 77; the signature header that is made has `; ` CR LF TAB `b=`
there, a space being added before the line is broken in front of `b=`.  The
verifier hashes the header it is given, space included, so the digests
differ and the verdict is FAIL with FAIL_MESSAGE.  With relaxed header
canonicalisation the same round trip passes. -/
theorem C32_round_trip_simple_fold :
    (∀ (key : List Nat) (keytype hashtype : Int) (data sighash : List Nat),
      example_round_fenv.exim_dkim_verify key keytype hashtype
          (example_round_fenv.exim_sha_finish hashtype data) sighash = true ↔
        example_round_fenv.exim_dkim_sign key keytype hashtype
          (if keytype = KEYTYPE_ED25519 then example_round_fenv.exim_sha_finish hashtype data
           else data) = some sighash) ∧
    signed_header example_round_fenv example_env (example_round_ctx 0 0)
        example_round_message = some example_round_header ∧
    signed_hash_data example_round_fenv example_env (example_round_ctx 0 0)
        example_round_message = some (example_round_hashed ++ US ";\r\n\tb=;") ∧
    signed_sighash example_round_fenv example_env (example_round_ctx 0 0)
        example_round_message =
      some (example_signature (example_digest (example_round_hashed ++ US ";\r\n\tb=;"))) ∧
    verify_hashed (verify_signed example_round_fenv example_env example_round_header
        example_round_message) =
      some [(example_round_hashed ++ US "; \r\n\tb=;",
        some (example_signature (example_digest (example_round_hashed ++ US ";\r\n\tb=;"))))] ∧
    example_digest (example_round_hashed ++ US "; \r\n\tb=;") ≠
      example_digest (example_round_hashed ++ US ";\r\n\tb=;") ∧
    verify_verdicts (verify_signed example_round_fenv example_env example_round_header
        example_round_message) =
      some [(pdkim_verify_status.PDKIM_VERIFY_FAIL,
        pdkim_verify_ext_status.PDKIM_VERIFY_FAIL_MESSAGE)] ∧
    round_trip example_round_fenv example_env (example_round_ctx 0 0) example_round_message =
      some [(pdkim_verify_status.PDKIM_VERIFY_FAIL,
        pdkim_verify_ext_status.PDKIM_VERIFY_FAIL_MESSAGE)] ∧
    round_trip example_round_fenv example_env (example_round_ctx 1 0) example_round_message =
      some [(pdkim_verify_status.PDKIM_VERIFY_PASS,
        pdkim_verify_ext_status.PDKIM_VERIFY_EXT_NONE)] := by
  refine ⟨round_primitives_fit, round_sign_header, round_sign_hashed, round_sign_sighash,
    round_verify_simple.1, round_digests_differ, round_verify_simple.2, ?_, round_trip_relaxed⟩
  unfold round_trip
  rw [round_sign_header, Option.some_bind]
  exact round_verify_simple.2
/-! ## When `pdkim_parse_sig_header` returns no signature: the names of the tag `a` -/

theorem join_dash_cons (e : List Nat) (es : List (List Nat)) :
    join_dash (e :: es) = if es = [] then e else e ++ DASH :: join_dash es := by
  cases es with
  | nil => rfl
  | cons x xs => rfl

/-- The environment of the concrete instances splits lists of plain names at
their dashes. -/
theorem example_env_splits_dash : SplitsDash example_env := by
  refine ⟨rfl, ?_⟩
  intro e es hp
  have he := hp e (List.mem_cons_self _ _)
  have hne : join_dash (e :: es) ≠ [] := by
    rw [join_dash_cons]
    split
    · exact he.1
    · simp
  show (if join_dash (e :: es) = [] then (none, [])
    else (some ((join_dash (e :: es)).takeWhile (fun c => c != DASH)),
      ((join_dash (e :: es)).dropWhile (fun c => c != DASH)).tail)) = _
  rw [if_neg hne, join_dash_cons]
  split
  · rename_i h0
    rw [h0, (takeWhile_no_sep e DASH (fun c hc => (he.2 c hc).1)).1,
      (takeWhile_no_sep e DASH (fun c hc => (he.2 c hc).1)).2]
    rfl
  · rw [(takeWhile_append_sep e _ DASH (fun c hc => (he.2 c hc).1)).1,
      (takeWhile_append_sep e _ DASH (fun c hc => (he.2 c hc).1)).2]
    rfl

/-- The case `'a'` of the tag switch on a value that is a dash-separated list
of plain names: the first name gives the key type, its index in
`pdkim_keytypes` or -1; the second name, when there is one and it stands in
`pdkim_hashes`, gives the hash type, which otherwise stays what it is. -/
theorem sig_set_algorithm_names (env : Env) (hsd : SplitsDash env) (sig : pdkim_signature)
    (k : List Nat) (hs : List (List Nat)) (hp : ∀ x ∈ k :: hs, dash_plain x) :
    (sig_set_algorithm env sig (join_dash (k :: hs))).keytype =
        pdkim_keyname_to_keytype env k ∧
      (sig_set_algorithm env sig (join_dash (k :: hs))).hashtype =
        (match hs.head?.bind (table_index pdkim_hashes) with
         | some i => (i : Int)
         | none => sig.hashtype) := by
  unfold sig_set_algorithm
  rw [hsd.2 k hs hp]
  dsimp only
  cases hs with
  | nil =>
    have e : join_dash [] = [] := rfl
    rw [e, hsd.1]
    exact ⟨rfl, rfl⟩
  | cons h hs2 =>
    rw [hsd.2 h hs2 (fun x hx => hp x (List.mem_cons_of_mem _ hx))]
    dsimp only
    simp only [List.head?_cons, Option.some_bind]
    cases table_index pdkim_hashes h with
    | none => exact ⟨rfl, rfl⟩
    | some i => exact ⟨rfl, rfl⟩

/-- The tag `a` with a value goes to the case `'a'` of the tag switch. -/
theorem tag_apply_a (env : Env) (sig : pdkim_signature) (v : List Nat) (hv : v ≠ []) :
    tag_apply env sig (US "a", v) = sig_set_algorithm env sig v := by
  unfold tag_apply
  rw [if_pos ⟨hv, Or.inl rfl⟩]
  rfl

theorem canons_body_ne (s : List Nat) (len : Nat) (ch cb : Int) (h : cb ≠ -1) :
    (pdkim_cstring_to_canons s len ch cb).2 ≠ -1 := by
  unfold pdkim_cstring_to_canons
  dsimp only
  split
  · rename_i e hf
    have hm := List.mem_of_find?_eq_some hf
    have hall : ∀ e ∈ pdkim_combined_canons, e.2.2 ≠ -1 := by decide
    exact hall e hm
  · exact h

/-- The tag switch never sets the body canonicalization to -1. -/
theorem sig_set_tag_canon_body (env : Env) (sig : pdkim_signature) (tag val : List Nat)
    (h : sig.canon_body ≠ -1) : (sig_set_tag env sig tag val).canon_body ≠ -1 := by
  unfold sig_set_tag
  cases tag with
  | nil => exact h
  | cons t0 trest =>
    dsimp only
    by_cases c98 : t0 = 98
    · rw [if_pos c98]
      cases trest with
      | nil => exact h
      | cons t1 tr2 =>
        dsimp only
        split
        · split
          · exact h
          · exact h
        · exact h
    · rw [if_neg c98]
      by_cases c118 : t0 = 118
      · rw [if_pos c118]
        exact h
      · rw [if_neg c118]
        by_cases c97 : t0 = 97
        · rw [if_pos c97]
          obtain ⟨k, hh, e⟩ := sig_set_algorithm_frame env sig val
          rw [e]
          exact h
        · rw [if_neg c97]
          by_cases c99 : t0 = 99
          · rw [if_pos c99]
            exact canons_body_ne val 0 sig.canon_headers sig.canon_body h
          · rw [if_neg c99]
            split
            · split
              · exact h
              · exact h
            · repeat (first | exact h | split)

theorem foldl_tag_apply_canon_body (env : Env) :
    ∀ (tags : List (List Nat × List Nat)) (sig : pdkim_signature),
      sig.canon_body ≠ -1 → (tags.foldl (tag_apply env) sig).canon_body ≠ -1
  | [], _, h => h
  | tv :: tags, sig, h => by
      rw [List.foldl_cons]
      apply foldl_tag_apply_canon_body env tags
      unfold tag_apply
      split
      · exact sig_set_tag_canon_body env sig tv.1 tv.2 h
      · exact h

/-- A Body Hash is had, found or made, when the hash type and the
canonicalization are set and the hash can be initialised. -/
theorem set_bodyhash_some (env : Env) (ctx : pdkim_ctx) (hashtype canon_method bodylength : Int)
    (h1 : hashtype ≠ -1) (h2 : canon_method ≠ -1) (h3 : env.exim_sha_init hashtype = true) :
    (pdkim_set_bodyhash env ctx hashtype canon_method bodylength).2 ≠ none := by
  unfold pdkim_set_bodyhash
  rw [if_neg (by simp [h1, h2])]
  split
  · simp
  · rw [if_pos h3]
    simp

/-- C17. The scanning loop of `pdkim_parse_sig_header` comes to its end for
every header, with a signature that is what the tags of the header make of
the initial one, and:
(1) `pdkim_parse_sig_header` returns no signature (NULL) if and only if that
signature has no known key type, or no known hash type, or
`pdkim_set_bodyhash` gives no Body Hash for it.
(2) Both types are -1 at the start and only a tag `a` changes them: a header
without a tag `a` gives no signature.
(3) For a header with one tag `a`, whose value is a dash-separated list of
plain names `k`, `h`, ... (and an environment whose `string_nextinlist`
splits such lists at the dashes): the key type is the index of the first name
`k` in `pdkim_keytypes`, or -1 when `k` is not in that table; the hash type is
the index of the second name `h` in `pdkim_hashes`, or -1 when there is no
second name or it is not in that table.  So no signature is returned if and
only if the key name is unknown, or the hash name is missing or unknown, or no
Body Hash can be set up.  No other tag is asked for: whatever other tags the
header has or lacks, a signature is returned when both names are known and
the hash of that type can be initialised.
(4) Instances, in a new verify context: the header with `a=rsa-sha256` and
no other tag, and the one with `v=1; a=rsa-sha256; d=example.com`, give a
signature; `a=dsa-sha256` (unknown key name), `a=rsa-md5` (unknown hash
name), `a=rsa` (no hash name) and a header without `a=` give none. -/
theorem C17_parse_sig_null (env : Env) (ctx : pdkim_ctx) (raw : List Nat) :
    ∃ st, parse_sig_scan env raw = some st ∧
      st.sig = (lex_tags raw).foldl (tag_apply env) sig_init ∧
      ((pdkim_parse_sig_header env ctx raw).2 = none ↔
        (st.sig.keytype < 0 ∨ st.sig.hashtype < 0 ∨
          (pdkim_set_bodyhash env ctx st.sig.hashtype st.sig.canon_body
            st.sig.bodylength).2 = none)) ∧
      ((∀ tv ∈ lex_tags raw, tv.1 ≠ US "a") → (pdkim_parse_sig_header env ctx raw).2 = none) ∧
      (SplitsDash env → ∀ (pre post : List (List Nat × List Nat)) (k : List Nat)
          (hs : List (List Nat)),
        lex_tags raw = pre ++ (US "a", join_dash (k :: hs)) :: post →
        (∀ tv ∈ pre ++ post, tv.1 ≠ US "a") → (∀ x ∈ k :: hs, dash_plain x) →
        st.sig.keytype = pdkim_keyname_to_keytype env k ∧
          st.sig.hashtype =
            (match hs.head?.bind (table_index pdkim_hashes) with
             | some i => (i : Int)
             | none => -1) ∧
          ((pdkim_parse_sig_header env ctx raw).2 = none ↔
            (table_index (pdkim_keytypes env) k = none ∨
              hs.head?.bind (table_index pdkim_hashes) = none ∨
              (pdkim_set_bodyhash env ctx st.sig.hashtype st.sig.canon_body
                st.sig.bodylength).2 = none)) ∧
          (∀ i : Nat, table_index (pdkim_keytypes env) k ≠ none →
            hs.head?.bind (table_index pdkim_hashes) = some i →
            env.exim_sha_init i = true →
            (pdkim_parse_sig_header env ctx raw).2.isSome = true)) ∧
      ((pdkim_parse_sig_header example_env (pdkim_init_verify false 0)
          example_a_only_header).2.isSome = true ∧
        (pdkim_parse_sig_header example_env (pdkim_init_verify false 0)
          example_a_among_header).2.isSome = true ∧
        (pdkim_parse_sig_header example_env (pdkim_init_verify false 0)
          (US "DKIM-Signature: v=1; a=dsa-sha256; d=example.com")).2 = none ∧
        (pdkim_parse_sig_header example_env (pdkim_init_verify false 0)
          (US "DKIM-Signature: v=1; a=rsa-md5; d=example.com")).2 = none ∧
        (pdkim_parse_sig_header example_env (pdkim_init_verify false 0)
          (US "DKIM-Signature: v=1; a=rsa; d=example.com")).2 = none ∧
        (pdkim_parse_sig_header example_env (pdkim_init_verify false 0)
          (US "DKIM-Signature: v=1; d=example.com")).2 = none) := by
  obtain ⟨st, e, _, hsig⟩ := parse_sig_scan_spec env raw
  have hiff : (pdkim_parse_sig_header env ctx raw).2 = none ↔
      (st.sig.keytype < 0 ∨ st.sig.hashtype < 0 ∨
        (pdkim_set_bodyhash env ctx st.sig.hashtype st.sig.canon_body
          st.sig.bodylength).2 = none) := by
    rw [parse_sig_header_eq, e]
    dsimp only
    by_cases hk : st.sig.keytype < 0 ∨ st.sig.hashtype < 0
    · rw [if_pos hk]
      constructor
      · intro _
        rcases hk with h | h
        · exact Or.inl h
        · exact Or.inr (Or.inl h)
      · intro _
        rfl
    · rw [if_neg hk]
      dsimp only
      constructor
      · intro h
        right
        right
        cases hb : (pdkim_set_bodyhash env ctx st.sig.hashtype st.sig.canon_body
            st.sig.bodylength).2 with
        | none => rfl
        | some b =>
          rw [hb] at h
          simp at h
      · intro h
        rcases h with h | h | h
        · exact absurd (Or.inl h) hk
        · exact absurd (Or.inr h) hk
        · rw [h]
          rfl
  refine ⟨st, e, hsig, hiff, ?_, ?_,
    ⟨by decide, by decide, by decide, by decide, by decide, by decide⟩⟩
  · intro hna
    obtain ⟨k1, _⟩ := foldl_tag_apply_algo env (lex_tags raw) sig_init hna
    rw [hiff]
    left
    rw [hsig, k1]
    decide
  · intro hsd pre post k hs hlex hno hp
    have hv : join_dash (k :: hs) ≠ [] := by
      rw [join_dash_cons]
      split
      · exact (hp k (List.mem_cons_self _ _)).1
      · simp
    obtain ⟨p1, p2⟩ := foldl_tag_apply_algo env pre sig_init
      (fun tv h => hno tv (List.mem_append_left _ h))
    obtain ⟨q1, q2⟩ := foldl_tag_apply_algo env post
      (tag_apply env (pre.foldl (tag_apply env) sig_init) (US "a", join_dash (k :: hs)))
      (fun tv h => hno tv (List.mem_append_right _ h))
    obtain ⟨a1, a2⟩ := sig_set_algorithm_names env hsd (pre.foldl (tag_apply env) sig_init)
      k hs hp
    have hkey : st.sig.keytype = pdkim_keyname_to_keytype env k := by
      rw [hsig, hlex, List.foldl_append, List.foldl_cons, q1, tag_apply_a env _ _ hv, a1]
    have hhash : st.sig.hashtype =
        (match hs.head?.bind (table_index pdkim_hashes) with
         | some i => (i : Int)
         | none => -1) := by
      rw [hsig, hlex, List.foldl_append, List.foldl_cons, q2, tag_apply_a env _ _ hv, a2, p2]
      rfl
    have hk0 : st.sig.keytype < 0 ↔ table_index (pdkim_keytypes env) k = none := by
      rw [hkey]
      unfold pdkim_keyname_to_keytype
      cases table_index (pdkim_keytypes env) k with
      | none => simp
      | some j =>
        simp only [reduceCtorEq, iff_false, not_lt]
        exact Int.ofNat_nonneg j
    have hh0 : st.sig.hashtype < 0 ↔ hs.head?.bind (table_index pdkim_hashes) = none := by
      rw [hhash]
      cases hs.head?.bind (table_index pdkim_hashes) with
      | none => simp
      | some j =>
        simp only [reduceCtorEq, iff_false, not_lt]
        exact Int.ofNat_nonneg j
    refine ⟨hkey, hhash, ?_, ?_⟩
    · rw [hiff, hk0, hh0]
    · intro i hki hhi hsha
      have hne : (pdkim_parse_sig_header env ctx raw).2 ≠ none := by
        rw [Ne, hiff, hk0, hh0]
        intro h
        rcases h with h | h | h
        · exact hki h
        · rw [hhi] at h
          exact absurd h (by simp)
        · have hty : st.sig.hashtype = (i : Int) := by
            rw [hhash, hhi]
          have hcb : st.sig.canon_body ≠ -1 := by
            rw [hsig]
            exact foldl_tag_apply_canon_body env _ _ (by decide)
          refine set_bodyhash_some env ctx _ _ _ ?_ hcb ?_ h
          · rw [hty]
            omega
          · rw [hty]
            exact hsha
      cases hr : (pdkim_parse_sig_header env ctx raw).2 with
      | none => exact absurd hr hne
      | some s => rfl

/-- C17 at a concrete input: the header `example_a_among_header`, whose tag
`a=rsa-sha256` stands between the tags `v` and `d`, in a new verify context:
`rsa` and `sha256` are in the tables, and a signature is returned. -/
theorem C17_parse_sig_null_witness :
    SplitsDash example_env ∧
      lex_tags example_a_among_header =
        [(US "v", US "1")] ++ (US "a", join_dash [US "rsa", US "sha256"]) ::
          [(US "d", US "example.com")] ∧
      (∀ x ∈ [US "rsa", US "sha256"], dash_plain x) ∧
      table_index (pdkim_keytypes example_env) (US "rsa") = some 0 ∧
      table_index pdkim_hashes (US "sha256") = some 1 ∧
      ∃ st, parse_sig_scan example_env example_a_among_header = some st ∧
        st.sig.keytype = 0 ∧ st.sig.hashtype = 1 ∧
        (pdkim_parse_sig_header example_env (pdkim_init_verify false 0)
          example_a_among_header).2.isSome = true := by
  have hlex : lex_tags example_a_among_header =
      [(US "v", US "1")] ++ (US "a", join_dash [US "rsa", US "sha256"]) ::
        [(US "d", US "example.com")] := by decide
  have hp : ∀ x ∈ [US "rsa", US "sha256"], dash_plain x := by
    unfold dash_plain
    decide
  obtain ⟨st, e, _, _, _, h, _⟩ :=
    C17_parse_sig_null example_env (pdkim_init_verify false 0) example_a_among_header
  obtain ⟨h1, h2, _, h4⟩ := h example_env_splits_dash [(US "v", US "1")]
    [(US "d", US "example.com")] (US "rsa") [US "sha256"] hlex (by decide) hp
  refine ⟨example_env_splits_dash, hlex, hp, by decide, by decide, st, e, ?_, ?_, ?_⟩
  · rw [h1]
    decide
  · rw [h2]
    decide
  · exact h4 1 (by decide) (by decide) (by decide)

/-! ## Bare line feeds and CR LF: the two runs of the feeder -/

/-- In header mode, while the header is shorter than `PDKIM_MAX_HEADER_LEN`, a
bare line feed has the effect of CR LF: same code, same stored headers,
signatures and Body Hashes, and the same context when the code is
`PDKIM_OK`.  Nothing is asked of `gstring_trim_trailing`. -/
theorem feed_header_bare_lf_short (env : Env) (ctx : pdkim_ctx)
    (hm : ctx.past_hdrs = false) (hs : ctx.seen_cr = false)
    (hl : (ctx.cur_header.getD []).length < PDKIM_MAX_HEADER_LEN) :
    (feed_header_byte env ctx LF).2 = (pdkim_feed_loop env ctx [CR, LF]).2 ∧
      SameStored (feed_header_byte env ctx LF).1 (pdkim_feed_loop env ctx [CR, LF]).1 ∧
      ((pdkim_feed_loop env ctx [CR, LF]).2 = PDKIM_OK →
        (feed_header_byte env ctx LF).1 = (pdkim_feed_loop env ctx [CR, LF]).1) := by
  -- the run with CR LF, after the CR
  have hcr : pdkim_feed_byte env ctx CR =
      (header_append { ctx with seen_cr := true } CR, PDKIM_OK) := by
    rw [feed_byte_header env ctx CR hm]
    unfold feed_header_byte
    rw [if_pos rfl]
  have hak := header_append_keeps { ctx with seen_cr := true } CR
  have ham : (header_append { ctx with seen_cr := true } CR).past_hdrs = false := by
    rw [hak]
    exact hm
  have hloop : pdkim_feed_loop env ctx [CR, LF] =
      feed_header_byte env (header_append { ctx with seen_cr := true } CR) LF := by
    simp only [pdkim_feed_loop, hcr, if_true]
    rw [feed_byte_header env _ LF ham]
    split
    · rename_i h
      exact Prod.ext rfl h.symm
    · rfl
  -- the real CR is stored as the emulated one is
  have hbuf : (header_append { ctx with seen_cr := true } CR).cur_header =
      string_catn ctx.cur_header [CR] := by
    unfold header_append
    cases hcur : ctx.cur_header with
    | none => rfl
    | some g =>
      rw [hcur] at hl
      simp only
      rw [if_pos (by simpa using hl)]
  rw [hloop]
  -- both runs at the line feed
  have e1 : header_emulate_cr ctx =
      { header_append { ctx with seen_cr := true } CR with seen_cr := false } := by
    unfold header_emulate_cr
    rw [if_pos hs, hak, hbuf, ← hs]
  have e2 : header_emulate_cr (header_append { ctx with seen_cr := true } CR) =
      header_append { ctx with seen_cr := true } CR := by
    unfold header_emulate_cr
    rw [if_neg]
    rw [hak]
    simp
  have hc : pdkim_header_complete env
      { header_append { ctx with seen_cr := true } CR with seen_cr := false } =
      ({ (pdkim_header_complete env (header_append { ctx with seen_cr := true } CR)).1 with
          seen_cr := false },
        (pdkim_header_complete env (header_append { ctx with seen_cr := true } CR)).2) :=
    header_complete_congr env (header_append { ctx with seen_cr := true } CR)
      (header_append { ctx with seen_cr := true } CR).cur_header false rfl
  rw [feed_header_byte_LF, feed_header_byte_LF, e1, e2]
  dsimp only
  by_cases h3 : (header_append { ctx with seen_cr := true } CR).seen_lf = true
  · rw [if_pos h3, if_pos h3]
    unfold header_end
    rw [hc]
    dsimp only
    by_cases h4 : (pdkim_header_complete env
        (header_append { ctx with seen_cr := true } CR)).2 ≠ PDKIM_OK
    · rw [if_pos h4, if_pos h4]
      exact ⟨rfl, ⟨rfl, rfl, rfl⟩, fun hok => absurd hok h4⟩
    · rw [if_neg h4, if_neg h4]
      exact ⟨rfl, ⟨rfl, rfl, rfl⟩, fun _ => rfl⟩
  · rw [if_neg h3, if_neg h3]
    exact ⟨rfl, ⟨rfl, rfl, rfl⟩, fun _ => rfl⟩

/-- A bare line feed has the effect of CR LF, in body mode and, while the
header is shorter than `PDKIM_MAX_HEADER_LEN`, in header mode. -/
theorem feed_byte_bare_lf_short (env : Env) (ctx : pdkim_ctx) (hs : ctx.seen_cr = false)
    (hl : ctx.past_hdrs = false →
      (ctx.cur_header.getD []).length < PDKIM_MAX_HEADER_LEN) :
    (pdkim_feed_byte env ctx LF).2 = (pdkim_feed_loop env ctx [CR, LF]).2 ∧
      SameStored (pdkim_feed_byte env ctx LF).1 (pdkim_feed_loop env ctx [CR, LF]).1 ∧
      ((pdkim_feed_loop env ctx [CR, LF]).2 = PDKIM_OK →
        (pdkim_feed_byte env ctx LF).1 = (pdkim_feed_loop env ctx [CR, LF]).1) := by
  by_cases hm : ctx.past_hdrs = true
  · rw [feed_byte_body env ctx LF hm]
    exact feed_body_bare_lf env ctx hm hs
  · have hm2 : ctx.past_hdrs = false := by simpa using hm
    rw [feed_byte_header env ctx LF hm2]
    exact feed_header_bare_lf_short env ctx hm2 hs (hl hm2)

/-- The two runs of the feeder, one on a byte stream and one on the stream
with its bare line feeds replaced by CR LF, started from the same context,
when no header has reached `PDKIM_MAX_HEADER_LEN` bytes at a line feed that
the feeder comes to and that gets a CR emulated. -/
theorem feed_loop_crlf_fix_short (env : Env) :
    ∀ (M : List Nat) (seen prev : Bool) (c : pdkim_ctx),
      c.seen_cr = seen → (prev = true → seen = true) →
      bare_lf_lines_ok seen prev M = true →
      (∀ i < M.length, M.get? i = some LF →
        (pdkim_feed_loop env c (M.take i)).2 = PDKIM_OK →
        (pdkim_feed_loop env c (M.take i)).1.past_hdrs = false →
        (pdkim_feed_loop env c (M.take i)).1.seen_cr = false →
        ((pdkim_feed_loop env c (M.take i)).1.cur_header.getD []).length <
          PDKIM_MAX_HEADER_LEN) →
      (pdkim_feed_loop env c M).2 = (pdkim_feed_loop env c (crlf_fix prev M)).2 ∧
        SameStored (pdkim_feed_loop env c M).1 (pdkim_feed_loop env c (crlf_fix prev M)).1
  | [], _, _, c, _, _, _, _ => ⟨rfl, rfl, rfl, rfl⟩
  | x :: rest, seen, prev, c, hseen, hprev, hM, hlen => by
      -- the hypothesis on the header length, for the rest of the stream
      have hlen2 : (pdkim_feed_byte env c x).2 = PDKIM_OK →
          ∀ i < rest.length, rest.get? i = some LF →
            (pdkim_feed_loop env (pdkim_feed_byte env c x).1 (rest.take i)).2 = PDKIM_OK →
            (pdkim_feed_loop env (pdkim_feed_byte env c x).1 (rest.take i)).1.past_hdrs =
              false →
            (pdkim_feed_loop env (pdkim_feed_byte env c x).1 (rest.take i)).1.seen_cr =
              false →
            ((pdkim_feed_loop env (pdkim_feed_byte env c x).1
              (rest.take i)).1.cur_header.getD []).length < PDKIM_MAX_HEADER_LEN := by
        intro hok i hi hget
        have h := hlen (i + 1) (by simp only [List.length_cons]; omega)
          (by simpa using hget)
        rw [List.take_succ_cons, pdkim_feed_loop_cons, if_pos hok] at h
        exact h
      by_cases hbare : x = LF ∧ prev = false
      · -- a bare line feed
        obtain ⟨hx, hp⟩ := hbare
        subst hx
        have hfix : crlf_fix prev (LF :: rest) = [CR, LF] ++ crlf_fix false rest := by
          simp [crlf_fix, hp]
        have hM2 : seen = false ∧ bare_lf_lines_ok false false rest = true := by
          simp only [bare_lf_lines_ok, if_true, hp, Bool.false_or, Bool.and_eq_true,
            Bool.not_eq_true'] at hM
          exact hM
        have hs : c.seen_cr = false := hseen.trans hM2.1
        have hl0 : c.past_hdrs = false →
            (c.cur_header.getD []).length < PDKIM_MAX_HEADER_LEN := by
          intro hm
          exact hlen 0 (by simp) (by simp) rfl hm hs
        obtain ⟨b1, b2, b3⟩ := feed_byte_bare_lf_short env c hs hl0
        rw [hfix, pdkim_feed_loop_append, pdkim_feed_loop_cons env c LF rest]
        by_cases hok : (pdkim_feed_loop env c [CR, LF]).2 = PDKIM_OK
        · have hok1 : (pdkim_feed_byte env c LF).2 = PDKIM_OK := b1.trans hok
          rw [if_pos hok, if_pos hok1, ← b3 hok]
          have hsc := feed_byte_seen_cr env c LF hok1
          rw [if_neg (by decide), if_pos rfl] at hsc
          exact feed_loop_crlf_fix_short env rest false false _ hsc
            (fun h => absurd h (by decide)) hM2.2 (hlen2 hok1)
        · have hok1 : ¬(pdkim_feed_byte env c LF).2 = PDKIM_OK := fun h => hok (b1.symm.trans h)
          rw [if_neg hok, if_neg hok1]
          exact ⟨b1, b2⟩
      · -- any other byte
        have hfix : crlf_fix prev (x :: rest) = x :: crlf_fix (decide (x = CR)) rest := by
          simp only [crlf_fix]
          rw [if_neg hbare]
        have hM2 : bare_lf_lines_ok (if x = CR then true else if x = LF then false else seen)
            (decide (x = CR)) rest = true := by
          simp only [bare_lf_lines_ok] at hM
          by_cases hl : x = LF
          · have hne : x ≠ CR := by
              rw [hl]
              decide
            rw [if_pos hl, Bool.and_eq_true] at hM
            rw [if_neg hne, if_pos hl]
            simp only [hne, decide_False]
            exact hM.2
          · rw [if_neg hl] at hM
            by_cases hc : x = CR
            · rw [if_pos hc] at hM
              rw [if_pos hc]
              simp only [hc, decide_True]
              exact hM
            · rw [if_neg hc] at hM
              rw [if_neg hc, if_neg hl]
              simp only [hc, decide_False]
              exact hM
        rw [hfix, pdkim_feed_loop_cons, pdkim_feed_loop_cons]
        by_cases hok : (pdkim_feed_byte env c x).2 = PDKIM_OK
        · rw [if_pos hok, if_pos hok]
          have hsc := feed_byte_seen_cr env c x hok
          rw [hseen] at hsc
          refine feed_loop_crlf_fix_short env rest _ _ _ hsc ?_ hM2 (hlen2 hok)
          intro hd
          have hc : x = CR := by simpa using hd
          rw [if_pos hc]
        · rw [if_neg hok, if_neg hok]
          exact ⟨rfl, rfl, rfl, rfl⟩

/-! ## A header of maximal length and bare line feeds -/

/-- The text of a header of letters `A` is not a `DKIM-Signature:` header. -/
theorem not_sig_header_of_A (t : List Nat) :
    strncasecmp_eq (65 :: t) DKIM_SIGNATURE_HEADERNAME DKIM_SIGNATURE_HEADERNAME.length =
      false := by
  simp [strncasecmp_eq, DKIM_SIGNATURE_HEADERNAME, tolower]

/-- In header mode of a verify context, the byte `B` after a line end
completes the header before it: its text is stored. -/
theorem feed_byte_completes (env : Env) (h : List Nat) (t : List Nat)
    (ht : header_text env
      { pdkim_init_verify false 0 with cur_header := some h, seen_lf := true } = 65 :: t) :
    (pdkim_feed_byte env
        { pdkim_init_verify false 0 with cur_header := some h, seen_lf := true } 66).2 =
      PDKIM_OK ∧
    (pdkim_feed_byte env
        { pdkim_init_verify false 0 with cur_header := some h, seen_lf := true } 66).1.headers =
      [65 :: t] := by
  have hn := not_sig_header_of_A t
  have e : pdkim_header_complete env
      { pdkim_init_verify false 0 with cur_header := some h, seen_lf := true } =
      ({ pdkim_init_verify false 0 with
          cur_header := some [], seen_lf := true, num_headers := 1, headers := [65 :: t] },
        PDKIM_OK) := by
    unfold pdkim_header_complete
    rw [ht, hn]
    simp [pdkim_init_verify, PDKIM_MAX_HEADERS]
  simp only [pdkim_init_verify] at e ⊢
  simp [pdkim_feed_byte, feed_header_byte, header_after_lf, e, header_append, string_catn,
    LF, CR, SP, TAB, PDKIM_MAX_HEADER_LEN]

/-- The two runs of the counterexample of the long header, from the context
that holds a header `g` of at least `PDKIM_MAX_HEADER_LEN` bytes: up to the
byte that completes the header. -/
theorem long_header_steps (env : Env) (g : List Nat) (hlen : PDKIM_MAX_HEADER_LEN ≤ g.length) :
    pdkim_feed_loop env { pdkim_init_verify false 0 with cur_header := some g }
        [LF, SP, LF] =
      ({ pdkim_init_verify false 0 with cur_header := some (g ++ [CR] ++ [CR]),
                                        seen_lf := true }, PDKIM_OK) ∧
    pdkim_feed_loop env { pdkim_init_verify false 0 with cur_header := some g }
        [CR, LF, SP, CR, LF] =
      ({ pdkim_init_verify false 0 with cur_header := some g, seen_lf := true }, PDKIM_OK) := by
  have h1 : ¬ g.length < PDKIM_MAX_HEADER_LEN := by omega
  have h2 : ¬ g.length + 1 < PDKIM_MAX_HEADER_LEN := by omega
  have h3 : ¬ g.length + 1 + 1 < PDKIM_MAX_HEADER_LEN := by omega
  constructor
  · simp [pdkim_feed_loop, pdkim_feed_byte, feed_header_byte, header_emulate_cr, header_append,
      header_after_lf, string_catn, pdkim_init_verify, h1, h2, h3, LF, CR, SP, TAB]
  · simp [pdkim_feed_loop, pdkim_feed_byte, feed_header_byte, header_emulate_cr, header_append,
      header_after_lf, string_catn, pdkim_init_verify, h1, h2, h3, LF, CR, SP, TAB]

/-- Letters `A` fed to a new verify context are collected in the header
buffer, as long as it has not reached `PDKIM_MAX_HEADER_LEN`. -/
theorem feed_loop_letters (env : Env) :
    ∀ (n m : Nat), m + n ≤ PDKIM_MAX_HEADER_LEN →
      pdkim_feed_loop env
          { pdkim_init_verify false 0 with cur_header := some (List.replicate m 65) }
          (List.replicate n 65) =
        ({ pdkim_init_verify false 0 with cur_header := some (List.replicate (m + n) 65) },
          PDKIM_OK)
  | 0, m, _ => rfl
  | n + 1, m, h => by
      have hm : m < PDKIM_MAX_HEADER_LEN := by omega
      have hstep : pdkim_feed_byte env
          { pdkim_init_verify false 0 with cur_header := some (List.replicate m 65) } 65 =
          ({ pdkim_init_verify false 0 with cur_header := some (List.replicate (m + 1) 65) },
            PDKIM_OK) := by
        rw [List.replicate_succ']
        simp [pdkim_feed_byte, feed_header_byte, header_append, string_catn, pdkim_init_verify,
          hm, LF, CR]
      have ih := feed_loop_letters env n (m + 1) (by omega)
      rw [List.replicate_succ, pdkim_feed_loop_cons, hstep, if_pos rfl, ih]
      have e : m + 1 + n = m + (n + 1) := by omega
      rw [e]

theorem crlf_fix_letters (t : List Nat) :
    ∀ n : Nat, crlf_fix false (List.replicate n 65 ++ t) = List.replicate n 65 ++ crlf_fix false t
  | 0 => by simp
  | n + 1 => by
      have hd : decide (65 = CR) = false := by decide
      rw [List.replicate_succ, List.cons_append, crlf_fix, if_neg (by decide), hd,
        crlf_fix_letters t n]
      rfl

theorem bare_lf_lines_ok_letters (t : List Nat) :
    ∀ n : Nat, bare_lf_lines_ok false false (List.replicate n 65 ++ t) =
      bare_lf_lines_ok false false t
  | 0 => by simp
  | n + 1 => by
      rw [List.replicate_succ, List.cons_append, bare_lf_lines_ok, if_neg (by decide),
        if_neg (by decide), bare_lf_lines_ok_letters t n]

theorem long_header_length : example_long_header.length = PDKIM_MAX_HEADER_LEN :=
  List.length_replicate _ _

theorem long_header_cons :
    example_long_header = 65 :: List.replicate (PDKIM_MAX_HEADER_LEN - 1) 65 :=
  List.replicate_succ 65 (PDKIM_MAX_HEADER_LEN - 1)

/-- The header texts of the two runs of the long header, for a helper that
trims one byte. -/
theorem long_header_texts (t : List Nat) (hA : ∀ x ∈ t, x = 65) (hl : 1 ≤ t.length) :
    header_text example_trim_one_env
        { pdkim_init_verify false 0 with cur_header := some (65 :: t ++ [CR] ++ [CR]),
                                         seen_lf := true } = 65 :: (t ++ [CR]) ∧
      header_text example_trim_one_env
        { pdkim_init_verify false 0 with cur_header := some (65 :: t), seen_lf := true } =
          65 :: t := by
  have h0 : (0 : Nat) ∉ 65 :: t := by
    intro h
    rcases List.mem_cons.1 h with h | h
    · exact absurd h (by decide)
    · exact absurd (hA 0 h) (by decide)
  have hlast : (65 :: t).getLast? ≠ some CR := by
    intro h
    rcases List.mem_cons.1 (List.mem_of_getLast?_eq_some h) with h | h
    · exact absurd h (by decide)
    · exact absurd (hA CR h) (by decide)
  constructor
  · unfold header_text
    have e : example_trim_one_env.gstring_trim_trailing (65 :: t ++ [CR] ++ [CR]) CR =
        65 :: t ++ [CR] := by
      show (if (65 :: t ++ [CR] ++ [CR]).getLast? = some CR
        then (65 :: t ++ [CR] ++ [CR]).dropLast else _) = _
      rw [if_pos (List.getLast?_concat _), List.dropLast_concat]
    dsimp only [Option.getD_some]
    rw [if_pos (by simp), e]
    apply cstr_of_no_nul
    intro h
    rcases List.mem_append.1 h with h | h
    · exact h0 h
    · simp [CR] at h
  · unfold header_text
    have e : example_trim_one_env.gstring_trim_trailing (65 :: t) CR = 65 :: t := by
      show (if (65 :: t).getLast? = some CR then (65 :: t).dropLast else _) = _
      rw [if_neg hlast]
    dsimp only [Option.getD_some]
    rw [if_pos (by simp only [List.length_cons]; omega), e]
    exact cstr_of_no_nul _ h0

/-- A new verify context that is fed the long header holds it in its header
buffer. -/
theorem long_header_fed (env : Env) :
    pdkim_feed_loop env (pdkim_init_verify false 0) example_long_header =
      ({ pdkim_init_verify false 0 with cur_header := some example_long_header },
        PDKIM_OK) := by
  have hfeed := feed_loop_letters env PDKIM_MAX_HEADER_LEN 0 (by omega)
  rw [Nat.zero_add] at hfeed
  exact hfeed

theorem long_header_text_bare :
    header_text example_trim_one_env
      { pdkim_init_verify false 0 with
        cur_header := some (example_long_header ++ [CR] ++ [CR]), seen_lf := true } =
      65 :: (List.replicate (PDKIM_MAX_HEADER_LEN - 1) 65 ++ [CR]) := by
  have hA : ∀ x ∈ List.replicate (PDKIM_MAX_HEADER_LEN - 1) 65, x = 65 :=
    fun x hx => List.eq_of_mem_replicate hx
  have hl : 1 ≤ (List.replicate (PDKIM_MAX_HEADER_LEN - 1) 65).length := by
    rw [List.length_replicate]
    unfold PDKIM_MAX_HEADER_LEN
    omega
  rw [long_header_cons]
  exact (long_header_texts _ hA hl).1

theorem long_header_text_crlf :
    header_text example_trim_one_env
      { pdkim_init_verify false 0 with
        cur_header := some example_long_header, seen_lf := true } =
      65 :: List.replicate (PDKIM_MAX_HEADER_LEN - 1) 65 := by
  have hA : ∀ x ∈ List.replicate (PDKIM_MAX_HEADER_LEN - 1) 65, x = 65 :=
    fun x hx => List.eq_of_mem_replicate hx
  have hl : 1 ≤ (List.replicate (PDKIM_MAX_HEADER_LEN - 1) 65).length := by
    rw [List.length_replicate]
    unfold PDKIM_MAX_HEADER_LEN
    omega
  rw [long_header_cons]
  exact (long_header_texts _ hA hl).2

/-- The two runs of the long header: a header of `PDKIM_MAX_HEADER_LEN`
letters `A`, a bare line feed, a continuation line that is one space and a
bare line feed, and the letter `B`, fed to a new verify context, with a
helper that trims one byte.  With the bare line feeds the header is stored
with a CR at its end, with CR LF in their place it is stored without. -/
theorem long_header_differs :
    (pdkim_feed_loop example_trim_one_env (pdkim_init_verify false 0)
        (example_long_header ++ [LF, SP, LF, 66])).1.headers = [example_long_header ++ [CR]] ∧
      (pdkim_feed_loop example_trim_one_env (pdkim_init_verify false 0)
        (example_long_header ++ [CR, LF, SP, CR, LF, 66])).1.headers =
          [example_long_header] := by
  have hfeed2 := long_header_fed example_trim_one_env
  obtain ⟨s1, s2⟩ := long_header_steps example_trim_one_env example_long_header
    (le_of_eq long_header_length.symm)
  obtain ⟨c1, c2⟩ := feed_byte_completes example_trim_one_env
    (example_long_header ++ [CR] ++ [CR]) _ long_header_text_bare
  obtain ⟨d1, d2⟩ := feed_byte_completes example_trim_one_env example_long_header _
    long_header_text_crlf
  have e4 : [LF, SP, LF, 66] = [LF, SP, LF] ++ [66] := rfl
  have e6 : [CR, LF, SP, CR, LF, 66] = [CR, LF, SP, CR, LF] ++ [66] := rfl
  have n1 : ∀ c : pdkim_ctx, (pdkim_feed_loop example_trim_one_env c []).1 = c :=
    fun _ => rfl
  constructor
  · rw [pdkim_feed_loop_append, hfeed2, if_pos rfl, e4, pdkim_feed_loop_append, s1, if_pos rfl,
      pdkim_feed_loop_cons, if_pos c1, n1, c2, long_header_cons, List.cons_append]
  · rw [pdkim_feed_loop_append, hfeed2, if_pos rfl, e6, pdkim_feed_loop_append, s2, if_pos rfl,
      pdkim_feed_loop_cons, if_pos d1, n1, d2, ← long_header_cons]

/-- C12, as amended.  Let `M` be a byte stream in which every LF that is not
immediately preceded by CR has no CR anywhere before it on its line, let `M`
be fed to a context whose flag `PDKIM_SEEN_CR` is clear (as in a fresh
context), and let the header collected so far be shorter than
`PDKIM_MAX_HEADER_LEN` bytes whenever such an LF arrives in the header
section (that is, at every LF of `M` that `pdkim_feed`, having returned no
error for the bytes before it, meets in header mode with `PDKIM_SEEN_CR`
clear, where it appends the emulated CR).  Then `pdkim_feed` on `M` and
`pdkim_feed` on `M` with every such LF replaced by CR LF return the same code
and leave the same stored header lines (in the context and in every
signature) and the same Body Hashes, hence the same hashed body bytes in
every Body Hash.  Nothing is asked of the Exim helper
`gstring_trim_trailing`, which is not part of `pdkim.c`. -/
theorem C12_bare_lf_as_crlf (env : Env) (ctx : pdkim_ctx) (M : List Nat)
    (hcr : ctx.seen_cr = false) (hM : bare_lf_lines_ok false false M = true)
    (hlen : ∀ i < M.length, M.get? i = some LF →
      (pdkim_feed env ctx (some (M.take i))).2 = PDKIM_OK →
      (pdkim_feed env ctx (some (M.take i))).1.past_hdrs = false →
      (pdkim_feed env ctx (some (M.take i))).1.seen_cr = false →
      ((pdkim_feed env ctx (some (M.take i))).1.cur_header.getD []).length <
        PDKIM_MAX_HEADER_LEN) :
    (pdkim_feed env ctx (some M)).2 = (pdkim_feed env ctx (some (crlf_fix false M))).2 ∧
      (pdkim_feed env ctx (some M)).1.headers =
        (pdkim_feed env ctx (some (crlf_fix false M))).1.headers ∧
      (pdkim_feed env ctx (some M)).1.sig =
        (pdkim_feed env ctx (some (crlf_fix false M))).1.sig ∧
      (pdkim_feed env ctx (some M)).1.bodyhash =
        (pdkim_feed env ctx (some (crlf_fix false M))).1.bodyhash := by
  obtain ⟨h1, h2, h3, h4⟩ := feed_loop_crlf_fix_short env M false false ctx hcr
    (fun h => absurd h (by decide)) hM hlen
  exact ⟨h1, h2, h3, h4⟩

/-- C12 fails as stated, in two ways.
(1) In the body line `a` CR `b` LF the line feed is not immediately preceded
by CR, yet no CR is put before it, for a CR was seen earlier on the line.
The simple Body Hash has hashed the four bytes as they are; with the line
feed replaced by CR LF it has hashed five bytes.
(2) A header that has reached `PDKIM_MAX_HEADER_LEN` bytes takes no byte any
more, but the CR emulated before a bare line feed is appended all the same.
The stream is `PDKIM_MAX_HEADER_LEN` letters `A`, a bare line feed, a
continuation line that is one space and a bare line feed, and the letter `B`,
fed to a new verify context; every bare line feed in it has no CR before it.
With a helper `gstring_trim_trailing` that removes one trailing CR, the
header is stored with a CR at its end; with CR LF in place of the bare line
feeds it is stored without. -/
theorem C12_counterexample_stray_cr_long_header :
    (crlf_fix false [97, CR, 98, LF] = [97, CR, 98, CR, LF] ∧
      (pdkim_feed example_env example_body_ctx
        (some [97, CR, 98, LF])).1.bodyhash.map pdkim_bodyhash.hashed =
          [[97, CR, 98, LF], [97, CR, 98, LF]] ∧
      (pdkim_feed example_env example_body_ctx
        (some (crlf_fix false [97, CR, 98, LF]))).1.bodyhash.map pdkim_bodyhash.hashed =
          [[97, CR, 98, CR, LF], [97, CR, 98, CR, LF]]) ∧
    (example_long_header = List.replicate PDKIM_MAX_HEADER_LEN 65 ∧
      (∀ g : List Nat, example_trim_one_env.gstring_trim_trailing (g ++ [CR]) CR = g) ∧
      bare_lf_lines_ok false false (example_long_header ++ [LF, SP, LF, 66]) = true ∧
      crlf_fix false (example_long_header ++ [LF, SP, LF, 66]) =
        example_long_header ++ [CR, LF, SP, CR, LF, 66] ∧
      (pdkim_feed example_trim_one_env (pdkim_init_verify false 0)
        (some (example_long_header ++ [LF, SP, LF, 66]))).1.headers =
          [example_long_header ++ [CR]] ∧
      (pdkim_feed example_trim_one_env (pdkim_init_verify false 0)
        (some (crlf_fix false (example_long_header ++ [LF, SP, LF, 66])))).1.headers =
          [example_long_header]) := by
  have hfix : crlf_fix false (example_long_header ++ [LF, SP, LF, 66]) =
      example_long_header ++ [CR, LF, SP, CR, LF, 66] := by
    unfold example_long_header
    rw [crlf_fix_letters]
    rfl
  have hfeed : ∀ d : List Nat,
      pdkim_feed example_trim_one_env (pdkim_init_verify false 0) (some d) =
        pdkim_feed_loop example_trim_one_env (pdkim_init_verify false 0) d := fun _ => rfl
  refine ⟨by decide, rfl, ?_, ?_, hfix, ?_, ?_⟩
  · intro g
    show (if (g ++ [CR]).getLast? = some CR then (g ++ [CR]).dropLast else _) = _
    rw [if_pos (List.getLast?_concat _), List.dropLast_concat]
  · unfold example_long_header
    rw [bare_lf_lines_ok_letters]
    rfl
  · rw [hfeed]
    exact long_header_differs.1
  · rw [hfix, hfeed]
    exact long_header_differs.2

/-- The amended C12 at a concrete message with bare line feeds: the header
`A: b`, the separator line and the body line `xy`, with a helper
`gstring_trim_trailing` that removes one trailing CR. -/
theorem C12_bare_lf_as_crlf_witness :
    (example_sign_ctx.seen_cr = false ∧
      bare_lf_lines_ok false false [65, 58, 32, 98, LF, LF, 120, 121, LF] = true ∧
      crlf_fix false [65, 58, 32, 98, LF, LF, 120, 121, LF] =
        [65, 58, 32, 98, CR, LF, CR, LF, 120, 121, CR, LF]) ∧
      (pdkim_feed example_trim_one_env example_sign_ctx
          (some [65, 58, 32, 98, LF, LF, 120, 121, LF])).1.bodyhash =
        (pdkim_feed example_trim_one_env example_sign_ctx
          (some (crlf_fix false [65, 58, 32, 98, LF, LF, 120, 121, LF]))).1.bodyhash ∧
      (pdkim_feed example_trim_one_env example_sign_ctx
          (some [65, 58, 32, 98, LF, LF, 120, 121, LF])).1.bodyhash.map
            (fun b => (b.canon_method, b.hashed)) =
        [(PDKIM_CANON_SIMPLE, [120, 121, CR, LF]), (PDKIM_CANON_RELAXED, [120, 121, CR, LF])] :=
  ⟨⟨by decide, by decide, by decide⟩,
    (C12_bare_lf_as_crlf example_trim_one_env example_sign_ctx
      [65, 58, 32, 98, LF, LF, 120, 121, LF] (by decide) (by decide) (by decide)).2.2.2,
    by decide⟩

end Pdkim
